import Mathlib

/-!
# pylibtiff: bit/word accessor (`bittools.c`) and TIFF LZW codec (`tif_lzw.c`)

Shallow embedding of the C sources and proofs of their specified properties.

Conventions of the embedding.
* A byte buffer is a `List Nat` whose entries are bytes (`IsBytes`).
* C integers are mathematical integers; a conversion to `unsigned long`, a
  store into a `char` or a 32/64-bit truncation is written as an explicit
  remainder.
* A dereference is described by its byte offset from the array data pointer.
  A load outside the array yields whatever the surrounding memory holds
  (`junk`); a store outside the array does not change the array.
-/

/-- Every entry of the buffer is an 8-bit byte. -/
def IsBytes (l : List Nat) : Prop := ∀ b ∈ l, b < 256

instance (l : List Nat) : Decidable (IsBytes l) := by
  unfold IsBytes; infer_instance

/-- Bit `j` of a buffer in the accessor's bit order:
`(byte[j/8] >> (j%8)) & 1`. -/
def bitAt (buf : List Nat) (j : Nat) : Bool := (buf.getD (j / 8) 0).testBit (j % 8)

namespace Bittools

/-- Python exception set by a failing call. -/
inductive PyErr where
  | TypeError
  | IndexError
  | ValueError
  deriving DecidableEq, Repr

/-- Outcome of one call of an accessor: the returned value or the exception,
the array after the call, and the byte offsets (relative to `PyArray_DATA`)
the call dereferenced, in order. -/
structure Call (α : Type) where
  ret : Except PyErr α
  buf : List Nat
  touched : List Int

def CHAR_BITS : Int := 8

def CHAR_BITS_EXP : Nat := 3

/-- Conversion of a signed 64-bit quantity to `unsigned long`. -/
def toULong (x : Int) : Nat := (x % 2 ^ 64).toNat

/-- `BITS(bytes)`: `((unsigned long)(bytes)) << CHAR_BITS_EXP`. -/
def BITS (bytes : Int) : Nat := (toULong bytes <<< CHAR_BITS_EXP) % 2 ^ 64

/-- `NBYTES(bits)`: `(bits) >> CHAR_BITS_EXP` (arithmetic shift of a signed value). -/
def NBYTES (bits : Int) : Int := bits >>> CHAR_BITS_EXP

/-- `BITMASK(i,width)`: `((unsigned long) 1) << ((i)%(width))`.  For `i ≥ 0` the
shift count is the remainder `i % width`.  A negative `i` reaches the macro only
with `width = CHAR_BITS`; the C remainder is then negative and the shift is
undefined, and the compiled code takes the count `i & 7`, the Euclidean
remainder, which is the count taken here (mask 128 at `i = -1`). -/
def BITMASK (i width : Int) : Nat := (1 <<< (i % width).toNat) % 2 ^ 64

/-- `DATAPTR(data, i)`: the byte offset `(i)>>CHAR_BITS_EXP` from `data`. -/
def DATAPTR (i : Int) : Int := i >>> CHAR_BITS_EXP

/-- The byte a load finds at offset `off` from the data pointer. -/
def peek (buf : List Nat) (junk : Int → Nat) (off : Int) : Nat :=
  if 0 ≤ off ∧ off < buf.length then buf.getD off.toNat 0 else junk off % 256

/-- The array after a store of byte `b` at offset `off` from the data pointer. -/
def poke (buf : List Nat) (off : Int) (b : Nat) : List Nat :=
  if 0 ≤ off ∧ off < buf.length then buf.set off.toNat b else buf

/-- `DATA(data, i)`: the byte at `DATAPTR(data, i)`. -/
def DATA (buf : List Nat) (junk : Int → Nat) (i : Int) : Nat := peek buf junk (DATAPTR i)

/-- `DATA(data, i) |= m`, the result stored back into the `char`. -/
def DATA_or (buf : List Nat) (junk : Int → Nat) (i : Int) (m : Nat) : List Nat :=
  poke buf (DATAPTR i) ((DATA buf junk i ||| m) % 256)

/-- `DATA(data, i) &= ~m`, the result stored back into the `char`. -/
def DATA_andnot (buf : List Nat) (junk : Int → Nat) (i : Int) (m : Nat) : List Nat :=
  poke buf (DATAPTR i) ((DATA buf junk i &&& (2 ^ 64 - 1 - m)) % 256)

/-- `GETBIT(value, i, width)`: `(value & BITMASK(i,width)) ? 1 : 0`. -/
def GETBIT (value : Nat) (i width : Int) : Nat :=
  if value &&& BITMASK i width ≠ 0 then 1 else 0

/-- `ARRGETBIT(arr, i)`: `(DATA(data, i) & BITMASK(i,CHAR_BITS)) ? 1 : 0`. -/
def ARRGETBIT (buf : List Nat) (junk : Int → Nat) (i : Int) : Nat :=
  if DATA buf junk i &&& BITMASK i CHAR_BITS ≠ 0 then 1 else 0

/-- `getbit(array, index)`. -/
def getbit (buf : List Nat) (junk : Int → Nat) (index : Int) : Call Nat :=
  if toULong index ≥ BITS buf.length then
    ⟨.error .IndexError, buf, []⟩
  else
    ⟨.ok (ARRGETBIT buf junk index), buf, [DATAPTR index]⟩

/-- `setbit(array, index, bit, opt)`. -/
def setbit (buf : List Nat) (junk : Int → Nat) (index : Int) (bit opt : Nat) : Call Unit :=
  if opt = 0 ∧ NBYTES index ≥ buf.length then
    ⟨.error .IndexError, buf, []⟩
  else if bit ≠ 0 then
    ⟨.ok (), DATA_or buf junk index (BITMASK index CHAR_BITS), [DATAPTR index]⟩
  else
    ⟨.ok (), DATA_andnot buf junk index (BITMASK index CHAR_BITS), [DATAPTR index]⟩

/-- The 8-byte load `*((npy_uint64*)DATAPTR(data, index))` at byte offset `p`
(little-endian host). -/
def load64 (buf : List Nat) (junk : Int → Nat) (p : Int) : Nat :=
  peek buf junk p ||| (peek buf junk (p + 1) <<< 8) ||| (peek buf junk (p + 2) <<< 16)
    ||| (peek buf junk (p + 3) <<< 24) ||| (peek buf junk (p + 4) <<< 32)
    ||| (peek buf junk (p + 5) <<< 40) ||| (peek buf junk (p + 6) <<< 48)
    ||| (peek buf junk (p + 7) <<< 56)

/-- One round of the generic loop of `getword`: bit `i` of `word` becomes
`ARRGETBIT(arr, index + i)`. -/
def getword_step (buf : List Nat) (junk : Int → Nat) (index width : Int)
    (word : Nat) (i : Nat) : Nat :=
  if ARRGETBIT buf junk (index + i) ≠ 0 then
    word ||| BITMASK i width
  else
    word &&& (2 ^ 64 - 1 - BITMASK i width)

/-- `getword(array, index, width)`: the word and the post-index.  On the fast
path the word is `(npy_uint32)(*(npy_uint64*)p >> (index % CHAR_BITS)) &
(NPY_MAX_UINT32 >> (32 - width))`.  Two shift counts leave the range that C
defines, and the embedding takes what the compiled code does with them: for a
negative `index` the count `index % CHAR_BITS` is `index & 7` (the Euclidean
remainder), and for `width = 0` the count 32 of the 32-bit mask is taken modulo
32, so the mask keeps all 32 bits. -/
def getword (buf : List Nat) (junk : Int → Nat) (index width : Int) : Call (Nat × Int) :=
  if toULong (index + width - 1) ≥ BITS buf.length ∨ width < 0 then
    ⟨.error .IndexError, buf, []⟩
  else if width ≤ 32 then
    let p := DATAPTR index
    let x := (load64 buf junk p >>> (index % CHAR_BITS).toNat) % 2 ^ 32
    ⟨.ok (x &&& ((2 ^ 32 - 1) >>> ((32 - width).toNat % 32)), index + width), buf,
      (List.range 8).map (fun (k : Nat) => p + (k : Int))⟩
  else if width ≤ 64 then
    ⟨.ok ((List.range width.toNat).foldl (getword_step buf junk index width) 0, index + width),
      buf, (List.range width.toNat).map (fun (i : Nat) => DATAPTR (index + (i : Int)))⟩
  else
    ⟨.error .ValueError, buf, []⟩

/-- One round of the loop of `setword`: buffer bit `index + i` becomes bit `i`
of `value` (`value_width = 64`). -/
def setword_step (junk : Int → Nat) (index : Int) (value : Nat) (buf : List Nat) (i : Nat) :
    List Nat :=
  if (i : Int) < 64 ∧ GETBIT value i 64 ≠ 0 then
    DATA_or buf junk (index + i) (BITMASK (index + i) CHAR_BITS)
  else
    DATA_andnot buf junk (index + i) (BITMASK (index + i) CHAR_BITS)

/-- `setword(array, index, width, value, opt)`: returns the post-index. -/
def setword (buf : List Nat) (junk : Int → Nat) (index width : Int) (value opt : Nat) :
    Call Int :=
  if opt = 0 ∧ (toULong (index + width - 1) ≥ BITS buf.length ∨ width < 0) then
    ⟨.error .IndexError, buf, []⟩
  else if opt = 0 ∧ width > 64 then
    ⟨.error .ValueError, buf, []⟩
  else
    ⟨.ok (index + width), (List.range width.toNat).foldl (setword_step junk index value) buf,
      (List.range width.toNat).map (fun (i : Nat) => DATAPTR (index + (i : Int)))⟩

/-- A memory around the array that holds zero bytes only (for concrete runs). -/
def zeroMem : Int → Nat := fun _ => 0

end Bittools

/-! ## TIFF LZW codec (`tif_lzw.c`) -/

namespace TifLzw

/-- `MAXCODE(n)`: `((1L<<(n))-1)`. -/
def MAXCODE (n : Nat) : Nat := (1 <<< n) - 1

def BITS_MIN : Nat := 9

def BITS_MAX : Nat := 12

def CODE_CLEAR : Nat := 256

def CODE_EOI : Nat := 257

def CODE_FIRST : Nat := 258

def CODE_MAX : Nat := MAXCODE BITS_MAX

def HSIZE : Nat := 9001

def HSHIFT : Nat := 13 - 8

def CSIZE : Nat := MAXCODE BITS_MAX + 1

def CHECK_GAP : Nat := 10000

/-- The value `(hcode_t) -1` that marks "no code yet" in `enc_oldcode`. -/
def HCODE_NONE : Nat := 65535

/-- Conversion to the 32-bit `tmsize_t` (`signed int`). -/
@[irreducible]
def to_tmsize_t (x : Int) : Int := (x + 2 ^ 31) % 2 ^ 32 - 2 ^ 31

/-- The encoder hash table, an array of `hash_t { long hash; hcode_t code; }`,
kept as one map per field: `hash h` is `enc_hashtab[h].hash` and `code h` is
`enc_hashtab[h].code`. -/
structure hash_t where
  hash : Int → Int
  code : Int → Nat

/-- Entry of the decoder code table.  A `code_t*` is `none` for `NULL` and
`some k` for `&dec_codetab[k]`. -/
structure code_t where
  next : Option Int
  length : Nat
  value : Nat
  firstchar : Nat

/-- An entry cleared by `memset(.., 0, ..)`. -/
def code_t.zero : code_t := ⟨none, 0, 0, 0⟩

/-- `LZWCodecState` (with its `LZWBaseState`).  `long` accumulators hold their
64-bit pattern; tables are maps from the slot index, `none` for a `NULL` table. -/
structure LZWCodecState where
  lzw_nbits : Nat
  lzw_maxcode : Nat
  lzw_free_ent : Nat
  lzw_nextdata : Nat
  lzw_nextbits : Nat
  dec_nbitsmask : Nat
  dec_restart : Int
  dec_bitsleft : Int
  dec_codep : Option Int
  dec_oldcodep : Option Int
  dec_free_entp : Int
  dec_maxcodep : Int
  dec_codetab : Option (Int → code_t)
  enc_oldcode : Nat
  enc_checkpoint : Nat
  enc_ratio : Nat
  enc_incount : Nat
  enc_outcount : Nat
  enc_rawlimit : Int
  enc_hashtab : Option hash_t

/-- The `TIFF` handle.  `tif_rawdata` lists the bytes of the raw buffer from its
start: for the decoder the whole input array, for the encoder the bytes stored
so far in `[tif_rawdata, tif_rawcp)`; `tif_rawcp` is the offset of the cursor;
`enc_rawlimit` is an offset from `tif_rawdata` too. -/
structure TIFF where
  tif_data : Option LZWCodecState
  tif_rawdata : List Nat
  tif_rawdatasize : Int
  tif_rawcp : Nat
  tif_rawcc : Int

/-- What freshly allocated memory holds: the state block, the two tables, and
the array that `PyArray_EMPTY` returns. -/
structure Uninit where
  state : LZWCodecState
  hashtab : hash_t
  codetab : Int → code_t
  result : Nat → Nat

/-- Freshly allocated memory that holds zeros only. -/
def zeroUninit : Uninit :=
  { state :=
      { lzw_nbits := 0, lzw_maxcode := 0, lzw_free_ent := 0, lzw_nextdata := 0,
        lzw_nextbits := 0, dec_nbitsmask := 0, dec_restart := 0, dec_bitsleft := 0,
        dec_codep := none, dec_oldcodep := none, dec_free_entp := 0, dec_maxcodep := 0,
        dec_codetab := none, enc_oldcode := 0, enc_checkpoint := 0, enc_ratio := 0,
        enc_incount := 0, enc_outcount := 0, enc_rawlimit := 0, enc_hashtab := none }
    hashtab := { hash := fun _ => 0, code := fun _ => 0 }
    codetab := fun _ => code_t.zero
    result := fun _ => 0 }

/-- Store into one slot of a table. -/
def store {α : Type} (tab : Int → α) (k : Int) (a : α) : Int → α :=
  fun j => if j = k then a else tab j

/-! ### Encoder -/

/-- `hp[-7].hash = -1; ...; hp[0].hash = -1` of `cl_hash`. -/
def cl_hash_block (tab : hash_t) (hp : Int) : hash_t :=
  let t1 := store tab.hash (hp - 7) (-1)
  let t2 := store t1 (hp - 6) (-1)
  let t3 := store t2 (hp - 5) (-1)
  let t4 := store t3 (hp - 4) (-1)
  let t5 := store t4 (hp - 3) (-1)
  let t6 := store t5 (hp - 2) (-1)
  let t7 := store t6 (hp - 1) (-1)
  { tab with hash := store t7 hp (-1) }

/-- The `do { .. } while (i >= 0)` loop of `cl_hash`; returns the table, `hp`, `i`. -/
def cl_hash_do : Nat → hash_t → Int → Int → hash_t × Int × Int
  | 0, tab, hp, i => (tab, hp, i)
  | n + 1, tab, hp, i =>
    let i := i - 8
    let tab := cl_hash_block tab hp
    let hp := hp - 8
    if i ≥ 0 then cl_hash_do n tab hp i else (tab, hp, i)

/-- The `for (i += 8; i > 0; i--, hp--)` loop of `cl_hash`. -/
def cl_hash_for : Nat → hash_t → Int → Int → hash_t
  | 0, tab, _, _ => tab
  | n + 1, tab, hp, i =>
    if i > 0 then cl_hash_for n { tab with hash := store tab.hash hp (-1) } (hp - 1) (i - 1)
    else tab

/-- `cl_hash`: reset the encoding hash table. -/
@[irreducible]
def cl_hash (tab : hash_t) : hash_t :=
  let r := cl_hash_do HSIZE tab ((HSIZE : Int) - 1) ((HSIZE : Int) - 8)
  cl_hash_for 8 r.1 r.2.1 (r.2.2 + 8)

/-- `LZWSetupEncode`: allocate the hash table. -/
def LZWSetupEncode (u : Uninit) (tif : TIFF) : Option (Int × TIFF) :=
  match tif.tif_data with
  | none => none
  | some sp => some (1, { tif with tif_data := some { sp with enc_hashtab := some u.hashtab } })

/-- `LZWPreEncode`: reset encoding state at the start of a strip. -/
def LZWPreEncode (u : Uninit) (tif : TIFF) : Option (Int × TIFF) :=
  match tif.tif_data with
  | none => none
  | some sp0 =>
    let tif1 : Option TIFF :=
      match sp0.enc_hashtab with
      | none => (LZWSetupEncode u tif).map (fun r => r.2)
      | some _ => some tif
    match tif1 with
    | none => none
    | some tif1 =>
      match tif1.tif_data with
      | none => none
      | some sp =>
        match sp.enc_hashtab with
        | none => none
        | some tab =>
          some (1, { tif1 with tif_data := some { sp with
            lzw_nbits := BITS_MIN
            lzw_maxcode := MAXCODE BITS_MIN
            lzw_free_ent := CODE_FIRST
            lzw_nextbits := 0
            lzw_nextdata := 0
            enc_checkpoint := CHECK_GAP
            enc_ratio := 0
            enc_incount := 0
            enc_outcount := 0
            enc_rawlimit := tif1.tif_rawdatasize - 1 - 4
            enc_hashtab := some (cl_hash tab)
            enc_oldcode := HCODE_NONE } })

/-- `CALCRATIO(sp, rat)`. -/
def CALCRATIO (incount outcount : Nat) : Nat :=
  if incount > 0x007fffff then
    let rat := outcount >>> 8
    if rat = 0 then 0x7fffffff else incount / rat
  else
    (incount <<< 8) / outcount

/-- The variables that `PutNextCode` updates; `op` lists the bytes stored in
the raw buffer from its start up to the cursor. -/
structure PutState where
  nextdata : Nat
  nextbits : Nat
  outcount : Nat
  op : List Nat

/-- `PutNextCode(op, c)` at code width `nbits`. -/
def PutNextCode (nbits : Nat) (s : PutState) (c : Nat) : PutState :=
  let nextdata := ((s.nextdata <<< nbits) ||| c) % 2 ^ 64
  let nextbits := s.nextbits + nbits
  let op := s.op ++ [(nextdata >>> (nextbits - 8)) % 256]
  let nextbits := nextbits - 8
  if nextbits ≥ 8 then
    { nextdata := nextdata
      nextbits := nextbits - 8
      outcount := s.outcount + nbits
      op := op ++ [(nextdata >>> (nextbits - 8)) % 256] }
  else
    { nextdata := nextdata, nextbits := nextbits, outcount := s.outcount + nbits, op := op }

/-- Result of looking a key up in the hash table. -/
inductive Probe where
  | hit (code : Nat)
  | miss (h : Int)
  | spin
  deriving DecidableEq, Repr

/-- The secondary probe `do { if ((h -= disp) < 0) h += HSIZE; .. } while (hp->hash >= 0)`,
for at most the given number of rounds. -/
def secondary_probe (tab : hash_t) (fcode disp : Int) : Nat → Int → Probe
  | 0, _ => .spin
  | n + 1, h =>
    let h := if h - disp < 0 then h - disp + HSIZE else h - disp
    if tab.hash h = fcode then .hit (tab.code h)
    else if tab.hash h ≥ 0 then secondary_probe tab fcode disp n h
    else .miss h

/-- The primary probe at `h` followed by the secondary probe.  `spin` stands for
a secondary probe that meets neither the key nor an empty slot in `HSIZE`
rounds (it then revisits the same slots for ever). -/
def probe (tab : hash_t) (fcode h : Int) : Probe :=
  if tab.hash h = fcode then .hit (tab.code h)
  else if tab.hash h ≥ 0 then
    secondary_probe tab fcode (if h = 0 then 1 else (HSIZE : Int) - h) HSIZE h
  else .miss h

/-- Local variables of `LZWEncode`, with the memory its loop writes
(`sp->enc_ratio`, the hash table, `tif->tif_rawcc`, the Python list `lst`). -/
structure EncLocals extends PutState where
  incount : Nat
  checkpoint : Nat
  free_ent : Nat
  maxcode : Nat
  nbits : Nat
  ent : Nat
  enc_ratio : Nat
  hashtab : hash_t
  tif_rawcc : Int
  lst : List (List Nat)

/-- `PutNextCode` on the locals of `LZWEncode`. -/
def EncLocals.put (l : EncLocals) (c : Nat) : EncLocals :=
  { l with toPutState := PutNextCode l.nbits l.toPutState c }

/-- The reset shared by the "table is full" and the "ratio is slipping" branches. -/
def EncLocals.reset (l : EncLocals) : EncLocals :=
  let l1 : EncLocals :=
    { l with hashtab := cl_hash l.hashtab, enc_ratio := 0, incount := 0, outcount := 0,
             free_ent := CODE_FIRST }
  let l2 := l1.put CODE_CLEAR
  { l2 with nbits := BITS_MIN, maxcode := MAXCODE BITS_MIN }

/-- `if (op > limit) { tif->tif_rawcc = op - tif->tif_rawdata; FLUSHDATA(..); op = tif->tif_rawdata; }`. -/
def EncLocals.flush_if_full (l : EncLocals) (limit : Int) : EncLocals :=
  if (l.op.length : Int) > limit then
    { l with tif_rawcc := to_tmsize_t l.op.length, lst := l.lst ++ [l.op], op := [] }
  else l

/-- The start of the "new entry" part of the loop body of `LZWEncode`, for the
byte `c` that missed at slot `h`: the raw buffer is flushed when it is full, the
prefix code is emitted, and the new entry is stored in the hash table. -/
def LZWEncode_new_entry (limit : Int) (l : EncLocals) (c : Nat) (fcode h : Int) : EncLocals :=
  let l := l.flush_if_full limit
  let l := l.put l.ent
  { l with ent := c,
           hashtab := { code := store l.hashtab.code h l.free_ent,
                        hash := store l.hashtab.hash h fcode },
           free_ent := l.free_ent + 1 }

/-- What follows the new entry in the loop body of `LZWEncode`: the table is
reset when it is full, else the code width grows when the next entry needs it,
else the compression ratio is checked every `CHECK_GAP` bytes. -/
def LZWEncode_resize (l : EncLocals) : EncLocals :=
  if l.free_ent = CODE_MAX - 1 then
    l.reset
  else if l.free_ent > l.maxcode then
    { l with nbits := l.nbits + 1, maxcode := MAXCODE (l.nbits + 1) }
  else if l.incount ≥ l.checkpoint then
    let l := { l with checkpoint := l.incount + CHECK_GAP }
    let rat := CALCRATIO l.incount l.outcount
    if rat ≤ l.enc_ratio then l.reset else { l with enc_ratio := rat }
  else l

/-- The "new entry" part of the loop body of `LZWEncode`, for the byte `c` that
missed at slot `h`. -/
def LZWEncode_miss (limit : Int) (l : EncLocals) (c : Nat) (fcode h : Int) : EncLocals :=
  LZWEncode_resize (LZWEncode_new_entry limit l c fcode h)

/-- One round of `while (cc > 0)` in `LZWEncode`, for the input byte `c`;
`none` when the secondary probe does not end. -/
def LZWEncode_step (limit : Int) (l : EncLocals) (c : Nat) : Option EncLocals :=
  let l := { l with incount := l.incount + 1 }
  let fcode : Int := ((c <<< BITS_MAX : Nat) : Int) + (l.ent : Int)
  let h : Int := (((c <<< HSHIFT) ^^^ l.ent : Nat) : Int)
  match probe l.hashtab fcode h with
  | .hit code => some { l with ent := code }
  | .miss h => some (LZWEncode_miss limit l c fcode h)
  | .spin => none

/-- The loop `while (cc > 0)` of `LZWEncode` over the bytes still to encode. -/
def LZWEncode_loop (limit : Int) : List Nat → EncLocals → Option EncLocals
  | [], l => some l
  | c :: bp, l =>
    match LZWEncode_step limit l c with
    | none => none
    | some l => LZWEncode_loop limit bp l

/-- "Load local state" of `LZWEncode`. -/
def LZWEncode_load (tif : TIFF) (sp : LZWCodecState) (tab : hash_t) (lst : List (List Nat)) :
    EncLocals :=
  { incount := sp.enc_incount, outcount := sp.enc_outcount,
    checkpoint := sp.enc_checkpoint, nextdata := sp.lzw_nextdata,
    nextbits := sp.lzw_nextbits, free_ent := sp.lzw_free_ent,
    maxcode := sp.lzw_maxcode, nbits := sp.lzw_nbits, op := tif.tif_rawdata,
    ent := sp.enc_oldcode, enc_ratio := sp.enc_ratio, hashtab := tab,
    tif_rawcc := tif.tif_rawcc, lst := lst }

/-- The start of `LZWEncode`, `if (ent == (hcode_t) -1 && cc > 0) { .. }`: the
locals and the bytes still to encode. -/
def LZWEncode_start (l : EncLocals) (bytes : List Nat) : EncLocals × List Nat :=
  match bytes with
  | [] => (l, [])
  | b :: rest =>
    if l.ent = HCODE_NONE then
      ({ l.put CODE_CLEAR with ent := b, incount := l.incount + 1 }, rest)
    else (l, b :: rest)

/-- "Restore global state" of `LZWEncode`. -/
def LZWEncode_save (tif : TIFF) (sp : LZWCodecState) (l : EncLocals) : TIFF :=
  { tif with
    tif_data := some { sp with
      enc_incount := l.incount, enc_outcount := l.outcount,
      enc_checkpoint := l.checkpoint, enc_oldcode := l.ent,
      lzw_nextdata := l.nextdata, lzw_nextbits := l.nextbits,
      lzw_free_ent := l.free_ent, lzw_maxcode := l.maxcode, lzw_nbits := l.nbits,
      enc_ratio := l.enc_ratio, enc_hashtab := some l.hashtab }
    tif_rawdata := l.op, tif_rawcp := l.op.length, tif_rawcc := l.tif_rawcc }

/-- `LZWEncode(tif, bp, cc, lst)`: encode the `cc` bytes at `bp`. -/
def LZWEncode (tif : TIFF) (lst : List (List Nat)) (bp : List Nat) (cc : Int) :
    Option (Int × TIFF × List (List Nat)) :=
  match tif.tif_data with
  | none => some (0, tif, lst)
  | some sp =>
    match sp.enc_hashtab with
    | none => none
    | some tab =>
      let start := LZWEncode_start (LZWEncode_load tif sp tab lst) (bp.take cc.toNat)
      match LZWEncode_loop sp.enc_rawlimit start.2 start.1 with
      | none => none
      | some l => some (1, LZWEncode_save tif sp l, l.lst)

/-- The bytes that `LZWPostEncode` leaves in the raw buffer: the last prefix code
if there is one, `CODE_EOI`, and the pending bits. -/
def LZWPostEncode_tail (sp : LZWCodecState) (op : List Nat) : List Nat :=
  let s0 : PutState :=
    { nextdata := sp.lzw_nextdata, nextbits := sp.lzw_nextbits, outcount := sp.enc_outcount,
      op := op }
  let s1 := if sp.enc_oldcode ≠ HCODE_NONE then PutNextCode sp.lzw_nbits s0 sp.enc_oldcode else s0
  let s2 := PutNextCode sp.lzw_nbits s1 CODE_EOI
  if s2.nextbits > 0 then s2.op ++ [(s2.nextdata <<< (8 - s2.nextbits)) % 256] else s2.op

/-- `LZWPostEncode(tif, lst)`: flush the last string and append `CODE_EOI`. -/
def LZWPostEncode (tif : TIFF) (lst : List (List Nat)) : Option (Int × TIFF × List (List Nat)) :=
  match tif.tif_data with
  | none => none
  | some sp =>
    let full : Bool := decide ((tif.tif_rawdata.length : Int) > sp.enc_rawlimit)
    let lst1 := if full then lst ++ [tif.tif_rawdata] else lst
    let op := LZWPostEncode_tail sp (if full then [] else tif.tif_rawdata)
    some (1,
      { tif with
        tif_data := some { sp with
          enc_oldcode := if sp.enc_oldcode ≠ HCODE_NONE then HCODE_NONE else sp.enc_oldcode }
        tif_rawdata := op, tif_rawcc := to_tmsize_t op.length },
      lst1 ++ [op])

/-- `LZWCleanup`: the tables and the state block are freed and `tif_data` is
set to `NULL`; `none` when `assert(tif->tif_data != 0)` fails. -/
def LZWCleanup (tif : TIFF) : Option TIFF :=
  match tif.tif_data with
  | none => none
  | some _ => some { tif with tif_data := none }

/-- A heap block of the codec: the dictionary `dec_codetab`, the hash table
`enc_hashtab`, and the state block `tif_data`. -/
inductive HeapBlock where
  | codetab
  | hashtab
  | state
  deriving DecidableEq, Repr

/-- The blocks that `LZWCleanup` passes to `free`, in the order of the calls:
the dictionary and the hash table when their pointers are not `NULL`, then the
state block; `none` when `assert(tif->tif_data != 0)` fails. -/
def LZWCleanup_free (tif : TIFF) : Option (List HeapBlock) :=
  match tif.tif_data with
  | none => none
  | some sp =>
    some ((if sp.dec_codetab.isSome then [HeapBlock.codetab] else []) ++
      (if sp.enc_hashtab.isSome then [HeapBlock.hashtab] else []) ++ [HeapBlock.state])

/-- What a call of `py_encode` or `py_decode` gives back: an array, `NULL` (a
Python exception is set), or nothing because the call does not return. -/
inductive PyResult where
  | array (a : List Nat)
  | null
  | stuck
  deriving DecidableEq, Repr

/-- The lines `/* TIFFInitLZW */` of `py_encode` and `py_decode`: the state block
is allocated and its two table pointers are set to `NULL`. -/
def TIFFInitLZW (u : Uninit) : LZWCodecState :=
  { u.state with dec_codetab := none, enc_hashtab := none }

/-- The handle that `py_encode` builds for an array of `nbytes` bytes: the raw
buffer has `min(nbytes, 1 << 20)` bytes (`buffer_size` is an `int`). -/
def py_encode_handle (u : Uninit) (nbytes : Int) : TIFF :=
  { tif_data := some (TIFFInitLZW u)
    tif_rawdata := [], tif_rawcp := 0
    tif_rawdatasize :=
      if to_tmsize_t nbytes > (1 <<< 20 : Nat) then ((1 <<< 20 : Nat) : Int)
      else to_tmsize_t nbytes
    tif_rawcc := 0 }

/-- The array that a call hands back, `stuck` when the call does not return. -/
def PyResult.ofOption : Option (List Nat) → PyResult
  | none => .stuck
  | some a => .array a

/-- `py_encode(arr)`: the state block is allocated, the raw buffer is sized, and
`LZWPreEncode`, `LZWEncode`, `LZWPostEncode` run; the result is the
concatenation of the flushed chunks. -/
def py_encode (u : Uninit) (arr : List Nat) : PyResult :=
  PyResult.ofOption <|
    (LZWPreEncode u (py_encode_handle u arr.length)).bind fun r1 =>
    (LZWEncode r1.2 [] arr (to_tmsize_t arr.length)).bind fun r2 =>
    (LZWPostEncode r2.2.1 r2.2.2).bind fun r3 =>
    (LZWCleanup r3.2.1).map fun _ =>
      if r3.2.2.length = 1 then r3.2.2.headD [] else r3.2.2.flatten

/-! ### Decoder -/

/-- The pre-load loop of `LZWSetupDecode`: `code = n; do { .. } while (code--)`. -/
def preload : Nat → (Int → code_t) → (Int → code_t)
  | 0, tab => store tab 0 ⟨none, 1, 0, 0⟩
  | n + 1, tab => preload n (store tab ((n + 1 : Nat) : Int) ⟨none, 1, n + 1, n + 1⟩)

/-- `memset(&tab[start], 0, n * sizeof (code_t))`. -/
def memset_zero (tab : Int → code_t) (start n : Int) : Int → code_t :=
  fun j => if start ≤ j ∧ j < start + n then code_t.zero else tab j

/-- `LZWSetupDecode`: allocate and pre-load the code table. -/
def LZWSetupDecode (u : Uninit) (tif : TIFF) : Option (Int × TIFF) :=
  let sp : LZWCodecState :=
    match tif.tif_data with
    | none => { u.state with dec_codetab := none }
    | some sp => sp
  match sp.dec_codetab with
  | some _ => some (1, { tif with tif_data := some sp })
  | none =>
    let tab := memset_zero (preload 255 u.codetab) CODE_CLEAR ((CODE_FIRST : Int) - CODE_CLEAR)
    some (1, { tif with tif_data := some { sp with dec_codetab := some tab } })

/-- `LZWPreDecode`: set up the state for decoding a strip; returns 0 on
old-style (bit-reversed) codes. -/
def LZWPreDecode (u : Uninit) (tif : TIFF) : Option (Int × TIFF) :=
  match tif.tif_data with
  | none => none
  | some sp0 =>
    let tif1 : Option TIFF :=
      match sp0.dec_codetab with
      | none => (LZWSetupDecode u tif).map (fun r => r.2)
      | some _ => some tif
    match tif1 with
    | none => none
    | some tif1 =>
      match tif1.tif_data with
      | none => none
      | some sp =>
        match sp.dec_codetab with
        | none => none
        | some tab =>
          if tif1.tif_rawdata.getD 0 0 = 0 ∧ tif1.tif_rawdata.getD 1 0 &&& 1 ≠ 0 then
            some (0, tif1)
          else
            some (1, { tif1 with tif_data := some { sp with
              lzw_maxcode := MAXCODE BITS_MIN - 1
              lzw_nbits := BITS_MIN
              lzw_nextbits := 0
              lzw_nextdata := 0
              dec_restart := 0
              dec_nbitsmask := MAXCODE BITS_MIN
              dec_bitsleft := to_tmsize_t (tif1.tif_rawcc * 8)
              dec_free_entp := CODE_FIRST
              dec_codetab := some (memset_zero tab CODE_FIRST ((CSIZE : Int) - CODE_FIRST))
              dec_oldcodep := some (-1)
              dec_maxcodep := (MAXCODE BITS_MIN : Int) - 1 } })

/-- Local variables of `LZWDecode` (`op` as an offset from `op0`, `bp` as an
offset from `tif_rawdata`), with the memory its loop writes: the output buffer,
the code table, and `dec_bitsleft`, `dec_codep`, `dec_restart` of the state. -/
structure DecLocals where
  op : Int
  occ : Int
  bp : Nat
  nbits : Nat
  nextbits : Nat
  nextdata : Nat
  nbitsmask : Nat
  oldcodep : Option Int
  free_entp : Int
  maxcodep : Int
  out : Int → Nat
  tab : Int → code_t
  dec_bitsleft : Int
  dec_codep : Option Int
  dec_restart : Int

/-- `GetNextCode(sp, bp, code)`: the updated locals and the code. -/
def GetNextCode (raw : List Nat) (l : DecLocals) : DecLocals × Nat :=
  let nextdata1 := ((l.nextdata <<< 8) ||| raw.getD l.bp 0) % 2 ^ 64
  let l1 : DecLocals := { l with nextdata := nextdata1, bp := l.bp + 1, nextbits := l.nextbits + 8 }
  let l2 : DecLocals :=
    if l1.nextbits < l1.nbits then
      { l1 with nextdata := ((l1.nextdata <<< 8) ||| raw.getD l1.bp 0) % 2 ^ 64,
                bp := l1.bp + 1, nextbits := l1.nextbits + 8 }
    else l1
  ({ l2 with nextbits := l2.nextbits - l2.nbits },
    ((l2.nextdata >>> (l2.nextbits - l2.nbits)) &&& l2.nbitsmask) % 65536)

/-- `NextCode(tif, sp, bp, code, GetNextCode)` with `LZW_CHECKEOS`. -/
def NextCode (raw : List Nat) (l : DecLocals) : DecLocals × Nat :=
  if l.dec_bitsleft < (l.nbits : Int) then (l, CODE_EOI)
  else
    let r := GetNextCode raw l
    ({ r.1 with dec_bitsleft := r.1.dec_bitsleft - (l.nbits : Int) }, r.2)

/-- `do { codep = codep->next; } while (codep && codep->length > occ)` from the
entry `k`, for at most the given number of rounds (`none`: it does not end). -/
def skip_long (tab : Int → code_t) (occ : Int) : Nat → Int → Option (Option Int)
  | 0, _ => none
  | n + 1, k =>
    match (tab k).next with
    | none => some none
    | some k1 => if ((tab k1).length : Int) > occ then skip_long tab occ n k1 else some (some k1)

/-- `do { *--tp = codep->value; codep = codep->next; } while (--n && codep)` from
the entry `k`: the output buffer, the final `codep` and the final count
(`none`: the loop does not end within the given number of rounds). -/
def copy_back (tab : Int → code_t) :
    Nat → Int → Int → Int → (Int → Nat) → Option ((Int → Nat) × Option Int × Int)
  | 0, _, _, _, _ => none
  | f + 1, k, tp, n, out =>
    let out1 := store out (tp - 1) (tab k).value
    match (tab k).next with
    | none => some (out1, none, n - 1)
    | some k1 =>
      if n - 1 ≠ 0 then copy_back tab f k1 (tp - 1) (n - 1) out1 else some (out1, some k1, n - 1)

/-- `do { --tp; t = codep->value; codep = codep->next; *tp = t; } while (codep && tp > op)`
from the entry `k`; the number of rounds is at most `tp - op`. -/
def write_string (tab : Int → code_t) (op : Int) :
    Nat → Int → Int → (Int → Nat) → (Int → Nat) × Option Int
  | 0, k, _, out => (out, some k)
  | f + 1, k, tp, out =>
    let out1 := store out (tp - 1) (tab k).value
    match (tab k).next with
    | none => (out1, none)
    | some k1 => if tp - 1 > op then write_string tab op f k1 (tp - 1) out1 else (out1, some k1)

/-- `do { codep = codep->next; } while (--residue > occ && codep)` of the restart
branch (`none`: `NULL` is dereferenced). -/
def restart_skip (tab : Int → code_t) (occ : Int) : Nat → Option Int → Int → Option (Option Int)
  | 0, codep, _ => some codep
  | n + 1, codep, residue =>
    match codep with
    | none => none
    | some k =>
      match (tab k).next with
      | none => some none
      | some k1 =>
        if residue - 1 > occ then restart_skip tab occ n (some k1) (residue - 1)
        else some (some k1)

/-- How one round of `while (occ > 0)` in `LZWDecode` ends. -/
inductive DecStep where
  | next (l : DecLocals)
  | stop (l : DecLocals)
  | fail (l : DecLocals)
  | stuck

/-- The first lines of the branch `if (code == CODE_CLEAR)` of `LZWDecode`: the
entries from `CODE_FIRST` on are zeroed and the code width is back to 9 bits. -/
def LZWDecode_reset (l : DecLocals) : DecLocals :=
  { l with free_entp := CODE_FIRST,
           tab := memset_zero l.tab CODE_FIRST ((CSIZE : Int) - CODE_FIRST),
           nbits := BITS_MIN, nbitsmask := MAXCODE BITS_MIN,
           maxcodep := (MAXCODE BITS_MIN : Int) - 1 }

/-- The branch `if (code == CODE_CLEAR)` of the loop body of `LZWDecode`: the
table is cleared and the next code is read, which has to be a byte. -/
def LZWDecode_clear (raw : List Nat) (l : DecLocals) : DecStep :=
  let r1 := NextCode raw (LZWDecode_reset l)
  let l2 := r1.1
  let code1 := r1.2
  if code1 = CODE_EOI then .stop l2
  else if code1 ≥ CODE_CLEAR then .fail l2
  else
    .next { l2 with out := store l2.out l2.op code1, op := l2.op + 1, occ := l2.occ - 1,
                    oldcodep := some (code1 : Int) }

/-- "Add the new entry to the code table" in the loop body of `LZWDecode`, for
the code `code` and the previous code at entry `o`: the entry is stored at
`free_entp`, the code width grows when the table passes `maxcodep`, and `code`
becomes the previous code. -/
def LZWDecode_add_entry (l : DecLocals) (o : Int) (code : Nat) : DecLocals :=
  let codep : Int := code
  let firstchar := (l.tab o).firstchar
  let length := ((l.tab o).length + 1) % 65536
  let value := if codep < l.free_entp then (l.tab codep).firstchar else firstchar
  let tab := store l.tab l.free_entp ⟨some o, length, value, firstchar⟩
  let nbits1 := if l.nbits + 1 > BITS_MAX then BITS_MAX else l.nbits + 1
  if l.free_entp + 1 > l.maxcodep then
    { l with tab := tab, free_entp := l.free_entp + 1, nbits := nbits1,
             nbitsmask := MAXCODE nbits1, maxcodep := (MAXCODE nbits1 : Int) - 1,
             oldcodep := some codep }
  else
    { l with tab := tab, free_entp := l.free_entp + 1, oldcodep := some codep }

/-- The branch "string is too long for decode buffer" of the loop body of
`LZWDecode`: the part of the string that fits is stored and the restart is set up. -/
def LZWDecode_too_long (l1 : DecLocals) (codep : Int) : DecStep :=
  let l2 : DecLocals := { l1 with dec_codep := some codep }
  match skip_long l2.tab l2.occ (CSIZE + 1) codep with
  | none => .stuck
  | some none => .stop l2
  | some (some k) =>
    match copy_back l2.tab (CSIZE + 1 + l2.occ.toNat) k (l2.op + l2.occ) l2.occ l2.out with
    | none => .stuck
    | some r2 => .stop { l2 with dec_restart := l2.occ, out := r2.1, occ := r2.2.2 }

/-- The end of the loop body of `LZWDecode`: the string of the code is stored in
the output buffer. -/
def LZWDecode_emit (l1 : DecLocals) (code : Nat) : DecStep :=
  let codep : Int := code
  if code ≥ 256 then
    let len := (l1.tab codep).length
    if len = 0 then .fail l1
    else if (len : Int) > l1.occ then LZWDecode_too_long l1 codep
    else
      let r2 := write_string l1.tab l1.op len codep (l1.op + len) l1.out
      match r2.2 with
      | some _ => .stop { l1 with out := r2.1 }
      | none => .next { l1 with out := r2.1, op := l1.op + len, occ := l1.occ - len }
  else
    .next { l1 with out := store l1.out l1.op code, op := l1.op + 1, occ := l1.occ - 1 }

/-- The loop body of `LZWDecode` for a code that is neither `CODE_EOI` nor
`CODE_CLEAR`. -/
def LZWDecode_data (l : DecLocals) (code : Nat) : DecStep :=
  if l.free_entp < 0 ∨ l.free_entp ≥ CSIZE then .fail l
  else
    match l.oldcodep with
    | none => .fail l
    | some o =>
      if o < 0 ∨ o ≥ CSIZE then
        .fail { l with tab := store l.tab l.free_entp { l.tab l.free_entp with next := some o } }
      else LZWDecode_emit (LZWDecode_add_entry l o code) code

/-- One round of `while (occ > 0)` in `LZWDecode`: `next` for the end of the body
or `continue`, `stop` for `break`, `fail` for `return (0)`, `stuck` when an inner
loop does not end. -/
def LZWDecode_body (raw : List Nat) (l0 : DecLocals) : DecStep :=
  let r := NextCode raw l0
  if r.2 = CODE_EOI then .stop r.1
  else if r.2 = CODE_CLEAR then LZWDecode_clear raw r.1
  else LZWDecode_data r.1 r.2

/-- How the loop `while (occ > 0)` of `LZWDecode` ends. -/
inductive DecEnd where
  | done (l : DecLocals)
  | fail (l : DecLocals)
  | stuck

/-- The loop `while (occ > 0)` of `LZWDecode`; every round but the last lowers
`occ`, so `occ` rounds at most are run (`stuck` beyond). -/
def LZWDecode_loop (raw : List Nat) : Nat → DecLocals → DecEnd
  | 0, l => if l.occ > 0 then .stuck else .done l
  | n + 1, l =>
    if l.occ > 0 then
      match LZWDecode_body raw l with
      | .next l1 => LZWDecode_loop raw n l1
      | .stop l1 => .done l1
      | .fail l1 => .fail l1
      | .stuck => .stuck
    else .done l

/-- The number of rounds that the loop `while (occ > 0)` of `LZWDecode` runs,
the round that leaves the loop included. -/
def LZWDecode_rounds (raw : List Nat) : Nat → DecLocals → Nat
  | 0, _ => 0
  | n + 1, l =>
    if l.occ > 0 then
      match LZWDecode_body raw l with
      | .next l1 => LZWDecode_rounds raw n l1 + 1
      | _ => 1
    else 0

/-- The locals `l` are those at the head of some round of the loop
`while (occ > 0)` of `LZWDecode` that starts from the locals `l0`. -/
inductive LoopHead (raw : List Nat) (l0 : DecLocals) : DecLocals → Prop where
  | start : LoopHead raw l0 l0
  | round (l l1 : DecLocals) : LoopHead raw l0 l → 0 < l.occ →
      LZWDecode_body raw l = .next l1 → LoopHead raw l0 l1

/-- How the restart branch of `LZWDecode` ends: it returns 1, or it falls
through to the main loop with the given `op`, `occ` and output buffer. -/
inductive RestartEnd where
  | ret1 (restart : Int) (out : Int → Nat)
  | go (op occ : Int) (out : Int → Nat)
  | stuck

/-- The branch `if (sp->dec_restart)` of `LZWDecode`. -/
def LZWDecode_restart (sp : LZWCodecState) (tab : Int → code_t) (out : Int → Nat) (occ : Int) :
    RestartEnd :=
  if sp.dec_restart ≠ 0 then
    match sp.dec_codep with
    | none => .stuck
    | some k =>
      let residue : Int := ((tab k).length : Int) - sp.dec_restart
      if residue > occ then
        match restart_skip tab occ (residue - occ).toNat (some k) residue with
        | none => .stuck
        | some none => .ret1 (sp.dec_restart + occ) out
        | some (some k1) =>
          match copy_back tab (CSIZE + 1 + occ.toNat) k1 occ occ out with
          | none => .stuck
          | some r => .ret1 (sp.dec_restart + occ) r.1
      else
        match copy_back tab (CSIZE + 1 + residue.toNat) k residue residue out with
        | none => .stuck
        | some r => .go residue (occ - residue) r.1
  else .go 0 occ out

/-- The locals of `LZWDecode` when its main loop starts. -/
def LZWDecode_load (tif : TIFF) (sp : LZWCodecState) (tab : Int → code_t) (op occ : Int)
    (out : Int → Nat) : DecLocals :=
  { op := op, occ := occ, bp := tif.tif_rawcp, nbits := sp.lzw_nbits,
    nextbits := sp.lzw_nextbits, nextdata := sp.lzw_nextdata,
    nbitsmask := sp.dec_nbitsmask, oldcodep := sp.dec_oldcodep,
    free_entp := sp.dec_free_entp, maxcodep := sp.dec_maxcodep, out := out,
    tab := tab, dec_bitsleft := sp.dec_bitsleft, dec_codep := sp.dec_codep,
    dec_restart := 0 }

/-- The handle after the main loop of `LZWDecode`: the locals are stored back. -/
def LZWDecode_save (tif : TIFF) (sp : LZWCodecState) (l : DecLocals) : TIFF :=
  { tif with
    tif_rawcp := l.bp
    tif_data := some { sp with
      lzw_nbits := l.nbits % 65536, lzw_nextdata := l.nextdata,
      lzw_nextbits := l.nextbits, dec_nbitsmask := l.nbitsmask,
      dec_oldcodep := l.oldcodep, dec_free_entp := l.free_entp,
      dec_maxcodep := l.maxcodep, dec_restart := l.dec_restart,
      dec_bitsleft := l.dec_bitsleft, dec_codep := l.dec_codep,
      dec_codetab := some l.tab } }

/-- The handle after a `return (0)` inside the main loop of `LZWDecode`: the
locals are lost, the stores into the state and into the code table stay. -/
def LZWDecode_abort (tif : TIFF) (sp : LZWCodecState) (l : DecLocals) : TIFF :=
  { tif with tif_data := some { sp with
      dec_restart := l.dec_restart, dec_bitsleft := l.dec_bitsleft,
      dec_codep := l.dec_codep, dec_codetab := some l.tab } }

/-- What `LZWDecode` returns for the way its main loop has ended. -/
def LZWDecode_finish (tif : TIFF) (sp : LZWCodecState) :
    DecEnd → Option (Int × TIFF × (Int → Nat))
  | .stuck => none
  | .fail l => some (0, LZWDecode_abort tif sp l, l.out)
  | .done l => some (to_tmsize_t l.occ, LZWDecode_save tif sp l, l.out)

/-- `LZWDecode` after its `assert`s, on the state block `sp` with code table `tab`. -/
def LZWDecode_run (tif : TIFF) (sp : LZWCodecState) (tab : Int → code_t) (out : Int → Nat)
    (occ0 : Int) : Option (Int × TIFF × (Int → Nat)) :=
  match LZWDecode_restart sp tab out occ0 with
  | .stuck => none
  | .ret1 restart out1 =>
    some (1, { tif with tif_data := some { sp with dec_restart := restart } }, out1)
  | .go op occ out1 =>
    LZWDecode_finish tif sp
      (LZWDecode_loop tif.tif_rawdata occ.toNat (LZWDecode_load tif sp tab op occ out1))

/-- `LZWDecode(tif, op0, occ0)`: the returned number, the handle and the output
buffer after the call (`none`: the call does not return).  `out` is the
content of the buffer at `op0` before the call. -/
def LZWDecode (tif : TIFF) (out : Int → Nat) (occ0 : Int) :
    Option (Int × TIFF × (Int → Nat)) :=
  match tif.tif_data with
  | none => none
  | some sp =>
    match sp.dec_codetab with
    | none => none
    | some tab => LZWDecode_run tif sp tab out occ0

/-- The handle that `py_decode` builds for the input array. -/
def py_decode_handle (u : Uninit) (arr : List Nat) : TIFF :=
  { tif_data := some (TIFFInitLZW u)
    tif_rawdata := arr, tif_rawcp := 0, tif_rawdatasize := to_tmsize_t arr.length,
    tif_rawcc := to_tmsize_t arr.length }

/-- The length `dims[0]` of the result array of `py_decode`: `size` is parsed as a
C `int` into an `npy_intp` whose upper half stays 0. -/
def py_decode_dims (size : Int) : Int := if size < 0 then size + 2 ^ 32 else size

/-- The length of the array that `py_decode` returns: `dims[0] -= occ` when
`LZWDecode` has returned a positive `occ`. -/
def py_decode_len (dims0 occ : Int) : Int := if occ > 0 then dims0 - occ else dims0

/-- `py_decode(arr, size)`: the result array is allocated, and `LZWPreDecode` (its
return value is not looked at), `LZWDecode`, `LZWCleanup` run; a positive return
value of `LZWDecode` shortens the result. -/
def py_decode (u : Uninit) (arr : List Nat) (size : Int) : PyResult :=
  if size < -(2 ^ 31) ∨ size ≥ 2 ^ 31 then .null
  else
    PyResult.ofOption <|
      (LZWPreDecode u (py_decode_handle u arr)).bind fun r1 =>
      (LZWDecode r1.2 (fun j => u.result j.toNat) (to_tmsize_t (py_decode_dims size))).bind
        fun r2 =>
      (LZWCleanup r2.2.1).map fun _ =>
        (List.range (py_decode_len (py_decode_dims size) r2.1).toNat).map
          (fun (j : Nat) => r2.2.2 (j : Int))

end TifLzw

/-! ## Vocabulary of the LZW proofs: the code stream and its meaning -/

namespace TifLzw

/-- Big-endian value of a byte sequence. -/
def bytesVal (l : List Nat) : Nat := l.foldl (fun acc b => acc * 256 + b) 0

/-- Number of bits of a sequence of `(width, code)` pairs. -/
def bitLen (cs : List (Nat × Nat)) : Nat := cs.foldl (fun acc p => acc + p.1) 0

/-- Value of the MSB-first concatenation of a sequence of `(width, code)` pairs. -/
def streamVal (cs : List (Nat × Nat)) : Nat := cs.foldl (fun acc p => acc * 2 ^ p.1 + p.2) 0

/-- Every code of the sequence fits its width. -/
def CodesFit (cs : List (Nat × Nat)) : Prop := ∀ p ∈ cs, p.2 < 2 ^ p.1

/-- The byte sequence `out` is the MSB-first packing of the codes `cs`, padded
with fewer than 8 zero bits. -/
def Packs (out : List Nat) (cs : List (Nat × Nat)) : Prop :=
  IsBytes out ∧ CodesFit cs ∧
    ∃ pad, pad < 8 ∧ 8 * out.length = bitLen cs + pad ∧ bytesVal out = streamVal cs * 2 ^ pad

end TifLzw

namespace TifLzw

/-- The bit writer has emitted exactly the codes `cs`: the bytes flushed before
(`pre`) and stored in the raw buffer, followed by the `nextbits` pending bits of
`nextdata`, are the MSB-first concatenation of `cs`. -/
def PutInv (pre : List Nat) (s : PutState) (cs : List (Nat × Nat)) : Prop :=
  IsBytes (pre ++ s.op) ∧ s.nextbits < 8 ∧
    bytesVal (pre ++ s.op) * 2 ^ s.nextbits + s.nextdata % 2 ^ s.nextbits = streamVal cs ∧
    8 * (pre ++ s.op).length + s.nextbits = bitLen cs

end TifLzw

namespace TifLzw

/-- The string of code `p` when the strings of the codes `258, 259, ..` are `E`. -/
def codeStr (E : List (List Nat)) (p : Nat) : List Nat :=
  if p < 256 then [p] else E.getD (p - 258) []

/-- State of the reference decoder: the strings of the codes `258, 259, ..`, the
string of the previous code (`[]` right after a clear code), and the code width. -/
structure AState where
  dict : List (List Nat)
  prev : List Nat
  nbits : Nat

/-- The reference decoder right after a clear code. -/
def AState.cleared : AState := ⟨[], [], 9⟩

/-- One step of the reference decoder on the code `c` of width `n` (neither the
last code of the stream nor a code the decoder rejects): the next state and the
bytes the code stands for. -/
def astep (s : AState) (n c : Nat) : Option (AState × List Nat) :=
  if n ≠ s.nbits then none
  else if c = CODE_EOI then none
  else if c = CODE_CLEAR then (if s.prev = [] then none else some (AState.cleared, []))
  else if s.prev = [] then (if c < 256 then some (⟨[], [c], 9⟩, [c]) else none)
  else if CODE_FIRST + s.dict.length ≥ CSIZE then none
  else
    let str : List Nat :=
      if c < 256 then [c]
      else if c - 258 < s.dict.length then s.dict.getD (c - 258) []
      else if c - 258 = s.dict.length then s.prev ++ [s.prev.headD 0]
      else []
    if str = [] then none
    else
      let dict1 := s.dict ++ [s.prev ++ [str.headD 0]]
      some (⟨dict1, str,
        if CODE_FIRST + dict1.length > MAXCODE s.nbits - 1 then min (s.nbits + 1) BITS_MAX
        else s.nbits⟩, str)

/-- The reference decoder run over a sequence of codes. -/
def arun : AState → List (Nat × Nat) → Option (AState × List Nat)
  | s, [] => some (s, [])
  | s, (n, c) :: rest =>
    match astep s n c with
    | none => none
    | some r1 =>
      match arun r1.1 rest with
      | none => none
      | some r2 => some (r2.1, r1.2 ++ r2.2)

/-- The hash table holds sound entries only: an occupied slot stores the key of
a pair (prefix code, byte) whose string is the string of the stored code;
distinct occupied slots store distinct codes. -/
def HashInv (tab : hash_t) (E : List (List Nat)) : Prop :=
  (∀ h : Int, 0 ≤ h → h < HSIZE → tab.hash h ≥ 0 →
    ∃ p c : Nat, tab.hash h = ((c * 4096 + p : Nat) : Int) ∧ p < 4096 ∧ c < 256 ∧
      (p < 256 ∨ (258 ≤ p ∧ p < 258 + E.length)) ∧
      258 ≤ tab.code h ∧ tab.code h < 258 + E.length ∧
      E.getD (tab.code h - 258) [] = codeStr E p ++ [c]) ∧
  (∀ h1 h2 : Int, 0 ≤ h1 → h1 < HSIZE → 0 ≤ h2 → h2 < HSIZE →
    tab.hash h1 ≥ 0 → tab.hash h2 ≥ 0 → tab.code h1 = tab.code h2 → h1 = h2)

/-- One step of the secondary probe on the slot index. -/
def stepPos (disp h : Int) : Int := if h - disp < 0 then h - disp + HSIZE else h - disp

end TifLzw

namespace TifLzw

/-- State of the encoder between two input bytes, seen against the reference
decoder: after the bytes `done` the codes `(9, CODE_CLEAR) :: body` have been
emitted, the reference decoder turns `body` into `y` and ends in `s`, the current
prefix code `ent` stands for the rest of `done`, and `E` lists the strings of the
codes `258 .. free_ent - 1`. -/
structure EncGhost (l : EncLocals) (done : List Nat) (body : List (Nat × Nat))
    (E : List (List Nat)) (s : AState) (y : List Nat) : Prop where
  put : PutInv l.lst.flatten l.toPutState ((9, CODE_CLEAR) :: body)
  fit : CodesFit ((9, CODE_CLEAR) :: body)
  run : arun AState.cleared body = some (s, y)
  done_eq : done = y ++ codeStr E l.ent
  nbits_eq : l.nbits = s.nbits
  nbits_ge : 9 ≤ l.nbits
  nbits_le : l.nbits ≤ 12
  maxcode_eq : l.maxcode = 2 ^ l.nbits - 1
  free_eq : l.free_ent = 258 + E.length
  free_le : l.free_ent ≤ l.maxcode
  free_lt : l.free_ent < 4094
  ent_ok : l.ent < 256 ∨ (258 ≤ l.ent ∧ l.ent < l.free_ent)
  E_ne : ∀ e ∈ E, e ≠ []
  cleared : s.prev = [] → E = [] ∧ s.dict = [] ∧ s.nbits = 9
  pending : s.prev ≠ [] → E = s.dict ++ [s.prev ++ [(codeStr E l.ent).headD 0]]
  hash : HashInv l.hashtab E
  bits : bitLen ((9, CODE_CLEAR) :: body) ≤ 24 * done.length
  first : (l.lst.flatten ++ l.op).head? = some 128
  bytes : IsBytes done

end TifLzw

namespace TifLzw

/-- State of the encoder right after a new entry has been stored: as `EncGhost`,
but the code width has not yet followed the reference decoder and there is
room for one more code in the size bound. -/
structure EncMid (l : EncLocals) (done : List Nat) (body : List (Nat × Nat))
    (E : List (List Nat)) (s : AState) (y : List Nat) : Prop where
  put : PutInv l.lst.flatten l.toPutState ((9, CODE_CLEAR) :: body)
  fit : CodesFit ((9, CODE_CLEAR) :: body)
  run : arun AState.cleared body = some (s, y)
  done_eq : done = y ++ [l.ent]
  nbits_s : s.nbits = if l.free_ent > l.maxcode then l.nbits + 1 else l.nbits
  nbits_ge : 9 ≤ l.nbits
  nbits_le : l.nbits ≤ 12
  maxcode_eq : l.maxcode = 2 ^ l.nbits - 1
  free_eq : l.free_ent = 258 + E.length
  free_le : l.free_ent ≤ l.maxcode + 1
  free_lt : l.free_ent ≤ 4094
  ent_lt : l.ent < 256
  E_ne : ∀ e ∈ E, e ≠ []
  prev_ne : s.prev ≠ []
  pending : E = s.dict ++ [s.prev ++ [l.ent]]
  hash : HashInv l.hashtab E
  bits : bitLen ((9, CODE_CLEAR) :: body) + 12 ≤ 24 * done.length
  first : (l.lst.flatten ++ l.op).head? = some 128
  bytes : IsBytes done

end TifLzw

namespace TifLzw

/-- Bookkeeping of the encoder for the size of its output: `n` input bytes have
been read and `B` bits have been emitted. -/
structure EncSize (l : EncLocals) (n B : Nat) : Prop where
  free_inc : l.free_ent ≤ 258 + l.incount
  chk : 10000 ≤ l.checkpoint
  bits : B + l.incount ≤ 13 * n + 9

/-- The encoder state between two input bytes is sound after the bytes `done`. -/
def EncOK (l : EncLocals) (done : List Nat) : Prop :=
  ∃ body E s y, EncGhost l done body E s y ∧
    EncSize l done.length (bitLen ((9, CODE_CLEAR) :: body))

end TifLzw

namespace TifLzw

/-- The byte sequence `out` is an encoded strip that stands for the bytes `x`: the
MSB-first packing of a clear code, of codes that the reference decoder turns into
`x`, and of the end-of-information code at some width `n`. -/
def EncodedAs (out x : List Nat) : Prop :=
  ∃ body s n, Packs out ((9, CODE_CLEAR) :: body ++ [(n, CODE_EOI)]) ∧
    arun AState.cleared body = some (s, x) ∧ s.prev ≠ [] ∧ 9 ≤ n ∧ n ≤ 12 ∧
    bitLen ((9, CODE_CLEAR) :: body ++ [(n, CODE_EOI)]) ≤ 13 * x.length + 33

end TifLzw

namespace TifLzw

/-- The `n`-bit code at bit offset `pos` of the byte sequence `raw`, MSB first. -/
def codeAt (raw : List Nat) (pos n : Nat) : Nat :=
  (bytesVal raw / 2 ^ (8 * raw.length - pos - n)) % 2 ^ n

/-- The codes `cs` lie one after the other in `raw` from bit offset `pos`. -/
def StreamAt (raw : List Nat) : Nat → List (Nat × Nat) → Prop
  | _, [] => True
  | pos, (n, c) :: cs =>
    pos + n ≤ 8 * raw.length ∧ codeAt raw pos n = c ∧ StreamAt raw (pos + n) cs

/-- Entry `k` of the code table spells the string whose reverse is the given
list: its `value` is the last byte, its `next` spells the string without the
last byte and has a smaller index, its `length` and `firstchar` are those of
the string; a one-byte string is spelled by its root entry. -/
def SpellsRev (tab : Int → code_t) : Int → List Nat → Prop
  | _, [] => False
  | k, [v] => 0 ≤ k ∧ k < 256 ∧ (v : Int) = k ∧ tab k = ⟨none, 1, v, v⟩
  | k, v :: w :: r =>
    258 ≤ k ∧ k < CSIZE ∧ (tab k).value = v ∧ (tab k).length = r.length + 2 ∧
      (tab k).firstchar = (w :: r).getLastD 0 ∧
      ∃ p, (tab k).next = some p ∧ p < k ∧ SpellsRev tab p (w :: r)

/-- The output buffer `out` with the bytes `str` stored from offset `op`. -/
def blit (out : Int → Nat) (op : Int) (str : List Nat) : Int → Nat :=
  fun j => if op ≤ j ∧ j < op + str.length then str.getD (j - op).toNat 0 else out j

/-- The code table holds the strings `dict` of the codes `258, 259, ..`: the
roots are in place, every entry spells its string, the entries above are zero. -/
structure TR (tab : Int → code_t) (dict : List (List Nat)) : Prop where
  root : ∀ c : Nat, c < 256 → tab (c : Int) = ⟨none, 1, c, c⟩
  ent : ∀ i : Nat, i < dict.length →
    2 ≤ (dict.getD i []).length ∧ SpellsRev tab (258 + (i : Int)) (dict.getD i []).reverse
  zero : ∀ k : Int, 258 + (dict.length : Int) ≤ k → k < CSIZE → tab k = code_t.zero

/-- The bit reader of `LZWDecode` stands at bit offset `pos` of `raw`; `D` is the
number of bits of `raw` that `dec_bitsleft` does not count. -/
structure ReadInv (raw : List Nat) (D : Int) (l : DecLocals) (pos : Nat) : Prop where
  bp_le : l.bp ≤ raw.length
  bits : 8 * l.bp = pos + l.nextbits
  nb : l.nextbits < 8
  data : l.nextdata = bytesVal (raw.take l.bp) % 2 ^ 64
  left : l.dec_bitsleft + D = 8 * (raw.length : Int) - pos
  nbits_ge : 9 ≤ l.nbits
  nbits_le : l.nbits ≤ 12
  mask : l.nbitsmask = MAXCODE l.nbits

/-- The locals of `LZWDecode` at the head of its loop agree with the state `s` of
the reference decoder (`s.prev = []` stands for the start of the strip, where no
code has been read). -/
structure TabInv (l : DecLocals) (s : AState) : Prop where
  nbits_eq : l.nbits = s.nbits
  maxc : l.maxcodep = (MAXCODE l.nbits : Int) - 1
  free : l.free_entp = 258 + (s.dict.length : Int)
  free_le : 258 + s.dict.length ≤ CSIZE
  tab : TR l.tab s.dict
  good : ∀ i : Nat, i < s.dict.length → (s.dict.getD i []).length ≤ i + 2
  prev_len : s.prev.length ≤ s.dict.length + 1
  old : (s.prev = [] ∧ s.dict = [] ∧ l.oldcodep = some (-1)) ∨
    (s.prev ≠ [] ∧ ∃ o, l.oldcodep = some o ∧ o < l.free_entp ∧ SpellsRev l.tab o s.prev.reverse)

end TifLzw

namespace TifLzw

/-- The value of the first `n` bits of the byte sequence `out`, MSB first. -/
def leadingBits (out : List Nat) (n : Nat) : Nat := bytesVal out / 2 ^ (8 * out.length - n)

end TifLzw

namespace TifLzw

/-- One round of the loop of `LZWDecode` has taken the locals `l` to `l1`: the
reader stands at bit offset `pos1`, the table agrees with the state `s1` of the
reference decoder, and the bytes `str` have been stored at the output cursor. -/
structure Stepped (raw : List Nat) (D : Int) (l l1 : DecLocals) (pos1 : Nat) (s1 : AState)
    (str : List Nat) : Prop where
  read : ReadInv raw D l1 pos1
  tab : TabInv l1 s1
  prev : s1.prev = str
  ne : str ≠ []
  out : l1.out = blit l.out l.op str
  op : l1.op = l.op + str.length
  occ : l1.occ = l.occ - str.length
  restart : l1.dec_restart = l.dec_restart
  codep : l1.dec_codep = l.dec_codep

/-- One round of the loop of `LZWDecode` has left the loop from the locals `l`
with the string `str` of the code `c` stored in part: the first `l.occ` bytes
are in the output, the restart of the next call is set up. -/
structure Paused (raw : List Nat) (D : Int) (l l1 : DecLocals) (pos1 : Nat) (s1 : AState)
    (c : Nat) (str : List Nat) : Prop where
  read : ReadInv raw D l1 pos1
  tab : TabInv l1 s1
  prev : s1.prev = str
  long : l.occ < str.length
  spell : SpellsRev l1.tab (c : Int) str.reverse
  out : l1.out = blit l.out l.op (str.take l.occ.toNat)
  op : l1.op = l.op
  occ : l1.occ = 0
  restart : l1.dec_restart = l.occ
  codep : l1.dec_codep = some (c : Int)

end TifLzw

namespace TifLzw

/-- The locals `l1` are the locals `l` after one code has been read: only the
reader has moved. -/
structure ReadStep (l l1 : DecLocals) : Prop where
  op : l1.op = l.op
  occ : l1.occ = l.occ
  nbits : l1.nbits = l.nbits
  nbitsmask : l1.nbitsmask = l.nbitsmask
  oldcodep : l1.oldcodep = l.oldcodep
  free_entp : l1.free_entp = l.free_entp
  maxcodep : l1.maxcodep = l.maxcodep
  out : l1.out = l.out
  tab : l1.tab = l.tab
  dec_codep : l1.dec_codep = l.dec_codep
  dec_restart : l1.dec_restart = l.dec_restart
  dec_bitsleft : l1.dec_bitsleft = l.dec_bitsleft - (l.nbits : Int)

end TifLzw

namespace TifLzw

/-- The locals `l` are those at the head of some round of the loop
`while (cc > 0)` of `LZWEncode` that starts from the locals `l0`, whatever the
input bytes are. -/
inductive EncHead (limit : Int) (l0 : EncLocals) : EncLocals → Prop where
  | start : EncHead limit l0 l0
  | round (l l1 : EncLocals) (c : Nat) : EncHead limit l0 l → c < 256 →
      LZWEncode_step limit l c = some l1 → EncHead limit l0 l1

end TifLzw

/-! ## The older revision of `bittools.c` (`src/libtiff/src/bittools.c`): `getword` -/

namespace BittoolsOld

open Bittools

/-- Conversion to `char` (signed, 8 bits). -/
def toChar (x : Int) : Int := (x + 128) % 256 - 128

/-- `BITMASK(i,width)`: `(((char) 1) << ((i)%(width)))`, an `int` shifted by an
`int`, as the 64-bit pattern it has as an operand of an `npy_uint64`; `undef`
gives the result of a shift that C leaves undefined (a negative count, or a
count of 31 and more). -/
def BITMASK (undef : Int → Nat) (i width : Int) : Nat :=
  if 0 ≤ Int.tmod i width ∧ Int.tmod i width < 31 then 1 <<< (Int.tmod i width).toNat
  else undef (Int.tmod i width) % 2 ^ 64

/-- `DATA(data, i)`: the `char` at `DATAPTR(data, i)`, as the 64-bit pattern of
its promotion to `int`. -/
def DATA (buf : List Nat) (junk : Int → Nat) (i : Int) : Nat :=
  if peek buf junk (i >>> 3) < 128 then peek buf junk (i >>> 3)
  else peek buf junk (i >>> 3) + (2 ^ 64 - 256)

/-- `ARRGETBIT(arr, i)`: `(DATA(data, i) & BITMASK(i,8)) ? 1 : 0`. -/
def ARRGETBIT (buf : List Nat) (junk : Int → Nat) (undef : Int → Nat) (i : Int) : Nat :=
  if DATA buf junk i &&& BITMASK undef i 8 ≠ 0 then 1 else 0

/-- One round of the generic loop of `getword`, for the `char` counter `i`:
`if (ARRGETBIT(arr, i)) word |= BITMASK(i, width); else word &= ~BITMASK(i, width);`. -/
def getword_step (buf : List Nat) (junk : Int → Nat) (undef : Int → Nat) (width : Int)
    (word : Nat) (i : Int) : Nat :=
  if ARRGETBIT buf junk undef i ≠ 0 then (word ||| BITMASK undef i width) % 2 ^ 64
  else word &&& (2 ^ 64 - 1 - BITMASK undef i width)

/-- The loop `for (i=index; i<index+width; ++i)` of the generic path, from the
value `i` of the `char` counter; the comparison is made in `unsigned long`.
The counter takes every `char` value once at most before the comparison
fails, so 256 rounds are enough. -/
def getword_loop (buf : List Nat) (junk : Int → Nat) (undef : Int → Nat) (index : Nat)
    (width : Int) : Nat → Int → Nat → Nat
  | 0, _, word => word
  | f + 1, i, word =>
    if toULong i < (index + toULong width) % 2 ^ 64 then
      getword_loop buf junk undef index width f (toChar (i + 1))
        (getword_step buf junk undef width word i)
    else word

/-- `getword(array, index, width)` of the older revision: the arguments are read
with `PyLong_AsUnsignedLongMask`, `width` into a `char`; no range check is made;
`none` stands for the `return NULL` of a width above 64. -/
def getword (buf : List Nat) (junk : Int → Nat) (undef : Int → Nat) (index width : Int) :
    Option Nat :=
  if toChar width ≤ 32 then
    some (((load64 buf junk ((toULong index : Int) >>> 3) >>> (toULong index % 8)) % 2 ^ 32) &&&
      (if 0 < toChar width then (2 ^ 32 - 1) >>> (32 - toChar width).toNat
        else undef (32 - toChar width) % 2 ^ 32))
  else if toChar width ≤ 64 then
    some (getword_loop buf junk undef (toULong index) (toChar width) 256
      (toChar (toULong index)) 0)
  else none

end BittoolsOld

namespace TifLzw

/-- The locals `l1` that a call of `LZWDecode` leaves behind are ready for the
next call: the table agrees with a state `s1` of the reference decoder, the
codes `cs2` that follow at the reader's offset decode to `y2` and end in
`s_end`, and the bytes `rest` still to be delivered are the pending part of an
interrupted string (none when `dec_restart` is 0, else the string of `dec_codep`
without its first `dec_restart` bytes) followed by `y2`. -/
def Resume (raw : List Nat) (l1 : DecLocals) (s_end : AState) (rest : List Nat) : Prop :=
  ∃ pos1 s1 cs2 y2 pend, ReadInv raw 0 l1 pos1 ∧ TabInv l1 s1 ∧ s1.prev ≠ [] ∧
    StreamAt raw pos1 cs2 ∧ arun s1 cs2 = some (s_end, y2) ∧ rest = pend ++ y2 ∧
    ((pend = [] ∧ l1.dec_restart = 0) ∨
      (∃ (c : Nat) (str : List Nat), l1.dec_codep = some (c : Int) ∧
        SpellsRev l1.tab (c : Int) str.reverse ∧
        0 < l1.dec_restart ∧ l1.dec_restart < (str.length : Int) ∧
        pend = str.drop l1.dec_restart.toNat))

end TifLzw

namespace TifLzw

/-- The entries that a walk along `next` visits from the entry `k` until `NULL`
(`none`: the walk does not end within the given number of steps). -/
def chain (tab : Int → code_t) : Nat → Int → Option (List Int)
  | 0, _ => none
  | f + 1, k =>
    match (tab k).next with
    | none => some [k]
    | some k1 => (chain tab f k1).map (fun t => k :: t)

/-- The key `fcode = ((long)c << BITS_MAX) + ent` of the pair (prefix code `ent`,
byte `c`) in the loop body of `LZWEncode`. -/
def enc_fcode (c ent : Nat) : Int := ((c <<< BITS_MAX : Nat) : Int) + (ent : Int)

/-- The primary hash `h = (c << HSHIFT) ^ ent` of the pair (prefix code `ent`,
byte `c`) in the loop body of `LZWEncode`. -/
def enc_hash (c ent : Nat) : Int := (((c <<< HSHIFT) ^^^ ent : Nat) : Int)

/-- The pairs `K` (prefix code, byte) are those installed since the last table
clear, in the order of their codes `CODE_FIRST, CODE_FIRST + 1, ..`, on a run of
the loop of `LZWEncode` from the locals `l0` to the head of a round with the
locals `l`: a round whose probe hits installs nothing, a round whose probe
misses installs its pair, and a round that resets the table empties the list. -/
inductive EncLog (limit : Int) (l0 : EncLocals) : EncLocals → List (Nat × Nat) → Prop where
  | start : EncLog limit l0 l0 []
  | hit (l l1 : EncLocals) (K : List (Nat × Nat)) (c k : Nat) : EncLog limit l0 l K → c < 256 →
      probe l.hashtab (enc_fcode c l.ent) (enc_hash c l.ent) = .hit k →
      LZWEncode_step limit l c = some l1 → EncLog limit l0 l1 K
  | install (l l1 : EncLocals) (K : List (Nat × Nat)) (c : Nat) (h : Int) :
      EncLog limit l0 l K → c < 256 →
      probe l.hashtab (enc_fcode c l.ent) (enc_hash c l.ent) = .miss h →
      LZWEncode_step limit l c = some l1 → l1.free_ent = l.free_ent + 1 →
      EncLog limit l0 l1 (K ++ [(l.ent, c)])
  | clear (l l1 : EncLocals) (K : List (Nat × Nat)) (c : Nat) (h : Int) :
      EncLog limit l0 l K → c < 256 →
      probe l.hashtab (enc_fcode c l.ent) (enc_hash c l.ent) = .miss h →
      LZWEncode_step limit l c = some l1 → l1.free_ent = CODE_FIRST →
      EncLog limit l0 l1 []

/-- The hash table holds exactly the pairs `K`, the pair `K[i]` with the code
`CODE_FIRST + i`: a slot is empty (`hash = -1`) or holds such a pair, the probe
for an installed pair finds its code, the pairs are distinct, and no two
occupied slots hold the same code. -/
structure HashLog (tab : hash_t) (K : List (Nat × Nat)) : Prop where
  slot : ∀ h : Int, 0 ≤ h → h < HSIZE → tab.hash h = -1 ∨
    ∃ i, i < K.length ∧ tab.hash h = enc_fcode (K.getD i (0, 0)).2 (K.getD i (0, 0)).1 ∧
      tab.code h = CODE_FIRST + i
  found : ∀ i, i < K.length →
    probe tab (enc_fcode (K.getD i (0, 0)).2 (K.getD i (0, 0)).1)
      (enc_hash (K.getD i (0, 0)).2 (K.getD i (0, 0)).1) = .hit (CODE_FIRST + i)
  bound : ∀ i, i < K.length → (K.getD i (0, 0)).1 < 4096 ∧ (K.getD i (0, 0)).2 < 256
  nodup : K.Nodup
  inj : ∀ h1 h2 : Int, 0 ≤ h1 → h1 < HSIZE → 0 ≤ h2 → h2 < HSIZE →
    tab.hash h1 ≥ 0 → tab.hash h2 ≥ 0 → tab.code h1 = tab.code h2 → h1 = h2

/-- An input of 766 bytes in which every byte is a new string for the encoder:
no pair of adjacent bytes occurs twice (the byte at index `i` is `i`, `3 * i`,
`5 * i` modulo 256 in the first, the second and the third block of 256). -/
def widthInput : List Nat := (List.range 766).map (fun i => ((2 * (i / 256) + 1) * i) % 256)

/-- State of the encoder at the head of the round for the byte `j + 1` of an
input `x` whose rounds have all missed so far: `EncGhost`, with the strings
`E[i] = [x[i], x[i+1]]`, the prefix code `x[j]`, `j` codes emitted, and the code
width that `j` entries lead to (for fewer than 766 entries). -/
structure EncLit (l : EncLocals) (x : List Nat) (j : Nat) (body : List (Nat × Nat))
    (E : List (List Nat)) (s : AState) (y : List Nat) : Prop where
  ghost : EncGhost l (x.take (j + 1)) body E s y
  len : E.length = j
  ent : l.ent = x.getD j 0
  ents : ∀ i, i < j → E.getD i [] = [x.getD i 0, x.getD (i + 1) 0]
  inc : l.incount = j + 1
  chk : 10000 ≤ l.checkpoint
  width : l.nbits = if j ≤ 253 then 9 else 10
  blen : bitLen body = if j ≤ 254 then 9 * j else 10 * j - 254

/-- A handle whose state block holds a dictionary and a hash table, as after
`LZWSetupDecode` and `LZWSetupEncode` on zeroed memory. -/
def fullHandle : TIFF :=
  { tif_data := some { TIFFInitLZW zeroUninit with
      dec_codetab := some zeroUninit.codetab, enc_hashtab := some zeroUninit.hashtab }
    tif_rawdata := [], tif_rawdatasize := 0, tif_rawcp := 0, tif_rawcc := 0 }

/-- Freshly allocated memory that holds stale data, as left by an earlier use
of the heap: a state block with a 9-bit code width, two pending bits `11`, nine
bits left to read, a previous code and a free entry in range, and a dictionary
block whose entry 384 points to itself. -/
def staleUninit : Uninit :=
  { state :=
      { lzw_nbits := 9, lzw_maxcode := 0, lzw_free_ent := 0, lzw_nextdata := 3,
        lzw_nextbits := 2, dec_nbitsmask := 511, dec_restart := 0, dec_bitsleft := 9,
        dec_codep := none, dec_oldcodep := some 0, dec_free_entp := 258, dec_maxcodep := 510,
        dec_codetab := none, enc_oldcode := 0, enc_checkpoint := 0, enc_ratio := 0,
        enc_incount := 0, enc_outcount := 0, enc_rawlimit := 0, enc_hashtab := none }
    hashtab := { hash := fun _ => 0, code := fun _ => 0 }
    codetab := fun k => if k = 384 then ⟨some 384, 5, 0, 0⟩ else code_t.zero
    result := fun _ => 0 }

end TifLzw

/-! ## Bit/word accessor: basic facts -/

namespace Bittools

theorem toULong_of_nonneg (x : Int) (h0 : 0 ≤ x) (h1 : x < 2 ^ 64) : toULong x = x.toNat := by
  unfold toULong; omega

theorem toULong_of_neg (x : Int) (h0 : x < 0) (h1 : -(2 ^ 63) ≤ x) : 2 ^ 63 ≤ toULong x := by
  unfold toULong; omega

theorem BITS_length (buf : List Nat) (hlen : buf.length < 2 ^ 60) :
    BITS buf.length = 8 * buf.length := by
  unfold BITS CHAR_BITS_EXP
  rw [toULong_of_nonneg _ (by omega) (by omega), Nat.shiftLeft_eq]
  simp only [Int.toNat_ofNat]
  omega

theorem DATAPTR_ofNat (n : Nat) : DATAPTR (n : Int) = ((n / 8 : Nat) : Int) := by
  unfold DATAPTR CHAR_BITS_EXP
  rw [Int.shiftRight_eq_div_pow]; omega

theorem BITMASK_ofNat (n : Nat) : BITMASK (n : Int) CHAR_BITS = 2 ^ (n % 8) := by
  unfold BITMASK CHAR_BITS
  rw [Nat.one_shiftLeft]
  have h : ((n : Int) % 8).toNat = n % 8 := by omega
  rw [h]
  apply Nat.mod_eq_of_lt
  calc 2 ^ (n % 8) ≤ 2 ^ 8 := Nat.pow_le_pow_right (by norm_num) (by omega)
    _ < 2 ^ 64 := by norm_num

theorem BITMASK_lt (i w : Nat) (hi : i < w) (hw : w ≤ 64) :
    BITMASK (i : Int) (w : Int) = 2 ^ i := by
  unfold BITMASK
  rw [Nat.one_shiftLeft]
  have h : ((i : Int) % (w : Int)).toNat = i := by
    rw [Int.emod_eq_of_lt (by omega) (by omega)]; simp
  rw [h]
  apply Nat.mod_eq_of_lt
  exact Nat.pow_lt_pow_right (by norm_num) (by omega)

theorem peek_ofNat (buf : List Nat) (junk : Int → Nat) (n : Nat) (h : n < buf.length) :
    peek buf junk (n : Int) = buf.getD n 0 := by
  unfold peek
  rw [if_pos ⟨by omega, by omega⟩]
  simp

theorem peek_lt (buf : List Nat) (junk : Int → Nat) (hb : IsBytes buf) (off : Int) :
    peek buf junk off < 256 := by
  unfold peek
  split
  · rename_i h
    have hlt : off.toNat < buf.length := by omega
    rw [List.getD_eq_getElem?_getD, List.getElem?_eq_getElem hlt]
    exact hb _ (List.getElem_mem _)
  · exact Nat.mod_lt _ (by norm_num)

theorem and_two_pow_ne_zero (b k : Nat) : (b &&& 2 ^ k ≠ 0) ↔ b.testBit k = true := by
  rw [Nat.and_two_pow]
  cases b.testBit k <;> simp

theorem testBit_or_mod (b k j : Nat) (hj : j < 8) :
    ((b ||| 2 ^ k) % 256).testBit j = (b.testBit j || decide (k = j)) := by
  have h : (256 : Nat) = 2 ^ 8 := by norm_num
  rw [h, Nat.testBit_mod_two_pow, Nat.testBit_or, Nat.testBit_two_pow]
  simp [hj]

theorem testBit_andnot_mod (b k j : Nat) (hj : j < 8) (hk : k < 64) :
    ((b &&& (2 ^ 64 - 1 - 2 ^ k)) % 256).testBit j = (b.testBit j && !decide (k = j)) := by
  have h : (256 : Nat) = 2 ^ 8 := by norm_num
  have h2 : 2 ^ 64 - 1 - 2 ^ k = 2 ^ 64 - (2 ^ k + 1) := by omega
  have hlt : 2 ^ k < 2 ^ 64 := Nat.pow_lt_pow_right (by norm_num) hk
  rw [h, Nat.testBit_mod_two_pow, Nat.testBit_and, h2, Nat.testBit_two_pow_sub_succ hlt,
    Nat.testBit_two_pow]
  have hj64 : j < 64 := by omega
  simp [hj, hj64]

/-- Bit `j` of the array after a store of byte `b` at the byte of bit `i`. -/
theorem bitAt_poke (buf : List Nat) (i j b : Nat) (hi : i / 8 < buf.length) :
    bitAt (poke buf ((i / 8 : Nat) : Int) b) j =
      if j / 8 = i / 8 then b.testBit (j % 8) else bitAt buf j := by
  unfold bitAt poke
  rw [if_pos ⟨by omega, by omega⟩]
  simp only [Int.toNat_ofNat, List.getD_eq_getElem?_getD, List.getElem?_set]
  by_cases h : i / 8 = j / 8
  · rw [if_pos h, if_pos hi, if_pos h.symm]
    rfl
  · have h' : ¬ j / 8 = i / 8 := fun e => h e.symm
    rw [if_neg h, if_neg h']

theorem length_poke (buf : List Nat) (off : Int) (b : Nat) :
    (poke buf off b).length = buf.length := by
  unfold poke; split <;> simp

theorem poke_outside (buf : List Nat) (off : Int) (b : Nat)
    (h : ¬ (0 ≤ off ∧ off < buf.length)) : poke buf off b = buf := by
  unfold poke; rw [if_neg h]

theorem isBytes_poke (buf : List Nat) (off : Int) (b : Nat) (hb : IsBytes buf) (h : b < 256) :
    IsBytes (poke buf off b) := by
  unfold poke
  split
  · intro x hx
    rcases List.mem_or_eq_of_mem_set hx with h1 | h1
    · exact hb x h1
    · omega
  · exact hb

/-- Setting bit `i` (in range): bit `i` becomes 1, the others keep their value. -/
theorem bitAt_DATA_or (buf : List Nat) (junk : Int → Nat) (i j : Nat)
    (hi : i < 8 * buf.length) :
    bitAt (DATA_or buf junk i (BITMASK i CHAR_BITS)) j = (bitAt buf j || decide (i = j)) := by
  have hi8 : i / 8 < buf.length := by omega
  unfold DATA_or DATA
  rw [DATAPTR_ofNat, BITMASK_ofNat, bitAt_poke _ _ _ _ hi8, peek_ofNat _ _ _ hi8]
  by_cases h : j / 8 = i / 8
  · rw [if_pos h, testBit_or_mod _ _ _ (Nat.mod_lt _ (by norm_num))]
    unfold bitAt
    rw [h]
    congr 1
    apply decide_eq_decide.mpr
    constructor <;> intro h' <;> omega
  · rw [if_neg h]
    have : decide (i = j) = false := by
      apply decide_eq_false; intro e; apply h; rw [e]
    simp [this]

/-- Clearing bit `i` (in range): bit `i` becomes 0, the others keep their value. -/
theorem bitAt_DATA_andnot (buf : List Nat) (junk : Int → Nat) (i j : Nat)
    (hi : i < 8 * buf.length) :
    bitAt (DATA_andnot buf junk i (BITMASK i CHAR_BITS)) j =
      (bitAt buf j && !decide (i = j)) := by
  have hi8 : i / 8 < buf.length := by omega
  unfold DATA_andnot DATA
  rw [DATAPTR_ofNat, BITMASK_ofNat, bitAt_poke _ _ _ _ hi8, peek_ofNat _ _ _ hi8]
  by_cases h : j / 8 = i / 8
  · rw [if_pos h, testBit_andnot_mod _ _ _ (Nat.mod_lt _ (by norm_num)) (by omega)]
    unfold bitAt
    rw [h]
    congr 2
    apply decide_eq_decide.mpr
    constructor <;> intro h' <;> omega
  · rw [if_neg h]
    have : decide (i = j) = false := by
      apply decide_eq_false; intro e; apply h; rw [e]
    simp [this]

theorem length_DATA_or (buf : List Nat) (junk : Int → Nat) (i : Int) (m : Nat) :
    (DATA_or buf junk i m).length = buf.length := length_poke _ _ _

theorem length_DATA_andnot (buf : List Nat) (junk : Int → Nat) (i : Int) (m : Nat) :
    (DATA_andnot buf junk i m).length = buf.length := length_poke _ _ _

theorem isBytes_DATA_or (buf : List Nat) (junk : Int → Nat) (i : Int) (m : Nat)
    (hb : IsBytes buf) : IsBytes (DATA_or buf junk i m) :=
  isBytes_poke _ _ _ hb (Nat.mod_lt _ (by norm_num))

theorem isBytes_DATA_andnot (buf : List Nat) (junk : Int → Nat) (i : Int) (m : Nat)
    (hb : IsBytes buf) : IsBytes (DATA_andnot buf junk i m) :=
  isBytes_poke _ _ _ hb (Nat.mod_lt _ (by norm_num))

/-- `ARRGETBIT` of an in-range bit is that bit of the buffer. -/
theorem ARRGETBIT_eq (buf : List Nat) (junk : Int → Nat) (i : Nat) (hi : i < 8 * buf.length) :
    ARRGETBIT buf junk i = if bitAt buf i then 1 else 0 := by
  have hi8 : i / 8 < buf.length := by omega
  unfold ARRGETBIT DATA
  rw [DATAPTR_ofNat, BITMASK_ofNat, peek_ofNat _ _ _ hi8]
  unfold bitAt
  by_cases h : (buf.getD (i / 8) 0).testBit (i % 8) = true
  · rw [if_pos ((and_two_pow_ne_zero _ _).mpr h), if_pos h]
  · rw [if_neg (fun e => h ((and_two_pow_ne_zero _ _).mp e)), if_neg h]

end Bittools

namespace Bittools

theorem NBYTES_ofNat (n : Nat) : NBYTES (n : Int) = ((n / 8 : Nat) : Int) := by
  unfold NBYTES CHAR_BITS_EXP
  rw [Int.shiftRight_eq_div_pow]; omega

theorem BITMASK_of_lt (i : Nat) (w : Int) (hi : (i : Int) < w) (hw : w ≤ 64) :
    BITMASK (i : Int) w = 2 ^ i := by
  unfold BITMASK
  rw [Nat.one_shiftLeft]
  have h : ((i : Int) % w).toNat = i := by
    rw [Int.emod_eq_of_lt (by omega) hi]; simp
  rw [h]
  apply Nat.mod_eq_of_lt
  exact Nat.pow_lt_pow_right (by norm_num) (by omega)

/-- An in-range `getbit` succeeds with the addressed bit. -/
theorem getbit_ret (buf : List Nat) (junk : Int → Nat) (i : Nat)
    (hlen : buf.length < 2 ^ 60) (hi : i < 8 * buf.length) :
    (getbit buf junk i).ret = .ok (if bitAt buf i then 1 else 0) := by
  unfold getbit
  rw [BITS_length _ hlen, toULong_of_nonneg _ (by omega) (by omega)]
  simp only [Int.toNat_ofNat]
  rw [if_neg (by omega), ARRGETBIT_eq _ _ _ hi]

/-- An in-range `setbit` succeeds and stores by `DATA |= mask` or `DATA &= ~mask`. -/
theorem setbit_in_range (buf : List Nat) (junk : Int → Nat) (i bit : Nat)
    (hi : i < 8 * buf.length) :
    (setbit buf junk i bit 0).ret = .ok () ∧
    (setbit buf junk i bit 0).buf =
      if bit ≠ 0 then DATA_or buf junk i (BITMASK i CHAR_BITS)
      else DATA_andnot buf junk i (BITMASK i CHAR_BITS) := by
  unfold setbit
  rw [NBYTES_ofNat]
  have h : ¬ ((0 : Nat) = 0 ∧ ((i / 8 : Nat) : Int) ≥ (buf.length : Int)) := by
    intro h; have := h.2; omega
  rw [if_neg h]
  split <;> simp_all

theorem load64_shift (b m j : Nat) (hb : b < 256) :
    (b <<< (8 * j)).testBit m = (decide (m / 8 = j) && b.testBit (m % 8)) := by
  rw [Nat.testBit_shiftLeft]
  by_cases h1 : m / 8 = j
  · have h2 : m ≥ 8 * j := by omega
    have h3 : m - 8 * j = m % 8 := by omega
    simp [h1, h2, h3]
  · by_cases h2 : m ≥ 8 * j
    · have h3 : b.testBit (m - 8 * j) = false := by
        apply Nat.testBit_lt_two_pow
        calc b < 2 ^ 8 := by omega
          _ ≤ 2 ^ (m - 8 * j) := Nat.pow_le_pow_right (by norm_num) (by omega)
      simp [h1, h3]
    · simp [h1, h2]

/-- Bit `m < 64` of the 8-byte little-endian load at byte offset `p`. -/
theorem load64_testBit (buf : List Nat) (junk : Int → Nat) (hb : IsBytes buf) (p : Int)
    (m : Nat) (hm : m < 64) :
    (load64 buf junk p).testBit m = (peek buf junk (p + (m / 8 : Nat))).testBit (m % 8) := by
  have e : load64 buf junk p =
      (peek buf junk p <<< (8 * 0)) ||| (peek buf junk (p + 1) <<< (8 * 1))
        ||| (peek buf junk (p + 2) <<< (8 * 2)) ||| (peek buf junk (p + 3) <<< (8 * 3))
        ||| (peek buf junk (p + 4) <<< (8 * 4)) ||| (peek buf junk (p + 5) <<< (8 * 5))
        ||| (peek buf junk (p + 6) <<< (8 * 6)) ||| (peek buf junk (p + 7) <<< (8 * 7)) := rfl
  rw [e]
  simp only [Nat.testBit_or, load64_shift _ _ _ (peek_lt buf junk hb _)]
  have h8 : m / 8 < 8 := by omega
  interval_cases h : m / 8 <;> simp

/-- Value of the fast path of `getword`. -/
theorem getword_fast_testBit (buf : List Nat) (junk : Int → Nat) (hb : IsBytes buf)
    (i w k : Nat) (hw : w ≤ 32) (hr : i + w ≤ 8 * buf.length) :
    ((load64 buf junk ((i / 8 : Nat) : Int) >>> (i % 8)) % 2 ^ 32 &&&
        ((2 ^ 32 - 1) >>> (32 - w))).testBit k =
      (decide (k < w) && bitAt buf (i + k)) := by
  rw [Nat.testBit_and, Nat.testBit_mod_two_pow, Nat.testBit_shiftRight,
    Nat.testBit_shiftRight, Nat.testBit_two_pow_sub_one]
  by_cases hk : k < w
  · have h1 : i % 8 + k < 64 := by omega
    rw [load64_testBit _ _ hb _ _ h1]
    have h2 : (((i / 8 : Nat) : Int) + (((i % 8 + k) / 8 : Nat) : Int)) = (((i + k) / 8 : Nat) : Int) := by
      omega
    rw [h2, peek_ofNat _ _ _ (by omega)]
    have h3 : (i % 8 + k) % 8 = (i + k) % 8 := by omega
    rw [h3]
    unfold bitAt
    have h4 : k < 32 := by omega
    have h5 : 32 - w + k < 32 := by omega
    simp [hk, h4, h5]
  · have h5 : ¬ (32 - w + k < 32) := by omega
    simp [hk, h5]

/-- One round of the generic loop of `getword` extends the word by one bit. -/
theorem getword_step_testBit (buf : List Nat) (junk : Int → Nat) (i w : Nat) (hw : w ≤ 64)
    (hr : i + w ≤ 8 * buf.length) (n : Nat) (hn : n < w) (k word : Nat)
    (ih : word.testBit k = (decide (k < n) && bitAt buf (i + k))) :
    (getword_step buf junk i w word n).testBit k =
      (decide (k < n + 1) && bitAt buf (i + k)) := by
  unfold getword_step
  have hcast : (i : Int) + (n : Int) = ((i + n : Nat) : Int) := by omega
  rw [hcast, ARRGETBIT_eq _ _ _ (by omega), BITMASK_of_lt n w (by omega) (by omega)]
  by_cases hbit : bitAt buf (i + n) = true
  · rw [hbit]
    simp only [if_true, ne_eq, one_ne_zero, not_false_eq_true]
    rw [Nat.testBit_or, ih, Nat.testBit_two_pow]
    by_cases hkn : n = k
    · subst hkn; simp [hbit]
    · by_cases hlt : k < n
      · have : k < n + 1 := by omega
        simp [hlt, this, hkn]
      · have : ¬ k < n + 1 := by omega
        simp [hlt, this, hkn]
  · have hbit' : bitAt buf (i + n) = false := by simpa using hbit
    rw [hbit']
    simp only [Bool.false_eq_true, if_false, ne_eq, not_true_eq_false]
    have h2 : 2 ^ 64 - 1 - 2 ^ n = 2 ^ 64 - (2 ^ n + 1) := by omega
    have hlt64 : 2 ^ n < 2 ^ 64 := Nat.pow_lt_pow_right (by norm_num) (by omega)
    rw [Nat.testBit_and, ih, h2, Nat.testBit_two_pow_sub_succ hlt64, Nat.testBit_two_pow]
    by_cases hkn : n = k
    · subst hkn; simp [hbit']
    · by_cases hlt : k < n
      · have h3 : k < n + 1 := by omega
        have h4 : k < 64 := by omega
        simp [hlt, h3, h4, hkn]
      · have h3 : ¬ k < n + 1 := by omega
        simp [hlt, h3]

/-- Value of the generic loop of `getword` after `n` rounds. -/
theorem getword_loop_testBit (buf : List Nat) (junk : Int → Nat) (i w : Nat) (hw : w ≤ 64)
    (hr : i + w ≤ 8 * buf.length) (n : Nat) (hn : n ≤ w) (k : Nat) :
    ((List.range n).foldl (getword_step buf junk i w) 0).testBit k =
      (decide (k < n) && bitAt buf (i + k)) := by
  induction n with
  | zero => simp
  | succ n ih =>
    rw [List.range_succ, List.foldl_append]
    simp only [List.foldl_cons, List.foldl_nil]
    exact getword_step_testBit buf junk i w hw hr n (by omega) k _ (ih (by omega))

/-- Reference semantics of an accepted `getword`, whatever lies beyond the array. -/
theorem getword_value (buf : List Nat) (junk : Int → Nat) (i w : Nat) (hb : IsBytes buf)
    (hlen : buf.length < 2 ^ 60) (hw1 : 1 ≤ w) (hw : w ≤ 64) (hr : i + w ≤ 8 * buf.length) :
    ∃ val, (getword buf junk i w).ret = .ok (val, (i : Int) + w) ∧
      ∀ k, val.testBit k = (decide (k < w) && bitAt buf (i + k)) := by
  unfold getword
  rw [BITS_length _ hlen, toULong_of_nonneg _ (by omega) (by omega)]
  have hc : ¬ (((i : Int) + (w : Int) - 1).toNat ≥ 8 * buf.length ∨ (w : Int) < 0) := by
    intro h; rcases h with h | h <;> omega
  rw [if_neg hc]
  by_cases h32 : w ≤ 32
  · rw [if_pos (by omega)]
    refine ⟨_, rfl, ?_⟩
    intro k
    rw [DATAPTR_ofNat]
    have e1 : ((i : Int) % CHAR_BITS).toNat = i % 8 := by
      unfold CHAR_BITS
      omega
    have e2 : ((32 : Int) - (w : Int)).toNat % 32 = 32 - w := by omega
    rw [e1, e2]
    exact getword_fast_testBit buf junk hb i w k h32 hr
  · rw [if_neg (by omega), if_pos (by omega)]
    refine ⟨_, rfl, ?_⟩
    intro k
    simp only [Int.toNat_ofNat]
    exact getword_loop_testBit buf junk i w hw hr w (le_refl _) k

end Bittools

namespace Bittools

theorem GETBIT_eq (v n : Nat) (hn : n < 64) : GETBIT v n 64 = if v.testBit n then 1 else 0 := by
  unfold GETBIT
  rw [BITMASK_of_lt n 64 (by omega) (by omega)]
  by_cases h : v.testBit n = true
  · rw [if_pos ((and_two_pow_ne_zero _ _).mpr h), if_pos h]
  · rw [if_neg (fun e => h ((and_two_pow_ne_zero _ _).mp e)), if_neg h]

/-- One round of the loop of `setword` writes bit `n` of the value at bit `i + n`. -/
theorem setword_step_spec (junk : Int → Nat) (i v n : Nat) (buf : List Nat) (hn : n < 64)
    (hr : i + n < 8 * buf.length) :
    (setword_step junk i v buf n).length = buf.length ∧
    (IsBytes buf → IsBytes (setword_step junk i v buf n)) ∧
    ∀ j, bitAt (setword_step junk i v buf n) j =
      if j = i + n then v.testBit n else bitAt buf j := by
  unfold setword_step
  have hcast : (i : Int) + (n : Int) = ((i + n : Nat) : Int) := by omega
  rw [hcast, GETBIT_eq v n hn]
  by_cases hbit : v.testBit n = true
  · have hc : ((n : Int) < 64 ∧ (if v.testBit n = true then 1 else 0) ≠ 0) := by
      rw [if_pos hbit]; exact ⟨by omega, by norm_num⟩
    rw [if_pos hc]
    refine ⟨length_DATA_or _ _ _ _, isBytes_DATA_or _ _ _ _, ?_⟩
    intro j
    rw [bitAt_DATA_or _ _ _ _ hr]
    by_cases hj : j = i + n
    · subst hj; simp [hbit]
    · have : ¬ i + n = j := fun e => hj e.symm
      simp [hj, this]
  · have hc : ¬ ((n : Int) < 64 ∧ (if v.testBit n = true then 1 else 0) ≠ 0) := by
      rw [if_neg hbit]; simp
    rw [if_neg hc]
    refine ⟨length_DATA_andnot _ _ _ _, isBytes_DATA_andnot _ _ _ _, ?_⟩
    intro j
    rw [bitAt_DATA_andnot _ _ _ _ hr]
    by_cases hj : j = i + n
    · subst hj; simp [hbit]
    · have : ¬ i + n = j := fun e => hj e.symm
      simp [hj, this]

/-- The array after `n` rounds of the loop of `setword`. -/
theorem setword_loop_spec (junk : Int → Nat) (i v : Nat) (buf : List Nat) (n : Nat)
    (hn : n ≤ 64) (hr : i + n ≤ 8 * buf.length) :
    ((List.range n).foldl (setword_step junk i v) buf).length = buf.length ∧
    (IsBytes buf → IsBytes ((List.range n).foldl (setword_step junk i v) buf)) ∧
    ∀ j, bitAt ((List.range n).foldl (setword_step junk i v) buf) j =
      if i ≤ j ∧ j < i + n then v.testBit (j - i) else bitAt buf j := by
  induction n with
  | zero =>
    refine ⟨rfl, fun hb => hb, ?_⟩
    intro j
    rw [if_neg (by omega)]
    rfl
  | succ n ih =>
    rw [List.range_succ, List.foldl_append]
    simp only [List.foldl_cons, List.foldl_nil]
    obtain ⟨ih1, ih2, ih3⟩ := ih (by omega) (by omega)
    obtain ⟨s1, s2, s3⟩ := setword_step_spec junk i v n
      ((List.range n).foldl (setword_step junk i v) buf) (by omega) (by rw [ih1]; omega)
    refine ⟨by rw [s1, ih1], fun hb => s2 (ih2 hb), ?_⟩
    intro j
    rw [s3, ih3]
    by_cases hj : j = i + n
    · subst hj
      have h1 : i ≤ i + n ∧ i + n < i + (n + 1) := ⟨by omega, by omega⟩
      rw [if_pos rfl, if_pos h1]
      congr 1; omega
    · rw [if_neg hj]
      by_cases h2 : i ≤ j ∧ j < i + n
      · have h3 : i ≤ j ∧ j < i + (n + 1) := ⟨h2.1, by omega⟩
        rw [if_pos h2, if_pos h3]
      · have h3 : ¬ (i ≤ j ∧ j < i + (n + 1)) := by
          intro h; apply h2; exact ⟨h.1, by omega⟩
        rw [if_neg h2, if_neg h3]

/-- The range test shared by `getword` and `setword`, for a non-negative index. -/
theorem range_test_iff (buf : List Nat) (i : Nat) (w : Int) (hlen : buf.length < 2 ^ 60)
    (hi : (i : Int) < 2 ^ 63) (hw : -(2 ^ 63) ≤ w ∧ w < 2 ^ 63) :
    (toULong ((i : Int) + w - 1) ≥ BITS buf.length ∨ w < 0) ↔
      ((i : Int) + w > 8 * buf.length ∨ (i : Int) + w = 0 ∨ w < 0) := by
  rw [BITS_length _ hlen]
  by_cases h0 : 0 ≤ (i : Int) + w - 1
  · rw [toULong_of_nonneg _ h0 (by omega)]
    constructor
    · intro h; rcases h with h | h
      · left; omega
      · right; right; exact h
    · intro h; rcases h with h | h | h
      · left; omega
      · omega
      · right; exact h
  · have h1 : 2 ^ 63 - 1 ≤ toULong ((i : Int) + w - 1) := by
      unfold toULong; omega
    constructor
    · intro _; omega
    · intro _; left; omega

/-- An accepted `setword` succeeds and runs its loop over the whole width. -/
theorem setword_in_range (buf : List Nat) (junk : Int → Nat) (i w v : Nat)
    (hlen : buf.length < 2 ^ 60) (hw1 : 1 ≤ w) (hw : w ≤ 64) (hr : i + w ≤ 8 * buf.length) :
    (setword buf junk i w v 0).ret = .ok ((i : Int) + w) ∧
    (setword buf junk i w v 0).buf = (List.range w).foldl (setword_step junk i v) buf := by
  unfold setword
  have hc := (range_test_iff buf i w hlen (by omega) ⟨by omega, by omega⟩).not.mpr
    (by intro h; rcases h with h | h | h <;> omega)
  rw [if_neg (fun h => hc h.2), if_neg (fun h => by have := h.2; omega)]
  simp

end Bittools

/-! ## Bit/word accessor: the specified properties -/

namespace Bittools

/-- C4 (amended): word round trip.  For every byte buffer, every width `w` with
`1 ≤ w ≤ 64`, every index `i ≥ 0` with `i + w ≤ 8 * len(buf)` and every value `v`
(in particular every 64-bit value), `setword(buf, i, w, v)` succeeds and a
following `getword(buf, i, w)` returns `v & ((1 << w) - 1)` with post-index
`i + w`, whatever the memory beyond the array holds. -/
theorem getword_setword_roundtrip (buf : List Nat) (junk junk' : Int → Nat) (i w v : Nat)
    (hb : IsBytes buf) (hlen : buf.length < 2 ^ 60) (hw1 : 1 ≤ w) (hw : w ≤ 64)
    (hr : i + w ≤ 8 * buf.length) :
    (setword buf junk i w v 0).ret = .ok ((i : Int) + w) ∧
    (getword (setword buf junk i w v 0).buf junk' i w).ret =
      .ok (v &&& (2 ^ w - 1), (i : Int) + w) := by
  obtain ⟨hret, hbuf⟩ := setword_in_range buf junk i w v hlen hw1 hw hr
  obtain ⟨l1, l2, l3⟩ := setword_loop_spec junk i v buf w hw hr
  refine ⟨hret, ?_⟩
  rw [hbuf]
  obtain ⟨val, hval, hbits⟩ := getword_value _ junk' i w (l2 hb) (by rw [l1]; exact hlen)
    hw1 hw (by rw [l1]; exact hr)
  rw [hval]
  have : val = v &&& (2 ^ w - 1) := by
    apply Nat.eq_of_testBit_eq
    intro k
    rw [hbits, l3, Nat.testBit_and, Nat.testBit_two_pow_sub_one]
    by_cases hk : k < w
    · have h1 : i ≤ i + k ∧ i + k < i + w := ⟨by omega, by omega⟩
      have h2 : i + k - i = k := by omega
      rw [if_pos h1, h2]
      simp [hk]
    · simp [hk]
  rw [this]

/-- Witness of C4 on the 16-byte zero buffer: `setword(buf, 3, 17, 0x1ABCD)`. -/
theorem getword_setword_roundtrip_witness :
    IsBytes (List.replicate 16 0) ∧ (List.replicate 16 0).length < 2 ^ 60 ∧
    3 + 17 ≤ 8 * (List.replicate 16 0).length ∧
    (getword (setword (List.replicate 16 0) zeroMem (3 : Nat) (17 : Nat) 0x1ABCD 0).buf
      zeroMem (3 : Nat) (17 : Nat)).ret = .ok (0x1ABCD &&& (2 ^ 17 - 1), ((3 : Nat) : Int) + (17 : Nat)) :=
  ⟨by decide, by decide, by decide,
    (getword_setword_roundtrip (List.replicate 16 0) zeroMem zeroMem 3 17 0x1ABCD
      (by decide) (by decide) (by decide) (by decide) (by decide)).2⟩

/-- Counterexample to C4 as stated: at `i = 0`, `w = 0` both `setword` and
`getword` raise `IndexError` (the range test compares `index + width - 1 = -1`
as an unsigned number), so no value is returned. -/
theorem getword_setword_zero_width_fails :
    (setword [0] zeroMem 0 0 0 0).ret = .error .IndexError ∧
    (getword (setword [0] zeroMem 0 0 0 0).buf zeroMem 0 0).ret = .error .IndexError :=
  ⟨rfl, rfl⟩

/-- C5: bit round trip.  For every buffer, every bit index `i` with
`0 ≤ i < 8 * len(buf)` and every `v ∈ {0, 1}`, `setbit(buf, i, v)` succeeds and a
following `getbit(buf, i)` returns `v`; the bit that `getbit` reads is the bit of
byte `i >> 3` selected by the mask `1 << (i & 7)`. -/
theorem getbit_setbit_roundtrip (buf : List Nat) (junk junk' : Int → Nat) (i v : Nat)
    (hlen : buf.length < 2 ^ 60) (hi : i < 8 * buf.length) (hv : v = 0 ∨ v = 1) :
    (setbit buf junk i v 0).ret = .ok () ∧
    (getbit (setbit buf junk i v 0).buf junk' i).ret = .ok v ∧
    (getbit buf junk i).ret =
      .ok (if buf.getD (i >>> 3) 0 &&& (1 <<< (i &&& 7)) ≠ 0 then 1 else 0) := by
  obtain ⟨hret, hbuf⟩ := setbit_in_range buf junk i v hi
  refine ⟨hret, ?_, ?_⟩
  · rw [hbuf]
    rcases hv with hv | hv
    · subst hv
      rw [if_neg (by simp), getbit_ret _ _ _ (by rw [length_DATA_andnot]; exact hlen)
        (by rw [length_DATA_andnot]; exact hi), bitAt_DATA_andnot _ _ _ _ hi]
      simp
    · subst hv
      rw [if_pos (by simp), getbit_ret _ _ _ (by rw [length_DATA_or]; exact hlen)
        (by rw [length_DATA_or]; exact hi), bitAt_DATA_or _ _ _ _ hi]
      simp
  · rw [getbit_ret _ _ _ hlen hi]
    have e1 : i >>> 3 = i / 8 := by rw [Nat.shiftRight_eq_div_pow]
    have e2 : i &&& 7 = i % 8 := Nat.and_pow_two_sub_one_eq_mod i 3
    rw [e1, e2, Nat.one_shiftLeft]
    unfold bitAt
    by_cases h : (buf.getD (i / 8) 0).testBit (i % 8) = true
    · rw [if_pos h, if_pos ((and_two_pow_ne_zero _ _).mpr h)]
    · rw [if_neg h, if_neg (fun e => h ((and_two_pow_ne_zero _ _).mp e))]

/-- Witness of C5: setting bit 3 of the one-byte buffer `[0xA5]`. -/
theorem getbit_setbit_roundtrip_witness :
    [0xA5].length < 2 ^ 60 ∧ 3 < 8 * [0xA5].length ∧
    (getbit (setbit [0xA5] zeroMem (3 : Nat) 1 0).buf zeroMem (3 : Nat)).ret = .ok 1 :=
  ⟨by decide, by decide,
    (getbit_setbit_roundtrip [0xA5] zeroMem zeroMem 3 1 (by decide) (by decide)
      (Or.inr rfl)).2.1⟩

/-- C6: frame of the writers.  An in-range `setbit(buf, i, v)` leaves the length of
the buffer and every bit `j ≠ i` unchanged; an in-range `setword(buf, k, w, v)`
(`k + w ≤ 8 * len(buf)`) leaves the length of the buffer and every bit outside
`[k, k + w)` unchanged. -/
theorem writers_frame (buf : List Nat) (junk : Int → Nat) (i bit k w v : Nat)
    (hi : i < 8 * buf.length) (hk : k + w ≤ 8 * buf.length) :
    ((setbit buf junk i bit 0).buf.length = buf.length ∧
      ∀ j, j ≠ i → bitAt (setbit buf junk i bit 0).buf j = bitAt buf j) ∧
    ((setword buf junk k w v 0).buf.length = buf.length ∧
      ∀ j, (j < k ∨ k + w ≤ j) → bitAt (setword buf junk k w v 0).buf j = bitAt buf j) := by
  constructor
  · obtain ⟨_, hbuf⟩ := setbit_in_range buf junk i bit hi
    rw [hbuf]
    split
    · refine ⟨length_DATA_or _ _ _ _, ?_⟩
      intro j hj
      rw [bitAt_DATA_or _ _ _ _ hi]
      have : ¬ i = j := fun e => hj e.symm
      simp [this]
    · refine ⟨length_DATA_andnot _ _ _ _, ?_⟩
      intro j hj
      rw [bitAt_DATA_andnot _ _ _ _ hi]
      have : ¬ i = j := fun e => hj e.symm
      simp [this]
  · unfold setword
    split
    · exact ⟨rfl, fun _ _ => rfl⟩
    · split
      · exact ⟨rfl, fun _ _ => rfl⟩
      · rename_i h1 h2
        have hw : w ≤ 64 := by
          by_contra hc
          exact h2 ⟨rfl, by omega⟩
        simp only [Int.toNat_ofNat]
        obtain ⟨l1, _, l3⟩ := setword_loop_spec junk k v buf w hw hk
        refine ⟨l1, ?_⟩
        intro j hj
        rw [l3, if_neg (by omega)]

/-- Witness of C6 on the two-byte buffer `[0xFF, 0x00]`. -/
theorem writers_frame_witness :
    5 < 8 * [0xFF, 0x00].length ∧
    3 + 9 ≤ 8 * [0xFF, 0x00].length ∧
    (∀ j, j ≠ 5 → bitAt (setbit [0xFF, 0x00] zeroMem (5 : Nat) 0 0).buf j
      = bitAt [0xFF, 0x00] j) ∧
    (∀ j, (j < 3 ∨ 3 + 9 ≤ j) →
      bitAt (setword [0xFF, 0x00] zeroMem (3 : Nat) (9 : Nat) 0x155 0).buf j
        = bitAt [0xFF, 0x00] j) :=
  ⟨by decide, by decide,
    (writers_frame [0xFF, 0x00] zeroMem 5 0 3 9 0x155 (by decide) (by decide)).1.2,
    (writers_frame [0xFF, 0x00] zeroMem 5 0 3 9 0x155 (by decide) (by decide)).2.2⟩

/-- C7: reference semantics of `getword`.  For every byte buffer with at least 8
bytes available from byte `i >> 3`, every `w` with `1 ≤ w ≤ 64` and every `i ≥ 0`
with `i + w ≤ 8 * len(buf)`, `getword(buf, i, w)` returns `(value, i + w)` where
bit `k` of `value` is buffer bit `i + k` for `k < w` and is 0 for `k ≥ w`, on the
fast path (`w ≤ 32`) and on the generic path alike. -/
theorem getword_reference (buf : List Nat) (junk : Int → Nat) (i w : Nat) (hb : IsBytes buf)
    (hlen : buf.length < 2 ^ 60) (hw1 : 1 ≤ w) (hw : w ≤ 64) (hr : i + w ≤ 8 * buf.length)
    (_h8 : i / 8 + 8 ≤ buf.length) :
    ∃ val, (getword buf junk i w).ret = .ok (val, (i : Int) + w) ∧
      (∀ k, k < w → val.testBit k = bitAt buf (i + k)) ∧
      (∀ k, w ≤ k → val.testBit k = false) := by
  obtain ⟨val, hval, hbits⟩ := getword_value buf junk i w hb hlen hw1 hw hr
  refine ⟨val, hval, ?_, ?_⟩
  · intro k hk; rw [hbits]; simp [hk]
  · intro k hk; rw [hbits]
    have : ¬ k < w := by omega
    simp [this]

/-- Witness of C7: a 12-bit read at bit 4 of a 9-byte buffer. -/
theorem getword_reference_witness :
    IsBytes [0xAB, 0xCD, 0xEF, 1, 2, 3, 4, 5, 6] ∧
    4 / 8 + 8 ≤ [0xAB, 0xCD, 0xEF, 1, 2, 3, 4, 5, 6].length ∧
    ∃ val, (getword [0xAB, 0xCD, 0xEF, 1, 2, 3, 4, 5, 6] zeroMem (4 : Nat) (12 : Nat)).ret
        = .ok (val, ((4 : Nat) : Int) + (12 : Nat)) ∧
      (∀ k, k < 12 → val.testBit k = bitAt [0xAB, 0xCD, 0xEF, 1, 2, 3, 4, 5, 6] (4 + k)) ∧
      (∀ k, 12 ≤ k → val.testBit k = false) :=
  ⟨by decide, by decide,
    getword_reference [0xAB, 0xCD, 0xEF, 1, 2, 3, 4, 5, 6] zeroMem 4 12 (by decide)
      (by decide) (by decide) (by decide) (by decide) (by decide)⟩

end Bittools

namespace Bittools

/-- The three outcomes of `getword` at a non-negative index. -/
theorem getword_outcome (buf : List Nat) (junk : Int → Nat) (i : Nat) (w : Int)
    (hlen : buf.length < 2 ^ 60) (hi : (i : Int) < 2 ^ 63) (hw : -(2 ^ 63) ≤ w ∧ w < 2 ^ 63) :
    (((i : Int) + w > 8 * buf.length ∨ (i : Int) + w = 0 ∨ w < 0) →
      (getword buf junk i w).ret = .error .IndexError) ∧
    (¬ ((i : Int) + w > 8 * buf.length ∨ (i : Int) + w = 0 ∨ w < 0) → w ≤ 64 →
      ∃ r, (getword buf junk i w).ret = .ok r) ∧
    (¬ ((i : Int) + w > 8 * buf.length ∨ (i : Int) + w = 0 ∨ w < 0) → 64 < w →
      (getword buf junk i w).ret = .error .ValueError) := by
  have ht := range_test_iff buf i w hlen hi hw
  refine ⟨?_, ?_, ?_⟩
  · intro h
    unfold getword
    rw [if_pos (ht.mpr h)]
  · intro h h64
    unfold getword
    rw [if_neg (ht.not.mpr h)]
    by_cases h32 : w ≤ 32
    · rw [if_pos h32]; exact ⟨_, rfl⟩
    · rw [if_neg h32, if_pos h64]; exact ⟨_, rfl⟩
  · intro h h64
    unfold getword
    rw [if_neg (ht.not.mpr h), if_neg (by omega), if_neg (by omega)]

/-- The three outcomes of `setword` (with `opt = 0`) at a non-negative index. -/
theorem setword_outcome (buf : List Nat) (junk : Int → Nat) (i : Nat) (w : Int) (v : Nat)
    (hlen : buf.length < 2 ^ 60) (hi : (i : Int) < 2 ^ 63) (hw : -(2 ^ 63) ≤ w ∧ w < 2 ^ 63) :
    (((i : Int) + w > 8 * buf.length ∨ (i : Int) + w = 0 ∨ w < 0) →
      (setword buf junk i w v 0).ret = .error .IndexError ∧
      (setword buf junk i w v 0).buf = buf) ∧
    (¬ ((i : Int) + w > 8 * buf.length ∨ (i : Int) + w = 0 ∨ w < 0) → w ≤ 64 →
      ∃ r, (setword buf junk i w v 0).ret = .ok r) ∧
    (¬ ((i : Int) + w > 8 * buf.length ∨ (i : Int) + w = 0 ∨ w < 0) → 64 < w →
      (setword buf junk i w v 0).ret = .error .ValueError ∧
      (setword buf junk i w v 0).buf = buf) := by
  have ht := range_test_iff buf i w hlen hi hw
  refine ⟨?_, ?_, ?_⟩
  · intro h
    unfold setword
    rw [if_pos ⟨rfl, ht.mpr h⟩]
    exact ⟨rfl, rfl⟩
  · intro h h64
    unfold setword
    rw [if_neg (fun hc => ht.not.mpr h hc.2), if_neg (fun hc => by have := hc.2; omega)]
    exact ⟨_, rfl⟩
  · intro h h64
    unfold setword
    rw [if_neg (fun hc => ht.not.mpr h hc.2), if_pos ⟨rfl, h64⟩]
    exact ⟨rfl, rfl⟩

/-- C8 (amended): range and width checking of the word accessors.  For every buffer
and every index `i ≥ 0`, `getword(buf, i, w)` and `setword(buf, i, w, v)` succeed
exactly when `0 ≤ w ≤ 64`, `i + w ≤ 8 * len(buf)` and `i + w ≥ 1` (so `w = 0`
succeeds at every `1 ≤ i ≤ 8 * len(buf)` but not at `i = 0`); they fail with
`IndexError` (out of range) when `i + w > 8 * len(buf)`, when `w < 0` and when
`i + w = 0`, and with `ValueError` (bad width) when `w > 64` and
`i + w ≤ 8 * len(buf)`; a failing `setword` leaves the buffer unchanged. -/
theorem word_range_check (buf : List Nat) (junk : Int → Nat) (i : Nat) (w : Int) (v : Nat)
    (hlen : buf.length < 2 ^ 60) (hi : (i : Int) < 2 ^ 63) (hw : -(2 ^ 63) ≤ w ∧ w < 2 ^ 63) :
    (((∃ r, (getword buf junk i w).ret = .ok r) ↔
        (0 ≤ w ∧ w ≤ 64 ∧ (i : Int) + w ≤ 8 * buf.length ∧ 1 ≤ (i : Int) + w)) ∧
      ((∃ r, (setword buf junk i w v 0).ret = .ok r) ↔
        (0 ≤ w ∧ w ≤ 64 ∧ (i : Int) + w ≤ 8 * buf.length ∧ 1 ≤ (i : Int) + w))) ∧
    (((i : Int) + w > 8 * buf.length ∨ (i : Int) + w = 0 ∨ w < 0) →
      (getword buf junk i w).ret = .error .IndexError ∧
      (setword buf junk i w v 0).ret = .error .IndexError) ∧
    ((w > 64 ∧ (i : Int) + w ≤ 8 * buf.length) →
      (getword buf junk i w).ret = .error .ValueError ∧
      (setword buf junk i w v 0).ret = .error .ValueError) ∧
    ((∀ r, (setword buf junk i w v 0).ret ≠ .ok r) → (setword buf junk i w v 0).buf = buf) := by
  obtain ⟨g1, g2, g3⟩ := getword_outcome buf junk i w hlen hi hw
  obtain ⟨s1, s2, s3⟩ := setword_outcome buf junk i w v hlen hi hw
  refine ⟨⟨⟨?_, ?_⟩, ⟨?_, ?_⟩⟩, ?_, ?_, ?_⟩
  · rintro ⟨r, hr⟩
    by_cases hR : ((i : Int) + w > 8 * buf.length ∨ (i : Int) + w = 0 ∨ w < 0)
    · rw [g1 hR] at hr; cases hr
    · by_cases h64 : w ≤ 64
      · omega
      · rw [g3 hR (by omega)] at hr; cases hr
  · intro h
    exact g2 (by omega) h.2.1
  · rintro ⟨r, hr⟩
    by_cases hR : ((i : Int) + w > 8 * buf.length ∨ (i : Int) + w = 0 ∨ w < 0)
    · rw [(s1 hR).1] at hr; cases hr
    · by_cases h64 : w ≤ 64
      · omega
      · rw [(s3 hR (by omega)).1] at hr; cases hr
  · intro h
    exact s2 (by omega) h.2.1
  · intro hR
    exact ⟨g1 hR, (s1 hR).1⟩
  · intro h
    exact ⟨g3 (by omega) h.1, (s3 (by omega) h.1).1⟩
  · intro hfail
    by_cases hR : ((i : Int) + w > 8 * buf.length ∨ (i : Int) + w = 0 ∨ w < 0)
    · exact (s1 hR).2
    · by_cases h64 : w ≤ 64
      · obtain ⟨r, hr⟩ := s2 hR h64
        exact absurd hr (hfail r)
      · exact (s3 hR (by omega)).2

/-- Witness of C8: a 65-bit word at bit 0 of a 16-byte buffer has a bad width. -/
theorem word_range_check_witness :
    (List.replicate 16 0).length < 2 ^ 60 ∧ ((0 : Nat) : Int) < 2 ^ 63 ∧
    (-(2 ^ 63) ≤ (65 : Int) ∧ (65 : Int) < 2 ^ 63) ∧
    (((65 : Int) > 64 ∧ ((0 : Nat) : Int) + 65 ≤ 8 * (List.replicate 16 0).length) →
      (getword (List.replicate 16 0) zeroMem (0 : Nat) 65).ret = .error .ValueError ∧
      (setword (List.replicate 16 0) zeroMem (0 : Nat) 65 1 0).ret = .error .ValueError) :=
  ⟨by decide, by decide, by decide,
    (word_range_check (List.replicate 16 0) zeroMem 0 65 1 (by decide) (by decide)
      (by decide)).2.2.1⟩

/-- Counterexample to C8 as stated: `w = 0` at `i = 0` lies within the buffer
(`0 ≤ w ≤ 64`, `i + w ≤ 8 * len(buf)`), yet both accessors raise `IndexError`. -/
theorem zero_width_at_zero_rejected :
    (0 : Int) + 0 ≤ 8 * ([0xAB] : List Nat).length ∧
    (getword [0xAB] zeroMem 0 0).ret = .error .IndexError ∧
    (setword [0xAB] zeroMem 0 0 0 0).ret = .error .IndexError :=
  ⟨by decide, rfl, rfl⟩

/-- C9 (failing inputs): `getbit` rejects the index `-1`, but `setbit([0], -1, 1)`
passes its range test (a signed comparison of `-1 >> 3` with the byte count) and
stores at byte offset `-1`; `getword([0xAB], -3, 8)` and `setword([0], -3, 8, 0xFF)`
pass the range test too (it looks at `index + width - 1 = 4` only), access the byte
at offset `-1`, and `setword` writes bits 0..4 of the array.  With a zero byte in
front of the array `getword` loads `0xAB00`, shifts it by `-3 & 7 = 5` and returns
the word 88 with the post-index 5; the mask of `setbit` at index `-1` is 128. -/
theorem negative_index_not_rejected :
    (getbit [0] zeroMem (-1)).ret = .error .IndexError ∧
    (setbit [0] zeroMem (-1) 1 0).ret = .ok () ∧
    (setbit [0] zeroMem (-1) 1 0).touched = [-1] ∧
    BITMASK (-1) CHAR_BITS = 128 ∧
    (getword [0xAB] zeroMem (-3) 8).ret = .ok (88, 5) ∧
    (getword [0xAB] zeroMem (-3) 8).touched = [-1, 0, 1, 2, 3, 4, 5, 6] ∧
    (setword [0] zeroMem (-3) 8 0xFF 0).ret = .ok 5 ∧
    (setword [0] zeroMem (-3) 8 0xFF 0).buf = [0x1F] ∧
    (setword [0] zeroMem (-3) 8 0xFF 0).touched = [-1, -1, -1, 0, 0, 0, 0, 0] :=
  ⟨rfl, rfl, rfl, by decide, rfl, rfl, rfl, rfl, rfl⟩

/-- C10 (failing input): on the 3-byte buffer `[0xAB, 0xCD, 0xEF]` the accepted call
`getword(buf, 4, 12)` takes the fast path and loads the 8 bytes at offsets 0..7,
five of them beyond the end of the buffer. -/
theorem getword_fast_path_overreads :
    ([0xAB, 0xCD, 0xEF] : List Nat).length = 3 ∧
    (getword [0xAB, 0xCD, 0xEF] zeroMem 4 12).ret = .ok (0xCDA, 16) ∧
    (getword [0xAB, 0xCD, 0xEF] zeroMem 4 12).touched = [0, 1, 2, 3, 4, 5, 6, 7] :=
  ⟨rfl, rfl, rfl⟩

end Bittools

namespace TifLzw

theorem foldl_bytes (l : List Nat) (init : Nat) :
    l.foldl (fun acc b => acc * 256 + b) init = init * 256 ^ l.length + bytesVal l := by
  induction l generalizing init with
  | nil => simp [bytesVal]
  | cons b l ih =>
    simp only [List.foldl_cons, List.length_cons, bytesVal]
    rw [ih, ih (0 * 256 + b)]
    ring

theorem bytesVal_append (a b : List Nat) :
    bytesVal (a ++ b) = bytesVal a * 256 ^ b.length + bytesVal b := by
  unfold bytesVal
  rw [List.foldl_append, foldl_bytes]
  rfl

theorem bytesVal_snoc (a : List Nat) (b : Nat) : bytesVal (a ++ [b]) = bytesVal a * 256 + b := by
  rw [bytesVal_append]
  simp [bytesVal]

theorem bytesVal_lt (l : List Nat) (h : IsBytes l) : bytesVal l < 256 ^ l.length := by
  induction l using List.reverseRecOn with
  | nil => simp [bytesVal]
  | append_singleton l b ih =>
    rw [bytesVal_snoc, List.length_append, List.length_singleton, pow_succ]
    have hb : b < 256 := h b (by simp)
    have hl := ih (fun x hx => h x (by simp [hx]))
    nlinarith

theorem foldl_bitLen (l : List (Nat × Nat)) (init : Nat) :
    l.foldl (fun acc p => acc + p.1) init = init + bitLen l := by
  induction l generalizing init with
  | nil => simp [bitLen]
  | cons b l ih =>
    simp only [List.foldl_cons, bitLen]
    rw [ih, ih (0 + b.1)]
    omega

theorem bitLen_append (a b : List (Nat × Nat)) : bitLen (a ++ b) = bitLen a + bitLen b := by
  unfold bitLen
  rw [List.foldl_append, foldl_bitLen]
  rfl

theorem bitLen_cons (p : Nat × Nat) (b : List (Nat × Nat)) : bitLen (p :: b) = p.1 + bitLen b := by
  have := bitLen_append [p] b
  simpa [bitLen] using this

theorem bitLen_nil : bitLen [] = 0 := rfl

theorem foldl_stream (l : List (Nat × Nat)) (init : Nat) :
    l.foldl (fun acc p => acc * 2 ^ p.1 + p.2) init = init * 2 ^ bitLen l + streamVal l := by
  induction l generalizing init with
  | nil => simp [bitLen, streamVal]
  | cons b l ih =>
    simp only [List.foldl_cons, streamVal]
    rw [ih, ih (0 * 2 ^ b.1 + b.2), bitLen_cons, pow_add]
    ring

theorem streamVal_append (a b : List (Nat × Nat)) :
    streamVal (a ++ b) = streamVal a * 2 ^ bitLen b + streamVal b := by
  unfold streamVal
  rw [List.foldl_append, foldl_stream]
  rfl

theorem streamVal_snoc (a : List (Nat × Nat)) (n c : Nat) :
    streamVal (a ++ [(n, c)]) = streamVal a * 2 ^ n + c := by
  rw [streamVal_append]
  simp [streamVal, bitLen]

theorem streamVal_nil : streamVal [] = 0 := rfl

theorem streamVal_lt (l : List (Nat × Nat)) (h : CodesFit l) : streamVal l < 2 ^ bitLen l := by
  induction l using List.reverseRecOn with
  | nil => simp [streamVal, bitLen]
  | append_singleton l b ih =>
    obtain ⟨n, c⟩ := b
    rw [streamVal_snoc, bitLen_append, pow_add]
    have hb : c < 2 ^ n := h (n, c) (by simp)
    have hl := ih (fun x hx => h x (by simp [hx]))
    have e : bitLen [(n, c)] = n := by simp [bitLen]
    rw [e]
    have h1 : (streamVal l + 1) * 2 ^ n ≤ 2 ^ bitLen l * 2 ^ n := Nat.mul_le_mul_right _ hl
    nlinarith

theorem codesFit_append (a b : List (Nat × Nat)) :
    CodesFit (a ++ b) ↔ CodesFit a ∧ CodesFit b := by
  unfold CodesFit
  simp only [List.mem_append]
  constructor
  · intro h; exact ⟨fun p hp => h p (Or.inl hp), fun p hp => h p (Or.inr hp)⟩
  · rintro ⟨h1, h2⟩ p (hp | hp)
    · exact h1 p hp
    · exact h2 p hp

end TifLzw

namespace TifLzw

theorem shiftLeft_or (a n c : Nat) (hc : c < 2 ^ n) : (a <<< n) ||| c = a * 2 ^ n + c := by
  rw [Nat.shiftLeft_eq, Nat.mul_comm, Nat.mul_add_lt_is_or hc]

theorem absorb_code (D b n c : Nat) (hc : c < 2 ^ n) (hb : b + n ≤ 64) :
    (((D <<< n) ||| c) % 2 ^ 64) % 2 ^ (b + n) = (D % 2 ^ b) * 2 ^ n + c := by
  rw [shiftLeft_or _ _ _ hc, Nat.mod_mod_of_dvd _ (pow_dvd_pow 2 hb)]
  have h1 : D * 2 ^ n + c = (D % 2 ^ b) * 2 ^ n + c + 2 ^ (b + n) * (D / 2 ^ b) := by
    have := Nat.div_add_mod D (2 ^ b)
    rw [pow_add]
    nlinarith
  rw [h1, Nat.add_mul_mod_self_left]
  apply Nat.mod_eq_of_lt
  have h2 : D % 2 ^ b < 2 ^ b := Nat.mod_lt _ (by positivity)
  have h3 : (D % 2 ^ b + 1) * 2 ^ n ≤ 2 ^ b * 2 ^ n := Nat.mul_le_mul_right _ h2
  rw [pow_add]
  nlinarith

theorem top_byte (D m : Nat) (hm : 8 ≤ m) :
    (D >>> (m - 8)) % 256 * 2 ^ (m - 8) + D % 2 ^ (m - 8) = D % 2 ^ m := by
  have e : 2 ^ m = 2 ^ (m - 8) * 256 := by
    rw [show (256 : Nat) = 2 ^ 8 by norm_num, ← pow_add]
    congr 1; omega
  rw [Nat.shiftRight_eq_div_pow, e, ← Nat.mod_mul_right_div_self]
  have h1 : D % 2 ^ (m - 8) = D % (2 ^ (m - 8) * 256) % 2 ^ (m - 8) := by
    rw [Nat.mod_mul_right_mod]
  rw [h1]
  exact Nat.div_add_mod' _ _

theorem putInv_absorb (pre op : List Nat) (D b n c : Nat) (cs : List (Nat × Nat))
    (hc : c < 2 ^ n) (hb : b + n ≤ 64)
    (h : bytesVal (pre ++ op) * 2 ^ b + D % 2 ^ b = streamVal cs) :
    bytesVal (pre ++ op) * 2 ^ (b + n) + (((D <<< n) ||| c) % 2 ^ 64) % 2 ^ (b + n)
      = streamVal (cs ++ [(n, c)]) := by
  rw [absorb_code D b n c hc hb, streamVal_snoc, ← h, pow_add]
  ring

theorem putInv_byte (pre op : List Nat) (D m V : Nat) (hm : 8 ≤ m)
    (h : bytesVal (pre ++ op) * 2 ^ m + D % 2 ^ m = V) :
    bytesVal (pre ++ (op ++ [(D >>> (m - 8)) % 256])) * 2 ^ (m - 8) + D % 2 ^ (m - 8) = V := by
  rw [← List.append_assoc, bytesVal_snoc, ← h, ← top_byte D m hm]
  have e : 2 ^ m = 256 * 2 ^ (m - 8) := by
    rw [show (256 : Nat) = 2 ^ 8 by norm_num, ← pow_add]
    congr 1; omega
  rw [e]
  ring

theorem isBytes_append (a b : List Nat) : IsBytes (a ++ b) ↔ IsBytes a ∧ IsBytes b := by
  unfold IsBytes
  simp only [List.mem_append]
  constructor
  · intro h; exact ⟨fun p hp => h p (Or.inl hp), fun p hp => h p (Or.inr hp)⟩
  · rintro ⟨h1, h2⟩ p (hp | hp)
    · exact h1 p hp
    · exact h2 p hp

theorem isBytes_snoc (a : List Nat) (b : Nat) (ha : IsBytes a) (hb : b < 256) :
    IsBytes (a ++ [b]) := by
  rw [isBytes_append]
  refine ⟨ha, ?_⟩
  intro x hx
  simp at hx
  omega

/-- `PutNextCode` appends the code to the emitted stream and stores one or two bytes. -/
theorem putNextCode_inv (pre : List Nat) (s : PutState) (cs : List (Nat × Nat)) (n c : Nat)
    (hn : 9 ≤ n) (hn2 : n ≤ 12) (hc : c < 2 ^ n) (h : PutInv pre s cs) :
    PutInv pre (PutNextCode n s c) (cs ++ [(n, c)]) ∧
    (PutNextCode n s c).outcount = s.outcount + n ∧
    ∃ extra, (PutNextCode n s c).op = s.op ++ extra ∧ 1 ≤ extra.length ∧ extra.length ≤ 2 := by
  obtain ⟨h1, h2, h3, h4⟩ := h
  have hA := putInv_absorb pre s.op s.nextdata s.nextbits n c cs hc (by omega) h3
  have hB := putInv_byte pre s.op (((s.nextdata <<< n) ||| c) % 2 ^ 64) (s.nextbits + n) _
    (by omega) hA
  have hby1 : IsBytes (pre ++ (s.op ++ [((((s.nextdata <<< n) ||| c) % 2 ^ 64)
      >>> (s.nextbits + n - 8)) % 256])) := by
    rw [← List.append_assoc]
    exact isBytes_snoc _ _ h1 (Nat.mod_lt _ (by norm_num))
  unfold PutNextCode
  by_cases h8 : s.nextbits + n - 8 ≥ 8
  · simp only [h8, if_true]
    have hC := putInv_byte pre _ (((s.nextdata <<< n) ||| c) % 2 ^ 64)
      (s.nextbits + n - 8) _ h8 hB
    refine ⟨⟨?_, ?_, hC, ?_⟩, trivial, ⟨_, by rw [List.append_assoc], by simp, by simp⟩⟩
    · rw [← List.append_assoc]
      exact isBytes_snoc _ _ hby1 (Nat.mod_lt _ (by norm_num))
    · show s.nextbits + n - 8 - 8 < 8
      omega
    · rw [bitLen_append]
      simp only [List.length_append, List.length_singleton, bitLen, List.foldl_cons,
        List.foldl_nil] at h4 ⊢
      omega
  · simp only [h8, if_false]
    refine ⟨⟨hby1, ?_, hB, ?_⟩, trivial, ⟨_, rfl, by simp, by simp⟩⟩
    · show s.nextbits + n - 8 < 8
      omega
    · rw [bitLen_append]
      simp only [List.length_append, List.length_singleton, bitLen, List.foldl_cons,
        List.foldl_nil] at h4 ⊢
      omega

end TifLzw

namespace TifLzw

theorem store_apply {α : Type} (tab : Int → α) (k : Int) (a : α) (j : Int) :
    store tab k a j = if j = k then a else tab j := rfl

theorem store_same {α : Type} (tab : Int → α) (k : Int) (a : α) : store tab k a k = a := by
  simp [store]

theorem store_other {α : Type} (tab : Int → α) (k : Int) (a : α) (j : Int) (h : j ≠ k) :
    store tab k a j = tab j := by
  simp [store, h]

theorem cl_hash_block_spec (tab : hash_t) (hp : Int) :
    (cl_hash_block tab hp).code = tab.code ∧
    ∀ h, (cl_hash_block tab hp).hash h = if hp - 8 < h ∧ h ≤ hp then -1 else tab.hash h := by
  refine ⟨rfl, ?_⟩
  intro h
  simp only [cl_hash_block, store_apply]
  split_ifs <;> first | rfl | omega

theorem cl_hash_do_spec (n : Nat) (tab : hash_t) (hp i : Int) (h0 : 0 ≤ i) (hn : i < 8 * n) :
    (cl_hash_do n tab hp i).2 = (hp - 8 * (i / 8 + 1), i - 8 * (i / 8 + 1)) ∧
    (cl_hash_do n tab hp i).1.code = tab.code ∧
    ∀ h, (cl_hash_do n tab hp i).1.hash h =
      if hp - 8 * (i / 8 + 1) < h ∧ h ≤ hp then -1 else tab.hash h := by
  induction n generalizing tab hp i with
  | zero => omega
  | succ n ih =>
    obtain ⟨b1, b2⟩ := cl_hash_block_spec tab hp
    unfold cl_hash_do
    by_cases hi : i - 8 ≥ 0
    · simp only [hi, if_true]
      obtain ⟨r1, r2, r3⟩ := ih (cl_hash_block tab hp) (hp - 8) (i - 8) (by omega) (by omega)
      have e1 : (i - 8) / 8 + 1 = i / 8 := by omega
      refine ⟨?_, ?_, ?_⟩
      · rw [r1, e1]
        ext <;> simp <;> omega
      · rw [r2, b1]
      · intro h
        rw [r3, b2, e1]
        split_ifs <;> first | rfl | omega
    · simp only [hi, if_false]
      have e1 : i / 8 = 0 := by omega
      refine ⟨?_, b1, ?_⟩
      · rw [e1]; ext <;> simp
      · intro h
        rw [b2, e1]
        split_ifs <;> first | rfl | omega

theorem cl_hash_for_spec (n : Nat) (tab : hash_t) (hp i : Int) (h0 : 0 ≤ i) (hn : i ≤ n) :
    (cl_hash_for n tab hp i).code = tab.code ∧
    ∀ h, (cl_hash_for n tab hp i).hash h = if hp - i < h ∧ h ≤ hp then -1 else tab.hash h := by
  induction n generalizing tab hp i with
  | zero =>
    have : i = 0 := by omega
    subst this
    refine ⟨rfl, ?_⟩
    intro h
    simp only [cl_hash_for]
    rw [if_neg (by omega)]
  | succ n ih =>
    unfold cl_hash_for
    by_cases hi : i > 0
    · simp only [hi, if_true]
      obtain ⟨r1, r2⟩ := ih { tab with hash := store tab.hash hp (-1) } (hp - 1) (i - 1)
        (by omega) (by omega)
      refine ⟨r1, ?_⟩
      intro h
      rw [r2]
      simp only [store_apply]
      split_ifs <;> first | rfl | omega
    · simp only [hi, if_false]
      refine ⟨trivial, ?_⟩
      intro h
      rw [if_neg (by omega)]

/-- `cl_hash` sets the `hash` field of every slot `0 .. HSIZE-1` to `-1` and
changes nothing else. -/
theorem cl_hash_spec (tab : hash_t) :
    (cl_hash tab).code = tab.code ∧
    ∀ h, (cl_hash tab).hash h = if 0 ≤ h ∧ h < HSIZE then -1 else tab.hash h := by
  obtain ⟨d1, d2, d3⟩ := cl_hash_do_spec HSIZE tab ((HSIZE : Int) - 1) ((HSIZE : Int) - 8)
    (by unfold HSIZE; omega) (by unfold HSIZE; omega)
  unfold cl_hash
  have e1 : (cl_hash_do HSIZE tab ((HSIZE : Int) - 1) ((HSIZE : Int) - 8)).2.1 = 0 := by
    rw [d1]; unfold HSIZE; simp
  have e2 : (cl_hash_do HSIZE tab ((HSIZE : Int) - 1) ((HSIZE : Int) - 8)).2.2 + 8 = 1 := by
    rw [d1]; unfold HSIZE; simp
  simp only [e1, e2]
  obtain ⟨f1, f2⟩ := cl_hash_for_spec 8 (cl_hash_do HSIZE tab ((HSIZE : Int) - 1)
    ((HSIZE : Int) - 8)).1 0 1 (by omega) (by omega)
  refine ⟨by rw [f1, d2], ?_⟩
  intro h
  rw [f2, d3]
  unfold HSIZE
  split_ifs <;> first | rfl | omega

end TifLzw

namespace TifLzw

theorem stepPos_eq (disp h : Int) (h0 : 0 ≤ h) (h1 : h < HSIZE) (d0 : 0 < disp)
    (d1 : disp < HSIZE) : stepPos disp h = (h - disp) % (HSIZE : Int) := by
  unfold stepPos HSIZE at *
  split <;> omega

theorem iterate_stepPos (disp h : Int) (h0 : 0 ≤ h) (h1 : h < HSIZE) (d0 : 0 < disp)
    (d1 : disp < HSIZE) (j : Nat) :
    (stepPos disp)^[j] h = (h - j * disp) % (HSIZE : Int) := by
  induction j with
  | zero =>
    simp only [Function.iterate_zero, id_eq, Nat.cast_zero, zero_mul, sub_zero]
    rw [Int.emod_eq_of_lt h0 h1]
  | succ j ih =>
    rw [Function.iterate_succ_apply', ih]
    have hH : (0 : Int) < (HSIZE : Int) := by unfold HSIZE; omega
    rw [stepPos_eq _ _ (Int.emod_nonneg _ (ne_of_gt hH)) (Int.emod_lt_of_pos _ hH) d0 d1]
    have e1 := (Int.mod_modEq (h - j * disp) (HSIZE : Int)).sub_right disp
    unfold Int.ModEq at e1
    rw [e1]
    congr 1
    push_cast
    ring

theorem iterate_stepPos_range (disp h : Int) (h0 : 0 ≤ h) (h1 : h < HSIZE) (d0 : 0 < disp)
    (d1 : disp < HSIZE) (j : Nat) :
    0 ≤ (stepPos disp)^[j] h ∧ (stepPos disp)^[j] h < HSIZE := by
  rw [iterate_stepPos disp h h0 h1 d0 d1]
  have hH : (0 : Int) < (HSIZE : Int) := by unfold HSIZE; omega
  exact ⟨Int.emod_nonneg _ (ne_of_gt hH), Int.emod_lt_of_pos _ hH⟩

theorem prime_HSIZE : Prime (9001 : Int) := by
  rw [Int.prime_iff_natAbs_prime]
  norm_num

/-- The secondary probe visits `HSIZE` different slots in `HSIZE` rounds. -/
theorem iterate_stepPos_inj (disp h : Int) (h0 : 0 ≤ h) (h1 : h < HSIZE) (d0 : 0 < disp)
    (d1 : disp < HSIZE) (j1 j2 : Nat) (hj1 : j1 < HSIZE) (hj2 : j2 < HSIZE)
    (e : (stepPos disp)^[j1] h = (stepPos disp)^[j2] h) : j1 = j2 := by
  rw [iterate_stepPos disp h h0 h1 d0 d1, iterate_stepPos disp h h0 h1 d0 d1] at e
  have hd : ((HSIZE : Nat) : Int) ∣ (h - j1 * disp) - (h - j2 * disp) :=
    Int.ModEq.dvd (Int.ModEq.symm e)
  have hd2 : (9001 : Int) ∣ ((j2 : Int) - j1) * disp := by
    have e2 : (h - j1 * disp) - (h - j2 * disp) = ((j2 : Int) - j1) * disp := by ring
    rw [e2] at hd
    exact hd
  unfold HSIZE at *
  rcases prime_HSIZE.dvd_mul.mp hd2 with hk | hk
  · obtain ⟨k, hk⟩ := hk
    omega
  · obtain ⟨k, hk⟩ := hk
    omega

theorem secondary_probe_succ (tab : hash_t) (fcode disp : Int) (n : Nat) (h : Int) :
    secondary_probe tab fcode disp (n + 1) h =
      if tab.hash (stepPos disp h) = fcode then .hit (tab.code (stepPos disp h))
      else if tab.hash (stepPos disp h) ≥ 0 then
        secondary_probe tab fcode disp n (stepPos disp h)
      else .miss (stepPos disp h) := rfl

theorem secondary_probe_spin (tab : hash_t) (fcode disp : Int) (n : Nat) (h : Int)
    (e : secondary_probe tab fcode disp n h = .spin) :
    ∀ j, 1 ≤ j → j ≤ n → tab.hash ((stepPos disp)^[j] h) ≥ 0 := by
  induction n generalizing h with
  | zero => intro j h1 h2; omega
  | succ n ih =>
    rw [secondary_probe_succ] at e
    by_cases c1 : tab.hash (stepPos disp h) = fcode
    · rw [if_pos c1] at e; cases e
    · rw [if_neg c1] at e
      by_cases c2 : tab.hash (stepPos disp h) ≥ 0
      · rw [if_pos c2] at e
        intro j h1 h2
        by_cases hj : j = 1
        · subst hj
          exact c2
        · have := ih _ e (j - 1) (by omega) (by omega)
          have ej : j = (j - 1) + 1 := by omega
          rw [ej, Function.iterate_succ_apply]
          exact this
      · rw [if_neg c2] at e; cases e

theorem secondary_probe_sound (tab : hash_t) (fcode disp : Int) (d0 : 0 < disp)
    (d1 : disp < HSIZE) (n : Nat) (h : Int) (h0 : 0 ≤ h) (h1 : h < HSIZE) :
    (∀ k, secondary_probe tab fcode disp n h = .hit k →
      ∃ h2 : Int, 0 ≤ h2 ∧ h2 < HSIZE ∧ tab.hash h2 = fcode ∧ tab.code h2 = k) ∧
    (∀ h2, secondary_probe tab fcode disp n h = .miss h2 →
      0 ≤ h2 ∧ h2 < HSIZE ∧ ¬ tab.hash h2 ≥ 0) := by
  induction n generalizing h with
  | zero =>
    constructor
    · intro k e; simp [secondary_probe] at e
    · intro k e; simp [secondary_probe] at e
  | succ n ih =>
    have hr := iterate_stepPos_range disp h h0 h1 d0 d1 1
    simp only [Function.iterate_one] at hr
    rw [secondary_probe_succ]
    by_cases c1 : tab.hash (stepPos disp h) = fcode
    · rw [if_pos c1]
      constructor
      · intro k e
        cases e
        exact ⟨stepPos disp h, hr.1, hr.2, c1, rfl⟩
      · intro k e; cases e
    · rw [if_neg c1]
      by_cases c2 : tab.hash (stepPos disp h) ≥ 0
      · rw [if_pos c2]
        exact ih _ hr.1 hr.2
      · rw [if_neg c2]
        constructor
        · intro k e; cases e
        · intro k e
          cases e
          exact ⟨hr.1, hr.2, c2⟩

end TifLzw

namespace TifLzw

/-- With fewer than `HSIZE - 1` occupied slots the secondary probe ends. -/
theorem secondary_probe_ends (tab : hash_t) (E : List (List Nat)) (hI : HashInv tab E)
    (hE : E.length < HSIZE - 1) (fcode disp : Int) (d0 : 0 < disp) (d1 : disp < HSIZE)
    (h : Int) (h0 : 0 ≤ h) (h1 : h < HSIZE) :
    secondary_probe tab fcode disp HSIZE h ≠ .spin := by
  intro e
  have hocc := secondary_probe_spin tab fcode disp HSIZE h e
  have hcard := Finset.card_le_card_of_injOn (s := Finset.range (HSIZE - 1))
    (t := Finset.range E.length)
    (fun j => tab.code ((stepPos disp)^[j + 1] h) - 258)
    (by
      intro j hj
      have hj' : j < HSIZE - 1 := by simpa using hj
      have hr := iterate_stepPos_range disp h h0 h1 d0 d1 (j + 1)
      obtain ⟨p, c, _, _, _, _, k1, k2, _⟩ := hI.1 _ hr.1 hr.2 (hocc (j + 1) (by omega)
        (by unfold HSIZE at *; omega))
      simp only [Finset.mem_range]
      omega)
    (by
      intro j1 hj1 j2 hj2 heq
      have hj1' : j1 < HSIZE - 1 := by simpa using hj1
      have hj2' : j2 < HSIZE - 1 := by simpa using hj2
      have hr1 := iterate_stepPos_range disp h h0 h1 d0 d1 (j1 + 1)
      have hr2 := iterate_stepPos_range disp h h0 h1 d0 d1 (j2 + 1)
      have o1 := hocc (j1 + 1) (by omega) (by unfold HSIZE at *; omega)
      have o2 := hocc (j2 + 1) (by omega) (by unfold HSIZE at *; omega)
      obtain ⟨_, _, _, _, _, _, k1, _, _⟩ := hI.1 _ hr1.1 hr1.2 o1
      obtain ⟨_, _, _, _, _, _, k2, _, _⟩ := hI.1 _ hr2.1 hr2.2 o2
      simp only at heq
      have hc : tab.code ((stepPos disp)^[j1 + 1] h) = tab.code ((stepPos disp)^[j2 + 1] h) := by
        omega
      have hs := hI.2 _ _ hr1.1 hr1.2 hr2.1 hr2.2 o1 o2 hc
      have := iterate_stepPos_inj disp h h0 h1 d0 d1 (j1 + 1) (j2 + 1)
        (by unfold HSIZE at *; omega) (by unfold HSIZE at *; omega) hs
      omega)
  simp only [Finset.card_range] at hcard
  omega

/-- Range of the primary hash `(c << HSHIFT) ^ ent`. -/
theorem primary_hash_lt (c ent : Nat) (hc : c < 256) (he : ent < 4096) :
    (c <<< HSHIFT) ^^^ ent < HSIZE := by
  have h1 : c <<< HSHIFT < 2 ^ 13 := by
    rw [Nat.shiftLeft_eq]
    unfold HSHIFT
    omega
  have h2 : ent < 2 ^ 13 := by omega
  have := Nat.xor_lt_two_pow h1 h2
  unfold HSIZE
  omega

/-- The probe of `LZWEncode` ends, a hit finds a slot that stores the key, a
miss ends at an empty slot of the table. -/
theorem probe_spec (tab : hash_t) (E : List (List Nat)) (hI : HashInv tab E)
    (hE : E.length < HSIZE - 1) (fcode h : Int) (h0 : 0 ≤ h) (h1 : h < HSIZE) :
    probe tab fcode h ≠ .spin ∧
    (∀ k, probe tab fcode h = .hit k →
      ∃ h2 : Int, 0 ≤ h2 ∧ h2 < HSIZE ∧ tab.hash h2 = fcode ∧ tab.code h2 = k) ∧
    (∀ h2, probe tab fcode h = .miss h2 → 0 ≤ h2 ∧ h2 < HSIZE ∧ ¬ tab.hash h2 ≥ 0) := by
  have d : (0 : Int) < (if h = 0 then 1 else (HSIZE : Int) - h) ∧
      (if h = 0 then 1 else (HSIZE : Int) - h) < HSIZE := by
    unfold HSIZE at *
    split <;> omega
  unfold probe
  by_cases c1 : tab.hash h = fcode
  · rw [if_pos c1]
    refine ⟨by simp, ?_, ?_⟩
    · intro k e; cases e
      exact ⟨h, h0, h1, c1, rfl⟩
    · intro k e; cases e
  · rw [if_neg c1]
    by_cases c2 : tab.hash h ≥ 0
    · rw [if_pos c2]
      exact ⟨secondary_probe_ends tab E hI hE fcode _ d.1 d.2 h h0 h1,
        secondary_probe_sound tab fcode _ d.1 d.2 HSIZE h h0 h1⟩
    · rw [if_neg c2]
      refine ⟨by simp, ?_, ?_⟩
      · intro k e; cases e
      · intro k e; cases e
        exact ⟨h0, h1, c2⟩

end TifLzw

namespace TifLzw

theorem arun_nil (s : AState) : arun s [] = some (s, []) := rfl

theorem arun_cons (s : AState) (n c : Nat) (rest : List (Nat × Nat)) (s1 : AState)
    (y1 : List Nat) (h : astep s n c = some (s1, y1)) :
    arun s ((n, c) :: rest) = (arun s1 rest).map (fun r => (r.1, y1 ++ r.2)) := by
  simp only [arun, h]
  cases arun s1 rest <;> rfl

theorem arun_cons_inv (s : AState) (n c : Nat) (rest : List (Nat × Nat)) (s2 : AState)
    (y : List Nat) (h : arun s ((n, c) :: rest) = some (s2, y)) :
    ∃ s1 y1 y2, astep s n c = some (s1, y1) ∧ arun s1 rest = some (s2, y2) ∧ y = y1 ++ y2 := by
  simp only [arun] at h
  cases hs : astep s n c with
  | none => simp [hs] at h
  | some r1 =>
    simp only [hs] at h
    cases hr : arun r1.1 rest with
    | none => simp [hr] at h
    | some r2 =>
      simp only [hr, Option.some.injEq, Prod.mk.injEq] at h
      exact ⟨r1.1, r1.2, r2.2, rfl, by rw [← h.1, hr], h.2.symm⟩

theorem arun_append (a b : List (Nat × Nat)) (s s1 s2 : AState) (y1 y2 : List Nat)
    (h1 : arun s a = some (s1, y1)) (h2 : arun s1 b = some (s2, y2)) :
    arun s (a ++ b) = some (s2, y1 ++ y2) := by
  induction a generalizing s y1 with
  | nil =>
    simp only [arun, Option.some.injEq, Prod.mk.injEq] at h1
    obtain ⟨e1, e2⟩ := h1
    subst e1 e2
    simpa using h2
  | cons p a ih =>
    obtain ⟨n, c⟩ := p
    obtain ⟨s0, y0, y0', hs, hr, hy⟩ := arun_cons_inv s n c a s1 y1 h1
    rw [List.cons_append, arun_cons s n c _ s0 y0 hs, ih s0 y0' hr, hy]
    simp

theorem arun_snoc (a : List (Nat × Nat)) (n c : Nat) (s s1 s2 : AState) (y1 y2 : List Nat)
    (h1 : arun s a = some (s1, y1)) (h2 : astep s1 n c = some (s2, y2)) :
    arun s (a ++ [(n, c)]) = some (s2, y1 ++ y2) := by
  apply arun_append a [(n, c)] s s1 s2 y1 y2 h1
  simp [arun, h2]

theorem MAXCODE_eq (n : Nat) : MAXCODE n = 2 ^ n - 1 := by
  unfold MAXCODE
  rw [Nat.one_shiftLeft]

theorem codeStr_lt (E : List (List Nat)) (p : Nat) (h : p < 256) : codeStr E p = [p] := by
  simp [codeStr, h]

theorem codeStr_ge (E : List (List Nat)) (p : Nat) (h : 258 ≤ p) :
    codeStr E p = E.getD (p - 258) [] := by
  have : ¬ p < 256 := by omega
  simp [codeStr, this]

theorem getD_append_left (E : List (List Nat)) (e : List Nat) (i : Nat) (h : i < E.length) :
    (E ++ [e]).getD i [] = E.getD i [] := by
  simp [List.getD_eq_getElem?_getD, List.getElem?_append_left h]

theorem getD_append_last (E : List (List Nat)) (e : List Nat) :
    (E ++ [e]).getD E.length [] = e := by
  simp [List.getD_eq_getElem?_getD]

/-- The string of a valid code does not change when the dictionary grows. -/
theorem codeStr_append (E : List (List Nat)) (e : List Nat) (p : Nat)
    (h : p < 256 ∨ (258 ≤ p ∧ p < 258 + E.length)) :
    codeStr (E ++ [e]) p = codeStr E p := by
  rcases h with h | h
  · rw [codeStr_lt _ _ h, codeStr_lt _ _ h]
  · rw [codeStr_ge _ _ h.1, codeStr_ge _ _ h.1, getD_append_left _ _ _ (by omega)]

theorem codeStr_ne_nil (E : List (List Nat)) (hE : ∀ e ∈ E, e ≠ []) (p : Nat)
    (h : p < 256 ∨ (258 ≤ p ∧ p < 258 + E.length)) : codeStr E p ≠ [] := by
  rcases h with h | h
  · rw [codeStr_lt _ _ h]; simp
  · rw [codeStr_ge _ _ h.1]
    have hlt : p - 258 < E.length := by omega
    rw [List.getD_eq_getElem?_getD, List.getElem?_eq_getElem hlt]
    exact hE _ (List.getElem_mem _)

end TifLzw

namespace TifLzw

/-- Emitting the current prefix code is a valid step of the reference decoder,
which turns it into the string of the code. -/
theorem abs_emit (E : List (List Nat)) (s : AState) (ent : Nat)
    (hvalid : ent < 256 ∨ (258 ≤ ent ∧ ent < 258 + E.length)) (hE : ∀ e ∈ E, e ≠ [])
    (hlt : 258 + E.length < 4094)
    (hc : s.prev = [] → E = [] ∧ s.dict = [] ∧ s.nbits = 9)
    (hp : s.prev ≠ [] → E = s.dict ++ [s.prev ++ [(codeStr E ent).headD 0]]) :
    ∃ s1, astep s s.nbits ent = some (s1, codeStr E ent) ∧ s1.prev = codeStr E ent ∧
      (s.prev = [] → s1.dict = [] ∧ s1.nbits = 9) ∧
      (s.prev ≠ [] → s1.dict = E ∧
        s1.nbits = if 258 + E.length > 2 ^ s.nbits - 2 then min (s.nbits + 1) 12 else s.nbits) := by
  have h257 : ent ≠ CODE_EOI := by unfold CODE_EOI; omega
  have h256 : ent ≠ CODE_CLEAR := by unfold CODE_CLEAR; omega
  unfold astep
  rw [if_neg (by simp), if_neg h257, if_neg h256]
  by_cases hprev : s.prev = []
  · obtain ⟨e1, e2, e3⟩ := hc hprev
    subst e1
    have hent : ent < 256 := by
      rcases hvalid with h | h
      · exact h
      · simp at h; omega
    rw [if_pos hprev, if_pos hent, codeStr_lt _ _ hent]
    exact ⟨_, rfl, rfl, fun _ => ⟨rfl, rfl⟩, fun h => absurd hprev h⟩
  · rw [if_neg hprev]
    have hpE := hp hprev
    generalize hhd : (codeStr E ent).headD 0 = hd at hpE
    have hlen : E.length = s.dict.length + 1 := by
      rw [hpE]; simp
    have hcs : ¬ (CODE_FIRST + s.dict.length ≥ CSIZE) := by
      unfold CODE_FIRST CSIZE MAXCODE BITS_MAX
      simp
      omega
    rw [if_neg hcs]
    have hstr : (if ent < 256 then [ent]
        else if ent - 258 < s.dict.length then s.dict.getD (ent - 258) []
        else if ent - 258 = s.dict.length then s.prev ++ [s.prev.headD 0]
        else []) = codeStr E ent := by
      rcases hvalid with h | h
      · rw [if_pos h, codeStr_lt _ _ h]
      · rw [if_neg (by omega), codeStr_ge _ _ h.1]
        by_cases h2 : ent - 258 < s.dict.length
        · rw [if_pos h2, hpE, getD_append_left _ _ _ h2]
        · have h3 : ent - 258 = s.dict.length := by omega
          rw [if_neg h2, if_pos h3]
          have h4 : codeStr E ent = s.prev ++ [hd] := by
            rw [codeStr_ge _ _ h.1, h3, hpE, getD_append_last]
          have h5 : hd = s.prev.headD 0 := by
            rw [← hhd, h4]
            cases hpv : s.prev with
            | nil => exact absurd hpv hprev
            | cons a t => simp
          rw [h3, hpE, getD_append_last, h5]
    simp only [hstr]
    rw [if_neg (codeStr_ne_nil E hE ent hvalid)]
    refine ⟨_, rfl, rfl, fun h => absurd h hprev, fun _ => ⟨?_, ?_⟩⟩
    · show s.dict ++ [s.prev ++ [(codeStr E ent).headD 0]] = E
      rw [hhd, ← hpE]
    · show (if CODE_FIRST + (s.dict ++ [s.prev ++ [(codeStr E ent).headD 0]]).length
          > MAXCODE s.nbits - 1 then min (s.nbits + 1) BITS_MAX else s.nbits) = _
      rw [hhd, ← hpE, MAXCODE_eq]
      unfold CODE_FIRST BITS_MAX
      have e : 2 ^ s.nbits - 1 - 1 = 2 ^ s.nbits - 2 := by omega
      rw [e]

end TifLzw

namespace TifLzw

theorem hashInv_clear (tab : hash_t) : HashInv (cl_hash tab) [] := by
  obtain ⟨_, h2⟩ := cl_hash_spec tab
  constructor
  · intro h h0 h1 hocc
    rw [h2, if_pos ⟨h0, h1⟩] at hocc
    omega
  · intro h1 _ h0 h1' _ _ hocc
    rw [h2, if_pos ⟨h0, h1'⟩] at hocc
    omega

theorem fcode_eq (c ent : Nat) :
    ((c <<< BITS_MAX : Nat) : Int) + (ent : Int) = ((c * 4096 + ent : Nat) : Int) := by
  rw [Nat.shiftLeft_eq]
  unfold BITS_MAX
  push_cast
  norm_num

/-- Storing the pair (prefix code, byte) with the next free code in an empty slot
keeps the hash table sound. -/
theorem hashInv_insert (tab : hash_t) (E : List (List Nat)) (hI : HashInv tab E)
    (ent c : Nat) (hent : ent < 256 ∨ (258 ≤ ent ∧ ent < 258 + E.length)) (he : ent < 4096)
    (hc : c < 256) (h2 : Int) (h20 : 0 ≤ h2) (h21 : h2 < HSIZE) (hemp : ¬ tab.hash h2 ≥ 0) :
    HashInv { code := store tab.code h2 (258 + E.length),
              hash := store tab.hash h2 (((c <<< BITS_MAX : Nat) : Int) + (ent : Int)) }
      (E ++ [codeStr E ent ++ [c]]) := by
  rw [fcode_eq]
  constructor
  · intro h h0 h1 hocc
    simp only [store_apply] at hocc ⊢
    by_cases hh : h = h2
    · subst hh
      simp only [if_true]
      refine ⟨ent, c, rfl, he, hc, ?_, by omega, by simp, ?_⟩
      · rcases hent with h | h
        · exact Or.inl h
        · right; simp only [List.length_append, List.length_singleton]; omega
      · have e : 258 + E.length - 258 = E.length := by omega
        rw [e, getD_append_last, codeStr_append _ _ _ hent]
    · simp only [hh, if_false] at hocc ⊢
      obtain ⟨p, c', k1, k2, k3, k4, k5, k6, k7⟩ := hI.1 h h0 h1 hocc
      refine ⟨p, c', k1, k2, k3, ?_, k5, ?_, ?_⟩
      · rcases k4 with h | h
        · exact Or.inl h
        · right; simp only [List.length_append, List.length_singleton]; omega
      · simp only [List.length_append, List.length_singleton]; omega
      · rw [getD_append_left _ _ _ (by omega), codeStr_append _ _ _ k4, k7]
  · intro a b a0 a1 b0 b1 oa ob hcode
    simp only [store_apply] at oa ob hcode
    by_cases ha : a = h2
    · by_cases hb : b = h2
      · rw [ha, hb]
      · simp only [ha, hb, if_true, if_false] at ob hcode
        obtain ⟨_, _, _, _, _, _, _, k6, _⟩ := hI.1 b b0 b1 ob
        omega
    · by_cases hb : b = h2
      · simp only [ha, hb, if_true, if_false] at oa hcode
        obtain ⟨_, _, _, _, _, _, _, k6, _⟩ := hI.1 a a0 a1 oa
        omega
      · simp only [ha, hb, if_false] at oa ob hcode
        exact hI.2 a b a0 a1 b0 b1 oa ob hcode

/-- A hit of the probe: the stored code stands for the current string followed
by the input byte. -/
theorem enc_hit (l : EncLocals) (done : List Nat) (body : List (Nat × Nat))
    (E : List (List Nat)) (s : AState) (y : List Nat) (g : EncGhost l done body E s y)
    (c : Nat) (hc : c < 256) (k : Nat) (h2 : Int) (h20 : 0 ≤ h2) (h21 : h2 < HSIZE)
    (hkey : l.hashtab.hash h2 = ((c <<< BITS_MAX : Nat) : Int) + (l.ent : Int))
    (hk : l.hashtab.code h2 = k) :
    EncGhost { l with incount := l.incount + 1, ent := k } (done ++ [c]) body E s y := by
  have hfree := g.free_eq
  have hfl := g.free_lt
  have hentv : l.ent < 256 ∨ (258 ≤ l.ent ∧ l.ent < 258 + E.length) := by
    rcases g.ent_ok with h | h
    · exact Or.inl h
    · right; omega
  rw [fcode_eq] at hkey
  obtain ⟨p, c', k1, k2, k3, k4, k5, k6, k7⟩ := g.hash.1 h2 h20 h21 (by rw [hkey]; omega)
  rw [hkey] at k1
  have hpc : p = l.ent ∧ c' = c := by
    have : l.ent < 4096 := by rcases g.ent_ok with h | h <;> omega
    have k1' : c * 4096 + l.ent = c' * 4096 + p := by exact_mod_cast k1
    omega
  obtain ⟨e1, e2⟩ := hpc
  subst e1 e2
  rw [hk] at k5 k6 k7
  have hstr : codeStr E k = codeStr E l.ent ++ [c'] := by
    rw [codeStr_ge _ _ k5, k7]
  have hne := codeStr_ne_nil E g.E_ne l.ent hentv
  have hhead : (codeStr E k).headD 0 = (codeStr E l.ent).headD 0 := by
    rw [hstr]
    cases hcs : codeStr E l.ent with
    | nil => exact absurd hcs hne
    | cons a t => simp
  exact {
    put := g.put
    fit := g.fit
    run := g.run
    done_eq := by
      show done ++ [c'] = y ++ codeStr E k
      rw [hstr, g.done_eq, List.append_assoc]
    nbits_eq := g.nbits_eq
    nbits_ge := g.nbits_ge
    nbits_le := g.nbits_le
    maxcode_eq := g.maxcode_eq
    free_eq := g.free_eq
    free_le := g.free_le
    free_lt := g.free_lt
    ent_ok := by
      show k < 256 ∨ (258 ≤ k ∧ k < l.free_ent)
      right; omega
    E_ne := g.E_ne
    cleared := g.cleared
    pending := by
      intro hp
      show E = s.dict ++ [s.prev ++ [(codeStr E k).headD 0]]
      rw [hhead]
      exact g.pending hp
    hash := g.hash
    bits := by
      have := g.bits
      simp only [List.length_append, List.length_singleton]
      omega
    first := g.first
    bytes := by
      rw [isBytes_append]
      exact ⟨g.bytes, by intro x hx; simp at hx; omega⟩ }

end TifLzw

namespace TifLzw

theorem putInv_congr (pre pre1 : List Nat) (s s1 : PutState) (cs : List (Nat × Nat))
    (h : PutInv pre s cs) (e1 : pre1 ++ s1.op = pre ++ s.op) (e2 : s1.nextdata = s.nextdata)
    (e3 : s1.nextbits = s.nextbits) : PutInv pre1 s1 cs := by
  unfold PutInv at *
  rw [e1, e2, e3]
  exact h

/-- `EncGhost` looks at the emitted bytes, the bit accumulator, the code width, the
next free code, the prefix code and the hash table only. -/
theorem encGhost_congr (l l1 : EncLocals) (done : List Nat) (body : List (Nat × Nat))
    (E : List (List Nat)) (s : AState) (y : List Nat) (g : EncGhost l done body E s y)
    (e1 : l1.lst.flatten ++ l1.op = l.lst.flatten ++ l.op) (e2 : l1.nextdata = l.nextdata)
    (e3 : l1.nextbits = l.nextbits) (e4 : l1.nbits = l.nbits) (e5 : l1.maxcode = l.maxcode)
    (e6 : l1.free_ent = l.free_ent) (e7 : l1.ent = l.ent) (e8 : l1.hashtab = l.hashtab) :
    EncGhost l1 done body E s y := by
  exact {
    put := putInv_congr _ _ _ _ _ g.put e1 e2 e3
    fit := g.fit
    run := g.run
    done_eq := by rw [e7]; exact g.done_eq
    nbits_eq := by rw [e4]; exact g.nbits_eq
    nbits_ge := by rw [e4]; exact g.nbits_ge
    nbits_le := by rw [e4]; exact g.nbits_le
    maxcode_eq := by rw [e4, e5]; exact g.maxcode_eq
    free_eq := by rw [e6]; exact g.free_eq
    free_le := by rw [e5, e6]; exact g.free_le
    free_lt := by rw [e6]; exact g.free_lt
    ent_ok := by rw [e6, e7]; exact g.ent_ok
    E_ne := g.E_ne
    cleared := g.cleared
    pending := by rw [e7]; exact g.pending
    hash := by rw [e8]; exact g.hash
    bits := g.bits
    first := by rw [e1]; exact g.first
    bytes := g.bytes }

theorem encGhost_flush (limit : Int) (l : EncLocals) (done : List Nat)
    (body : List (Nat × Nat)) (E : List (List Nat)) (s : AState) (y : List Nat)
    (g : EncGhost l done body E s y) :
    EncGhost (l.flush_if_full limit) done body E s y := by
  unfold EncLocals.flush_if_full
  split
  · exact encGhost_congr l _ done body E s y g (by simp) rfl rfl rfl rfl rfl rfl rfl
  · exact g

theorem two_pow_nbits (n : Nat) (h9 : 9 ≤ n) (h12 : n ≤ 12) :
    512 ≤ 2 ^ n ∧ 2 ^ n ≤ 4096 := by
  interval_cases n <;> norm_num

/-- The state right after a new entry has been stored. -/
theorem enc_mid_core (l : EncLocals) (done : List Nat) (body : List (Nat × Nat))
    (E : List (List Nat)) (s : AState) (y : List Nat) (g : EncGhost l done body E s y)
    (c : Nat) (hc : c < 256) (h2 : Int) (h20 : 0 ≤ h2) (h21 : h2 < HSIZE)
    (hemp : ¬ l.hashtab.hash h2 ≥ 0) (fcode : Int)
    (hf : fcode = ((c <<< BITS_MAX : Nat) : Int) + (l.ent : Int)) :
    ∃ s1, EncMid
      { l.put l.ent with
        ent := c,
        hashtab := { code := store l.hashtab.code h2 l.free_ent,
                     hash := store l.hashtab.hash h2 fcode },
        free_ent := l.free_ent + 1 }
      (done ++ [c]) (body ++ [(l.nbits, l.ent)]) (E ++ [codeStr E l.ent ++ [c]]) s1
      (y ++ codeStr E l.ent) := by
  have hfree := g.free_eq
  have hfl := g.free_lt
  have hfle := g.free_le
  have hmax := g.maxcode_eq
  have hn9 := g.nbits_ge
  have hn12 := g.nbits_le
  have hpow := two_pow_nbits l.nbits hn9 hn12
  have hentv : l.ent < 256 ∨ (258 ≤ l.ent ∧ l.ent < 258 + E.length) := by
    rcases g.ent_ok with h | h
    · exact Or.inl h
    · right; omega
  have hent_fit : l.ent < 2 ^ l.nbits := by
    rcases g.ent_ok with h | h <;> omega
  obtain ⟨s1, hs1, hprev1, hcl1, hpe1⟩ :=
    abs_emit E s l.ent hentv g.E_ne (by omega) g.cleared g.pending
  rw [← g.nbits_eq] at hs1 hpe1
  have hne := codeStr_ne_nil E g.E_ne l.ent hentv
  obtain ⟨p1, p2, extra, p3, p4, p5⟩ :=
    putNextCode_inv l.lst.flatten l.toPutState ((9, CODE_CLEAR) :: body) l.nbits l.ent
      hn9 hn12 hent_fit g.put
  refine ⟨s1, ?_⟩
  exact {
    put := p1
    fit := by
      have := (codesFit_append ((9, CODE_CLEAR) :: body) [(l.nbits, l.ent)]).mpr
        ⟨g.fit, by intro p hp; simp at hp; subst hp; exact hent_fit⟩
      exact this
    run := arun_snoc body l.nbits l.ent _ s s1 y _ g.run hs1
    done_eq := by
      show done ++ [c] = y ++ codeStr E l.ent ++ [c]
      rw [g.done_eq]
    nbits_s := by
      show s1.nbits = if l.free_ent + 1 > l.maxcode then l.nbits + 1 else l.nbits
      by_cases hp : s.prev = []
      · obtain ⟨e1, e2, e3⟩ := g.cleared hp
        rw [(hcl1 hp).2]
        have hnb := g.nbits_eq
        have hE0 : E.length = 0 := by rw [e1]; rfl
        rw [if_neg (by omega)]
        omega
      · rw [(hpe1 hp).2]
        have hn := hn9
        have hn' := hn12
        interval_cases hnv : l.nbits <;> norm_num at hmax hfle ⊢ <;>
          split_ifs <;> omega
    nbits_ge := hn9
    nbits_le := hn12
    maxcode_eq := hmax
    free_eq := by
      show l.free_ent + 1 = 258 + (E ++ [codeStr E l.ent ++ [c]]).length
      simp only [List.length_append, List.length_singleton]
      omega
    free_le := by
      show l.free_ent + 1 ≤ l.maxcode + 1
      omega
    free_lt := by
      show l.free_ent + 1 ≤ 4094
      omega
    ent_lt := hc
    E_ne := by
      intro e he
      rw [List.mem_append] at he
      rcases he with he | he
      · exact g.E_ne e he
      · simp at he; subst he; simp
    prev_ne := by rw [hprev1]; exact hne
    pending := by
      show E ++ [codeStr E l.ent ++ [c]] = s1.dict ++ [s1.prev ++ [c]]
      rw [hprev1]
      by_cases hp : s.prev = []
      · rw [(hcl1 hp).1, (g.cleared hp).1]
      · rw [(hpe1 hp).1]
    hash := by
      rw [hfree, hf]
      exact hashInv_insert l.hashtab E g.hash l.ent c hentv (by omega) hc h2 h20 h21 hemp
    bits := by
      have hb := g.bits
      have e1 : bitLen ((9, CODE_CLEAR) :: (body ++ [(l.nbits, l.ent)]))
          = bitLen ((9, CODE_CLEAR) :: body) + l.nbits := by
        rw [← List.cons_append, bitLen_append, bitLen_cons (l.nbits, l.ent), bitLen_nil]
        simp
      rw [e1]
      simp only [List.length_append, List.length_singleton]
      omega
    first := by
      show (l.lst.flatten ++ (PutNextCode l.nbits l.toPutState l.ent).op).head? = some 128
      rw [p3, ← List.append_assoc]
      have hf := g.first
      cases hcs : l.lst.flatten ++ l.op with
      | nil => rw [hcs] at hf; simp at hf
      | cons a t => rw [hcs] at hf; simpa using hf
    bytes := by
      rw [isBytes_append]
      exact ⟨g.bytes, by intro x hx; simp at hx; omega⟩ }

end TifLzw

namespace TifLzw

theorem astep_clear (s : AState) (hp : s.prev ≠ []) :
    astep s s.nbits CODE_CLEAR = some (AState.cleared, []) := by
  unfold astep
  rw [if_neg (by simp), if_neg (by unfold CODE_CLEAR CODE_EOI; omega), if_pos rfl, if_neg hp]

/-- The reset branch: the table is cleared and a clear code is emitted. -/
theorem enc_fin_reset (l : EncLocals) (done : List Nat) (body : List (Nat × Nat))
    (E : List (List Nat)) (s : AState) (y : List Nat) (m : EncMid l done body E s y)
    (hle : l.free_ent ≤ l.maxcode) :
    EncGhost l.reset done (body ++ [(l.nbits, CODE_CLEAR)]) [] AState.cleared y := by
  have hn9 := m.nbits_ge
  have hn12 := m.nbits_le
  have hpow := two_pow_nbits l.nbits hn9 hn12
  have hsn : s.nbits = l.nbits := by
    rw [m.nbits_s, if_neg (by omega)]
  have hfit : CODE_CLEAR < 2 ^ l.nbits := by unfold CODE_CLEAR; omega
  have p0 : PutInv l.lst.flatten { l.toPutState with outcount := 0 }
      ((9, CODE_CLEAR) :: body) := putInv_congr _ _ _ _ _ m.put rfl rfl rfl
  obtain ⟨p1, p2, extra, p3, p4, p5⟩ :=
    putNextCode_inv l.lst.flatten { l.toPutState with outcount := 0 }
      ((9, CODE_CLEAR) :: body) l.nbits CODE_CLEAR hn9 hn12 hfit p0
  exact {
    put := p1
    fit := (codesFit_append ((9, CODE_CLEAR) :: body) [(l.nbits, CODE_CLEAR)]).mpr
        ⟨m.fit, by intro p hp; simp at hp; subst hp; exact hfit⟩
    run := by
      have := arun_snoc body l.nbits CODE_CLEAR AState.cleared s AState.cleared y [] m.run
        (by rw [← hsn]; exact astep_clear s m.prev_ne)
      simpa using this
    done_eq := by
      show done = y ++ codeStr [] l.ent
      rw [codeStr_lt _ _ m.ent_lt, m.done_eq]
    nbits_eq := rfl
    nbits_ge := by show 9 ≤ BITS_MIN; unfold BITS_MIN; omega
    nbits_le := by show BITS_MIN ≤ 12; unfold BITS_MIN; omega
    maxcode_eq := by show MAXCODE BITS_MIN = 2 ^ BITS_MIN - 1; exact MAXCODE_eq _
    free_eq := rfl
    free_le := by
      show CODE_FIRST ≤ MAXCODE BITS_MIN
      rw [MAXCODE_eq]; unfold CODE_FIRST BITS_MIN; norm_num
    free_lt := by show CODE_FIRST < 4094; unfold CODE_FIRST; omega
    ent_ok := Or.inl m.ent_lt
    E_ne := by intro e he; simp at he
    cleared := fun _ => ⟨rfl, rfl, rfl⟩
    pending := fun h => absurd rfl h
    hash := by
      show HashInv (cl_hash l.hashtab) []
      exact hashInv_clear l.hashtab
    bits := by
      have hb := m.bits
      have e1 : bitLen ((9, CODE_CLEAR) :: (body ++ [(l.nbits, CODE_CLEAR)]))
          = bitLen ((9, CODE_CLEAR) :: body) + l.nbits := by
        rw [← List.cons_append, bitLen_append, bitLen_cons (l.nbits, CODE_CLEAR), bitLen_nil]
        simp
      rw [e1]
      omega
    first := by
      show (l.lst.flatten ++ (PutNextCode l.nbits { l.toPutState with outcount := 0 }
        CODE_CLEAR).op).head? = some 128
      rw [p3, ← List.append_assoc]
      have hf := m.first
      show (l.lst.flatten ++ l.op ++ extra).head? = some 128
      cases hcs : l.lst.flatten ++ l.op with
      | nil => rw [hcs] at hf; simp at hf
      | cons a t => rw [hcs] at hf; simpa using hf
    bytes := m.bytes }

/-- The branch that widens the codes. -/
theorem enc_fin_widen (l : EncLocals) (done : List Nat) (body : List (Nat × Nat))
    (E : List (List Nat)) (s : AState) (y : List Nat) (m : EncMid l done body E s y)
    (hgt : l.free_ent > l.maxcode) (hne : l.free_ent ≠ 4094) :
    EncGhost { l with nbits := l.nbits + 1, maxcode := MAXCODE (l.nbits + 1) } done body E s y := by
  have hn9 := m.nbits_ge
  have hn12 := m.nbits_le
  have hmax := m.maxcode_eq
  have hfl := m.free_lt
  have hfle := m.free_le
  have hn11 : l.nbits ≤ 11 := by
    interval_cases hnv : l.nbits <;> norm_num at hmax <;> omega
  have hpow : 2 ^ (l.nbits + 1) = 2 * 2 ^ l.nbits := by rw [pow_succ]; ring
  have hpow2 := two_pow_nbits l.nbits hn9 hn12
  exact {
    put := m.put
    fit := m.fit
    run := m.run
    done_eq := by
      show done = y ++ codeStr E l.ent
      rw [codeStr_lt _ _ m.ent_lt, m.done_eq]
    nbits_eq := by
      show l.nbits + 1 = s.nbits
      rw [m.nbits_s, if_pos hgt]
    nbits_ge := by show 9 ≤ l.nbits + 1; omega
    nbits_le := by show l.nbits + 1 ≤ 12; omega
    maxcode_eq := MAXCODE_eq _
    free_eq := m.free_eq
    free_le := by
      show l.free_ent ≤ MAXCODE (l.nbits + 1)
      rw [MAXCODE_eq, hpow]; omega
    free_lt := by show l.free_ent < 4094; omega
    ent_ok := Or.inl m.ent_lt
    E_ne := m.E_ne
    cleared := fun h => absurd h m.prev_ne
    pending := by
      intro _
      show E = s.dict ++ [s.prev ++ [(codeStr E l.ent).headD 0]]
      rw [codeStr_lt _ _ m.ent_lt]
      exact m.pending
    hash := m.hash
    bits := by have := m.bits; omega
    first := m.first
    bytes := m.bytes }

/-- The branch that leaves the width alone. -/
theorem enc_fin_keep (l : EncLocals) (done : List Nat) (body : List (Nat × Nat))
    (E : List (List Nat)) (s : AState) (y : List Nat) (m : EncMid l done body E s y)
    (hle : l.free_ent ≤ l.maxcode) (hne : l.free_ent ≠ 4094) :
    EncGhost l done body E s y := by
  have hfl := m.free_lt
  exact {
    put := m.put
    fit := m.fit
    run := m.run
    done_eq := by rw [codeStr_lt _ _ m.ent_lt, m.done_eq]
    nbits_eq := by rw [m.nbits_s, if_neg (by omega)]
    nbits_ge := m.nbits_ge
    nbits_le := m.nbits_le
    maxcode_eq := m.maxcode_eq
    free_eq := m.free_eq
    free_le := hle
    free_lt := by omega
    ent_ok := Or.inl m.ent_lt
    E_ne := m.E_ne
    cleared := fun h => absurd h m.prev_ne
    pending := by
      intro _
      rw [codeStr_lt _ _ m.ent_lt]
      exact m.pending
    hash := m.hash
    bits := by have := m.bits; omega
    first := m.first
    bytes := m.bytes }

end TifLzw

namespace TifLzw

theorem flush_if_full_fields (limit : Int) (l : EncLocals) :
    (l.flush_if_full limit).ent = l.ent ∧ (l.flush_if_full limit).hashtab = l.hashtab ∧
    (l.flush_if_full limit).incount = l.incount ∧
    (l.flush_if_full limit).checkpoint = l.checkpoint ∧
    (l.flush_if_full limit).free_ent = l.free_ent ∧ (l.flush_if_full limit).nbits = l.nbits := by
  unfold EncLocals.flush_if_full
  split <;> exact ⟨rfl, rfl, rfl, rfl, rfl, rfl⟩

theorem bitLen_snoc (cs : List (Nat × Nat)) (n c : Nat) :
    bitLen (cs ++ [(n, c)]) = bitLen cs + n := by
  rw [bitLen_append, bitLen_cons, bitLen_nil]
  simp

/-- After a new entry the width of the codes follows the reference decoder, or
the table is cleared. -/
theorem enc_resize (lc : EncLocals) (done : List Nat) (body : List (Nat × Nat))
    (E : List (List Nat)) (s : AState) (y : List Nat) (m : EncMid lc done body E s y)
    (z : EncSize lc done.length (bitLen ((9, CODE_CLEAR) :: body))) :
    EncOK (LZWEncode_resize lc) done := by
  have hn12 := m.nbits_le
  have hmax := m.maxcode_eq
  have hfle := m.free_le
  have zf := z.free_inc
  have zc := z.chk
  have zb := z.bits
  have hC : CODE_MAX - 1 = 4094 := by decide
  have hclr : bitLen ((9, CODE_CLEAR) :: (body ++ [(lc.nbits, CODE_CLEAR)])) =
      bitLen ((9, CODE_CLEAR) :: body) + lc.nbits := by
    rw [← List.cons_append, bitLen_snoc]
  have hpow := two_pow_nbits lc.nbits m.nbits_ge hn12
  unfold LZWEncode_resize
  by_cases h1 : lc.free_ent = CODE_MAX - 1
  · rw [if_pos h1]
    rw [hC] at h1
    have hle : lc.free_ent ≤ lc.maxcode := by
      have hn9 := m.nbits_ge
      interval_cases hnv : lc.nbits <;> norm_num at hmax <;> omega
    refine ⟨_, _, _, _, enc_fin_reset lc done body E s y m hle, ?_⟩
    exact {
      free_inc := by show CODE_FIRST ≤ 258 + 0; decide
      chk := zc
      bits := by
        rw [hclr]
        show _ + 0 ≤ _
        omega }
  · rw [if_neg h1]
    rw [hC] at h1
    by_cases h2 : lc.free_ent > lc.maxcode
    · rw [if_pos h2]
      refine ⟨_, _, _, _, enc_fin_widen lc done body E s y m h2 h1, ?_⟩
      exact { free_inc := zf, chk := zc, bits := by show _ + lc.incount ≤ _; omega }
    · rw [if_neg h2]
      have hle : lc.free_ent ≤ lc.maxcode := by omega
      by_cases h3 : lc.incount ≥ lc.checkpoint
      · rw [if_pos h3]
        simp only []
        split
        · have g := enc_fin_reset lc done body E s y m hle
          refine ⟨_, _, _, _, encGhost_congr lc.reset _ done _ _ _ _ g rfl rfl rfl rfl rfl rfl
            rfl rfl, ?_⟩
          exact {
            free_inc := by show CODE_FIRST ≤ 258 + 0; decide
            chk := by show 10000 ≤ lc.incount + CHECK_GAP; unfold CHECK_GAP; omega
            bits := by
              rw [hclr]
              show _ + 0 ≤ _
              omega }
        · have g := enc_fin_keep lc done body E s y m hle h1
          refine ⟨_, _, _, _, encGhost_congr lc _ done _ _ _ _ g rfl rfl rfl rfl rfl rfl
            rfl rfl, ?_⟩
          exact {
            free_inc := zf
            chk := by show 10000 ≤ lc.incount + CHECK_GAP; unfold CHECK_GAP; omega
            bits := by show _ + lc.incount ≤ _; omega }
      · rw [if_neg h3]
        refine ⟨_, _, _, _, enc_fin_keep lc done body E s y m hle h1, ?_⟩
        exact { free_inc := zf, chk := zc, bits := by omega }

/-- A miss of the probe: the prefix code is emitted and a new entry is stored. -/
theorem enc_miss (limit : Int) (l : EncLocals) (done : List Nat) (ok : EncOK l done)
    (c : Nat) (hc : c < 256) (h2 : Int) (h20 : 0 ≤ h2) (h21 : h2 < HSIZE)
    (hemp : ¬ l.hashtab.hash h2 ≥ 0) :
    EncOK (LZWEncode_miss limit { l with incount := l.incount + 1 } c
      (((c <<< BITS_MAX : Nat) : Int) + (l.ent : Int)) h2) (done ++ [c]) := by
  obtain ⟨body, E, s, y, g, z⟩ := ok
  have g1 : EncGhost { l with incount := l.incount + 1 } done body E s y :=
    encGhost_congr l _ done body E s y g rfl rfl rfl rfl rfl rfl rfl rfl
  have ga := encGhost_flush limit _ done body E s y g1
  obtain ⟨f1, f2, f3, f4, f5, _⟩ := flush_if_full_fields limit { l with incount := l.incount + 1 }
  have key : ∀ la : EncLocals, la.ent = l.ent → la.hashtab = l.hashtab →
      la.incount = l.incount + 1 → la.checkpoint = l.checkpoint → la.free_ent = l.free_ent →
      EncGhost la done body E s y →
      EncOK (LZWEncode_resize
        { la.put la.ent with
          ent := c,
          hashtab := { code := store la.hashtab.code h2 la.free_ent,
                       hash := store la.hashtab.hash h2
                         (((c <<< BITS_MAX : Nat) : Int) + (l.ent : Int)) },
          free_ent := la.free_ent + 1 }) (done ++ [c]) := by
    intro la f1 f2 f3 f4 f5 ga
    obtain ⟨s1, m⟩ := enc_mid_core la done body E s y ga c hc h2 h20 h21
      (by rw [f2]; exact hemp) (((c <<< BITS_MAX : Nat) : Int) + (l.ent : Int)) (by rw [f1])
    apply enc_resize _ _ _ _ _ _ m
    have hn := ga.nbits_le
    have zf := z.free_inc
    have zb := z.bits
    exact {
      free_inc := by show la.free_ent + 1 ≤ 258 + la.incount; omega
      chk := by show 10000 ≤ la.checkpoint; rw [f4]; exact z.chk
      bits := by
        rw [← List.cons_append, bitLen_snoc, List.length_append]
        show _ + la.incount ≤ _
        simp only [List.length_singleton]
        omega }
  exact key _ f1 f2 f3 f4 f5 ga

/-- One round of the loop of `LZWEncode` keeps the encoder state sound. -/
theorem enc_step (limit : Int) (l : EncLocals) (done : List Nat) (ok : EncOK l done)
    (c : Nat) (hc : c < 256) :
    ∃ l1, LZWEncode_step limit l c = some l1 ∧ EncOK l1 (done ++ [c]) := by
  obtain ⟨body, E, s, y, g, z⟩ := ok
  have hfree := g.free_eq
  have hfl := g.free_lt
  have hent : l.ent < 4096 := by
    rcases g.ent_ok with h | h <;> omega
  have hE : E.length < HSIZE - 1 := by unfold HSIZE; omega
  have hh := primary_hash_lt c l.ent hc hent
  obtain ⟨p1, p2, p3⟩ := probe_spec l.hashtab E g.hash hE
    (((c <<< BITS_MAX : Nat) : Int) + (l.ent : Int))
    (((c <<< HSHIFT) ^^^ l.ent : Nat) : Int) (by positivity) (by exact_mod_cast hh)
  unfold LZWEncode_step
  simp only []
  cases hp : probe l.hashtab (((c <<< BITS_MAX : Nat) : Int) + (l.ent : Int))
      (((c <<< HSHIFT) ^^^ l.ent : Nat) : Int) with
  | hit k =>
    obtain ⟨h2, h20, h21, hkey, hk⟩ := p2 k hp
    refine ⟨_, rfl, body, E, s, y, ?_, ?_⟩
    · exact encGhost_congr _ _ _ _ _ _ _ (enc_hit l done body E s y g c hc k h2 h20 h21 hkey hk)
        rfl rfl rfl rfl rfl rfl rfl rfl
    · have zb := z.bits
      exact {
        free_inc := by have := z.free_inc; show l.free_ent ≤ 258 + (l.incount + 1); omega
        chk := z.chk
        bits := by
          rw [List.length_append]
          show _ + (l.incount + 1) ≤ _
          simp only [List.length_singleton]
          omega }
  | miss h2 =>
    obtain ⟨h20, h21, hemp⟩ := p3 h2 hp
    exact ⟨_, rfl, enc_miss limit l done ⟨body, E, s, y, g, z⟩ c hc h2 h20 h21 hemp⟩
  | spin => exact absurd hp p1

/-- The loop of `LZWEncode` ends and keeps the encoder state sound. -/
theorem enc_loop (limit : Int) (bs : List Nat) (hbs : IsBytes bs) (l : EncLocals)
    (done : List Nat) (ok : EncOK l done) :
    ∃ l1, LZWEncode_loop limit bs l = some l1 ∧ EncOK l1 (done ++ bs) := by
  induction bs generalizing l done with
  | nil => exact ⟨l, rfl, by simpa using ok⟩
  | cons c bs ih =>
    obtain ⟨l1, e1, ok1⟩ := enc_step limit l done ok c (hbs c (by simp))
    obtain ⟨l2, e2, ok2⟩ := ih (fun b hb => hbs b (by simp [hb])) l1 (done ++ [c]) ok1
    refine ⟨l2, ?_, by simpa using ok2⟩
    show (match LZWEncode_step limit l c with
      | none => none
      | some l => LZWEncode_loop limit bs l) = some l2
    rw [e1]
    exact e2

end TifLzw

namespace TifLzw

theorem to_tmsize_t_of_lt (n : Int) (h0 : 0 ≤ n) (h1 : n < 2 ^ 31) : to_tmsize_t n = n := by
  unfold to_tmsize_t
  omega

theorem putInv_empty (oc : Nat) : PutInv [] ⟨0, 0, oc, []⟩ [] := by
  refine ⟨?_, by show 0 < 8; omega, rfl, rfl⟩
  intro b hb
  simp at hb

/-- The state of `LZWEncode` after the clear code and the first input byte. -/
theorem enc_init (b : Nat) (hb : b < 256) (l : EncLocals) (h1 : l.nextdata = 0)
    (h2 : l.nextbits = 0) (h3 : l.op = []) (h4 : l.lst = []) (h5 : l.nbits = 9)
    (h6 : l.maxcode = MAXCODE BITS_MIN) (h7 : l.free_ent = CODE_FIRST) (h8 : l.incount = 0)
    (h9 : l.checkpoint = CHECK_GAP) (tab : hash_t) (h10 : l.hashtab = cl_hash tab) :
    EncOK { l.put CODE_CLEAR with ent := b, incount := l.incount + 1 } [b] := by
  have p0 : PutInv l.lst.flatten l.toPutState [] := by
    have := putInv_empty l.outcount
    refine putInv_congr _ _ _ _ _ this ?_ h1 h2
    rw [h4, h3]
    rfl
  obtain ⟨p1, _, extra, p3, p4, _⟩ := putNextCode_inv l.lst.flatten l.toPutState [] l.nbits
    CODE_CLEAR (by omega) (by omega) (by rw [h5]; decide) p0
  have hop : (PutNextCode l.nbits l.toPutState CODE_CLEAR).op = [128] := by
    unfold PutNextCode
    rw [h1, h2, h3, h5]
    rfl
  refine ⟨[], [], AState.cleared, [], ?_, ?_⟩
  · exact {
      put := by
        have e : [(l.nbits, CODE_CLEAR)] = [(9, CODE_CLEAR)] := by rw [h5]
        rw [List.nil_append, e] at p1
        exact p1
      fit := by intro p hp; simp at hp; subst hp; decide
      run := rfl
      done_eq := by
        show [b] = [] ++ codeStr [] b
        rw [codeStr_lt _ _ hb]
        rfl
      nbits_eq := h5
      nbits_ge := by show 9 ≤ l.nbits; omega
      nbits_le := by show l.nbits ≤ 12; omega
      maxcode_eq := by
        show l.maxcode = 2 ^ l.nbits - 1
        rw [h6, h5, MAXCODE_eq]
        rfl
      free_eq := h7
      free_le := by
        show l.free_ent ≤ l.maxcode
        rw [h6, h7]
        decide
      free_lt := by show l.free_ent < 4094; rw [h7]; decide
      ent_ok := Or.inl hb
      E_ne := by intro e he; simp at he
      cleared := fun _ => ⟨rfl, rfl, rfl⟩
      pending := fun h => absurd rfl h
      hash := by
        show HashInv l.hashtab []
        rw [h10]
        exact hashInv_clear tab
      bits := by
        show bitLen [(9, CODE_CLEAR)] ≤ 24 * 1
        decide
      first := by
        show (l.lst.flatten ++ (PutNextCode l.nbits l.toPutState CODE_CLEAR).op).head? = some 128
        rw [hop, h4]
        rfl
      bytes := by intro x hx; simp at hx; omega }
  · exact {
      free_inc := by show l.free_ent ≤ 258 + (l.incount + 1); rw [h7]; unfold CODE_FIRST; omega
      chk := by show 10000 ≤ l.checkpoint; rw [h9]; decide
      bits := by
        show bitLen [(9, CODE_CLEAR)] + (l.incount + 1) ≤ 13 * 1 + 9
        rw [h8]
        decide }

/-- The last byte of `LZWPostEncode` pads the stream with zero bits. -/
theorem putInv_pad (pre : List Nat) (s : PutState) (cs : List (Nat × Nat)) (hf : CodesFit cs)
    (h : PutInv pre s cs) :
    Packs (pre ++ (if s.nextbits > 0 then s.op ++ [(s.nextdata <<< (8 - s.nextbits)) % 256]
      else s.op)) cs := by
  obtain ⟨h1, h2, h3, h4⟩ := h
  by_cases hb : s.nextbits > 0
  · rw [if_pos hb]
    have e : (256 : Nat) = 2 ^ s.nextbits * 2 ^ (8 - s.nextbits) := by
      rw [← pow_add]
      have : s.nextbits + (8 - s.nextbits) = 8 := by omega
      rw [this]
      norm_num
    have hk : (s.nextdata <<< (8 - s.nextbits)) % 256 =
        (s.nextdata % 2 ^ s.nextbits) * 2 ^ (8 - s.nextbits) := by
      rw [Nat.shiftLeft_eq, e, Nat.mul_mod_mul_right]
    have hlt : (s.nextdata % 2 ^ s.nextbits) * 2 ^ (8 - s.nextbits) < 256 := by
      rw [e]
      exact Nat.mul_lt_mul_of_pos_right (Nat.mod_lt _ (by positivity)) (by positivity)
    refine ⟨?_, hf, 8 - s.nextbits, by omega, ?_, ?_⟩
    · rw [← List.append_assoc]
      exact isBytes_snoc _ _ h1 (by rw [hk]; exact hlt)
    · rw [← List.append_assoc, List.length_append, List.length_singleton]
      omega
    · rw [← List.append_assoc, bytesVal_snoc, hk, ← h3]
      rw [e]
      ring
  · rw [if_neg hb]
    have h0 : s.nextbits = 0 := by omega
    refine ⟨h1, hf, 0, by omega, by omega, ?_⟩
    rw [← h3, h0]
    simp [Nat.mod_one]

end TifLzw

namespace TifLzw

theorem LZWPreEncode_spec (u : Uninit) (tif : TIFF) (sp0 : LZWCodecState)
    (h : tif.tif_data = some sp0) (hh : sp0.enc_hashtab = none) :
    LZWPreEncode u tif = some (1, { tif with tif_data := some { sp0 with
            lzw_nbits := BITS_MIN
            lzw_maxcode := MAXCODE BITS_MIN
            lzw_free_ent := CODE_FIRST
            lzw_nextbits := 0
            lzw_nextdata := 0
            enc_checkpoint := CHECK_GAP
            enc_ratio := 0
            enc_incount := 0
            enc_outcount := 0
            enc_rawlimit := tif.tif_rawdatasize - 1 - 4
            enc_hashtab := some (cl_hash u.hashtab)
            enc_oldcode := HCODE_NONE } }) := by
  unfold LZWPreEncode
  rw [h]
  simp only [hh, LZWSetupEncode, h, Option.map]

/-- `LZWEncode` on a strip that `LZWPreEncode` has set up: the loop ends and the
encoder state is sound after all the bytes. -/
theorem LZWEncode_ok (tif : TIFF) (sp : LZWCodecState) (tab : hash_t)
    (h : tif.tif_data = some sp) (hh : sp.enc_hashtab = some (cl_hash tab))
    (h1 : sp.lzw_nextdata = 0) (h2 : sp.lzw_nextbits = 0) (h3 : tif.tif_rawdata = [])
    (h5 : sp.lzw_nbits = 9) (h6 : sp.lzw_maxcode = MAXCODE BITS_MIN)
    (h7 : sp.lzw_free_ent = CODE_FIRST) (h8 : sp.enc_incount = 0)
    (h9 : sp.enc_checkpoint = CHECK_GAP) (h10 : sp.enc_oldcode = HCODE_NONE)
    (b : Nat) (rest : List Nat) (hx : IsBytes (b :: rest)) (cc : Int)
    (hcc : cc.toNat = (b :: rest).length) :
    ∃ l1, LZWEncode tif [] (b :: rest) cc = some (1, LZWEncode_save tif sp l1, l1.lst) ∧
      EncOK l1 (b :: rest) := by
  have hb : b < 256 := hx b (by simp)
  have hrest : IsBytes rest := fun a ha => hx a (by simp [ha])
  have ok0 := enc_init b hb (LZWEncode_load tif sp (cl_hash tab) []) h1 h2 h3 rfl h5 h6 h7 h8 h9
    tab rfl
  obtain ⟨l1, e1, ok1⟩ := enc_loop sp.enc_rawlimit rest hrest _ [b] ok0
  refine ⟨l1, ?_, ok1⟩
  unfold LZWEncode
  rw [h]
  simp only [hh, hcc, List.take_length]
  have hs : LZWEncode_start (LZWEncode_load tif sp (cl_hash tab) []) (b :: rest) =
      ({ (LZWEncode_load tif sp (cl_hash tab) []).put CODE_CLEAR with
          ent := b, incount := (LZWEncode_load tif sp (cl_hash tab) []).incount + 1 }, rest) := by
    unfold LZWEncode_start
    simp only []
    exact if_pos (show (LZWEncode_load tif sp (cl_hash tab) []).ent = HCODE_NONE from h10)
  rw [hs]
  simp only []
  rw [e1]

end TifLzw

namespace TifLzw

/-- The bytes of `LZWPostEncode` complete an encoded strip. -/
theorem LZWPostEncode_tail_ok (l : EncLocals) (x : List Nat) (ok : EncOK l x)
    (sp : LZWCodecState) (e1 : sp.lzw_nextdata = l.nextdata) (e2 : sp.lzw_nextbits = l.nextbits)
    (e3 : sp.enc_oldcode = l.ent) (e4 : sp.lzw_nbits = l.nbits) (pre op : List Nat)
    (hop : pre ++ op = l.lst.flatten ++ l.op) :
    EncodedAs (pre ++ LZWPostEncode_tail sp op) x := by
  obtain ⟨body, E, s, y, g, z⟩ := ok
  have hn9 := g.nbits_ge
  have hn12 := g.nbits_le
  have hpow := two_pow_nbits l.nbits hn9 hn12
  have hfree := g.free_eq
  have hfl := g.free_lt
  have hfle := g.free_le
  have hmax := g.maxcode_eq
  have hent : l.ent < 2 ^ l.nbits := by
    rcases g.ent_ok with h | h <;> omega
  have hentv : l.ent < 256 ∨ (258 ≤ l.ent ∧ l.ent < 258 + E.length) := by
    rcases g.ent_ok with h | h
    · exact Or.inl h
    · right; omega
  have hne : sp.enc_oldcode ≠ HCODE_NONE := by
    rw [e3]; unfold HCODE_NONE; omega
  have p0 : PutInv pre ⟨sp.lzw_nextdata, sp.lzw_nextbits, sp.enc_outcount, op⟩
      ((9, CODE_CLEAR) :: body) := putInv_congr _ _ _ _ _ g.put hop e1 e2
  obtain ⟨p1, _, _⟩ := putNextCode_inv pre _ _ l.nbits l.ent hn9 hn12 hent p0
  have hfit1 : CodesFit (((9, CODE_CLEAR) :: body) ++ [(l.nbits, l.ent)]) :=
    (codesFit_append _ _).mpr ⟨g.fit, by intro p hp; simp at hp; subst hp; exact hent⟩
  have heoi : CODE_EOI < 2 ^ l.nbits := by unfold CODE_EOI; omega
  obtain ⟨p2, _, _⟩ := putNextCode_inv pre _ _ l.nbits CODE_EOI hn9 hn12 heoi p1
  have hfit2 : CodesFit (((9, CODE_CLEAR) :: body) ++ [(l.nbits, l.ent)] ++ [(l.nbits, CODE_EOI)]) :=
    (codesFit_append _ _).mpr ⟨hfit1, by intro p hp; simp at hp; subst hp; exact heoi⟩
  have hpk := putInv_pad pre _ _ hfit2 p2
  obtain ⟨s1, a1, a2, _, _⟩ := abs_emit E s l.ent hentv g.E_ne (by omega) g.cleared g.pending
  have hrun := arun_snoc body s.nbits l.ent AState.cleared s s1 y (codeStr E l.ent) g.run a1
  have htail : LZWPostEncode_tail sp op =
      (if (PutNextCode l.nbits (PutNextCode l.nbits
          ⟨sp.lzw_nextdata, sp.lzw_nextbits, sp.enc_outcount, op⟩ l.ent) CODE_EOI).nextbits > 0
        then (PutNextCode l.nbits (PutNextCode l.nbits
          ⟨sp.lzw_nextdata, sp.lzw_nextbits, sp.enc_outcount, op⟩ l.ent) CODE_EOI).op ++
          [((PutNextCode l.nbits (PutNextCode l.nbits
          ⟨sp.lzw_nextdata, sp.lzw_nextbits, sp.enc_outcount, op⟩ l.ent) CODE_EOI).nextdata <<<
            (8 - (PutNextCode l.nbits (PutNextCode l.nbits
          ⟨sp.lzw_nextdata, sp.lzw_nextbits, sp.enc_outcount, op⟩ l.ent) CODE_EOI).nextbits)) % 256]
        else (PutNextCode l.nbits (PutNextCode l.nbits
          ⟨sp.lzw_nextdata, sp.lzw_nextbits, sp.enc_outcount, op⟩ l.ent) CODE_EOI).op) := by
    unfold LZWPostEncode_tail
    rw [e3] at hne
    simp only [e3, e4, if_pos hne]
  rw [htail]
  refine ⟨body ++ [(l.nbits, l.ent)], s1, l.nbits, ?_, ?_, ?_, hn9, hn12, ?_⟩
  · have e : (9, CODE_CLEAR) :: (body ++ [(l.nbits, l.ent)]) ++ [(l.nbits, CODE_EOI)] =
        ((9, CODE_CLEAR) :: body) ++ [(l.nbits, l.ent)] ++ [(l.nbits, CODE_EOI)] := by simp
    rw [e]
    exact hpk
  · rw [g.nbits_eq, hrun, ← g.done_eq]
  · rw [a2]
    exact codeStr_ne_nil E g.E_ne l.ent hentv
  · have zb := z.bits
    have e : (9, CODE_CLEAR) :: (body ++ [(l.nbits, l.ent)]) ++ [(l.nbits, CODE_EOI)] =
        ((9, CODE_CLEAR) :: body) ++ [(l.nbits, l.ent)] ++ [(l.nbits, CODE_EOI)] := by simp
    rw [e, bitLen_snoc, bitLen_snoc]
    omega

end TifLzw

namespace TifLzw

theorem LZWPostEncode_ok (tif0 : TIFF) (sp0 : LZWCodecState) (l : EncLocals) (x : List Nat)
    (ok : EncOK l x) :
    ∃ t2 chunks, LZWPostEncode (LZWEncode_save tif0 sp0 l) l.lst = some (1, t2, chunks) ∧
      t2.tif_data ≠ none ∧ EncodedAs chunks.flatten x ∧ chunks ≠ [] := by
  unfold LZWPostEncode
  simp only [LZWEncode_save]
  refine ⟨_, _, rfl, by simp, ?_, by simp⟩
  rw [List.flatten_append, List.flatten_singleton]
  apply LZWPostEncode_tail_ok l x ok _ rfl rfl rfl rfl
  split <;> simp

theorem array_of_chunks (chunks : List (List Nat)) (h : chunks ≠ []) :
    (if chunks.length = 1 then chunks.headD [] else chunks.flatten) = chunks.flatten := by
  split
  · match chunks, h with
    | [a], _ => simp
    | a :: b :: t, _ => simp at *
  · rfl

/-- What `LZWPreEncode` leaves for `LZWEncode`. -/
theorem LZWPreEncode_ok (u : Uninit) (tif : TIFF) (sp0 : LZWCodecState)
    (h : tif.tif_data = some sp0) (hh : sp0.enc_hashtab = none) :
    ∃ T sp, LZWPreEncode u tif = some (1, T) ∧ T.tif_data = some sp ∧
      sp.enc_hashtab = some (cl_hash u.hashtab) ∧ sp.lzw_nextdata = 0 ∧ sp.lzw_nextbits = 0 ∧
      T.tif_rawdata = tif.tif_rawdata ∧ sp.lzw_nbits = 9 ∧ sp.lzw_maxcode = MAXCODE BITS_MIN ∧
      sp.lzw_free_ent = CODE_FIRST ∧ sp.enc_incount = 0 ∧ sp.enc_checkpoint = CHECK_GAP ∧
      sp.enc_oldcode = HCODE_NONE :=
  ⟨_, _, LZWPreEncode_spec u tif sp0 h hh, rfl, rfl, rfl, rfl, rfl, rfl, rfl, rfl, rfl, rfl, rfl⟩

/-- `py_encode` returns an encoded strip that stands for its non-empty input. -/
theorem py_encode_cons (u : Uninit) (b : Nat) (rest : List Nat) (hx : IsBytes (b :: rest))
    (hlen : (b :: rest).length < 2 ^ 31) :
    ∃ out, py_encode u (b :: rest) = .array out ∧ EncodedAs out (b :: rest) := by
  have hsz : to_tmsize_t (((b :: rest).length : Nat) : Int) = (((b :: rest).length : Nat) : Int) :=
    to_tmsize_t_of_lt _ (by positivity) (by exact_mod_cast hlen)
  unfold py_encode
  rw [hsz]
  obtain ⟨T, sp, e0, k1, k2, k3, k4, k5, k6, k7, k8, k9, k10, k11⟩ :=
    LZWPreEncode_ok u (py_encode_handle u (((b :: rest).length : Nat) : Int)) (TIFFInitLZW u)
      rfl rfl
  rw [e0, Option.some_bind]
  obtain ⟨l1, e1, ok1⟩ := LZWEncode_ok T sp u.hashtab k1 k2 k3 k4 k5 k6 k7 k8 k9 k10 k11
    b rest hx (((b :: rest).length : Nat) : Int) rfl
  rw [e1, Option.some_bind]
  obtain ⟨t2, chunks, e2, h2, enc, hne⟩ := LZWPostEncode_ok T sp l1 (b :: rest) ok1
  rw [e2, Option.some_bind]
  refine ⟨chunks.flatten, ?_, enc⟩
  unfold LZWCleanup
  cases ht : t2.tif_data with
  | none => exact absurd ht h2
  | some sp =>
    show PyResult.ofOption (some _) = _
    rw [array_of_chunks chunks hne]
    rfl

end TifLzw

namespace TifLzw

theorem LZWEncode_nil (tif : TIFF) (sp : LZWCodecState) (tab : hash_t)
    (h : tif.tif_data = some sp) (hh : sp.enc_hashtab = some tab) (lst : List (List Nat))
    (cc : Int) :
    LZWEncode tif lst [] cc =
      some (1, LZWEncode_save tif sp (LZWEncode_load tif sp tab lst), lst) := by
  unfold LZWEncode
  rw [h]
  simp only [hh, List.take_nil]
  rfl

theorem LZWPostEncode_empty_buffer (tif : TIFF) (sp : LZWCodecState)
    (h : tif.tif_data = some sp) (h3 : tif.tif_rawdata = []) (lst : List (List Nat)) :
    ∃ t2 chunks, LZWPostEncode tif lst = some (1, t2, chunks) ∧ t2.tif_data ≠ none ∧
      chunks.flatten = lst.flatten ++ LZWPostEncode_tail sp [] ∧ chunks ≠ [] := by
  unfold LZWPostEncode
  rw [h]
  simp only [h3]
  refine ⟨_, _, rfl, by simp, ?_, by simp⟩
  rw [List.flatten_append, List.flatten_singleton]
  split <;> simp

theorem LZWPostEncode_tail_nil (sp : LZWCodecState) (e1 : sp.lzw_nextdata = 0)
    (e2 : sp.lzw_nextbits = 0) (e3 : sp.enc_oldcode = HCODE_NONE) (e4 : sp.lzw_nbits = 9) :
    LZWPostEncode_tail sp [] = [128, 128] := by
  have hp : PutNextCode 9 ⟨0, 0, sp.enc_outcount, []⟩ CODE_EOI =
      ⟨257, 1, sp.enc_outcount + 9, [128]⟩ := by simp [PutNextCode, CODE_EOI]
  unfold LZWPostEncode_tail
  rw [e1, e2, e3, e4]
  simp only [ne_eq, not_true_eq_false, if_false, hp]
  rfl

/-- `py_encode` of the empty array: the end-of-information code alone. -/
theorem py_encode_nil (u : Uninit) : py_encode u [] = .array [128, 128] := by
  unfold py_encode
  obtain ⟨T, sp, e0, k1, k2, k3, k4, k5, k6, k7, k8, k9, k10, k11⟩ :=
    LZWPreEncode_ok u (py_encode_handle u ((([] : List Nat).length : Nat) : Int)) (TIFFInitLZW u)
      rfl rfl
  rw [e0, Option.some_bind]
  rw [LZWEncode_nil T sp _ k1 k2, Option.some_bind]
  obtain ⟨t2, chunks, e2, h2, hfl, hne⟩ := LZWPostEncode_empty_buffer
    (LZWEncode_save T sp (LZWEncode_load T sp (cl_hash u.hashtab) [])) _ rfl k5 []
  rw [e2, Option.some_bind]
  unfold LZWCleanup
  cases ht : t2.tif_data with
  | none => exact absurd ht h2
  | some sp1 =>
    show PyResult.ofOption (some _) = _
    rw [array_of_chunks chunks hne, hfl]
    simp only [List.flatten_nil, List.nil_append]
    exact congrArg (fun t => PyResult.ofOption (some t))
      (LZWPostEncode_tail_nil _ (by exact k3) (by exact k4) (by exact k11) (by exact k6))

end TifLzw

namespace TifLzw

theorem bytesVal_take (raw : List Nat) (hraw : IsBytes raw) (k : Nat) :
    bytesVal (raw.take k) = bytesVal raw / 256 ^ (raw.length - k) := by
  have h := bytesVal_append (raw.take k) (raw.drop k)
  rw [List.take_append_drop, List.length_drop] at h
  have hd : bytesVal (raw.drop k) < 256 ^ (raw.length - k) := by
    have := bytesVal_lt (raw.drop k) (fun b hb => hraw b (List.mem_of_mem_drop hb))
    rwa [List.length_drop] at this
  rw [h, Nat.add_comm, Nat.add_mul_div_right _ _ (by positivity), Nat.div_eq_of_lt hd,
    Nat.zero_add]

theorem bytesVal_take_succ (raw : List Nat) (k : Nat) (hk : k < raw.length) :
    bytesVal (raw.take (k + 1)) = bytesVal (raw.take k) * 256 + raw.getD k 0 := by
  rw [List.take_succ, bytesVal_append]
  have : raw[k]? = some (raw.getD k 0) := by
    rw [List.getD_eq_getElem?_getD, List.getElem?_eq_getElem hk]
    rfl
  rw [this]
  simp [bytesVal]

theorem getD_lt_of_isBytes (raw : List Nat) (hraw : IsBytes raw) (k : Nat) :
    raw.getD k 0 < 256 := by
  by_cases hk : k < raw.length
  · rw [List.getD_eq_getElem?_getD, List.getElem?_eq_getElem hk]
    exact hraw _ (List.getElem_mem _)
  · rw [List.getD_eq_getElem?_getD, List.getElem?_eq_none (by omega)]
    decide

/-- One more byte enters the accumulator of the bit reader. -/
theorem read_byte (raw : List Nat) (hraw : IsBytes raw) (k : Nat) (hk : k < raw.length) :
    (((bytesVal (raw.take k) % 2 ^ 64) <<< 8) ||| raw.getD k 0) % 2 ^ 64 =
      bytesVal (raw.take (k + 1)) % 2 ^ 64 := by
  rw [shiftLeft_or _ _ _ (by have := getD_lt_of_isBytes raw hraw k; omega),
    bytesVal_take_succ raw k hk]
  omega

/-- Bits of the accumulator below bit 64 are bits of the whole value. -/
theorem low_bits (a k n : Nat) (h : k + n ≤ 64) :
    (a % 2 ^ 64 / 2 ^ k) % 2 ^ n = (a / 2 ^ k) % 2 ^ n := by
  have e : (2 : Nat) ^ 64 = 2 ^ k * 2 ^ (64 - k) := by
    rw [← pow_add]; congr 1; omega
  rw [e, Nat.mod_mul_right_div_self]
  have e2 : (2 : Nat) ^ (64 - k) = 2 ^ n * 2 ^ (64 - k - n) := by
    rw [← pow_add]; congr 1; omega
  rw [e2, Nat.mod_mul_right_mod]

theorem and_mask (a n : Nat) : a &&& MAXCODE n = a % 2 ^ n := by
  rw [MAXCODE_eq]
  exact Nat.and_pow_two_sub_one_eq_mod a n

end TifLzw

namespace TifLzw

/-- The code that the accumulator yields is the code of the byte sequence. -/
theorem extract_code (raw : List Nat) (hraw : IsBytes raw) (pos n bp nb : Nat)
    (hbp : bp ≤ raw.length) (hbits : 8 * bp = pos + n + nb) (hnb : nb < 8) (hn : n ≤ 12) :
    (((bytesVal (raw.take bp) % 2 ^ 64) >>> (nb + n - n)) &&& MAXCODE n) % 65536 =
      codeAt raw pos n := by
  rw [and_mask, Nat.shiftRight_eq_div_pow, Nat.add_sub_cancel, low_bits _ _ _ (by omega),
    bytesVal_take raw hraw bp]
  have e : (256 : Nat) ^ (raw.length - bp) = 2 ^ (8 * (raw.length - bp)) := by
    rw [pow_mul]; norm_num
  rw [e, Nat.div_div_eq_div_mul, ← pow_add]
  have e2 : 8 * (raw.length - bp) + nb = 8 * raw.length - pos - n := by omega
  rw [e2]
  unfold codeAt
  apply Nat.mod_eq_of_lt
  have h1 : (bytesVal raw / 2 ^ (8 * raw.length - pos - n)) % 2 ^ n < 2 ^ n :=
    Nat.mod_lt _ (by positivity)
  have h2 : (2 : Nat) ^ n ≤ 2 ^ 12 := Nat.pow_le_pow_right (by norm_num) hn
  omega

/-- `GetNextCode` yields the code at the reader's offset and moves the reader
behind it. -/
theorem GetNextCode_spec (raw : List Nat) (hraw : IsBytes raw) (D : Int) (l : DecLocals)
    (pos : Nat) (r : ReadInv raw D l pos) (hav : pos + l.nbits ≤ 8 * raw.length) :
    ∃ nd bp nb, GetNextCode raw l =
        ({ l with nextdata := nd, bp := bp, nextbits := nb }, codeAt raw pos l.nbits) ∧
      bp ≤ raw.length ∧ 8 * bp = pos + l.nbits + nb ∧ nb < 8 ∧
      nd = bytesVal (raw.take bp) % 2 ^ 64 := by
  have h1 := r.bits
  have h2 := r.nb
  have h3 := r.nbits_ge
  have h4 := r.nbits_le
  have hd := r.data
  have hm := r.mask
  have hlt : l.bp < raw.length := by omega
  unfold GetNextCode
  by_cases hc : l.nextbits + 8 < l.nbits
  · have hlt2 : l.bp + 1 < raw.length := by omega
    refine ⟨bytesVal (raw.take (l.bp + 1 + 1)) % 2 ^ 64, l.bp + 1 + 1,
      l.nextbits + 8 + 8 - l.nbits, ?_, by omega, by omega, by omega, rfl⟩
    simp only [hc, if_true]
    rw [hd, read_byte raw hraw l.bp hlt, read_byte raw hraw (l.bp + 1) hlt2, hm]
    have e := extract_code raw hraw pos l.nbits (l.bp + 1 + 1) (l.nextbits + 8 + 8 - l.nbits)
      (by omega) (by omega) (by omega) h4
    have e3 : l.nextbits + 8 + 8 - l.nbits + l.nbits - l.nbits = l.nextbits + 8 + 8 - l.nbits := by
      omega
    rw [e3] at e
    rw [e]
  · refine ⟨bytesVal (raw.take (l.bp + 1)) % 2 ^ 64, l.bp + 1,
      l.nextbits + 8 - l.nbits, ?_, by omega, by omega, by omega, rfl⟩
    simp only [hc, if_false]
    rw [hd, read_byte raw hraw l.bp hlt, hm]
    have e := extract_code raw hraw pos l.nbits (l.bp + 1) (l.nextbits + 8 - l.nbits)
      (by omega) (by omega) (by omega) h4
    have e3 : l.nextbits + 8 - l.nbits + l.nbits - l.nbits = l.nextbits + 8 - l.nbits := by
      omega
    rw [e3] at e
    rw [e]

/-- `NextCode`: the end-of-information code when fewer bits are left than a code
has, else the code at the reader's offset. -/
theorem NextCode_spec (raw : List Nat) (hraw : IsBytes raw) (D : Int) (hD : 0 ≤ D)
    (l : DecLocals) (pos : Nat) (r : ReadInv raw D l pos) :
    (l.dec_bitsleft < (l.nbits : Int) → NextCode raw l = (l, CODE_EOI)) ∧
    (¬ l.dec_bitsleft < (l.nbits : Int) → pos + l.nbits ≤ 8 * raw.length ∧
      ∃ nd bp nb, NextCode raw l =
          ({ l with nextdata := nd, bp := bp, nextbits := nb,
                    dec_bitsleft := l.dec_bitsleft - (l.nbits : Int) },
            codeAt raw pos l.nbits) ∧
        ReadInv raw D
          ({ l with nextdata := nd, bp := bp, nextbits := nb,
                    dec_bitsleft := l.dec_bitsleft - (l.nbits : Int) })
          (pos + l.nbits)) := by
  constructor
  · intro h
    unfold NextCode
    rw [if_pos h]
  · intro h
    have hl := r.left
    have hav : pos + l.nbits ≤ 8 * raw.length := by omega
    obtain ⟨nd, bp, nb, e, k1, k2, k3, k4⟩ := GetNextCode_spec raw hraw D l pos r hav
    refine ⟨hav, nd, bp, nb, ?_, ?_⟩
    · unfold NextCode
      rw [if_neg h, e]
    · exact {
        bp_le := k1
        bits := k2
        nb := k3
        data := k4
        left := by
          show l.dec_bitsleft - (l.nbits : Int) + D = 8 * (raw.length : Int) - ((pos + l.nbits : Nat) : Int)
          push_cast
          omega
        nbits_ge := r.nbits_ge
        nbits_le := r.nbits_le
        mask := r.mask }

end TifLzw

namespace TifLzw

theorem spellsRev_ne_nil (tab : Int → code_t) (k : Int) (r : List Nat) (h : SpellsRev tab k r) :
    r ≠ [] := by
  intro e
  subst e
  exact h

theorem CSIZE_eq : CSIZE = 4096 := by decide

theorem spellsRev_range (tab : Int → code_t) (k : Int) (r : List Nat) (h : SpellsRev tab k r) :
    0 ≤ k ∧ k < CSIZE := by
  match r, h with
  | [v], h => obtain ⟨h1, h2, _⟩ := h; exact ⟨h1, by rw [CSIZE_eq]; omega⟩
  | v :: w :: r, h => obtain ⟨h1, h2, _⟩ := h; exact ⟨by omega, h2⟩

theorem spellsRev_length (tab : Int → code_t) (k : Int) (r : List Nat) (h : SpellsRev tab k r) :
    (tab k).length = r.length := by
  match r, h with
  | [v], h => obtain ⟨_, _, _, h4⟩ := h; rw [h4]; rfl
  | v :: w :: r, h => obtain ⟨_, _, _, h4, _⟩ := h; rw [h4]; rfl

theorem spellsRev_value (tab : Int → code_t) (k : Int) (r : List Nat) (h : SpellsRev tab k r) :
    (tab k).value = r.headD 0 := by
  match r, h with
  | [v], h => obtain ⟨_, _, _, h4⟩ := h; rw [h4]; rfl
  | v :: w :: r, h => obtain ⟨_, _, h3, _⟩ := h; rw [h3]; rfl

theorem spellsRev_firstchar (tab : Int → code_t) (k : Int) (r : List Nat)
    (h : SpellsRev tab k r) : (tab k).firstchar = r.getLastD 0 := by
  match r, h with
  | [v], h => obtain ⟨_, _, _, h4⟩ := h; rw [h4]; rfl
  | v :: w :: r, h => obtain ⟨_, _, _, _, h5, _⟩ := h; rw [h5]; rfl

/-- A store above the entry does not touch the string it spells. -/
theorem spellsRev_frame (tab : Int → code_t) (f : Int) (e : code_t) (r : List Nat) :
    ∀ k : Int, k < f → SpellsRev tab k r → SpellsRev (store tab f e) k r := by
  induction r with
  | nil => intro k _ h; exact h
  | cons v t ih =>
    intro k hk h
    match t, h, ih with
    | [], h, _ =>
      obtain ⟨h1, h2, h3, h4⟩ := h
      exact ⟨h1, h2, h3, by rw [store_other _ _ _ _ (by omega)]; exact h4⟩
    | w :: r, h, ih =>
      obtain ⟨h1, h2, h3, h4, h5, p, h6, h7, h8⟩ := h
      have e1 : store tab f e k = tab k := store_other _ _ _ _ (by omega)
      exact ⟨h1, h2, by rw [e1]; exact h3, by rw [e1]; exact h4, by rw [e1]; exact h5,
        p, by rw [e1]; exact h6, h7, ih p (by omega) h8⟩

theorem blit_nil (out : Int → Nat) (op : Int) : blit out op [] = out := by
  funext j
  unfold blit
  simp only [List.length_nil, Nat.cast_zero, add_zero]
  rw [if_neg (by omega)]

theorem blit_snoc (out : Int → Nat) (op : Int) (s : List Nat) (v : Nat) :
    blit (store out (op + s.length) v) op s = blit out op (s ++ [v]) := by
  funext j
  unfold blit store
  simp only [List.length_append, List.length_singleton, Nat.cast_add, Nat.cast_one]
  by_cases h1 : op ≤ j ∧ j < op + s.length
  · rw [if_pos h1, if_pos (by omega)]
    have : (j - op).toNat < s.length := by omega
    rw [List.getD_eq_getElem?_getD, List.getD_eq_getElem?_getD, List.getElem?_append_left this]
  · rw [if_neg h1]
    by_cases h2 : j = op + s.length
    · rw [if_pos h2, if_pos (by omega)]
      have : (j - op).toNat = s.length := by omega
      rw [this, List.getD_eq_getElem?_getD, List.getElem?_append_right (by omega)]
      simp
    · rw [if_neg h2, if_neg (by omega)]

theorem blit_single (out : Int → Nat) (op : Int) (v : Nat) :
    store out op v = blit out op [v] := by
  have := blit_snoc out op [] v
  rw [blit_nil] at this
  simpa using this

/-- The copy loop of a string that fits: the whole string is stored, the walk
ends at the root. -/
theorem write_string_spec (tab : Int → code_t) (op : Int) (r : List Nat) :
    ∀ (k : Int) (out : Int → Nat), SpellsRev tab k r →
      write_string tab op r.length k (op + r.length) out = (blit out op r.reverse, none) := by
  induction r with
  | nil => intro k out h; exact absurd h (by simp [SpellsRev])
  | cons v t ih =>
    intro k out h
    match t, h, ih with
    | [], h, _ =>
      obtain ⟨h1, h2, h3, h4⟩ := h
      show write_string tab op 1 k (op + 1) out = _
      unfold write_string
      rw [h4]
      simp only [add_sub_cancel_right]
      rw [blit_single]
      rfl
    | w :: r, h, ih =>
      obtain ⟨h1, h2, h3, h4, h5, p, h6, h7, h8⟩ := h
      have hi := ih p (store out (op + ((w :: r).length : Nat)) v) h8
      show write_string tab op ((w :: r).length + 1) k (op + (((w :: r).length + 1 : Nat) : Int)) out = _
      unfold write_string
      rw [h6, h3]
      simp only []
      have e1 : op + (((w :: r).length + 1 : Nat) : Int) - 1 = op + ((w :: r).length : Nat) := by
        push_cast; ring
      rw [e1, if_pos (by simp only [List.length_cons]; push_cast; omega), hi]
      have e2 : ((w :: r).length : Int) = (((w :: r).reverse.length : Nat) : Int) := by
        rw [List.length_reverse]
      rw [e2, blit_snoc, List.reverse_cons (a := v)]

end TifLzw

namespace TifLzw

/-- The copy loop of the last `n` bytes of a string. -/
theorem copy_back_spec (tab : Int → code_t) (r : List Nat) :
    ∀ (k : Int) (out : Int → Nat) (n fuel : Nat) (tp : Int), SpellsRev tab k r → 1 ≤ n →
      n ≤ r.length → n ≤ fuel →
      ∃ c, copy_back tab fuel k tp (n : Int) out =
        some (blit out (tp - n) (r.take n).reverse, c, 0) := by
  induction r with
  | nil => intro k out n fuel tp h; exact absurd h (by simp [SpellsRev])
  | cons v t ih =>
    intro k out n fuel tp h hn1 hn2 hf
    obtain ⟨f, rfl⟩ : ∃ f, fuel = f + 1 := ⟨fuel - 1, by omega⟩
    match t, h, ih, hn2 with
    | [], h, _, hn2 =>
      obtain ⟨h1, h2, h3, h4⟩ := h
      have hn : n = 1 := by simp at hn2; omega
      subst hn
      unfold copy_back
      rw [h4]
      refine ⟨none, ?_⟩
      simp only [Nat.cast_one, sub_self, List.take_succ_cons, List.take_zero, List.reverse_cons,
        List.reverse_nil, List.nil_append]
      rw [blit_single]
    | w :: r, h, ih, hn2 =>
      obtain ⟨h1, h2, h3, h4, h5, p, h6, h7, h8⟩ := h
      unfold copy_back
      rw [h6, h3]
      simp only []
      by_cases hn : n = 1
      · subst hn
        refine ⟨some p, ?_⟩
        simp only [Nat.cast_one, sub_self, ne_eq, not_true_eq_false, if_false,
          List.take_succ_cons, List.take_zero, List.reverse_cons, List.reverse_nil,
          List.nil_append]
        rw [blit_single]
      · obtain ⟨m, rfl⟩ : ∃ m, n = m + 1 := ⟨n - 1, by omega⟩
        have hm2 : m ≤ (w :: r).length := by simp at hn2 ⊢; omega
        obtain ⟨c, hc⟩ := ih p (store out (tp - 1) v) m f (tp - 1) h8 (by omega) hm2 (by omega)
        refine ⟨c, ?_⟩
        have e1 : (((m + 1 : Nat) : Int)) - 1 = (m : Int) := by push_cast; ring
        rw [e1, if_pos (by omega), hc]
        have e2 : tp - 1 = (tp - ((m + 1 : Nat) : Int)) + ((((w :: r).take m).reverse.length : Nat) : Int) := by
          rw [List.length_reverse, List.length_take, Nat.min_eq_left hm2]
          push_cast; ring
        have e3 : tp - 1 - (m : Int) = tp - ((m + 1 : Nat) : Int) := by push_cast; ring
        rw [e3]
        conv_lhs => rw [e2]
        rw [blit_snoc, List.take_succ_cons, List.reverse_cons]

/-- The skip loop of a string that is too long ends at the entry that spells the
longest prefix that fits. -/
theorem skip_long_spec (tab : Int → code_t) (r : List Nat) :
    ∀ (k : Int) (m fuel : Nat), SpellsRev tab k r → 1 ≤ m → m < r.length →
      r.length - m ≤ fuel →
      ∃ k1, skip_long tab (m : Int) fuel k = some (some k1) ∧
        SpellsRev tab k1 (r.drop (r.length - m)) := by
  induction r with
  | nil => intro k m fuel h; exact absurd h (by simp [SpellsRev])
  | cons v t ih =>
    intro k m fuel h hm1 hm2 hf
    obtain ⟨f, rfl⟩ : ∃ f, fuel = f + 1 := ⟨fuel - 1, by omega⟩
    match t, h, ih, hm2, hf with
    | [], h, _, hm2, _ => simp at hm2; omega
    | w :: r, h, ih, hm2, hf =>
      obtain ⟨h1, h2, h3, h4, h5, p, h6, h7, h8⟩ := h
      have hlen := spellsRev_length tab p (w :: r) h8
      unfold skip_long
      rw [h6]
      simp only [hlen]
      by_cases hgt : (((w :: r).length : Nat) : Int) > (m : Int)
      · rw [if_pos hgt]
        have hgt' : m < (w :: r).length := by exact_mod_cast hgt
        obtain ⟨k1, e1, e2⟩ := ih p m f h8 hm1 hgt' (by simp at hf ⊢; omega)
        refine ⟨k1, e1, ?_⟩
        have e3 : (v :: w :: r).length - m = ((w :: r).length - m) + 1 := by
          simp only [List.length_cons] at hgt' ⊢; omega
        rw [e3, List.drop_succ_cons]
        exact e2
      · rw [if_neg hgt]
        have heq : (w :: r).length = m := by
          have : ¬ m < (w :: r).length := by intro hh; exact hgt (by exact_mod_cast hh)
          simp only [List.length_cons] at hm2 this ⊢; omega
        refine ⟨p, rfl, ?_⟩
        have e3 : (v :: w :: r).length - m = 1 := by
          simp only [List.length_cons] at heq ⊢; omega
        rw [e3]
        exact h8

end TifLzw

namespace TifLzw

theorem memset_zero_apply (tab : Int → code_t) (start n j : Int) :
    memset_zero tab start n j = if start ≤ j ∧ j < start + n then code_t.zero else tab j := rfl

/-- The code table after `CODE_CLEAR`. -/
theorem TR_clear (tab : Int → code_t) (dict : List (List Nat)) (h : TR tab dict) :
    TR (memset_zero tab CODE_FIRST ((CSIZE : Int) - CODE_FIRST)) [] := by
  have hC := CSIZE_eq
  constructor
  · intro c hc
    rw [memset_zero_apply, if_neg (by unfold CODE_FIRST; omega)]
    exact h.root c hc
  · intro i hi
    simp at hi
  · intro k h1 h2
    rw [memset_zero_apply, if_pos]
    unfold CODE_FIRST
    simp only [List.length_nil, Nat.cast_zero, add_zero] at h1
    push_cast
    omega

theorem getLastD_reverse (l : List Nat) : l.reverse.getLastD 0 = l.headD 0 := by
  cases l with
  | nil => rfl
  | cons a t => simp

/-- The code table after a new entry: the string of the previous code followed
by the byte `ch`. -/
theorem TR_add (tab : Int → code_t) (dict : List (List Nat)) (h : TR tab dict)
    (prev : List Nat) (hp : prev ≠ []) (o : Int) (ho : o < 258 + (dict.length : Int))
    (hs : SpellsRev tab o prev.reverse) (hf : 258 + dict.length < CSIZE) (ch : Nat) :
    TR (store tab (258 + (dict.length : Int)) ⟨some o, prev.length + 1, ch, prev.headD 0⟩)
      (dict ++ [prev ++ [ch]]) := by
  constructor
  · intro c hc
    rw [store_other _ _ _ _ (by omega)]
    exact h.root c hc
  · intro i hi
    rw [List.length_append, List.length_singleton] at hi
    by_cases hlt : i < dict.length
    · rw [getD_append_left _ _ _ hlt]
      obtain ⟨e1, e2⟩ := h.ent i hlt
      exact ⟨e1, spellsRev_frame _ _ _ _ _ (by omega) e2⟩
    · have hie : i = dict.length := by omega
      subst hie
      rw [getD_append_last]
      refine ⟨?_, ?_⟩
      · rw [List.length_append, List.length_singleton]
        have : 0 < prev.length := List.length_pos.mpr hp
        omega
      · rw [List.reverse_append, List.reverse_singleton, List.singleton_append]
        obtain ⟨w, r, hr⟩ : ∃ w r, prev.reverse = w :: r := by
          cases hpr : prev.reverse with
          | nil => simp at hpr; exact absurd hpr hp
          | cons w r => exact ⟨w, r, rfl⟩
        have hfr := spellsRev_frame tab (258 + (dict.length : Int))
          ⟨some o, prev.length + 1, ch, prev.headD 0⟩ prev.reverse o ho hs
        rw [hr] at hfr ⊢
        have hlen : prev.length = r.length + 1 := by
          have := congrArg List.length hr
          simpa using this
        refine ⟨by omega, by exact_mod_cast hf, ?_, ?_, ?_, o, ?_, ho, hfr⟩
        · rw [store_same]
        · rw [store_same]; show prev.length + 1 = r.length + 2; omega
        · rw [store_same, ← hr, getLastD_reverse]
        · rw [store_same]
  · intro k h1 h2
    rw [List.length_append, List.length_singleton] at h1
    push_cast at h1
    rw [store_other _ _ _ _ (by omega)]
    exact h.zero k (by omega) h2

end TifLzw

namespace TifLzw

/-- What a successful step of the reference decoder on a data code looks like. -/
theorem astep_data (s : AState) (c : Nat) (s1 : AState) (str : List Nat) (hp : s.prev ≠ [])
    (h : astep s s.nbits c = some (s1, str)) :
    c ≠ CODE_EOI ∧ (c ≠ CODE_CLEAR → 258 + s.dict.length < CSIZE ∧ str ≠ [] ∧
      str = (if c < 256 then [c]
        else if c - 258 < s.dict.length then s.dict.getD (c - 258) []
        else if c - 258 = s.dict.length then s.prev ++ [s.prev.headD 0]
        else []) ∧
      s1 = ⟨s.dict ++ [s.prev ++ [str.headD 0]], str,
        if 258 + (s.dict.length + 1) > MAXCODE s.nbits - 1 then min (s.nbits + 1) 12
        else s.nbits⟩) := by
  unfold astep at h
  rw [if_neg (by simp)] at h
  by_cases h1 : c = CODE_EOI
  · rw [if_pos h1] at h; cases h
  · rw [if_neg h1] at h
    refine ⟨h1, ?_⟩
    intro h2
    rw [if_neg h2, if_neg hp] at h
    by_cases h3 : CODE_FIRST + s.dict.length ≥ CSIZE
    · rw [if_pos h3] at h; cases h
    · rw [if_neg h3] at h
      simp only [] at h
      generalize hstr : (if c < 256 then [c]
        else if c - 258 < s.dict.length then s.dict.getD (c - 258) []
        else if c - 258 = s.dict.length then s.prev ++ [s.prev.headD 0]
        else []) = str0 at h
      by_cases hne : str0 = []
      · rw [if_pos hne] at h; cases h
      · rw [if_neg hne] at h
        simp only [Option.some.injEq, Prod.mk.injEq] at h
        obtain ⟨e1, e2⟩ := h
        subst e2
        refine ⟨by unfold CODE_FIRST at h3; omega, hne, rfl, ?_⟩
        rw [← e1]
        simp only [List.length_append, List.length_singleton, CODE_FIRST, BITS_MAX]

theorem codeStr_of_data (s : AState) (c : Nat) (hc : c ≠ 256) (hc2 : c ≠ 257) :
    (if c < 256 then [c]
        else if c - 258 < s.dict.length then s.dict.getD (c - 258) []
        else if c - 258 = s.dict.length then s.prev ++ [s.prev.headD 0]
        else []) ≠ [] → c < 256 ∨ (258 ≤ c ∧ c ≤ 258 + s.dict.length) := by
  intro h
  by_cases h1 : c < 256
  · exact Or.inl h1
  · right
    rw [if_neg h1] at h
    by_cases h2 : c - 258 < s.dict.length
    · omega
    · rw [if_neg h2] at h
      by_cases h3 : c - 258 = s.dict.length
      · omega
      · rw [if_neg h3] at h
        exact absurd rfl h

end TifLzw

namespace TifLzw

theorem headD_append_of_ne (a b : List Nat) (h : a ≠ []) : (a ++ b).headD 0 = a.headD 0 := by
  cases a with
  | nil => exact absurd rfl h
  | cons x t => rfl

/-- The table entry of the previous code. -/
theorem old_entry (tab : Int → code_t) (o : Int) (prev : List Nat)
    (h : SpellsRev tab o prev.reverse) :
    (tab o).firstchar = prev.headD 0 ∧ (tab o).length = prev.length := by
  refine ⟨?_, ?_⟩
  · rw [spellsRev_firstchar tab o _ h, getLastD_reverse]
  · rw [spellsRev_length tab o _ h, List.length_reverse]

/-- The first byte of the string of a valid data code, as the decoder finds it
before the new entry is stored. -/
theorem value_of_code (l : DecLocals) (s : AState) (t : TabInv l s) (hp : s.prev ≠ [])
    (o : Int) (hs : SpellsRev l.tab o s.prev.reverse) (c : Nat) (str : List Nat)
    (hv : c < 256 ∨ (258 ≤ c ∧ c ≤ 258 + s.dict.length))
    (hstr : str = (if c < 256 then [c]
        else if c - 258 < s.dict.length then s.dict.getD (c - 258) []
        else if c - 258 = s.dict.length then s.prev ++ [s.prev.headD 0]
        else [])) :
    (if (c : Int) < l.free_entp then (l.tab (c : Int)).firstchar else (l.tab o).firstchar) =
      str.headD 0 := by
  have hf := t.free
  rcases hv with h | ⟨h1, h2⟩
  · rw [if_pos (by omega), t.tab.root c h, hstr, if_pos h]
    rfl
  · by_cases h3 : c - 258 < s.dict.length
    · rw [if_pos (by omega), hstr, if_neg (by omega), if_pos h3]
      obtain ⟨_, e⟩ := t.tab.ent (c - 258) h3
      have ec : (258 : Int) + ((c - 258 : Nat) : Int) = (c : Int) := by omega
      rw [ec] at e
      rw [spellsRev_firstchar _ _ _ e, getLastD_reverse]
    · have h4 : c - 258 = s.dict.length := by omega
      rw [if_neg (by omega), hstr, if_neg (by omega), if_neg h3, if_pos h4,
        (old_entry l.tab o s.prev hs).1, headD_append_of_ne _ _ hp]

/-- The entry of a valid data code spells its string once the new entry is stored. -/
theorem spells_code (tab : Int → code_t) (dict : List (List Nat)) (prev : List Nat)
    (ch : Nat) (h : TR tab (dict ++ [prev ++ [ch]])) (c : Nat) (str : List Nat)
    (hv : c < 256 ∨ (258 ≤ c ∧ c ≤ 258 + dict.length))
    (hstr : str = (if c < 256 then [c]
        else if c - 258 < dict.length then dict.getD (c - 258) []
        else if c - 258 = dict.length then prev ++ [ch]
        else [])) :
    SpellsRev tab (c : Int) str.reverse := by
  rcases hv with h1 | ⟨h1, h2⟩
  · rw [hstr, if_pos h1]
    exact ⟨by omega, by omega, rfl, h.root c h1⟩
  · have hlt : c - 258 < (dict ++ [prev ++ [ch]]).length := by
      rw [List.length_append, List.length_singleton]; omega
    obtain ⟨_, e⟩ := h.ent (c - 258) hlt
    have ec : (258 : Int) + ((c - 258 : Nat) : Int) = (c : Int) := by omega
    rw [ec] at e
    by_cases h3 : c - 258 < dict.length
    · rw [hstr, if_neg (by omega), if_pos h3]
      rw [getD_append_left _ _ _ h3] at e
      exact e
    · have h4 : c - 258 = dict.length := by omega
      rw [hstr, if_neg (by omega), if_neg h3, if_pos h4]
      rw [h4, getD_append_last] at e
      exact e

end TifLzw

namespace TifLzw

theorem MAXCODE_ge (n : Nat) (h : 9 ≤ n) : 511 ≤ MAXCODE n := by
  rw [MAXCODE_eq]
  have : (2 : Nat) ^ 9 ≤ 2 ^ n := Nat.pow_le_pow_right (by norm_num) h
  omega

/-- "Add the new entry to the code table" for a data code that the reference
decoder accepts: the locals follow the reference decoder, and the entry of the
code spells its string. -/
theorem add_entry_spec (raw : List Nat) (D : Int) (l : DecLocals) (pos : Nat) (s : AState)
    (r : ReadInv raw D l pos) (t : TabInv l s) (hp : s.prev ≠ []) (o : Int)
    (ho : l.oldcodep = some o) (c : Nat) (hc : c ≠ CODE_CLEAR) (s1 : AState) (str : List Nat)
    (ha : astep s s.nbits c = some (s1, str)) :
    LZWDecode_add_entry l o c =
      { l with tab := store l.tab l.free_entp
                 ⟨some o, s.prev.length + 1, str.headD 0, s.prev.headD 0⟩,
               free_entp := l.free_entp + 1, nbits := s1.nbits,
               nbitsmask := MAXCODE s1.nbits, maxcodep := (MAXCODE s1.nbits : Int) - 1,
               oldcodep := some (c : Int) } ∧
    ReadInv raw D (LZWDecode_add_entry l o c) pos ∧ TabInv (LZWDecode_add_entry l o c) s1 ∧
    s1.prev = str ∧ str ≠ [] ∧
    SpellsRev (LZWDecode_add_entry l o c).tab (c : Int) str.reverse ∧
    (c < 256 → str = [c]) := by
  obtain ⟨hE, hrest⟩ := astep_data s c s1 str hp ha
  obtain ⟨hfree, hne, hstr, hs1⟩ := hrest hc
  have hv := codeStr_of_data s c (by unfold CODE_CLEAR at hc; exact hc)
    (by unfold CODE_EOI at hE; exact hE) (by rw [← hstr]; exact hne)
  have hC := CSIZE_eq
  have hf := t.free
  have hn9 := r.nbits_ge
  have hn12 := r.nbits_le
  have hne' := t.nbits_eq
  have hmc := t.maxc
  have hM := MAXCODE_ge l.nbits hn9
  obtain ⟨o', ho', hlt, hsp⟩ : ∃ o', l.oldcodep = some o' ∧ o' < l.free_entp ∧
      SpellsRev l.tab o' s.prev.reverse := by
    rcases t.old with ⟨h, _⟩ | ⟨_, h⟩
    · exact absurd h hp
    · exact h
  have hoo : o' = o := by rw [ho] at ho'; cases ho'; rfl
  subst hoo
  obtain ⟨ofc, olen⟩ := old_entry l.tab o' s.prev hsp
  have hval := value_of_code l s t hp o' hsp c str hv hstr
  have hpl := t.prev_len
  have hlen : (s.prev.length + 1) % 65536 = s.prev.length + 1 := by
    apply Nat.mod_eq_of_lt; omega
  have hs1n : s1.nbits = if 258 + (s.dict.length + 1) > MAXCODE s.nbits - 1
      then min (s.nbits + 1) 12 else s.nbits := by rw [hs1]
  have hs1d : s1.dict = s.dict ++ [s.prev ++ [str.headD 0]] := by rw [hs1]
  have hs1p : s1.prev = str := by rw [hs1]
  have heq : LZWDecode_add_entry l o' c =
      { l with tab := store l.tab l.free_entp
                 ⟨some o', s.prev.length + 1, str.headD 0, s.prev.headD 0⟩,
               free_entp := l.free_entp + 1, nbits := s1.nbits,
               nbitsmask := MAXCODE s1.nbits, maxcodep := (MAXCODE s1.nbits : Int) - 1,
               oldcodep := some (c : Int) } := by
    unfold LZWDecode_add_entry
    rw [ofc] at hval
    simp only [ofc, olen, hlen, hval]
    by_cases hcnd : l.free_entp + 1 > l.maxcodep
    · have hcn : 258 + (s.dict.length + 1) > MAXCODE s.nbits - 1 := by
        rw [← hne']; omega
      rw [if_pos hcnd]
      rw [if_pos hcn] at hs1n
      have e : (if l.nbits + 1 > BITS_MAX then BITS_MAX else l.nbits + 1) = s1.nbits := by
        rw [hs1n, ← hne']
        unfold BITS_MAX
        split <;> omega
      rw [e]
    · have hcn : ¬ 258 + (s.dict.length + 1) > MAXCODE s.nbits - 1 := by
        rw [← hne']; omega
      rw [if_neg hcnd]
      rw [if_neg hcn] at hs1n
      rw [hs1n, ← hne', ← hmc, ← r.mask]
  have hs1n9 : 9 ≤ s1.nbits ∧ s1.nbits ≤ 12 := by
    rw [hs1n, ← hne']
    split <;> omega
  have hTR : TR (store l.tab l.free_entp
      ⟨some o', s.prev.length + 1, str.headD 0, s.prev.headD 0⟩)
      (s.dict ++ [s.prev ++ [str.headD 0]]) := by
    rw [hf]
    exact TR_add l.tab s.dict t.tab s.prev hp o' (by omega) hsp hfree (str.headD 0)
  have hsc : SpellsRev (store l.tab l.free_entp
      ⟨some o', s.prev.length + 1, str.headD 0, s.prev.headD 0⟩) (c : Int) str.reverse := by
    apply spells_code _ s.dict s.prev (str.headD 0) hTR c str hv
    rw [hstr]
    by_cases h1 : c < 256
    · simp only [h1, if_true]
    · simp only [h1, if_false]
      by_cases h2 : c - 258 < s.dict.length
      · simp only [h2, if_true]
      · simp only [h2, if_false]
        by_cases h3 : c - 258 = s.dict.length
        · simp only [h3, if_true]
          rw [headD_append_of_ne _ _ hp]
        · simp only [h3, if_false]
  refine ⟨heq, ?_, ?_, hs1p, hne, ?_, ?_⟩
  · rw [heq]
    exact {
      bp_le := r.bp_le
      bits := r.bits
      nb := r.nb
      data := r.data
      left := r.left
      nbits_ge := hs1n9.1
      nbits_le := hs1n9.2
      mask := rfl }
  · rw [heq]
    exact {
      nbits_eq := rfl
      maxc := rfl
      free := by
        show l.free_entp + 1 = 258 + (s1.dict.length : Int)
        rw [hs1d, List.length_append, List.length_singleton]
        push_cast
        omega
      free_le := by
        rw [hs1d, List.length_append, List.length_singleton]
        omega
      tab := by
        show TR (store l.tab l.free_entp _) s1.dict
        rw [hs1d]
        exact hTR
      good := by
        intro i hi
        rw [hs1d] at hi ⊢
        rw [List.length_append, List.length_singleton] at hi
        by_cases hlt2 : i < s.dict.length
        · rw [getD_append_left _ _ _ hlt2]
          exact t.good i hlt2
        · have hie : i = s.dict.length := by omega
          rw [hie, getD_append_last, List.length_append, List.length_singleton]
          omega
      prev_len := by
        rw [hs1p, hs1d, List.length_append, List.length_singleton, hstr]
        by_cases h1 : c < 256
        · simp only [h1, if_true, List.length_singleton]; omega
        · simp only [h1, if_false]
          by_cases h2 : c - 258 < s.dict.length
          · simp only [h2, if_true]
            have := t.good (c - 258) h2
            omega
          · simp only [h2, if_false]
            by_cases h3 : c - 258 = s.dict.length
            · simp only [h3, if_true, List.length_append, List.length_singleton]; omega
            · simp only [h3, if_false, List.length_nil]; omega
      old := by
        right
        refine ⟨by rw [hs1p]; exact hne, (c : Int), rfl, ?_, ?_⟩
        · show (c : Int) < l.free_entp + 1
          rcases hv with h | h <;> omega
        · rw [hs1p]
          exact hsc }
  · rw [heq]
    exact hsc
  · intro h
    rw [hstr, if_pos h]

end TifLzw

namespace TifLzw

theorem spellsRev_length_le (tab : Int → code_t) (r : List Nat) :
    ∀ k : Int, SpellsRev tab k r → (r.length : Int) ≤ k + 1 := by
  induction r with
  | nil => intro k h; exact absurd h (by simp [SpellsRev])
  | cons v t ih =>
    intro k h
    match t, h, ih with
    | [], h, _ =>
      obtain ⟨h1, _⟩ := h
      simp only [List.length_singleton, Nat.cast_one]
      omega
    | w :: r, h, ih =>
      obtain ⟨_, _, _, _, _, p, _, h7, h8⟩ := h
      have := ih p h8
      simp only [List.length_cons, Nat.cast_add, Nat.cast_one] at this ⊢
      omega

theorem reverse_drop_reverse (str : List Nat) (m : Nat) (hm : m ≤ str.length) :
    (str.reverse.drop (str.reverse.length - m)).reverse = str.take m := by
  rw [List.length_reverse]
  have h : str.reverse = (str.drop m).reverse ++ (str.take m).reverse := by
    rw [← List.reverse_append, List.take_append_drop]
  rw [h, List.drop_left' (by rw [List.length_reverse, List.length_drop]), List.reverse_reverse]

/-- The end of the loop body of `LZWDecode`: the string of the code is stored
when it fits; else the part that fits is stored and the restart is set up. -/
theorem emit_spec (l1 : DecLocals) (c : Nat) (str : List Nat)
    (hs : SpellsRev l1.tab (c : Int) str.reverse) (hlit : c < 256 → str = [c])
    (hocc : 0 < l1.occ) :
    ((str.length : Int) ≤ l1.occ → LZWDecode_emit l1 c =
      .next { l1 with out := blit l1.out l1.op str, op := l1.op + str.length,
                      occ := l1.occ - str.length }) ∧
    (l1.occ < (str.length : Int) → LZWDecode_emit l1 c =
      .stop { l1 with dec_codep := some (c : Int), dec_restart := l1.occ,
                      out := blit l1.out l1.op (str.take l1.occ.toNat), occ := 0 }) := by
  have hlen : (l1.tab (c : Int)).length = str.length := by
    rw [spellsRev_length _ _ _ hs, List.length_reverse]
  have hne : str ≠ [] := by
    intro e
    have := spellsRev_ne_nil _ _ _ hs
    rw [e] at this
    exact this rfl
  have hpos : 0 < str.length := List.length_pos.mpr hne
  have hrange := spellsRev_range _ _ _ hs
  have hle := spellsRev_length_le _ _ _ hs
  rw [List.length_reverse] at hle
  have hC := CSIZE_eq
  unfold LZWDecode_emit
  by_cases hc : c ≥ 256
  · simp only [hc, if_true, hlen]
    rw [if_neg (by omega)]
    constructor
    · intro hfit
      rw [if_neg (by omega)]
      have hw := write_string_spec l1.tab l1.op str.reverse (c : Int) l1.out hs
      rw [List.length_reverse, List.reverse_reverse] at hw
      rw [hw]
    · intro hlong
      rw [if_pos (by omega)]
      unfold LZWDecode_too_long
      obtain ⟨m, hm⟩ : ∃ m : Nat, l1.occ = (m : Int) := ⟨l1.occ.toNat, by omega⟩
      have hm1 : 1 ≤ m := by omega
      have hm2 : m < str.reverse.length := by rw [List.length_reverse]; omega
      obtain ⟨k1, e1, e2⟩ := skip_long_spec l1.tab str.reverse (c : Int) m (CSIZE + 1) hs hm1
        hm2 (by rw [List.length_reverse]; omega)
      have hdl : (str.reverse.drop (str.reverse.length - m)).length = m := by
        rw [List.length_drop]; omega
      obtain ⟨c2, e3⟩ := copy_back_spec l1.tab _ k1 l1.out m (CSIZE + 1 + m) (l1.op + m) e2 hm1
        (by omega) (by omega)
      simp only [hm, e1, Int.toNat_ofNat, e3]
      rw [List.take_of_length_le (by omega), reverse_drop_reverse str m (by omega)]
      simp only [add_sub_cancel_right]
  · have h1 : c < 256 := by omega
    have hstr := hlit h1
    simp only [hc, if_false]
    constructor
    · intro _
      rw [blit_single, hstr]
      simp only [List.length_singleton, Nat.cast_one]
    · intro hlong
      rw [hstr] at hlong
      simp only [List.length_singleton, Nat.cast_one] at hlong
      omega

end TifLzw

namespace TifLzw

theorem readInv_congr {raw : List Nat} {D : Int} {l : DecLocals} {pos : Nat}
    (h : ReadInv raw D l pos) (l1 : DecLocals) (e1 : l1.bp = l.bp)
    (e2 : l1.nextbits = l.nextbits) (e3 : l1.nextdata = l.nextdata)
    (e4 : l1.dec_bitsleft = l.dec_bitsleft) (e5 : l1.nbits = l.nbits)
    (e6 : l1.nbitsmask = l.nbitsmask) : ReadInv raw D l1 pos := by
  constructor
  · rw [e1]; exact h.bp_le
  · rw [e1, e2]; exact h.bits
  · rw [e2]; exact h.nb
  · rw [e1, e3]; exact h.data
  · rw [e4]; exact h.left
  · rw [e5]; exact h.nbits_ge
  · rw [e5]; exact h.nbits_le
  · rw [e5, e6]; exact h.mask

theorem tabInv_congr {l : DecLocals} {s : AState} (h : TabInv l s) (l1 : DecLocals)
    (e1 : l1.nbits = l.nbits) (e2 : l1.maxcodep = l.maxcodep) (e3 : l1.free_entp = l.free_entp)
    (e4 : l1.tab = l.tab) (e5 : l1.oldcodep = l.oldcodep) : TabInv l1 s := by
  constructor
  · rw [e1]; exact h.nbits_eq
  · rw [e1, e2]; exact h.maxc
  · rw [e3]; exact h.free
  · exact h.free_le
  · rw [e4]; exact h.tab
  · exact h.good
  · exact h.prev_len
  · rw [e3, e4, e5]; exact h.old

/-- When the reference decoder rejects a data code. -/
theorem astep_none (s : AState) (c : Nat) (hp : s.prev ≠ []) (hc : c ≠ CODE_CLEAR)
    (he : c ≠ CODE_EOI) (h : astep s s.nbits c = none) :
    258 + s.dict.length ≥ CSIZE ∨
      (258 ≤ c ∧ ((c - 258 < s.dict.length ∧ s.dict.getD (c - 258) [] = []) ∨
        s.dict.length < c - 258)) := by
  unfold astep at h
  rw [if_neg (by simp), if_neg he, if_neg hc, if_neg hp] at h
  by_cases h3 : CODE_FIRST + s.dict.length ≥ CSIZE
  · left; unfold CODE_FIRST at h3; exact h3
  · right
    rw [if_neg h3] at h
    simp only [] at h
    unfold CODE_CLEAR at hc
    unfold CODE_EOI at he
    by_cases h1 : c < 256
    · rw [if_pos h1] at h
      simp at h
    · rw [if_neg h1] at h
      refine ⟨by omega, ?_⟩
      by_cases h2 : c - 258 < s.dict.length
      · rw [if_pos h2] at h
        left
        refine ⟨h2, ?_⟩
        by_contra hne
        rw [if_neg hne] at h
        cases h
      · rw [if_neg h2] at h
        by_cases h4 : c - 258 = s.dict.length
        · rw [if_pos h4] at h
          rw [if_neg (by simp)] at h
          cases h
        · right; omega

theorem add_entry_tab (l : DecLocals) (o : Int) (c : Nat) :
    ∃ e, (LZWDecode_add_entry l o c).tab = store l.tab l.free_entp e ∧
      (LZWDecode_add_entry l o c).occ = l.occ ∧
      (LZWDecode_add_entry l o c).dec_bitsleft = l.dec_bitsleft ∧
      (LZWDecode_add_entry l o c).out = l.out := by
  unfold LZWDecode_add_entry
  simp only []
  split
  · exact ⟨_, rfl, rfl, rfl, rfl⟩
  · exact ⟨_, rfl, rfl, rfl, rfl⟩

/-- The loop body of `LZWDecode` on a data code, the reader being past the code:
the code that the reference decoder accepts is stored, in full or up to the end
of the output buffer; any other code makes the call return 0. -/
theorem data_spec (raw : List Nat) (D : Int) (l : DecLocals) (pos : Nat) (s : AState)
    (r : ReadInv raw D l pos) (t : TabInv l s) (hocc : 0 < l.occ) (c : Nat)
    (hlt : c < 2 ^ l.nbits) (hc : c ≠ CODE_CLEAR) (he : c ≠ CODE_EOI) :
    ((s.prev = [] ∨ astep s s.nbits c = none) →
      ∃ l1, LZWDecode_data l c = .fail l1 ∧ l1.dec_bitsleft = l.dec_bitsleft ∧
        l1.out = l.out) ∧
    (∀ s1 str, s.prev ≠ [] → astep s s.nbits c = some (s1, str) →
      ((str.length : Int) ≤ l.occ →
        ∃ l1, LZWDecode_data l c = .next l1 ∧ Stepped raw D l l1 pos s1 str) ∧
      (l.occ < (str.length : Int) →
        ∃ l1, LZWDecode_data l c = .stop l1 ∧ Paused raw D l l1 pos s1 c str)) := by
  have hC := CSIZE_eq
  have hf := t.free
  have hfl := t.free_le
  have h12 : c < 4096 := by
    have : (2 : Nat) ^ l.nbits ≤ 2 ^ 12 := Nat.pow_le_pow_right (by norm_num) r.nbits_le
    omega
  constructor
  · intro h
    by_cases hp : s.prev = []
    · rcases t.old with ⟨_, hd, ho⟩ | ⟨h1, _⟩
      · refine ⟨DecLocals.mk l.op l.occ l.bp l.nbits l.nextbits l.nextdata l.nbitsmask l.oldcodep
          l.free_entp l.maxcodep l.out
          (store l.tab l.free_entp (code_t.mk (some (-1)) (l.tab l.free_entp).length
            (l.tab l.free_entp).value (l.tab l.free_entp).firstchar))
          l.dec_bitsleft l.dec_codep l.dec_restart, ?_, rfl, rfl⟩
        unfold LZWDecode_data
        rw [if_neg (by rw [hf, hd, hC]; simp), ho]
        simp only []
        rw [if_pos (Or.inl (by omega))]
      · exact absurd hp h1
    · have hn : astep s s.nbits c = none := by
        rcases h with h | h
        · exact absurd h hp
        · exact h
      rcases t.old with ⟨h1, _⟩ | ⟨_, o, ho, holt, hsp⟩
      · exact absurd h1 hp
      · have hor := spellsRev_range _ _ _ hsp
        rcases astep_none s c hp hc he hn with hfull | ⟨h258, hbad⟩
        · refine ⟨l, ?_, rfl, rfl⟩
          unfold LZWDecode_data
          rw [if_pos (Or.inr (by rw [hf]; omega))]
        · have hgt : s.dict.length < c - 258 := by
            rcases hbad with ⟨h2, h3⟩ | h2
            · have := (t.tab.ent (c - 258) h2).1
              rw [h3] at this
              simp at this
            · exact h2
          by_cases hfull : 258 + s.dict.length ≥ CSIZE
          · refine ⟨l, ?_, rfl, rfl⟩
            unfold LZWDecode_data
            rw [if_pos (Or.inr (by rw [hf]; omega))]
          · obtain ⟨e, he1, he2, he3, he4⟩ := add_entry_tab l o c
            have hz : ((LZWDecode_add_entry l o c).tab (c : Int)).length = 0 := by
              rw [he1, store_other _ _ _ _ (by rw [hf]; omega),
                t.tab.zero (c : Int) (by omega) (by omega)]
              rfl
            refine ⟨LZWDecode_add_entry l o c, ?_, he3, he4⟩
            unfold LZWDecode_data
            rw [if_neg (by rw [hf]; omega), ho]
            simp only []
            rw [if_neg (by omega)]
            unfold LZWDecode_emit
            simp only []
            rw [if_pos (by omega), if_pos hz]
  · intro s1 str hp ha
    rcases t.old with ⟨h1, _⟩ | ⟨_, o, ho, holt, hsp⟩
    · exact absurd h1 hp
    · have hor := spellsRev_range _ _ _ hsp
      obtain ⟨hEq, r1, t1, hprev, hne, hsp1, hlit⟩ :=
        add_entry_spec raw D l pos s r t hp o ho c hc s1 str ha
      obtain ⟨_, hrest⟩ := astep_data s c s1 str hp ha
      obtain ⟨hfree, _, _, _⟩ := hrest hc
      have k1 : (LZWDecode_add_entry l o c).occ = l.occ := by rw [hEq]
      have k2 : (LZWDecode_add_entry l o c).out = l.out := by rw [hEq]
      have k3 : (LZWDecode_add_entry l o c).op = l.op := by rw [hEq]
      have k4 : (LZWDecode_add_entry l o c).dec_restart = l.dec_restart := by rw [hEq]
      have k5 : (LZWDecode_add_entry l o c).dec_codep = l.dec_codep := by rw [hEq]
      have hd : LZWDecode_data l c = LZWDecode_emit (LZWDecode_add_entry l o c) c := by
        unfold LZWDecode_data
        rw [if_neg (by rw [hf]; omega), ho]
        simp only []
        rw [if_neg (by omega)]
      obtain ⟨e1, e2⟩ := emit_spec (LZWDecode_add_entry l o c) c str hsp1 hlit
        (by rw [k1]; exact hocc)
      generalize LZWDecode_add_entry l o c = la at *
      constructor
      · intro hfit
        refine ⟨_, by rw [hd, e1 (by rw [k1]; exact hfit)], ?_⟩
        exact {
          read := readInv_congr r1 _ rfl rfl rfl rfl rfl rfl
          tab := tabInv_congr t1 _ rfl rfl rfl rfl rfl
          prev := hprev
          ne := hne
          out := by show blit la.out la.op str = _; rw [k2, k3]
          op := by show la.op + _ = _; rw [k3]
          occ := by show la.occ - _ = _; rw [k1]
          restart := k4
          codep := k5 }
      · intro hlong
        refine ⟨_, by rw [hd, e2 (by rw [k1]; exact hlong)], ?_⟩
        exact {
          read := readInv_congr r1 _ rfl rfl rfl rfl rfl rfl
          tab := tabInv_congr t1 _ rfl rfl rfl rfl rfl
          prev := hprev
          long := hlong
          spell := hsp1
          out := by show blit la.out la.op (str.take la.occ.toNat) = _; rw [k1, k2, k3]
          op := k3
          occ := rfl
          restart := k1
          codep := rfl }

end TifLzw

namespace TifLzw

theorem codeAt_lt (raw : List Nat) (pos n : Nat) : codeAt raw pos n < 2 ^ n := by
  unfold codeAt
  exact Nat.mod_lt _ (by positivity)

/-- `NextCode` when a whole code is left: the code at the reader's offset is
read, and only the reader moves. -/
theorem NextCode_read (raw : List Nat) (hraw : IsBytes raw) (D : Int) (hD : 0 ≤ D)
    (l : DecLocals) (pos : Nat) (r : ReadInv raw D l pos) (h : (l.nbits : Int) ≤ l.dec_bitsleft) :
    pos + l.nbits ≤ 8 * raw.length ∧
    ∃ l1, NextCode raw l = (l1, codeAt raw pos l.nbits) ∧ ReadInv raw D l1 (pos + l.nbits) ∧
      ReadStep l l1 := by
  obtain ⟨hav, nd, bp, nb, e, r1⟩ := (NextCode_spec raw hraw D hD l pos r).2 (by omega)
  exact ⟨hav, _, e, r1, ⟨rfl, rfl, rfl, rfl, rfl, rfl, rfl, rfl, rfl, rfl, rfl, rfl⟩⟩

theorem readInv_reset (raw : List Nat) (D : Int) (l : DecLocals) (pos : Nat)
    (r : ReadInv raw D l pos) : ReadInv raw D (LZWDecode_reset l) pos :=
  { bp_le := r.bp_le, bits := r.bits, nb := r.nb, data := r.data, left := r.left,
    nbits_ge := by show 9 ≤ BITS_MIN; decide
    nbits_le := by show BITS_MIN ≤ 12; decide
    mask := rfl }

/-- The branch `if (code == CODE_CLEAR)` of the loop body, the reader being past
the clear code: the table is reset, and the next code is stored when it is a
byte. -/
theorem clear_spec (raw : List Nat) (hraw : IsBytes raw) (D : Int) (hD : 0 ≤ D)
    (l : DecLocals) (pos : Nat) (r : ReadInv raw D l pos) (dict : List (List Nat))
    (ht : TR l.tab dict) :
    (l.dec_bitsleft < 9 →
      ∃ l1, LZWDecode_clear raw l = .stop l1 ∧ l1.dec_bitsleft = l.dec_bitsleft ∧
        l1.out = l.out ∧ l1.occ = l.occ) ∧
    (9 ≤ l.dec_bitsleft → pos + 9 ≤ 8 * raw.length ∧
      (codeAt raw pos 9 = CODE_EOI →
        ∃ l1, LZWDecode_clear raw l = .stop l1 ∧ l1.dec_bitsleft = l.dec_bitsleft - 9 ∧
          l1.out = l.out ∧ l1.occ = l.occ) ∧
      (codeAt raw pos 9 ≠ CODE_EOI → 256 ≤ codeAt raw pos 9 →
        ∃ l1, LZWDecode_clear raw l = .fail l1 ∧ l1.dec_bitsleft = l.dec_bitsleft - 9 ∧
          l1.out = l.out) ∧
      (codeAt raw pos 9 < 256 →
        ∃ l1, LZWDecode_clear raw l = .next l1 ∧
          Stepped raw D l l1 (pos + 9) ⟨[], [codeAt raw pos 9], 9⟩ [codeAt raw pos 9])) := by
  have r0 := readInv_reset raw D l pos r
  have hnb : (LZWDecode_reset l).nbits = 9 := rfl
  have hbl : (LZWDecode_reset l).dec_bitsleft = l.dec_bitsleft := rfl
  constructor
  · intro h
    have n1 := (NextCode_spec raw hraw D hD (LZWDecode_reset l) pos r0).1
      (by rw [hnb, hbl]; push_cast; omega)
    refine ⟨LZWDecode_reset l, ?_, rfl, rfl, rfl⟩
    unfold LZWDecode_clear
    simp only [n1, if_true]
  · intro h
    obtain ⟨hav, l1, e, r1, q⟩ := NextCode_read raw hraw D hD (LZWDecode_reset l) pos r0
      (by rw [hnb, hbl]; push_cast; omega)
    rw [hnb] at hav e r1
    have qb : l1.dec_bitsleft = l.dec_bitsleft - 9 := by rw [q.dec_bitsleft, hnb, hbl]; rfl
    refine ⟨hav, ?_, ?_, ?_⟩
    · intro hc
      refine ⟨l1, ?_, qb, q.out, q.occ⟩
      unfold LZWDecode_clear
      simp only [e, hc, if_true]
    · intro hc h256
      refine ⟨l1, ?_, qb, q.out⟩
      unfold LZWDecode_clear
      simp only [e]
      rw [if_neg hc, if_pos (by unfold CODE_CLEAR; omega)]
    · intro hlt
      refine ⟨{ l1 with out := store l1.out l1.op (codeAt raw pos 9), op := l1.op + 1,
                        occ := l1.occ - 1, oldcodep := some (codeAt raw pos 9 : Int) }, ?_, ?_⟩
      · unfold LZWDecode_clear
        simp only [e]
        rw [if_neg (by unfold CODE_EOI; omega), if_neg (by unfold CODE_CLEAR; omega)]
      · have htr : TR l1.tab [] := by
          rw [q.tab]
          exact TR_clear l.tab dict ht
        exact {
          read := readInv_congr r1 _ rfl rfl rfl rfl rfl rfl
          tab := {
            nbits_eq := q.nbits
            maxc := by
              show l1.maxcodep = (MAXCODE l1.nbits : Int) - 1
              rw [q.maxcodep, q.nbits]
              rfl
            free := by
              show l1.free_entp = _
              rw [q.free_entp]
              rfl
            free_le := by show 258 + 0 ≤ CSIZE; decide
            tab := htr
            good := by intro i hi; simp at hi
            prev_len := by simp
            old := by
              right
              refine ⟨by simp, (codeAt raw pos 9 : Int), rfl, ?_, ?_⟩
              · show ((codeAt raw pos 9 : Nat) : Int) < l1.free_entp
                rw [q.free_entp]
                show ((codeAt raw pos 9 : Nat) : Int) < ((CODE_FIRST : Nat) : Int)
                unfold CODE_FIRST
                omega
              · show SpellsRev l1.tab _ [codeAt raw pos 9]
                exact ⟨by omega, by omega, rfl, htr.root _ hlt⟩ }
          prev := rfl
          ne := by simp
          out := by
            show store l1.out l1.op (codeAt raw pos 9) = _
            rw [q.out, q.op, blit_single]
            rfl
          op := by
            show l1.op + 1 = l.op + (([codeAt raw pos 9].length : Nat) : Int)
            rw [q.op]
            simp
            rfl
          occ := by
            show l1.occ - 1 = l.occ - (([codeAt raw pos 9].length : Nat) : Int)
            rw [q.occ]
            simp
            rfl
          restart := q.dec_restart
          codep := q.dec_codep }

end TifLzw

namespace TifLzw

theorem stepped_of_read {raw : List Nat} {D : Int} {l la l1 : DecLocals} {pos1 : Nat}
    {s1 : AState} {str : List Nat} (q : ReadStep l la) (h : Stepped raw D la l1 pos1 s1 str) :
    Stepped raw D l l1 pos1 s1 str :=
  { read := h.read, tab := h.tab, prev := h.prev, ne := h.ne
    out := by rw [h.out, q.out, q.op]
    op := by rw [h.op, q.op]
    occ := by rw [h.occ, q.occ]
    restart := by rw [h.restart, q.dec_restart]
    codep := by rw [h.codep, q.dec_codep] }

theorem paused_of_read {raw : List Nat} {D : Int} {l la l1 : DecLocals} {pos1 : Nat}
    {s1 : AState} {c : Nat} {str : List Nat} (q : ReadStep l la)
    (h : Paused raw D la l1 pos1 s1 c str) : Paused raw D l l1 pos1 s1 c str :=
  { read := h.read, tab := h.tab, prev := h.prev, spell := h.spell
    long := by rw [← q.occ]; exact h.long
    out := by rw [h.out, q.out, q.op, q.occ]
    op := by rw [h.op, q.op]
    occ := h.occ
    restart := by rw [h.restart, q.occ]
    codep := h.codep }

/-- One round of the loop of `LZWDecode`, by the code at the reader's offset. -/
theorem body_spec (raw : List Nat) (hraw : IsBytes raw) (D : Int) (hD : 0 ≤ D)
    (l : DecLocals) (pos : Nat) (s : AState) (r : ReadInv raw D l pos) (t : TabInv l s)
    (hocc : 0 < l.occ) :
    (l.dec_bitsleft < (l.nbits : Int) → LZWDecode_body raw l = .stop l) ∧
    ((l.nbits : Int) ≤ l.dec_bitsleft → pos + l.nbits ≤ 8 * raw.length ∧
      (codeAt raw pos l.nbits = CODE_EOI →
        ∃ l1, LZWDecode_body raw l = .stop l1 ∧ ReadStep l l1) ∧
      (codeAt raw pos l.nbits = CODE_CLEAR →
        (l.dec_bitsleft - (l.nbits : Int) < 9 →
          ∃ l1, LZWDecode_body raw l = .stop l1 ∧ l1.out = l.out ∧ l1.occ = l.occ) ∧
        (9 ≤ l.dec_bitsleft - (l.nbits : Int) → pos + l.nbits + 9 ≤ 8 * raw.length ∧
          (codeAt raw (pos + l.nbits) 9 = CODE_EOI →
            ∃ l1, LZWDecode_body raw l = .stop l1 ∧ l1.out = l.out ∧ l1.occ = l.occ) ∧
          (codeAt raw (pos + l.nbits) 9 ≠ CODE_EOI → 256 ≤ codeAt raw (pos + l.nbits) 9 →
            ∃ l1, LZWDecode_body raw l = .fail l1 ∧ l1.out = l.out) ∧
          (codeAt raw (pos + l.nbits) 9 < 256 →
            ∃ l1, LZWDecode_body raw l = .next l1 ∧
              Stepped raw D l l1 (pos + l.nbits + 9) ⟨[], [codeAt raw (pos + l.nbits) 9], 9⟩
                [codeAt raw (pos + l.nbits) 9]))) ∧
      (codeAt raw pos l.nbits ≠ CODE_EOI → codeAt raw pos l.nbits ≠ CODE_CLEAR →
        ((s.prev = [] ∨ astep s s.nbits (codeAt raw pos l.nbits) = none) →
          ∃ l1, LZWDecode_body raw l = .fail l1 ∧ l1.out = l.out) ∧
        (∀ s1 str, s.prev ≠ [] → astep s s.nbits (codeAt raw pos l.nbits) = some (s1, str) →
          ((str.length : Int) ≤ l.occ →
            ∃ l1, LZWDecode_body raw l = .next l1 ∧
              Stepped raw D l l1 (pos + l.nbits) s1 str) ∧
          (l.occ < (str.length : Int) →
            ∃ l1, LZWDecode_body raw l = .stop l1 ∧
              Paused raw D l l1 (pos + l.nbits) s1 (codeAt raw pos l.nbits) str)))) := by
  constructor
  · intro h
    have e := (NextCode_spec raw hraw D hD l pos r).1 h
    unfold LZWDecode_body
    simp only [e, if_true]
  · intro h
    obtain ⟨hav, la, e, ra, q⟩ := NextCode_read raw hraw D hD l pos r h
    have ta : TabInv la s := tabInv_congr t la q.nbits q.maxcodep q.free_entp q.tab q.oldcodep
    have hb : LZWDecode_body raw l =
        if codeAt raw pos l.nbits = CODE_EOI then .stop la
        else if codeAt raw pos l.nbits = CODE_CLEAR then LZWDecode_clear raw la
        else LZWDecode_data la (codeAt raw pos l.nbits) := by
      unfold LZWDecode_body
      simp only [e]
    refine ⟨hav, ?_, ?_, ?_⟩
    · intro hc
      exact ⟨la, by rw [hb, if_pos hc], q⟩
    · intro hc
      have hne : codeAt raw pos l.nbits ≠ CODE_EOI := by rw [hc]; decide
      rw [if_neg hne, if_pos hc] at hb
      obtain ⟨c1, c2⟩ := clear_spec raw hraw D hD la (pos + l.nbits) ra s.dict ta.tab
      rw [q.dec_bitsleft] at c1 c2
      constructor
      · intro h9
        obtain ⟨l1, e1, _, e2, e3⟩ := c1 h9
        exact ⟨l1, by rw [hb, e1], by rw [e2, q.out], by rw [e3, q.occ]⟩
      · intro h9
        obtain ⟨hav9, d1, d2, d3⟩ := c2 h9
        refine ⟨hav9, ?_, ?_, ?_⟩
        · intro hx
          obtain ⟨l1, e1, _, e2, e3⟩ := d1 hx
          exact ⟨l1, by rw [hb, e1], by rw [e2, q.out], by rw [e3, q.occ]⟩
        · intro hx hy
          obtain ⟨l1, e1, _, e2⟩ := d2 hx hy
          exact ⟨l1, by rw [hb, e1], by rw [e2, q.out]⟩
        · intro hx
          obtain ⟨l1, e1, st⟩ := d3 hx
          exact ⟨l1, by rw [hb, e1], stepped_of_read q st⟩
    · intro hne hnc
      rw [if_neg hne, if_neg hnc] at hb
      obtain ⟨d1, d2⟩ := data_spec raw D la (pos + l.nbits) s ra ta (by rw [q.occ]; exact hocc)
        (codeAt raw pos l.nbits) (by rw [q.nbits]; exact codeAt_lt _ _ _) hnc hne
      constructor
      · intro hx
        obtain ⟨l1, e1, _, e2⟩ := d1 hx
        exact ⟨l1, by rw [hb, e1], by rw [e2, q.out]⟩
      · intro s1 str hp ha
        obtain ⟨f1, f2⟩ := d2 s1 str hp ha
        rw [q.occ] at f1 f2
        constructor
        · intro hfit
          obtain ⟨l1, e1, st⟩ := f1 hfit
          exact ⟨l1, by rw [hb, e1], stepped_of_read q st⟩
        · intro hlong
          obtain ⟨l1, e1, st⟩ := f2 hlong
          exact ⟨l1, by rw [hb, e1], paused_of_read q st⟩

/-- One round of the loop of `LZWDecode` on any input: it leaves the loop, or it
stores at least one byte and reads at least 9 bits, and the locals stay sound. -/
theorem body_cases (raw : List Nat) (hraw : IsBytes raw) (D : Int) (hD : 0 ≤ D)
    (l : DecLocals) (pos : Nat) (s : AState) (r : ReadInv raw D l pos) (t : TabInv l s)
    (hocc : 0 < l.occ) :
    (∃ l1, LZWDecode_body raw l = .fail l1 ∧ l1.out = l.out) ∨
    (∃ l1, LZWDecode_body raw l = .stop l1) ∨
    (∃ l1 pos1 s1 str, LZWDecode_body raw l = .next l1 ∧ Stepped raw D l l1 pos1 s1 str ∧
      (str.length : Int) ≤ l.occ ∧ pos + 9 ≤ pos1) := by
  obtain ⟨b1, b2⟩ := body_spec raw hraw D hD l pos s r t hocc
  have h9 := r.nbits_ge
  by_cases h : l.dec_bitsleft < (l.nbits : Int)
  · exact Or.inr (Or.inl ⟨l, b1 h⟩)
  · obtain ⟨hav, c1, c2, c3⟩ := b2 (by omega)
    by_cases he : codeAt raw pos l.nbits = CODE_EOI
    · obtain ⟨l1, e1, _⟩ := c1 he
      exact Or.inr (Or.inl ⟨l1, e1⟩)
    · by_cases hc : codeAt raw pos l.nbits = CODE_CLEAR
      · obtain ⟨d1, d2⟩ := c2 hc
        by_cases hb : l.dec_bitsleft - (l.nbits : Int) < 9
        · obtain ⟨l1, e1, _⟩ := d1 hb
          exact Or.inr (Or.inl ⟨l1, e1⟩)
        · obtain ⟨_, f1, f2, f3⟩ := d2 (by omega)
          by_cases hx : codeAt raw (pos + l.nbits) 9 = CODE_EOI
          · obtain ⟨l1, e1, _⟩ := f1 hx
            exact Or.inr (Or.inl ⟨l1, e1⟩)
          · by_cases hy : 256 ≤ codeAt raw (pos + l.nbits) 9
            · exact Or.inl (f2 hx hy)
            · obtain ⟨l1, e1, st⟩ := f3 (by omega)
              refine Or.inr (Or.inr ⟨l1, _, _, _, e1, st, ?_, by omega⟩)
              simp only [List.length_singleton, Nat.cast_one]
              omega
      · obtain ⟨d1, d2⟩ := c3 he hc
        by_cases hp : s.prev = []
        · exact Or.inl (d1 (Or.inl hp))
        · cases ha : astep s s.nbits (codeAt raw pos l.nbits) with
          | none => exact Or.inl (d1 (Or.inr ha))
          | some p =>
            obtain ⟨s1, str⟩ := p
            obtain ⟨f1, f2⟩ := d2 s1 str hp ha
            by_cases hfit : (str.length : Int) ≤ l.occ
            · obtain ⟨l1, e1, st⟩ := f1 hfit
              exact Or.inr (Or.inr ⟨l1, _, _, _, e1, st, hfit, by omega⟩)
            · obtain ⟨l1, e1, _⟩ := f2 (by omega)
              exact Or.inr (Or.inl ⟨l1, e1⟩)

end TifLzw

namespace TifLzw

theorem preload_spec : ∀ (n : Nat) (tab : Int → code_t),
    (∀ c : Nat, c ≤ n → preload n tab (c : Int) = ⟨none, 1, c, c⟩) ∧
    (∀ j : Int, (n : Int) < j → preload n tab j = tab j) := by
  intro n
  induction n with
  | zero =>
    intro tab
    constructor
    · intro c hc
      have : c = 0 := by omega
      subst this
      exact store_same _ _ _
    · intro j hj
      exact store_other _ _ _ _ (by omega)
  | succ n ih =>
    intro tab
    obtain ⟨h1, h2⟩ := ih (store tab ((n + 1 : Nat) : Int) ⟨none, 1, n + 1, n + 1⟩)
    constructor
    · intro c hc
      show preload n _ _ = _
      by_cases hcn : c ≤ n
      · exact h1 c hcn
      · have : c = n + 1 := by omega
        subst this
        rw [h2 _ (by push_cast; omega)]
        exact store_same _ _ _
    · intro j hj
      show preload n _ _ = _
      rw [h2 j (by push_cast at hj; omega)]
      exact store_other _ _ _ _ (by omega)

/-- The code table that `LZWPreDecode` leaves holds no string above the roots. -/
theorem TR_initial (tab0 : Int → code_t) :
    TR (memset_zero (memset_zero (preload 255 tab0) CODE_CLEAR ((CODE_FIRST : Int) - CODE_CLEAR))
      CODE_FIRST ((CSIZE : Int) - CODE_FIRST)) [] := by
  have hC := CSIZE_eq
  constructor
  · intro c hc
    rw [memset_zero_apply, if_neg (by unfold CODE_FIRST; omega), memset_zero_apply,
      if_neg (by unfold CODE_CLEAR; omega)]
    exact (preload_spec 255 tab0).1 c (by omega)
  · intro i hi
    simp at hi
  · intro k h1 h2
    rw [memset_zero_apply, if_pos]
    unfold CODE_FIRST
    simp only [List.length_nil, Nat.cast_zero, add_zero] at h1
    push_cast
    omega

theorem to_tmsize_t_lt (x : Int) : to_tmsize_t x < 2 ^ 31 := by
  unfold to_tmsize_t
  omega

/-- The state that `LZWPreDecode` sets up for an input it accepts. -/
theorem LZWPreDecode_ok (u : Uninit) (arr : List Nat) (tif1 : TIFF)
    (h : LZWPreDecode u (py_decode_handle u arr) = some (1, tif1)) :
    ∃ sp tab, tif1.tif_data = some sp ∧ sp.dec_codetab = some tab ∧ tif1.tif_rawdata = arr ∧
      tif1.tif_rawcp = 0 ∧ sp.dec_restart = 0 ∧ sp.lzw_nbits = 9 ∧ sp.lzw_nextbits = 0 ∧
      sp.lzw_nextdata = 0 ∧ sp.dec_nbitsmask = MAXCODE 9 ∧ sp.dec_oldcodep = some (-1) ∧
      sp.dec_free_entp = 258 ∧ sp.dec_maxcodep = (MAXCODE 9 : Int) - 1 ∧
      sp.dec_bitsleft = to_tmsize_t (to_tmsize_t arr.length * 8) ∧ TR tab [] := by
  unfold LZWPreDecode at h
  simp only [py_decode_handle, TIFFInitLZW, LZWSetupDecode, Option.map_some'] at h
  split at h
  · cases h
  · simp only [Option.some.injEq, Prod.mk.injEq, true_and] at h
    subst h
    exact ⟨_, _, rfl, rfl, rfl, rfl, rfl, rfl, rfl, rfl, rfl, rfl, rfl, rfl, rfl,
      TR_initial u.codetab⟩

end TifLzw

namespace TifLzw

/-- The locals of the first call of `LZWDecode` after `LZWPreDecode` are sound:
the reader stands at the start of the input and the table is the cleared one. -/
theorem load_inv (u : Uninit) (arr : List Nat) (tif1 : TIFF)
    (h : LZWPreDecode u (py_decode_handle u arr) = some (1, tif1)) :
    ∃ sp tab, tif1.tif_data = some sp ∧ sp.dec_codetab = some tab ∧ tif1.tif_rawdata = arr ∧
      sp.dec_restart = 0 ∧
      ∀ (op occ : Int) (out : Int → Nat),
        ReadInv arr (8 * (arr.length : Int) - to_tmsize_t (to_tmsize_t arr.length * 8))
          (LZWDecode_load tif1 sp tab op occ out) 0 ∧
        TabInv (LZWDecode_load tif1 sp tab op occ out) AState.cleared := by
  obtain ⟨sp, tab, h1, h2, h3, h4, h5, h6, h7, h8, h9, h10, h11, h12, h13, h14⟩ :=
    LZWPreDecode_ok u arr tif1 h
  refine ⟨sp, tab, h1, h2, h3, h5, ?_⟩
  intro op occ out
  constructor
  · exact {
      bp_le := by show tif1.tif_rawcp ≤ _; rw [h4]; omega
      bits := by show 8 * tif1.tif_rawcp = 0 + sp.lzw_nextbits; rw [h4, h7]
      nb := by show sp.lzw_nextbits < 8; rw [h7]; omega
      data := by
        show sp.lzw_nextdata = bytesVal (arr.take tif1.tif_rawcp) % 2 ^ 64
        rw [h8, h4, List.take_zero]
        simp [bytesVal]
      left := by
        show sp.dec_bitsleft + _ = 8 * (arr.length : Int) - ((0 : Nat) : Int)
        rw [h13, Nat.cast_zero]
        ring
      nbits_ge := by show 9 ≤ sp.lzw_nbits; omega
      nbits_le := by show sp.lzw_nbits ≤ 12; omega
      mask := by show sp.dec_nbitsmask = MAXCODE sp.lzw_nbits; rw [h9, h6] }
  · exact {
      nbits_eq := h6
      maxc := by show sp.dec_maxcodep = (MAXCODE sp.lzw_nbits : Int) - 1; rw [h12, h6]
      free := by show sp.dec_free_entp = _; rw [h11]; rfl
      free_le := by show 258 + 0 ≤ CSIZE; decide
      tab := h14
      good := by intro i hi; simp [AState.cleared] at hi
      prev_len := by simp [AState.cleared]
      old := Or.inl ⟨rfl, rfl, h10⟩ }

theorem load_D_nonneg (n : Nat) : 0 ≤ 8 * (n : Int) - to_tmsize_t (to_tmsize_t n * 8) := by
  have h1 := to_tmsize_t_lt (to_tmsize_t n * 8)
  by_cases h : n < 2 ^ 28
  · rw [to_tmsize_t_of_lt n (by omega) (by omega), to_tmsize_t_of_lt _ (by omega) (by omega)]
    omega
  · omega

theorem load_D_zero (n : Nat) (h : n < 2 ^ 28) :
    8 * (n : Int) - to_tmsize_t (to_tmsize_t n * 8) = 0 := by
  rw [to_tmsize_t_of_lt n (by omega) (by omega), to_tmsize_t_of_lt _ (by omega) (by omega)]
  omega

theorem readInv_pos_le {raw : List Nat} {D : Int} {l : DecLocals} {pos : Nat}
    (r : ReadInv raw D l pos) : pos ≤ 8 * raw.length := by
  have := r.bp_le
  have := r.bits
  omega

/-- The loop of `LZWDecode` ends on any input, and every round but the last
reads at least 9 bits of it. -/
theorem loop_total (raw : List Nat) (hraw : IsBytes raw) (D : Int) (hD : 0 ≤ D) :
    ∀ (fuel : Nat) (l : DecLocals) (pos : Nat) (s : AState), ReadInv raw D l pos → TabInv l s →
      l.occ ≤ fuel →
      LZWDecode_loop raw fuel l ≠ .stuck ∧
      LZWDecode_rounds raw fuel l ≤ (8 * raw.length - pos) / 9 + 1 := by
  intro fuel
  induction fuel with
  | zero =>
    intro l pos s r t hf
    constructor
    · unfold LZWDecode_loop
      rw [if_neg (by push_cast at hf; omega)]
      intro h
      cases h
    · unfold LZWDecode_rounds
      omega
  | succ n ih =>
    intro l pos s r t hf
    by_cases hocc : l.occ > 0
    · rcases body_cases raw hraw D hD l pos s r t hocc with ⟨l1, e, _⟩ | ⟨l1, e⟩ |
        ⟨l1, pos1, s1, str, e, st, hfit, hpos⟩
      · constructor
        · unfold LZWDecode_loop
          rw [if_pos hocc, e]
          intro h
          cases h
        · unfold LZWDecode_rounds
          rw [if_pos hocc, e]
          show 1 ≤ _
          omega
      · constructor
        · unfold LZWDecode_loop
          rw [if_pos hocc, e]
          intro h
          cases h
        · unfold LZWDecode_rounds
          rw [if_pos hocc, e]
          show 1 ≤ _
          omega
      · have hlen : 0 < str.length := List.length_pos.mpr st.ne
        obtain ⟨i1, i2⟩ := ih l1 pos1 s1 st.read st.tab (by rw [st.occ]; push_cast at hf; omega)
        have hp1 := readInv_pos_le st.read
        constructor
        · unfold LZWDecode_loop
          rw [if_pos hocc, e]
          exact i1
        · unfold LZWDecode_rounds
          rw [if_pos hocc, e]
          show LZWDecode_rounds raw n l1 + 1 ≤ _
          omega
    · constructor
      · unfold LZWDecode_loop
        rw [if_neg hocc]
        intro h
        cases h
      · unfold LZWDecode_rounds
        rw [if_neg hocc]
        omega

/-- The locals at the head of every round of the loop of `LZWDecode` are sound. -/
theorem loopHead_inv (raw : List Nat) (hraw : IsBytes raw) (D : Int) (hD : 0 ≤ D)
    (l0 : DecLocals) (pos0 : Nat) (s0 : AState) (r0 : ReadInv raw D l0 pos0)
    (t0 : TabInv l0 s0) (l : DecLocals) (h : LoopHead raw l0 l) :
    ∃ pos s, ReadInv raw D l pos ∧ TabInv l s := by
  induction h with
  | start => exact ⟨pos0, s0, r0, t0⟩
  | round la lb _ hocc e ih =>
    obtain ⟨pos, s, r, t⟩ := ih
    rcases body_cases raw hraw D hD la pos s r t hocc with ⟨l1, e1, _⟩ | ⟨l1, e1⟩ |
      ⟨l1, pos1, s1, str, e1, st, _, _⟩
    · rw [e1] at e; cases e
    · rw [e1] at e; cases e
    · rw [e1] at e
      cases e
      exact ⟨pos1, s1, st.read, st.tab⟩

end TifLzw

namespace TifLzw

theorem streamVal_cons (n c : Nat) (rest : List (Nat × Nat)) :
    streamVal ((n, c) :: rest) = c * 2 ^ bitLen rest + streamVal rest := by
  have := streamVal_append [(n, c)] rest
  simpa [streamVal] using this

/-- The first code of a packed stream. -/
theorem packs_first (out : List Nat) (n c : Nat) (rest : List (Nat × Nat))
    (h : Packs out ((n, c) :: rest)) : leadingBits out n = c := by
  obtain ⟨_, hf, pad, _, h2, h3⟩ := h
  have hfr : CodesFit rest := fun p hp => hf p (by simp [hp])
  have hr := streamVal_lt rest hfr
  rw [bitLen_cons] at h2
  unfold leadingBits
  have e : 8 * out.length - n = bitLen rest + pad := by simp only [] at h2; omega
  rw [e, h3, streamVal_cons, pow_add, Nat.mul_div_mul_right _ _ (by positivity), Nat.add_comm,
    Nat.add_mul_div_right _ _ (by positivity), Nat.div_eq_of_lt hr, Nat.zero_add]

/-- What `py_encode` returns for every input: the end-of-information code alone
for the empty array, an encoded strip else. -/
theorem py_encode_total (u : Uninit) (x : List Nat) (hx : IsBytes x)
    (hlen : x.length < 2 ^ 31) :
    (x = [] ∧ py_encode u x = .array [128, 128]) ∨
    (x ≠ [] ∧ ∃ out, py_encode u x = .array out ∧ EncodedAs out x) := by
  cases x with
  | nil => exact Or.inl ⟨rfl, py_encode_nil u⟩
  | cons b rest => exact Or.inr ⟨by simp, py_encode_cons u b rest hx hlen⟩

/-- C11 (as stated, refuted): the encoder's output for the empty strip is the two
bytes `0x80 0x80`, whose first 9 bits are `CODE_EOI = 257`, not `CODE_CLEAR`. -/
theorem first_code_of_empty_strip :
    py_encode zeroUninit [] = .array [128, 128] ∧ leadingBits [128, 128] 9 = CODE_EOI ∧
      CODE_EOI ≠ CODE_CLEAR := by
  refine ⟨py_encode_nil zeroUninit, ?_, by decide⟩
  decide

/-- C11 (amended): for every non-empty input strip the first code of the
encoder's output stream (its first 9 bits, MSB first) is `CODE_CLEAR = 256`. -/
theorem first_code_is_clear (u : Uninit) (x : List Nat) (hx : IsBytes x) (hne : x ≠ [])
    (hlen : x.length < 2 ^ 31) :
    ∃ out, py_encode u x = .array out ∧ leadingBits out 9 = CODE_CLEAR := by
  rcases py_encode_total u x hx hlen with ⟨h, _⟩ | ⟨_, out, e, body, s, n, hp, _⟩
  · exact absurd h hne
  · exact ⟨out, e, packs_first out 9 CODE_CLEAR (body ++ [(n, CODE_EOI)]) hp⟩

theorem first_code_is_clear_witness :
    IsBytes [65, 66] ∧ [65, 66] ≠ ([] : List Nat) ∧ [65, 66].length < 2 ^ 31 ∧
    ∃ out, py_encode zeroUninit [65, 66] = .array out ∧ leadingBits out 9 = CODE_CLEAR :=
  ⟨by decide, by decide, by norm_num,
    first_code_is_clear zeroUninit [65, 66] (by decide) (by decide) (by norm_num)⟩

/-- C12: for every input strip the last code the encoder writes is
`CODE_EOI = 257`, at a width `n` between 9 and 12, followed only by `pad < 8`
zero bits that complete the last byte: the output is the MSB-first
concatenation of the earlier codes `cs`, of `CODE_EOI` and of the padding. -/
theorem last_code_is_eoi (u : Uninit) (x : List Nat) (hx : IsBytes x)
    (hlen : x.length < 2 ^ 31) :
    ∃ out cs n pad, py_encode u x = .array out ∧ CodesFit cs ∧ 9 ≤ n ∧ n ≤ 12 ∧ pad < 8 ∧
      8 * out.length = bitLen cs + n + pad ∧
      bytesVal out = (streamVal cs * 2 ^ n + CODE_EOI) * 2 ^ pad := by
  rcases py_encode_total u x hx hlen with ⟨_, e⟩ | ⟨_, out, e, body, s, n, hp, _, _, h9, h12, _⟩
  · refine ⟨_, [], 9, 7, e, ?_, by omega, by omega, by omega, by decide, by decide⟩
    intro p hp
    simp at hp
  · obtain ⟨_, hf, pad, k1, k2, k3⟩ := hp
    refine ⟨out, (9, CODE_CLEAR) :: body, n, pad, e, ?_, h9, h12, k1, ?_, ?_⟩
    · exact fun p hp => hf p (by simp at hp ⊢; tauto)
    · rw [k2, bitLen_snoc]
    · rw [k3, streamVal_snoc]

theorem last_code_is_eoi_witness :
    IsBytes [65] ∧ [65].length < 2 ^ 31 ∧
    ∃ out cs n pad, py_encode zeroUninit [65] = .array out ∧ CodesFit cs ∧ 9 ≤ n ∧
      n ≤ 12 ∧ pad < 8 ∧ 8 * out.length = bitLen cs + n + pad ∧
      bytesVal out = (streamVal cs * 2 ^ n + CODE_EOI) * 2 ^ pad :=
  ⟨by decide, by norm_num, last_code_is_eoi zeroUninit [65] (by decide) (by norm_num)⟩

/-- C16: for every input the number of bytes the encoder outputs (the flushed
chunks concatenated) is at most `2 * len(x) + 8`. -/
theorem encoded_size_bound (u : Uninit) (x : List Nat) (hx : IsBytes x)
    (hlen : x.length < 2 ^ 31) :
    ∃ out, py_encode u x = .array out ∧ out.length ≤ 2 * x.length + 8 := by
  rcases py_encode_total u x hx hlen with ⟨_, e⟩ | ⟨_, out, e, body, s, n, hp, _, _, _, _, hb⟩
  · exact ⟨_, e, by simp⟩
  · obtain ⟨_, _, pad, k1, k2, _⟩ := hp
    exact ⟨out, e, by omega⟩

theorem encoded_size_bound_witness :
    IsBytes [1, 2, 3] ∧ [1, 2, 3].length < 2 ^ 31 ∧
    ∃ out, py_encode zeroUninit [1, 2, 3] = .array out ∧
      out.length ≤ 2 * [1, 2, 3].length + 8 :=
  ⟨by decide, by norm_num, encoded_size_bound zeroUninit [1, 2, 3] (by decide) (by norm_num)⟩

/-- C22: wire format.  For every input the byte output of the encoder is the
MSB-first concatenation of the codes it emits, each `n` bits wide for the width
`n` it was emitted with (`Packs`: the codes fit their widths, fewer than 8 zero
bits pad the last byte), so the output has `ceil(bits / 8)` bytes; the codes are
`CODE_EOI` alone for the empty input, and else `CODE_CLEAR`, codes that the
reference decoder turns into the input, and `CODE_EOI`. -/
theorem wire_format (u : Uninit) (x : List Nat) (hx : IsBytes x) (hlen : x.length < 2 ^ 31) :
    ∃ out cs, py_encode u x = .array out ∧ Packs out cs ∧
      out.length = (bitLen cs + 7) / 8 ∧
      ((x = [] ∧ cs = [(9, CODE_EOI)]) ∨
        ∃ body s n, cs = (9, CODE_CLEAR) :: body ++ [(n, CODE_EOI)] ∧
          arun AState.cleared body = some (s, x)) := by
  rcases py_encode_total u x hx hlen with ⟨h, e⟩ | ⟨_, out, e, body, s, n, hp, hr, _⟩
  · refine ⟨_, [(9, CODE_EOI)], e, ?_, by decide, Or.inl ⟨h, rfl⟩⟩
    refine ⟨by decide, ?_, 7, by omega, by decide, by decide⟩
    intro p hp
    simp at hp
    subst hp
    decide
  · refine ⟨out, _, e, hp, ?_, Or.inr ⟨body, s, n, rfl, hr⟩⟩
    obtain ⟨_, _, pad, k1, k2, _⟩ := hp
    omega

theorem wire_format_witness :
    IsBytes [7, 7] ∧ [7, 7].length < 2 ^ 31 ∧
    ∃ out cs, py_encode zeroUninit [7, 7] = .array out ∧ Packs out cs ∧
      out.length = (bitLen cs + 7) / 8 ∧
      (([7, 7] = ([] : List Nat) ∧ cs = [(9, CODE_EOI)]) ∨
        ∃ body s n, cs = (9, CODE_CLEAR) :: body ++ [(n, CODE_EOI)] ∧
          arun AState.cleared body = some (s, [7, 7])) :=
  ⟨by decide, by norm_num, wire_format zeroUninit [7, 7] (by decide) (by norm_num)⟩

end TifLzw

namespace Bittools

/-- C15 (as stated, refuted): on the 3-byte buffer `[0xAB, 0xCD, 0xEF]` the call
`getword(buf, 4, 12)` does not return the value `0xDCD`. -/
theorem getword_unaligned_not_dcd :
    (getword [0xAB, 0xCD, 0xEF] zeroMem 4 12).ret ≠ .ok (0xDCD, 16) := by
  have h : (getword [0xAB, 0xCD, 0xEF] zeroMem 4 12).ret = .ok (0xCDA, 16) := rfl
  rw [h]
  intro e
  injection e with e
  injection e with e1 _
  exact absurd e1 (by decide)

/-- C15 (amended): on the 3-byte buffer `[0xAB, 0xCD, 0xEF]`, whatever the memory
behind the buffer holds, `getword(buf, 4, 12)` returns the value
`(0xCDAB >> 4) & 0xFFF = 0xCDA` together with the post-index 16. -/
theorem getword_unaligned_value (junk : Int → Nat) :
    (getword [0xAB, 0xCD, 0xEF] junk 4 12).ret = .ok (0xCDA, 16) := by
  obtain ⟨val, hval, hbits⟩ := getword_value [0xAB, 0xCD, 0xEF] junk 4 12 (by decide)
    (by norm_num) (by norm_num) (by norm_num) (by decide)
  have hv : val = 0xCDA := by
    apply Nat.eq_of_testBit_eq
    intro k
    rw [hbits]
    by_cases hk : k < 12
    · interval_cases k <;> decide
    · have h2 : (0xCDA : Nat) < 2 ^ k :=
        lt_of_lt_of_le (by norm_num) (Nat.pow_le_pow_right (by norm_num) (by omega : 12 ≤ k))
      rw [Nat.testBit_lt_two_pow h2]
      simp [hk]
  rw [← hv]
  exact hval

end Bittools

namespace TifLzw

/-- C21 (as stated, refuted): a second `LZWCleanup` on the same handle does not
succeed: the handle has `tif_data = NULL` after the first call, and
`assert(tif->tif_data != 0)` fails. -/
theorem LZWCleanup_twice_fails :
    (LZWCleanup (py_encode_handle zeroUninit 0)).bind LZWCleanup = none := rfl

/-- C21 (amended): `LZWCleanup` on a handle that holds a state block succeeds:
it passes to `free` the state block, the dictionary if and only if
`dec_codetab` is not `NULL`, and the hash table if and only if `enc_hashtab`
is not `NULL`, each block once; it sets `tif_data` to `NULL` and leaves the
other fields of the handle alone; a second call on the result fails the
assertion `tif->tif_data != 0` and frees nothing. -/
theorem LZWCleanup_once (tif : TIFF) (sp : LZWCodecState) (h : tif.tif_data = some sp) :
    ∃ t1 fr, LZWCleanup tif = some t1 ∧ t1.tif_data = none ∧
      t1.tif_rawdata = tif.tif_rawdata ∧ t1.tif_rawdatasize = tif.tif_rawdatasize ∧
      t1.tif_rawcp = tif.tif_rawcp ∧ t1.tif_rawcc = tif.tif_rawcc ∧ LZWCleanup t1 = none ∧
      LZWCleanup_free tif = some fr ∧ fr.Nodup ∧ HeapBlock.state ∈ fr ∧
      (HeapBlock.codetab ∈ fr ↔ sp.dec_codetab ≠ none) ∧
      (HeapBlock.hashtab ∈ fr ↔ sp.enc_hashtab ≠ none) ∧ LZWCleanup_free t1 = none := by
  unfold LZWCleanup LZWCleanup_free
  rw [h]
  refine ⟨_, _, rfl, rfl, rfl, rfl, rfl, rfl, rfl, rfl, ?_, ?_, ?_, ?_, rfl⟩
  · cases sp.dec_codetab <;> cases sp.enc_hashtab <;> simp
  · simp
  · cases sp.dec_codetab <;> cases sp.enc_hashtab <;> simp
  · cases sp.dec_codetab <;> cases sp.enc_hashtab <;> simp

theorem LZWCleanup_once_witness :
    fullHandle.tif_data = some { TIFFInitLZW zeroUninit with
      dec_codetab := some zeroUninit.codetab, enc_hashtab := some zeroUninit.hashtab } ∧
    ∃ t1 fr, LZWCleanup fullHandle = some t1 ∧ t1.tif_data = none ∧
      t1.tif_rawdata = fullHandle.tif_rawdata ∧
      t1.tif_rawdatasize = fullHandle.tif_rawdatasize ∧
      t1.tif_rawcp = fullHandle.tif_rawcp ∧ t1.tif_rawcc = fullHandle.tif_rawcc ∧
      LZWCleanup t1 = none ∧
      LZWCleanup_free fullHandle = some fr ∧ fr.Nodup ∧ HeapBlock.state ∈ fr ∧
      (HeapBlock.codetab ∈ fr ↔
        ({ TIFFInitLZW zeroUninit with
          dec_codetab := some zeroUninit.codetab,
          enc_hashtab := some zeroUninit.hashtab } : LZWCodecState).dec_codetab ≠ none) ∧
      (HeapBlock.hashtab ∈ fr ↔
        ({ TIFFInitLZW zeroUninit with
          dec_codetab := some zeroUninit.codetab,
          enc_hashtab := some zeroUninit.hashtab } : LZWCodecState).enc_hashtab ≠ none) ∧
      LZWCleanup_free t1 = none :=
  ⟨rfl, LZWCleanup_once fullHandle _ rfl⟩

/-- C26: `cl_hash` clears the whole table.  Whatever the table held, after
`cl_hash` every slot `0 .. HSIZE-1` has `hash = -1`; the two loops store to no
slot outside `[0, HSIZE)` and to no `code` field. -/
theorem cl_hash_clears_table (tab : hash_t) :
    HSIZE = 9001 ∧ (∀ h : Int, 0 ≤ h ∧ h < HSIZE → (cl_hash tab).hash h = -1) ∧
    (∀ h : Int, ¬ (0 ≤ h ∧ h < HSIZE) → (cl_hash tab).hash h = tab.hash h) ∧
    (cl_hash tab).code = tab.code := by
  obtain ⟨h1, h2⟩ := cl_hash_spec tab
  refine ⟨rfl, ?_, ?_, h1⟩
  · intro h hh
    rw [h2, if_pos hh]
  · intro h hh
    rw [h2, if_neg hh]

/-- C28 (as stated, refuted): a ratio check at `incount = 10012` with
`checkpoint = 10000` sets the checkpoint to `20012`, not to `10000 + CHECK_GAP`. -/
theorem ratio_check_not_old_plus_gap :
    (LZWEncode_resize
      { nextdata := 0, nextbits := 0, outcount := 1269, op := [], incount := 10012,
        checkpoint := 10000, free_ent := 399, maxcode := 511, nbits := 9, ent := 0,
        enc_ratio := 0, hashtab := { hash := fun _ => -1, code := fun _ => 0 },
        tif_rawcc := 0, lst := [] }).checkpoint = 20012 ∧ 20012 ≠ 10000 + CHECK_GAP := by
  constructor
  · simp [LZWEncode_resize, CODE_MAX, MAXCODE, BITS_MAX, CHECK_GAP, CALCRATIO]
  · decide

/-- C28 (amended): every time the encoder performs a compression-ratio check (a
miss that neither fills the table nor widens the codes, with
`incount >= checkpoint`), the new checkpoint is `incount + CHECK_GAP`, whether or
not the check resets the table. -/
theorem ratio_check_checkpoint (l : EncLocals) (h1 : l.free_ent ≠ CODE_MAX - 1)
    (h2 : ¬ l.free_ent > l.maxcode) (h3 : l.incount ≥ l.checkpoint) :
    (LZWEncode_resize l).checkpoint = l.incount + CHECK_GAP := by
  unfold LZWEncode_resize
  rw [if_neg h1, if_neg h2, if_pos h3]
  simp only []
  split <;> rfl

theorem ratio_check_checkpoint_witness :
    (399 : Nat) ≠ CODE_MAX - 1 ∧ ¬ (399 : Nat) > 511 ∧ (10012 : Nat) ≥ 10000 ∧
    (LZWEncode_resize
      { nextdata := 0, nextbits := 0, outcount := 1269, op := [], incount := 10012,
        checkpoint := 10000, free_ent := 399, maxcode := 511, nbits := 9, ent := 0,
        enc_ratio := 0, hashtab := { hash := fun _ => -1, code := fun _ => 0 },
        tif_rawcc := 0, lst := [] }).checkpoint = 10012 + CHECK_GAP :=
  ⟨by decide, by decide, by decide,
    ratio_check_checkpoint
      { nextdata := 0, nextbits := 0, outcount := 1269, op := [], incount := 10012,
        checkpoint := 10000, free_ent := 399, maxcode := 511, nbits := 9, ent := 0,
        enc_ratio := 0, hashtab := { hash := fun _ => -1, code := fun _ => 0 },
        tif_rawcc := 0, lst := [] } (by decide) (by decide) (by decide)⟩

end TifLzw

namespace TifLzw

/-- `LZWPreDecode` accepts every input that does not start like an old-style
stream. -/
theorem LZWPreDecode_accepts (u : Uninit) (arr : List Nat)
    (hacc : ¬ (arr.getD 0 0 = 0 ∧ arr.getD 1 0 &&& 1 ≠ 0)) :
    ∃ tif1, LZWPreDecode u (py_decode_handle u arr) = some (1, tif1) := by
  unfold LZWPreDecode
  simp only [py_decode_handle, TIFFInitLZW, LZWSetupDecode, Option.map_some']
  rw [if_neg hacc]
  exact ⟨_, rfl⟩

/-- The first call of `LZWDecode` after `LZWPreDecode` is the main loop run on
the loaded locals. -/
theorem LZWDecode_first (tif1 : TIFF) (sp : LZWCodecState) (tab : Int → code_t)
    (h1 : tif1.tif_data = some sp) (h2 : sp.dec_codetab = some tab) (h3 : sp.dec_restart = 0)
    (out : Int → Nat) (occ0 : Int) :
    LZWDecode tif1 out occ0 = LZWDecode_finish tif1 sp
      (LZWDecode_loop tif1.tif_rawdata occ0.toNat (LZWDecode_load tif1 sp tab 0 occ0 out)) := by
  unfold LZWDecode
  rw [h1]
  simp only [h2]
  unfold LZWDecode_run LZWDecode_restart
  rw [if_neg (by rw [h3]; simp)]

theorem rounds_pos (raw : List Nat) (n : Nat) (l : DecLocals) (h : 0 < l.occ) :
    1 ≤ LZWDecode_rounds raw (n + 1) l := by
  unfold LZWDecode_rounds
  rw [if_pos h]
  split <;> omega

/-- The bound `2 * len(input)` on the empty input: a call of
`LZWDecode` for one byte of output runs one round of the main loop, which is
more than `2 * 0`. -/
theorem decoder_rounds_empty_input :
    ∃ tif1 sp tab, LZWPreDecode zeroUninit (py_decode_handle zeroUninit []) = some (1, tif1) ∧
      tif1.tif_data = some sp ∧ sp.dec_codetab = some tab ∧
      1 ≤ LZWDecode_rounds [] (1 : Int).toNat (LZWDecode_load tif1 sp tab 0 1 (fun _ => 0)) ∧
      ¬ LZWDecode_rounds [] (1 : Int).toNat (LZWDecode_load tif1 sp tab 0 1 (fun _ => 0)) ≤
        2 * ([] : List Nat).length := by
  obtain ⟨tif1, h⟩ := LZWPreDecode_accepts zeroUninit [] (by decide)
  obtain ⟨sp, tab, h1, h2, _⟩ := load_inv zeroUninit [] tif1 h
  have hp := rounds_pos [] 0 (LZWDecode_load tif1 sp tab 0 1 (fun _ => 0)) (by show (0 : Int) < 1; omega)
  refine ⟨tif1, sp, tab, h, h1, h2, hp, ?_⟩
  have : (1 : Int).toNat = 0 + 1 := rfl
  rw [this]
  simp only [List.length_nil]
  omega

/-- C17: for every input that `LZWPreDecode` accepts (well-formed, truncated or
corrupt) and every requested output length, `LZWDecode` returns, and its main
loop runs at most `8 * len(input) / 9 + 1` rounds, which is at most
`2 * len(input)` for a non-empty input. -/
theorem decoder_terminates (u : Uninit) (arr : List Nat) (hb : IsBytes arr)
    (hacc : ¬ (arr.getD 0 0 = 0 ∧ arr.getD 1 0 &&& 1 ≠ 0)) (out : Int → Nat) (occ0 : Int) :
    ∃ tif1 sp tab, LZWPreDecode u (py_decode_handle u arr) = some (1, tif1) ∧
      tif1.tif_data = some sp ∧ sp.dec_codetab = some tab ∧
      (∃ r, LZWDecode tif1 out occ0 = some r) ∧
      LZWDecode_rounds arr occ0.toNat (LZWDecode_load tif1 sp tab 0 occ0 out) ≤
        8 * arr.length / 9 + 1 ∧
      (arr ≠ [] → LZWDecode_rounds arr occ0.toNat (LZWDecode_load tif1 sp tab 0 occ0 out) ≤
        2 * arr.length) := by
  obtain ⟨tif1, h⟩ := LZWPreDecode_accepts u arr hacc
  obtain ⟨sp, tab, h1, h2, h3, h4, hinv⟩ := load_inv u arr tif1 h
  obtain ⟨r0, t0⟩ := hinv 0 occ0 out
  obtain ⟨k1, k2⟩ := loop_total arr hb _ (load_D_nonneg arr.length) occ0.toNat _ 0 _ r0 t0
    (by show occ0 ≤ _; omega)
  refine ⟨tif1, sp, tab, h, h1, h2, ?_, by simpa using k2, ?_⟩
  · rw [LZWDecode_first tif1 sp tab h1 h2 h4, h3]
    cases hl : LZWDecode_loop arr occ0.toNat (LZWDecode_load tif1 sp tab 0 occ0 out) with
    | stuck => exact absurd hl k1
    | fail l => exact ⟨_, rfl⟩
    | done l => exact ⟨_, rfl⟩
  · intro hne
    have : 0 < arr.length := List.length_pos.mpr hne
    simp only [Nat.sub_zero] at k2
    omega

theorem decoder_terminates_witness :
    IsBytes [128, 0, 96, 32] ∧
    ¬ (([128, 0, 96, 32] : List Nat).getD 0 0 = 0 ∧ ([128, 0, 96, 32] : List Nat).getD 1 0 &&& 1 ≠ 0) ∧
    ∃ tif1 sp tab,
      LZWPreDecode zeroUninit (py_decode_handle zeroUninit [128, 0, 96, 32]) = some (1, tif1) ∧
      tif1.tif_data = some sp ∧ sp.dec_codetab = some tab ∧
      (∃ r, LZWDecode tif1 (fun _ => 0) 5 = some r) ∧
      LZWDecode_rounds [128, 0, 96, 32] (5 : Int).toNat
        (LZWDecode_load tif1 sp tab 0 5 (fun _ => 0)) ≤ 8 * [128, 0, 96, 32].length / 9 + 1 ∧
      (([128, 0, 96, 32] : List Nat) ≠ [] →
        LZWDecode_rounds [128, 0, 96, 32] (5 : Int).toNat
          (LZWDecode_load tif1 sp tab 0 5 (fun _ => 0)) ≤ 2 * [128, 0, 96, 32].length) :=
  ⟨by decide, by decide,
    decoder_terminates zeroUninit [128, 0, 96, 32] (by decide) (by decide) (fun _ => 0) 5⟩

end TifLzw

namespace TifLzw

theorem spellsRev_entry (tab : Int → code_t) (k : Int) (r : List Nat) (h : SpellsRev tab k r)
    (h2 : 2 ≤ r.length) :
    ∃ p, (tab k).next = some p ∧ 0 ≤ p ∧ p < k ∧ (p < 256 ∨ 258 ≤ p) ∧
      (tab k).length = (tab p).length + 1 ∧ (tab k).firstchar = (tab p).firstchar := by
  match r, h, h2 with
  | [], _, h2 => simp at h2
  | [_], _, h2 => simp at h2
  | v :: w :: r1, h, _ =>
    obtain ⟨_, _, _, h4, h5, p, hp, hlt, hs⟩ := h
    refine ⟨p, hp, (spellsRev_range _ _ _ hs).1, hlt, ?_, ?_, ?_⟩
    · match r1, hs with
      | [], hs => exact Or.inl hs.2.1
      | _ :: _, hs => exact Or.inr hs.1
    · rw [h4, spellsRev_length _ _ _ hs]
      simp only [List.length_cons]
    · rw [h5, spellsRev_firstchar _ _ _ hs]

/-- The dictionary invariant on the inputs that `LZWPreDecode` accepts: for
every such input (well-formed or not), at
the head of every round of the loop of the first `LZWDecode` call the table is
sound: the next free entry lies in `[CODE_FIRST, CSIZE]`; the roots keep
`next = NULL`, `length = 1`, `value = firstchar = code`; every entry `k` in
`[CODE_FIRST, free_ent)` has a `next` that is a root or an entry of
`[CODE_FIRST, k)`, one more than its length and the same first byte; every
entry in `[free_ent, CSIZE)` is zero. -/
theorem dictionary_invariant (u : Uninit) (arr : List Nat) (hb : IsBytes arr)
    (hacc : ¬ (arr.getD 0 0 = 0 ∧ arr.getD 1 0 &&& 1 ≠ 0)) (out : Int → Nat) (occ0 : Int) :
    ∃ tif1 sp tab, LZWPreDecode u (py_decode_handle u arr) = some (1, tif1) ∧
      tif1.tif_data = some sp ∧ sp.dec_codetab = some tab ∧
      ∀ l, LoopHead arr (LZWDecode_load tif1 sp tab 0 occ0 out) l →
        258 ≤ l.free_entp ∧ l.free_entp ≤ CSIZE ∧
        (∀ c : Nat, c < 256 → l.tab (c : Int) = ⟨none, 1, c, c⟩) ∧
        (∀ k : Int, 258 ≤ k → k < l.free_entp →
          ∃ p, (l.tab k).next = some p ∧ 0 ≤ p ∧ p < k ∧ (p < 256 ∨ 258 ≤ p) ∧
            (l.tab k).length = (l.tab p).length + 1 ∧
            (l.tab k).firstchar = (l.tab p).firstchar) ∧
        (∀ k : Int, l.free_entp ≤ k → k < CSIZE → l.tab k = code_t.zero) := by
  obtain ⟨tif1, h⟩ := LZWPreDecode_accepts u arr hacc
  obtain ⟨sp, tab, h1, h2, h3, h4, hinv⟩ := load_inv u arr tif1 h
  obtain ⟨r0, t0⟩ := hinv 0 occ0 out
  refine ⟨tif1, sp, tab, h, h1, h2, ?_⟩
  intro l hl
  obtain ⟨pos, s, r, t⟩ := loopHead_inv arr hb _ (load_D_nonneg arr.length) _ 0 _ r0 t0 l hl
  have hf := t.free
  have hfl := t.free_le
  refine ⟨by omega, by omega, t.tab.root, ?_, ?_⟩
  · intro k hk1 hk2
    obtain ⟨i, hi⟩ : ∃ i : Nat, k = 258 + (i : Int) := ⟨(k - 258).toNat, by omega⟩
    subst hi
    obtain ⟨e1, e2⟩ := t.tab.ent i (by omega)
    exact spellsRev_entry _ _ _ e2 (by rw [List.length_reverse]; exact e1)
  · intro k hk1 hk2
    exact t.tab.zero k (by omega) hk2

theorem dictionary_invariant_witness :
    IsBytes [128, 0, 96, 32] ∧
    ¬ (([128, 0, 96, 32] : List Nat).getD 0 0 = 0 ∧ ([128, 0, 96, 32] : List Nat).getD 1 0 &&& 1 ≠ 0) ∧
    ∃ tif1 sp tab,
      LZWPreDecode zeroUninit (py_decode_handle zeroUninit [128, 0, 96, 32]) = some (1, tif1) ∧
      tif1.tif_data = some sp ∧ sp.dec_codetab = some tab ∧
      ∀ l, LoopHead [128, 0, 96, 32] (LZWDecode_load tif1 sp tab 0 5 (fun _ => 0)) l →
        258 ≤ l.free_entp ∧ l.free_entp ≤ CSIZE ∧
        (∀ c : Nat, c < 256 → l.tab (c : Int) = ⟨none, 1, c, c⟩) ∧
        (∀ k : Int, 258 ≤ k → k < l.free_entp →
          ∃ p, (l.tab k).next = some p ∧ 0 ≤ p ∧ p < k ∧ (p < 256 ∨ 258 ≤ p) ∧
            (l.tab k).length = (l.tab p).length + 1 ∧
            (l.tab k).firstchar = (l.tab p).firstchar) ∧
        (∀ k : Int, l.free_entp ≤ k → k < CSIZE → l.tab k = code_t.zero) :=
  ⟨by decide, by decide,
    dictionary_invariant zeroUninit [128, 0, 96, 32] (by decide) (by decide) (fun _ => 0) 5⟩

/-- What the end-of-stream guard of `NextCode` gives for a reader that is sound
and counts every bit of the input. -/
theorem guard_of_readInv (raw : List Nat) (hraw : IsBytes raw) (l : DecLocals) (pos : Nat)
    (r : ReadInv raw 0 l pos) :
    l.bp ≤ raw.length ∧
    l.dec_bitsleft = 8 * ((raw.length : Int) - l.bp) + l.nextbits ∧ 0 ≤ l.dec_bitsleft ∧
    (l.dec_bitsleft < (l.nbits : Int) → NextCode raw l = (l, CODE_EOI)) ∧
    ((l.nbits : Int) ≤ l.dec_bitsleft →
      (NextCode raw l).1.bp ≤ raw.length ∧
      (NextCode raw l).1.dec_bitsleft =
        8 * ((raw.length : Int) - (NextCode raw l).1.bp) + (NextCode raw l).1.nextbits ∧
      0 ≤ (NextCode raw l).1.dec_bitsleft) := by
  have key : ∀ (la : DecLocals) (p : Nat), ReadInv raw 0 la p →
      la.bp ≤ raw.length ∧
      la.dec_bitsleft = 8 * ((raw.length : Int) - la.bp) + la.nextbits ∧ 0 ≤ la.dec_bitsleft := by
    intro la p ra
    have h1 := ra.bp_le
    have h2 := ra.bits
    have h3 := ra.left
    refine ⟨h1, by omega, by omega⟩
  obtain ⟨k1, k2, k3⟩ := key l pos r
  refine ⟨k1, k2, k3, (NextCode_spec raw hraw 0 (le_refl 0) l pos r).1, ?_⟩
  intro h
  obtain ⟨_, l1, e, r1, _⟩ := NextCode_read raw hraw 0 (le_refl 0) l pos r h
  rw [e]
  exact key l1 _ r1

/-- The end-of-stream guard on the inputs that `LZWPreDecode` accepts: for
every input of fewer than `2 ^ 28` bytes that `LZWPreDecode`
accepts and every requested output length, at each code read of the first
`LZWDecode` call (at the head of a round, and after a clear code)
`bitsleft = 8 * (len(input) - bytes consumed) + nextbits` holds and is not
negative; when fewer than `nbits` bits are left the code is `CODE_EOI` and the
reader does not move; else the reader stays within the input and the relation
holds again. -/
theorem eos_guard (u : Uninit) (arr : List Nat) (hb : IsBytes arr) (hlen : arr.length < 2 ^ 28)
    (hacc : ¬ (arr.getD 0 0 = 0 ∧ arr.getD 1 0 &&& 1 ≠ 0)) (out : Int → Nat) (occ0 : Int) :
    ∃ tif1 sp tab, LZWPreDecode u (py_decode_handle u arr) = some (1, tif1) ∧
      tif1.tif_data = some sp ∧ sp.dec_codetab = some tab ∧
      ∀ l, LoopHead arr (LZWDecode_load tif1 sp tab 0 occ0 out) l →
        ∀ la, (la = l ∨ la = LZWDecode_reset (NextCode arr l).1) →
          la.bp ≤ arr.length ∧
          la.dec_bitsleft = 8 * ((arr.length : Int) - la.bp) + la.nextbits ∧
          0 ≤ la.dec_bitsleft ∧
          (la.dec_bitsleft < (la.nbits : Int) → NextCode arr la = (la, CODE_EOI)) ∧
          ((la.nbits : Int) ≤ la.dec_bitsleft →
            (NextCode arr la).1.bp ≤ arr.length ∧
            (NextCode arr la).1.dec_bitsleft =
              8 * ((arr.length : Int) - (NextCode arr la).1.bp) + (NextCode arr la).1.nextbits ∧
            0 ≤ (NextCode arr la).1.dec_bitsleft) := by
  obtain ⟨tif1, h⟩ := LZWPreDecode_accepts u arr hacc
  obtain ⟨sp, tab, h1, h2, h3, h4, hinv⟩ := load_inv u arr tif1 h
  obtain ⟨r0, t0⟩ := hinv 0 occ0 out
  rw [load_D_zero arr.length hlen] at r0
  refine ⟨tif1, sp, tab, h, h1, h2, ?_⟩
  intro l hl la hla
  obtain ⟨pos, s, r, t⟩ := loopHead_inv arr hb 0 (le_refl 0) _ 0 _ r0 t0 l hl
  rcases hla with e | e
  · rw [e]
    exact guard_of_readInv arr hb l pos r
  · rw [e]
    by_cases hbl : l.dec_bitsleft < (l.nbits : Int)
    · rw [(NextCode_spec arr hb 0 (le_refl 0) l pos r).1 hbl]
      exact guard_of_readInv arr hb _ pos (readInv_reset arr 0 l pos r)
    · obtain ⟨_, l1, e1, r1, _⟩ := NextCode_read arr hb 0 (le_refl 0) l pos r (by omega)
      rw [e1]
      exact guard_of_readInv arr hb _ _ (readInv_reset arr 0 l1 _ r1)

theorem eos_guard_witness :
    IsBytes [128, 0, 96, 32] ∧ ([128, 0, 96, 32] : List Nat).length < 2 ^ 28 ∧
    ¬ (([128, 0, 96, 32] : List Nat).getD 0 0 = 0 ∧ ([128, 0, 96, 32] : List Nat).getD 1 0 &&& 1 ≠ 0) ∧
    ∃ tif1 sp tab,
      LZWPreDecode zeroUninit (py_decode_handle zeroUninit [128, 0, 96, 32]) = some (1, tif1) ∧
      tif1.tif_data = some sp ∧ sp.dec_codetab = some tab ∧
      ∀ l, LoopHead [128, 0, 96, 32] (LZWDecode_load tif1 sp tab 0 5 (fun _ => 0)) l →
        ∀ la, (la = l ∨ la = LZWDecode_reset (NextCode [128, 0, 96, 32] l).1) →
          la.bp ≤ [128, 0, 96, 32].length ∧
          la.dec_bitsleft = 8 * ((([128, 0, 96, 32] : List Nat).length : Int) - la.bp) + la.nextbits ∧
          0 ≤ la.dec_bitsleft ∧
          (la.dec_bitsleft < (la.nbits : Int) → NextCode [128, 0, 96, 32] la = (la, CODE_EOI)) ∧
          ((la.nbits : Int) ≤ la.dec_bitsleft →
            (NextCode [128, 0, 96, 32] la).1.bp ≤ [128, 0, 96, 32].length ∧
            (NextCode [128, 0, 96, 32] la).1.dec_bitsleft =
              8 * ((([128, 0, 96, 32] : List Nat).length : Int) -
                (NextCode [128, 0, 96, 32] la).1.bp) + (NextCode [128, 0, 96, 32] la).1.nextbits ∧
            0 ≤ (NextCode [128, 0, 96, 32] la).1.dec_bitsleft) :=
  ⟨by decide, by norm_num, by decide,
    eos_guard zeroUninit [128, 0, 96, 32] (by decide) (by norm_num) (by decide) (fun _ => 0) 5⟩

end TifLzw

namespace TifLzw

/-- With a requested output length of 0 the loop of `LZWDecode` does not run and
`py_decode` hands back the empty array. -/
theorem py_decode_zero (u : Uninit) (arr : List Nat)
    (hacc : ¬ (arr.getD 0 0 = 0 ∧ arr.getD 1 0 &&& 1 ≠ 0)) :
    py_decode u arr 0 = .array [] := by
  obtain ⟨tif1, h⟩ := LZWPreDecode_accepts u arr hacc
  obtain ⟨sp, tab, h1, h2, h3, h4, _⟩ := load_inv u arr tif1 h
  have hd : py_decode_dims 0 = 0 := by simp [py_decode_dims]
  have ht : to_tmsize_t 0 = 0 := to_tmsize_t_of_lt 0 (by omega) (by omega)
  unfold py_decode
  rw [if_neg (by norm_num), h, Option.some_bind, hd, ht,
    LZWDecode_first tif1 sp tab h1 h2 h4]
  have hl : ∀ l : DecLocals, l.occ = 0 → LZWDecode_loop tif1.tif_rawdata (0 : Int).toNat l = .done l := by
    intro l hl
    show LZWDecode_loop _ 0 l = _
    unfold LZWDecode_loop
    rw [if_neg (by omega)]
  rw [hl _ rfl]
  simp only [LZWDecode_finish, Option.some_bind, LZWDecode_save, LZWCleanup, Option.map_some',
    LZWDecode_load, ht, py_decode_len]
  rfl

/-- C13, the bytes as the claim has them: the encoder does not turn the empty
input into `[0x80, 0x40, 0x40]`. -/
theorem empty_input_not_three_bytes :
    py_encode zeroUninit [] ≠ .array [0x80, 0x40, 0x40] := by
  rw [py_encode_nil]
  decide

/-- C13: the empty input is encoded as the two bytes `[0x80, 0x80]`, which are
`CODE_EOI` alone (9 bits, `0b100000001`) and 7 padding bits, with no
`CODE_CLEAR`; decoding these bytes, or the bytes `[0x80, 0x40, 0x40]`, with
output length 0 yields the empty sequence. -/
theorem empty_input_scenario (u : Uninit) :
    py_encode u [] = .array [0x80, 0x80] ∧ Packs [0x80, 0x80] [(9, CODE_EOI)] ∧
    py_decode u [0x80, 0x80] 0 = .array [] ∧ py_decode u [0x80, 0x40, 0x40] 0 = .array [] :=
  ⟨py_encode_nil u, ⟨by decide, by unfold CodesFit; decide, 7, by decide, by decide, by decide⟩,
    py_decode_zero u _ (by decide), py_decode_zero u _ (by decide)⟩

/-- C14, the codes as the claim has them: the output of the encoder for eight
zero bytes is not the packing of `CLEAR, 0, 258, 259, 260, EOI`. -/
theorem eight_zeros_not_260 :
    py_encode zeroUninit [0, 0, 0, 0, 0, 0, 0, 0] = .array [128, 0, 32, 80, 56, 20, 4] ∧
    ¬ Packs [128, 0, 32, 80, 56, 20, 4]
      [(9, CODE_CLEAR), (9, 0), (9, 258), (9, 259), (9, 260), (9, CODE_EOI)] := by
  refine ⟨by decide!, ?_⟩
  rintro ⟨_, _, pad, h1, h2, h3⟩
  have hp : pad = 2 := by
    simp [bitLen] at h2
    omega
  subst hp
  revert h3
  decide

/-- C14: the encoder turns eight zero bytes into the 7 bytes that pack the
codes `CLEAR, 0, 258, 259, 258, EOI` at 9 bits each (`258` stands for "00",
`259` for "000": 1 + 2 + 3 + 2 = 8 bytes), and decoding these bytes with
output length 8 yields the eight zero bytes. -/
theorem eight_zeros_scenario :
    py_encode zeroUninit [0, 0, 0, 0, 0, 0, 0, 0] = .array [128, 0, 32, 80, 56, 20, 4] ∧
    Packs [128, 0, 32, 80, 56, 20, 4]
      [(9, CODE_CLEAR), (9, 0), (9, 258), (9, 259), (9, 258), (9, CODE_EOI)] ∧
    arun AState.cleared [(9, 0), (9, 258), (9, 259), (9, 258)] =
      some (⟨[[0, 0], [0, 0, 0], [0, 0, 0, 0]], [0, 0], 9⟩, [0, 0, 0, 0, 0, 0, 0, 0]) ∧
    py_decode zeroUninit [128, 0, 32, 80, 56, 20, 4] 8 = .array [0, 0, 0, 0, 0, 0, 0, 0] := by
  refine ⟨by decide!, ⟨by decide, by unfold CodesFit; decide, 2, by decide, by decide, by decide⟩,
    by rfl, by decide!⟩

/-- C18: a corrupt stream is not reported.  In `[0x80, 0x40, 0x80]` the code
after `CODE_CLEAR` is `258`, so `LZWDecode` returns 0 from its corrupt-table
check; `py_decode` takes the 0 for "no byte is missing" and hands back the
whole array of the requested length, as it does after a decode that filled it. -/
theorem corrupt_stream_not_reported :
    codeAt [0x80, 0x40, 0x80] 0 9 = CODE_CLEAR ∧ codeAt [0x80, 0x40, 0x80] 9 9 = 258 ∧
    py_decode zeroUninit [0x80, 0x40, 0x80] 4 = .array [0, 0, 0, 0] := by
  refine ⟨by decide, by decide, by decide!⟩

/-- C19: `py_decode` hands back `NULL` only when the requested size is not an
`int`: no content of the input makes it fail. -/
theorem py_decode_null_iff (u : Uninit) (arr : List Nat) (size : Int) :
    py_decode u arr size = .null ↔ (size < -(2 ^ 31) ∨ size ≥ 2 ^ 31) := by
  unfold py_decode
  constructor
  · intro h
    by_contra hn
    rw [if_neg hn] at h
    generalize ((LZWPreDecode u (py_decode_handle u arr)).bind fun r1 =>
      (LZWDecode r1.2 (fun j => u.result j.toNat) (to_tmsize_t (py_decode_dims size))).bind
        fun r2 =>
      (LZWCleanup r2.2.1).map fun _ =>
        (List.range (py_decode_len (py_decode_dims size) r2.1).toNat).map
          (fun (j : Nat) => r2.2.2 (j : Int))) = o at h
    cases o <;> cases h
  · intro h
    rw [if_pos h]

/-- C20: a call of `LZWDecode` that is served by the restart branch returns 1,
not the number of bytes it left unfilled.  After `LZWPreDecode` on the encoded
eight zero bytes, a call for 4 bytes stores 4 bytes and returns 0 (the string
of code 259 is cut after its first byte); the next call for 1 byte stores that
byte at offset 0 (the buffer held 7s) and returns 1, where `occ0` minus the
bytes written is 0. -/
theorem restart_branch_returns_one :
    ((LZWPreDecode zeroUninit (py_decode_handle zeroUninit [128, 0, 32, 80, 56, 20, 4])).bind
      fun r1 => (LZWDecode r1.2 (fun _ => 7) 4).bind
      fun r2 => (LZWDecode r2.2.1 (fun _ => 7) 1).map
      fun r3 => (r1.1, r2.1, (List.range 5).map (fun (j : Nat) => r2.2.2 (j : Int)), r3.1,
        (List.range 2).map (fun (j : Nat) => r3.2.2 (j : Int)))) =
    some (1, 0, [0, 0, 0, 0, 7], 1, [0, 7]) := by
  decide!

/-- C29: the raw buffer of `py_encode` is too small for a one-byte input.  The
buffer has `min(len, 2^20) = 1` byte; `LZWPostEncode` flushes the first byte
and then stores the three bytes `[16, 96, 32]` from the start of the buffer,
two of them past its end. -/
theorem one_byte_input_overflows_buffer :
    ((LZWPreEncode zeroUninit (py_encode_handle zeroUninit 1)).bind
      fun r1 => (LZWEncode r1.2 [] [65] 1).bind
      fun r2 => (LZWPostEncode r2.2.1 r2.2.2).map
      fun r3 => (r3.2.1.tif_rawdatasize, r3.2.2)) = some (1, [[128], [16, 96, 32]]) := by
  decide!

end TifLzw

namespace TifLzw

theorem add_entry_fields (l : DecLocals) (o : Int) (c : Nat) :
    (LZWDecode_add_entry l o c).tab = store l.tab l.free_entp
      ⟨some o, ((l.tab o).length + 1) % 65536,
        if (c : Int) < l.free_entp then (l.tab (c : Int)).firstchar else (l.tab o).firstchar,
        (l.tab o).firstchar⟩ ∧
    (LZWDecode_add_entry l o c).out = l.out ∧ (LZWDecode_add_entry l o c).op = l.op ∧
    (LZWDecode_add_entry l o c).occ = l.occ ∧
    (LZWDecode_add_entry l o c).oldcodep = some (c : Int) := by
  unfold LZWDecode_add_entry
  simp only []
  split
  · exact ⟨rfl, rfl, rfl, rfl, rfl⟩
  · exact ⟨rfl, rfl, rfl, rfl, rfl⟩

/-- C35: for every input of 2 to fewer than `2 ^ 28` bytes that `LZWPreDecode`
accepts and whose first 9-bit code is neither `CODE_CLEAR` nor `CODE_EOI`, the
first call of `LZWDecode` with a positive output length returns 0 (the check
of the previous-code pointer, which is still one entry before the table) and
leaves the output buffer as it was. -/
theorem strip_must_start_with_clear (u : Uninit) (arr : List Nat) (hb : IsBytes arr)
    (h2 : 2 ≤ arr.length) (hlen : arr.length < 2 ^ 28)
    (hacc : ¬ (arr.getD 0 0 = 0 ∧ arr.getD 1 0 &&& 1 ≠ 0))
    (hc1 : codeAt arr 0 9 ≠ CODE_CLEAR) (hc2 : codeAt arr 0 9 ≠ CODE_EOI)
    (out : Int → Nat) (occ0 : Int) (hocc : 0 < occ0) :
    ∃ tif1 tif2, LZWPreDecode u (py_decode_handle u arr) = some (1, tif1) ∧
      LZWDecode tif1 out occ0 = some (0, tif2, out) := by
  obtain ⟨tif1, h⟩ := LZWPreDecode_accepts u arr hacc
  obtain ⟨sp, tab, h1, h2', h3, h4, hinv⟩ := load_inv u arr tif1 h
  obtain ⟨r0, t0⟩ := hinv 0 occ0 out
  rw [load_D_zero arr.length hlen] at r0
  have hn : (LZWDecode_load tif1 sp tab 0 occ0 out).nbits = 9 := by
    have := t0.nbits_eq
    exact this
  have hbl : (9 : Int) ≤ (LZWDecode_load tif1 sp tab 0 occ0 out).dec_bitsleft := by
    have := r0.left
    push_cast at this
    omega
  obtain ⟨_, b2⟩ := body_spec arr hb 0 (le_refl 0) _ 0 _ r0 t0 hocc
  rw [hn] at b2
  obtain ⟨_, _, _, c3⟩ := b2 (by exact_mod_cast hbl)
  obtain ⟨l1, e1, e2⟩ := (c3 hc2 hc1).1 (Or.inl rfl)
  obtain ⟨n, hn1⟩ : ∃ n, occ0.toNat = n + 1 := ⟨occ0.toNat - 1, by omega⟩
  refine ⟨tif1, LZWDecode_abort tif1 sp l1, h, ?_⟩
  rw [LZWDecode_first tif1 sp tab h1 h2' h4, h3, hn1]
  unfold LZWDecode_loop
  rw [if_pos (show (LZWDecode_load tif1 sp tab 0 occ0 out).occ > 0 from hocc), e1]
  show some ((0 : Int), LZWDecode_abort tif1 sp l1, l1.out) = _
  rw [e2]
  rfl

theorem strip_must_start_with_clear_witness :
    IsBytes [0, 0] ∧ 2 ≤ ([0, 0] : List Nat).length ∧ ([0, 0] : List Nat).length < 2 ^ 28 ∧
    ¬ (([0, 0] : List Nat).getD 0 0 = 0 ∧ ([0, 0] : List Nat).getD 1 0 &&& 1 ≠ 0) ∧
    codeAt [0, 0] 0 9 ≠ CODE_CLEAR ∧ codeAt [0, 0] 0 9 ≠ CODE_EOI ∧ (0 : Int) < 3 ∧
    ∃ tif1 tif2, LZWPreDecode zeroUninit (py_decode_handle zeroUninit [0, 0]) = some (1, tif1) ∧
      LZWDecode tif1 (fun _ => 7) 3 = some (0, tif2, fun _ => 7) :=
  ⟨by decide, by decide, by norm_num, by decide, by decide, by decide, by decide,
    strip_must_start_with_clear zeroUninit [0, 0] (by decide) (by decide) (by norm_num)
      (by decide) (by decide) (by decide) (fun _ => 7) 3 (by decide)⟩

end TifLzw

namespace TifLzw

/-- The locals at the head of every round of the loop of `LZWEncode` are sound. -/
theorem encHead_ok (limit : Int) (l0 : EncLocals) (d0 : List Nat) (ok0 : EncOK l0 d0)
    (l : EncLocals) (h : EncHead limit l0 l) : ∃ done, EncOK l done := by
  induction h with
  | start => exact ⟨d0, ok0⟩
  | round la lb c _ hc e ih =>
    obtain ⟨done, ok⟩ := ih
    obtain ⟨l1, e1, ok1⟩ := enc_step limit la done ok c hc
    rw [e] at e1
    cases e1
    exact ⟨_, ok1⟩

/-- The locals of `LZWEncode` when its loop starts on a strip of `py_encode`
that begins with the byte `b`. -/
theorem encode_start_ok (u : Uninit) (nbytes : Int) (b : Nat) (hb : b < 256) :
    ∃ T sp tab, LZWPreEncode u (py_encode_handle u nbytes) = some (1, T) ∧
      T.tif_data = some sp ∧ sp.enc_hashtab = some tab ∧
      ∀ rest, EncOK (LZWEncode_start (LZWEncode_load T sp tab []) (b :: rest)).1 [b] := by
  obtain ⟨T, sp, e0, k1, k2, k3, k4, k5, k6, k7, k8, k9, k10, k11⟩ :=
    LZWPreEncode_ok u (py_encode_handle u nbytes) (TIFFInitLZW u) rfl rfl
  refine ⟨T, sp, cl_hash u.hashtab, e0, k1, k2, ?_⟩
  intro rest
  have ok0 := enc_init b hb (LZWEncode_load T sp (cl_hash u.hashtab) []) k3 k4
    (by show T.tif_rawdata = []; rw [k5]; rfl) rfl k6 k7 k8 k9 k10 u.hashtab rfl
  have hs : LZWEncode_start (LZWEncode_load T sp (cl_hash u.hashtab) []) (b :: rest) =
      ({ (LZWEncode_load T sp (cl_hash u.hashtab) []).put CODE_CLEAR with
          ent := b, incount := (LZWEncode_load T sp (cl_hash u.hashtab) []).incount + 1 },
        rest) := by
    unfold LZWEncode_start
    simp only []
    exact if_pos (show (LZWEncode_load T sp (cl_hash u.hashtab) []).ent = HCODE_NONE from k11)
  rw [hs]
  exact ok0

/-- C33: at the head of every round of the loop of `LZWEncode` on a strip that
`LZWPreEncode` has started, `9 <= nbits <= 12`, `maxcode = (1 << nbits) - 1`,
`CODE_FIRST <= free_ent <= min(maxcode, CODE_MAX - 2)` and `nextbits < 8`; the
codes that the round may pass to `PutNextCode`, the prefix code `ent` and
`CODE_CLEAR`, are below `1 << nbits`. -/
theorem encoder_state_invariant (u : Uninit) (nbytes : Int) (b : Nat) (hb : b < 256) :
    ∃ T sp tab, LZWPreEncode u (py_encode_handle u nbytes) = some (1, T) ∧
      T.tif_data = some sp ∧ sp.enc_hashtab = some tab ∧
      ∀ rest l,
        EncHead sp.enc_rawlimit (LZWEncode_start (LZWEncode_load T sp tab []) (b :: rest)).1 l →
        9 ≤ l.nbits ∧ l.nbits ≤ BITS_MAX ∧ l.maxcode = MAXCODE l.nbits ∧
        CODE_FIRST ≤ l.free_ent ∧ l.free_ent ≤ l.maxcode ∧ l.free_ent ≤ CODE_MAX - 2 ∧
        l.nextbits < 8 ∧ l.ent < 1 <<< l.nbits ∧ CODE_CLEAR < 1 <<< l.nbits := by
  obtain ⟨T, sp, tab, e0, k1, k2, hok⟩ := encode_start_ok u nbytes b hb
  refine ⟨T, sp, tab, e0, k1, k2, ?_⟩
  intro rest l hl
  obtain ⟨done, body, E, s, y, g, _⟩ := encHead_ok _ _ _ (hok rest) l hl
  have h1 := g.nbits_ge
  have h2 := g.nbits_le
  have h3 := g.maxcode_eq
  have h4 := g.free_eq
  have h5 := g.free_le
  have h6 := g.free_lt
  have h7 := g.put.2.1
  have hp : (2 : Nat) ^ 9 ≤ 2 ^ l.nbits := Nat.pow_le_pow_right (by norm_num) h1
  have hcm : CODE_MAX = 4095 := by decide
  refine ⟨h1, h2, by rw [MAXCODE_eq]; exact h3, by unfold CODE_FIRST; omega, h5,
    by rw [hcm]; omega, h7, ?_, ?_⟩
  · rw [Nat.one_shiftLeft]
    rcases g.ent_ok with h | h <;> omega
  · rw [Nat.one_shiftLeft]
    unfold CODE_CLEAR
    omega

theorem encoder_state_invariant_witness :
    (65 : Nat) < 256 ∧
    ∃ T sp tab, LZWPreEncode zeroUninit (py_encode_handle zeroUninit 2) = some (1, T) ∧
      T.tif_data = some sp ∧ sp.enc_hashtab = some tab ∧
      ∀ rest l,
        EncHead sp.enc_rawlimit (LZWEncode_start (LZWEncode_load T sp tab []) (65 :: rest)).1 l →
        9 ≤ l.nbits ∧ l.nbits ≤ BITS_MAX ∧ l.maxcode = MAXCODE l.nbits ∧
        CODE_FIRST ≤ l.free_ent ∧ l.free_ent ≤ l.maxcode ∧ l.free_ent ≤ CODE_MAX - 2 ∧
        l.nextbits < 8 ∧ l.ent < 1 <<< l.nbits ∧ CODE_CLEAR < 1 <<< l.nbits :=
  ⟨by decide, encoder_state_invariant zeroUninit 2 65 (by decide)⟩

/-- With `n` rounds for more than `n - 1` occupied slots the secondary probe ends. -/
theorem secondary_probe_ends_within (tab : hash_t) (E : List (List Nat)) (hI : HashInv tab E)
    (n : Nat) (hE : E.length < n) (hn : n < HSIZE) (fcode disp : Int) (d0 : 0 < disp)
    (d1 : disp < HSIZE) (h : Int) (h0 : 0 ≤ h) (h1 : h < HSIZE) :
    secondary_probe tab fcode disp n h ≠ .spin := by
  intro e
  have hocc := secondary_probe_spin tab fcode disp n h e
  have hcard := Finset.card_le_card_of_injOn (s := Finset.range n)
    (t := Finset.range E.length)
    (fun j => tab.code ((stepPos disp)^[j + 1] h) - 258)
    (by
      intro j hj
      have hj' : j < n := by simpa using hj
      have hr := iterate_stepPos_range disp h h0 h1 d0 d1 (j + 1)
      obtain ⟨p, c, _, _, _, _, k1, k2, _⟩ := hI.1 _ hr.1 hr.2 (hocc (j + 1) (by omega)
        (by omega))
      simp only [Finset.mem_range]
      omega)
    (by
      intro j1 hj1 j2 hj2 heq
      have hj1' : j1 < n := by simpa using hj1
      have hj2' : j2 < n := by simpa using hj2
      have hr1 := iterate_stepPos_range disp h h0 h1 d0 d1 (j1 + 1)
      have hr2 := iterate_stepPos_range disp h h0 h1 d0 d1 (j2 + 1)
      have o1 := hocc (j1 + 1) (by omega) (by omega)
      have o2 := hocc (j2 + 1) (by omega) (by omega)
      obtain ⟨_, _, _, _, _, _, k1, _, _⟩ := hI.1 _ hr1.1 hr1.2 o1
      obtain ⟨_, _, _, _, _, _, k2, _, _⟩ := hI.1 _ hr2.1 hr2.2 o2
      simp only at heq
      have hc : tab.code ((stepPos disp)^[j1 + 1] h) = tab.code ((stepPos disp)^[j2 + 1] h) := by
        omega
      have hs := hI.2 _ _ hr1.1 hr1.2 hr2.1 hr2.2 o1 o2 hc
      have := iterate_stepPos_inj disp h h0 h1 d0 d1 (j1 + 1) (j2 + 1)
        (by omega) (by omega) hs
      omega)
  simp only [Finset.card_range] at hcard
  omega

/-- More rounds do not change the result of a secondary probe that has ended. -/
theorem secondary_probe_mono (tab : hash_t) (fcode disp : Int) (n : Nat) :
    ∀ h : Int, secondary_probe tab fcode disp n h ≠ .spin →
      ∀ k, secondary_probe tab fcode disp (n + k) h = secondary_probe tab fcode disp n h := by
  induction n with
  | zero =>
    intro h e
    exact absurd rfl e
  | succ n ih =>
    intro h e k
    have hk : n + 1 + k = (n + k) + 1 := by omega
    rw [hk, secondary_probe_succ, secondary_probe_succ]
    rw [secondary_probe_succ] at e
    by_cases c1 : tab.hash (stepPos disp h) = fcode
    · rw [if_pos c1, if_pos c1]
    · rw [if_neg c1] at e ⊢
      rw [if_neg c1]
      by_cases c2 : tab.hash (stepPos disp h) ≥ 0
      · rw [if_pos c2] at e ⊢
        rw [if_pos c2]
        exact ih _ e k
      · rw [if_neg c2, if_neg c2]

/-- C32: hash probing is total.  At the head of every round of the loop of
`LZWEncode` on a strip that `LZWPreEncode` has started, for every input byte
`c`: the primary index `(c << 5) ^ ent` is below `HSIZE`; with the
displacement `disp` of the secondary probe (`HSIZE - h`, or 1 for `h = 0`)
every index `h - j * disp` reduced as the loop does is in `[0, HSIZE)`; the
secondary probe ends within 3837 rounds (at most 3836 slots are occupied); the
whole probe ends at a slot in `[0, HSIZE)` that holds the key (a hit) or is
empty (a miss). -/
theorem hash_probe_total (u : Uninit) (nbytes : Int) (b : Nat) (hb : b < 256) :
    ∃ T sp tab, LZWPreEncode u (py_encode_handle u nbytes) = some (1, T) ∧
      T.tif_data = some sp ∧ sp.enc_hashtab = some tab ∧
      ∀ rest l,
        EncHead sp.enc_rawlimit (LZWEncode_start (LZWEncode_load T sp tab []) (b :: rest)).1 l →
        ∀ c fcode, c < 256 →
          (c <<< HSHIFT) ^^^ l.ent < HSIZE ∧
          (∀ j : Nat,
            0 ≤ (stepPos (if (((c <<< HSHIFT) ^^^ l.ent : Nat) : Int) = 0 then 1
              else (HSIZE : Int) - (((c <<< HSHIFT) ^^^ l.ent : Nat) : Int)))^[j]
                (((c <<< HSHIFT) ^^^ l.ent : Nat) : Int) ∧
            (stepPos (if (((c <<< HSHIFT) ^^^ l.ent : Nat) : Int) = 0 then 1
              else (HSIZE : Int) - (((c <<< HSHIFT) ^^^ l.ent : Nat) : Int)))^[j]
                (((c <<< HSHIFT) ^^^ l.ent : Nat) : Int) < HSIZE) ∧
          secondary_probe l.hashtab fcode
              (if (((c <<< HSHIFT) ^^^ l.ent : Nat) : Int) = 0 then 1
                else (HSIZE : Int) - (((c <<< HSHIFT) ^^^ l.ent : Nat) : Int)) 3837
              (((c <<< HSHIFT) ^^^ l.ent : Nat) : Int) ≠ .spin ∧
          secondary_probe l.hashtab fcode
              (if (((c <<< HSHIFT) ^^^ l.ent : Nat) : Int) = 0 then 1
                else (HSIZE : Int) - (((c <<< HSHIFT) ^^^ l.ent : Nat) : Int)) HSIZE
              (((c <<< HSHIFT) ^^^ l.ent : Nat) : Int) =
            secondary_probe l.hashtab fcode
              (if (((c <<< HSHIFT) ^^^ l.ent : Nat) : Int) = 0 then 1
                else (HSIZE : Int) - (((c <<< HSHIFT) ^^^ l.ent : Nat) : Int)) 3837
              (((c <<< HSHIFT) ^^^ l.ent : Nat) : Int) ∧
          probe l.hashtab fcode (((c <<< HSHIFT) ^^^ l.ent : Nat) : Int) ≠ .spin ∧
          (∀ k, probe l.hashtab fcode (((c <<< HSHIFT) ^^^ l.ent : Nat) : Int) = .hit k →
            ∃ h2 : Int, 0 ≤ h2 ∧ h2 < HSIZE ∧ l.hashtab.hash h2 = fcode ∧
              l.hashtab.code h2 = k) ∧
          (∀ h2, probe l.hashtab fcode (((c <<< HSHIFT) ^^^ l.ent : Nat) : Int) = .miss h2 →
            0 ≤ h2 ∧ h2 < HSIZE ∧ ¬ l.hashtab.hash h2 ≥ 0) := by
  obtain ⟨T, sp, tab, e0, k1, k2, hok⟩ := encode_start_ok u nbytes b hb
  refine ⟨T, sp, tab, e0, k1, k2, ?_⟩
  intro rest l hl c fcode hc
  obtain ⟨done, body, E, s, y, g, _⟩ := encHead_ok _ _ _ (hok rest) l hl
  have hfree := g.free_eq
  have hfl := g.free_lt
  have hent : l.ent < 4096 := by
    rcases g.ent_ok with h | h <;> omega
  have hlt := primary_hash_lt c l.ent hc hent
  have hH : HSIZE = 9001 := rfl
  have h0 : (0 : Int) ≤ (((c <<< HSHIFT) ^^^ l.ent : Nat) : Int) := by omega
  have h1 : (((c <<< HSHIFT) ^^^ l.ent : Nat) : Int) < HSIZE := by exact_mod_cast hlt
  refine ⟨hlt, ?_⟩
  generalize (((c <<< HSHIFT) ^^^ l.ent : Nat) : Int) = h at h0 h1 ⊢
  have d : (0 : Int) < (if h = 0 then 1 else (HSIZE : Int) - h) ∧
      (if h = 0 then 1 else (HSIZE : Int) - h) < HSIZE := by
    rw [hH]
    split <;> omega
  have hne := secondary_probe_ends_within l.hashtab E g.hash 3837 (by omega) (by rw [hH]; omega)
    fcode _ d.1 d.2 h h0 h1
  have hmono := secondary_probe_mono l.hashtab fcode _ 3837 h hne (HSIZE - 3837)
  have hsum : 3837 + (HSIZE - 3837) = HSIZE := by rw [hH]
  rw [hsum] at hmono
  exact ⟨fun j => iterate_stepPos_range _ h h0 h1 d.1 d.2 j, hne, hmono,
    probe_spec l.hashtab E g.hash (by rw [hH]; omega) fcode h h0 h1⟩

theorem hash_probe_total_witness :
    (65 : Nat) < 256 ∧
    ∃ T sp tab, LZWPreEncode zeroUninit (py_encode_handle zeroUninit 2) = some (1, T) ∧
      T.tif_data = some sp ∧ sp.enc_hashtab = some tab ∧
      ∀ rest l,
        EncHead sp.enc_rawlimit (LZWEncode_start (LZWEncode_load T sp tab []) (65 :: rest)).1 l →
        ∀ c fcode, c < 256 →
          (c <<< HSHIFT) ^^^ l.ent < HSIZE ∧
          (∀ j : Nat,
            0 ≤ (stepPos (if (((c <<< HSHIFT) ^^^ l.ent : Nat) : Int) = 0 then 1
              else (HSIZE : Int) - (((c <<< HSHIFT) ^^^ l.ent : Nat) : Int)))^[j]
                (((c <<< HSHIFT) ^^^ l.ent : Nat) : Int) ∧
            (stepPos (if (((c <<< HSHIFT) ^^^ l.ent : Nat) : Int) = 0 then 1
              else (HSIZE : Int) - (((c <<< HSHIFT) ^^^ l.ent : Nat) : Int)))^[j]
                (((c <<< HSHIFT) ^^^ l.ent : Nat) : Int) < HSIZE) ∧
          secondary_probe l.hashtab fcode
              (if (((c <<< HSHIFT) ^^^ l.ent : Nat) : Int) = 0 then 1
                else (HSIZE : Int) - (((c <<< HSHIFT) ^^^ l.ent : Nat) : Int)) 3837
              (((c <<< HSHIFT) ^^^ l.ent : Nat) : Int) ≠ .spin ∧
          secondary_probe l.hashtab fcode
              (if (((c <<< HSHIFT) ^^^ l.ent : Nat) : Int) = 0 then 1
                else (HSIZE : Int) - (((c <<< HSHIFT) ^^^ l.ent : Nat) : Int)) HSIZE
              (((c <<< HSHIFT) ^^^ l.ent : Nat) : Int) =
            secondary_probe l.hashtab fcode
              (if (((c <<< HSHIFT) ^^^ l.ent : Nat) : Int) = 0 then 1
                else (HSIZE : Int) - (((c <<< HSHIFT) ^^^ l.ent : Nat) : Int)) 3837
              (((c <<< HSHIFT) ^^^ l.ent : Nat) : Int) ∧
          probe l.hashtab fcode (((c <<< HSHIFT) ^^^ l.ent : Nat) : Int) ≠ .spin ∧
          (∀ k, probe l.hashtab fcode (((c <<< HSHIFT) ^^^ l.ent : Nat) : Int) = .hit k →
            ∃ h2 : Int, 0 ≤ h2 ∧ h2 < HSIZE ∧ l.hashtab.hash h2 = fcode ∧
              l.hashtab.code h2 = k) ∧
          (∀ h2, probe l.hashtab fcode (((c <<< HSHIFT) ^^^ l.ent : Nat) : Int) = .miss h2 →
            0 ≤ h2 ∧ h2 < HSIZE ∧ ¬ l.hashtab.hash h2 ≥ 0) :=
  ⟨by decide, hash_probe_total zeroUninit 2 65 (by decide)⟩

end TifLzw

namespace BittoolsOld

open Bittools

theorem toChar_of_range (x : Int) (h0 : -128 ≤ x) (h1 : x < 128) : toChar x = x := by
  unfold toChar
  omega

theorem toULong_of_range (x : Int) (h0 : 0 ≤ x) (h1 : x < 2 ^ 64) : toULong x = x.toNat := by
  unfold toULong
  rw [Int.emod_eq_of_lt h0 h1]

/-- The generic loop of the older `getword` for index 1 and width 33 on a
buffer whose byte 4 is 0: the last round, for `i = 33`, clears bit `33 % 33 = 0`
of the word. -/
theorem getword_loop_bit0 (junk undef : Int → Nat) :
    ∀ (fuel : Nat) (i : Int) (word : Nat), 1 ≤ i → i ≤ 34 → 34 - i < (fuel : Int) →
      (i = 34 → word.testBit 0 = false) →
      (getword_loop [2, 0, 0, 0, 0, 0, 0, 0] junk undef 1 33 fuel i word).testBit 0 = false := by
  intro fuel
  induction fuel with
  | zero => intro i word h1 h2 h3; simp at h3; omega
  | succ f ih =>
    intro i word h1 h2 h3 h4
    unfold getword_loop
    have hb : (1 + toULong 33) % 2 ^ 64 = 34 := by decide
    rw [hb, toULong_of_range i (by omega) (by omega)]
    by_cases hi : i = 34
    · rw [if_neg (by rw [hi]; decide)]
      exact h4 hi
    · rw [if_pos (by omega), toChar_of_range (i + 1) (by omega) (by omega)]
      apply ih (i + 1) _ (by omega) (by omega) (by push_cast at h3 ⊢; omega)
      intro h34
      have h33 : i = 33 := by omega
      subst h33
      have hs : (33 : Int) >>> 3 = 4 := by decide
      have hp : peek [2, 0, 0, 0, 0, 0, 0, 0] junk 4 = 0 := by
        unfold peek
        rw [if_pos (by decide)]
        rfl
      have ha : ARRGETBIT [2, 0, 0, 0, 0, 0, 0, 0] junk undef 33 = 0 := by
        have hd : DATA [2, 0, 0, 0, 0, 0, 0, 0] junk 33 = 0 := by
          unfold DATA
          rw [hs, hp]
          rfl
        unfold ARRGETBIT
        rw [hd, Nat.zero_and]
        simp
      have hm : BITMASK undef 33 33 = 1 := by
        simp [BITMASK]
      unfold getword_step
      rw [ha, if_neg (by simp), hm, Nat.testBit_and]
      simp

/-- C31 fails in the older revision: for index 1 and width 33 the generic path
hands back a word whose bit 0 is 0, whatever the surrounding memory and the
undefined shifts give, while buffer bit `1 + 0` is 1.  The loop counts `i`
from `index` and stores buffer bit `i` at word bit `i % width`, not at
`i - index`. -/
theorem getword_generic_misplaces_bits (junk undef : Int → Nat) :
    ∃ w, getword [2, 0, 0, 0, 0, 0, 0, 0] junk undef 1 33 = some w ∧ w.testBit 0 = false ∧
      bitAt [2, 0, 0, 0, 0, 0, 0, 0] (1 + 0) = true ∧
      (1 : Int) + 33 ≤ 8 * (([2, 0, 0, 0, 0, 0, 0, 0] : List Nat).length : Int) := by
  have hw : toChar 33 = 33 := by decide
  have hi : toChar (toULong 1) = 1 := by decide
  have hu : toULong 1 = 1 := by decide
  refine ⟨getword_loop [2, 0, 0, 0, 0, 0, 0, 0] junk undef 1 33 256 1 0, ?_, ?_, by decide,
    by decide⟩
  · unfold getword
    rw [hw, if_neg (by decide), if_pos (by decide), hi, hu]
  · exact getword_loop_bit0 junk undef 256 1 0 (by decide) (by decide) (by decide)
      (by intro h; omega)

end BittoolsOld

namespace TifLzw

theorem blit_append (out : Int → Nat) (op : Int) (a b : List Nat) :
    blit (blit out op a) (op + a.length) b = blit out op (a ++ b) := by
  funext j
  unfold blit
  simp only [List.length_append, Nat.cast_add]
  by_cases h1 : op + (a.length : Int) ≤ j ∧ j < op + a.length + b.length
  · rw [if_pos h1, if_pos (by omega)]
    have e : (j - op).toNat = a.length + (j - (op + a.length)).toNat := by omega
    rw [e, List.getD_eq_getElem?_getD, List.getD_eq_getElem?_getD,
      List.getElem?_append_right (by omega)]
    simp
  · rw [if_neg h1]
    by_cases h2 : op ≤ j ∧ j < op + a.length
    · rw [if_pos h2, if_pos (by omega)]
      rw [List.getD_eq_getElem?_getD, List.getD_eq_getElem?_getD,
        List.getElem?_append_left (by omega)]
    · rw [if_neg h2, if_neg (by omega)]

theorem astep_width (s : AState) (n c : Nat) (r : AState × List Nat)
    (h : astep s n c = some r) : n = s.nbits := by
  unfold astep at h
  by_contra hn
  rw [if_pos hn] at h
  cases h

/-- What the reference decoder accepts right after a clear code: a byte. -/
theorem astep_cleared (s : AState) (hp : s.prev = []) (n c : Nat) (r : AState × List Nat)
    (h : astep s n c = some r) : c < 256 ∧ r = (⟨[], [c], 9⟩, [c]) := by
  unfold astep at h
  by_cases h0 : n ≠ s.nbits
  · rw [if_pos h0] at h; cases h
  · rw [if_neg h0] at h
    by_cases h1 : c = CODE_EOI
    · rw [if_pos h1] at h; cases h
    · rw [if_neg h1] at h
      by_cases h2 : c = CODE_CLEAR
      · rw [if_pos h2, if_pos hp] at h; cases h
      · rw [if_neg h2, if_pos hp] at h
        by_cases h3 : c < 256
        · rw [if_pos h3] at h
          cases h
          exact ⟨h3, rfl⟩
        · rw [if_neg h3] at h; cases h

/-- The codes of a packed stream lie one after the other in its bytes. -/
theorem streamAt_suffix (out : List Nat) (pad : Nat) :
    ∀ (cs pre : List (Nat × Nat)), CodesFit (pre ++ cs) →
      8 * out.length = bitLen (pre ++ cs) + pad →
      bytesVal out = streamVal (pre ++ cs) * 2 ^ pad → StreamAt out (bitLen pre) cs := by
  intro cs
  induction cs with
  | nil => intro pre _ _ _; trivial
  | cons p cs ih =>
    intro pre hf h8 hv
    obtain ⟨n, c⟩ := p
    have hsplit : pre ++ (n, c) :: cs = (pre ++ [(n, c)]) ++ cs := by simp
    have hfit := (codesFit_append pre ((n, c) :: cs)).1 hf
    have hc : c < 2 ^ n := hfit.2 (n, c) (by simp)
    have hfr : CodesFit cs := fun q hq => hfit.2 q (by simp [hq])
    have hr := streamVal_lt cs hfr
    have hb : bitLen (pre ++ (n, c) :: cs) = bitLen pre + n + bitLen cs := by
      rw [bitLen_append, bitLen_cons]
      simp only []
      omega
    refine ⟨by omega, ?_, ?_⟩
    · unfold codeAt
      have e : 8 * out.length - bitLen pre - n = bitLen cs + pad := by omega
      rw [e, hv, hsplit, streamVal_append, streamVal_snoc, pow_add,
        Nat.mul_div_mul_right _ _ (by positivity), Nat.add_comm,
        Nat.add_mul_div_right _ _ (by positivity), Nat.div_eq_of_lt hr, Nat.zero_add,
        Nat.add_comm, Nat.add_mul_mod_self_right, Nat.mod_eq_of_lt hc]
    · have := ih (pre ++ [(n, c)]) (by rw [← hsplit]; exact hf) (by rw [← hsplit]; exact h8)
        (by rw [← hsplit]; exact hv)
      rw [bitLen_append] at this
      simpa [bitLen] using this

theorem streamAt_of_packs (out : List Nat) (cs : List (Nat × Nat)) (h : Packs out cs) :
    StreamAt out 0 cs := by
  obtain ⟨_, hf, pad, _, h2, h3⟩ := h
  exact streamAt_suffix out pad cs [] hf h2 h3

end TifLzw

namespace TifLzw

theorem arun_ne_nil (s s2 : AState) (cs : List (Nat × Nat)) (y : List Nat)
    (h : arun s cs = some (s2, y)) (hy : y ≠ []) : cs ≠ [] := by
  intro e
  subst e
  rw [arun_nil] at h
  cases h
  exact hy rfl

/-- The output of a round followed by the output of the rounds after it. -/
theorem follow_compose (out : Int → Nat) (op : Int) (str y1 : List Nat) (m : Int)
    (hm : (str.length : Int) ≤ m) :
    blit (blit out op str) (op + str.length) (y1.take (m - str.length).toNat) =
      blit out op ((str ++ y1).take m.toNat) ∧
    y1.drop (m - str.length).toNat = (str ++ y1).drop m.toNat := by
  have e : (m - str.length).toNat = m.toNat - str.length := by omega
  have hle : str.length ≤ m.toNat := by omega
  constructor
  · rw [blit_append, List.take_append_eq_append_take, List.take_of_length_le hle, e]
  · rw [List.drop_append_eq_append_drop, List.drop_of_length_le hle, List.nil_append, e]

/-- The loop of `LZWDecode` on a stream that the reference decoder accepts: it
delivers the first `occ` bytes of what the codes stand for and leaves locals
from which the next call goes on. -/
theorem loop_follow (raw : List Nat) (hraw : IsBytes raw) :
    ∀ (fuel : Nat) (l : DecLocals) (pos : Nat) (s : AState) (cs : List (Nat × Nat))
      (s_end : AState) (y : List Nat),
      ReadInv raw 0 l pos → TabInv l s → s.prev ≠ [] → StreamAt raw pos cs →
      arun s cs = some (s_end, y) → s_end.prev ≠ [] → l.dec_restart = 0 → 0 ≤ l.occ →
      l.occ ≤ y.length → l.occ ≤ fuel →
      ∃ l1, LZWDecode_loop raw fuel l = .done l1 ∧
        l1.out = blit l.out l.op (y.take l.occ.toNat) ∧ l1.occ = 0 ∧
        Resume raw l1 s_end (y.drop l.occ.toNat) := by
  intro fuel
  induction fuel with
  | zero =>
    intro l pos s cs s_end y r t hp hst hrun hend hres h0 hy hf
    have hz : l.occ = 0 := by push_cast at hf; omega
    refine ⟨l, ?_, ?_, hz, ?_⟩
    · unfold LZWDecode_loop
      rw [if_neg (by omega)]
    · rw [hz]
      simp [blit_nil]
    · rw [hz]
      exact ⟨pos, s, cs, y, [], r, t, hp, hst, hrun, by simp, Or.inl ⟨rfl, hres⟩⟩
  | succ n ih =>
    intro l pos s cs s_end y r t hp hst hrun hend hres h0 hy hf
    by_cases hz : l.occ = 0
    · refine ⟨l, ?_, ?_, hz, ?_⟩
      · unfold LZWDecode_loop
        rw [if_neg (by omega)]
      · rw [hz]
        simp [blit_nil]
      · rw [hz]
        exact ⟨pos, s, cs, y, [], r, t, hp, hst, hrun, by simp, Or.inl ⟨rfl, hres⟩⟩
    · have hocc : l.occ > 0 := by omega
      have hyne : y ≠ [] := by
        intro e
        rw [e] at hy
        simp at hy
        omega
      have hcs := arun_ne_nil s s_end cs y hrun hyne
      obtain ⟨⟨w, c⟩, cs1, hcs1⟩ : ∃ p cs1, cs = p :: cs1 := by
        cases cs with
        | nil => exact absurd rfl hcs
        | cons p cs1 => exact ⟨p, cs1, rfl⟩
      subst hcs1
      obtain ⟨s1, str, y1, ha, hrun1, hyeq⟩ := arun_cons_inv s w c cs1 s_end y hrun
      have hw : w = s.nbits := astep_width s w c _ ha
      have hwl : w = l.nbits := by rw [hw, t.nbits_eq]
      subst hwl
      obtain ⟨hav, hcode, hst1⟩ := hst
      have hleft := r.left
      obtain ⟨_, b2⟩ := body_spec raw hraw 0 (le_refl 0) l pos s r t hocc
      obtain ⟨_, c1, c2, c3⟩ := b2 (by omega)
      rw [hcode] at c1 c2 c3
      have hne : c ≠ CODE_EOI := (astep_data s c s1 str hp (by rw [← hw]; exact ha)).1
      have hloop : ∀ l1, LZWDecode_body raw l = .next l1 →
          LZWDecode_loop raw (n + 1) l = LZWDecode_loop raw n l1 := by
        intro l1 e
        rw [LZWDecode_loop, if_pos hocc, e]
      -- what follows a round that stores `str1` and goes on with `y2`
      have go : ∀ (l1 : DecLocals) (pos1 : Nat) (s2 : AState) (str1 y2 : List Nat)
          (cs2 : List (Nat × Nat)), LZWDecode_body raw l = .next l1 →
          Stepped raw 0 l l1 pos1 s2 str1 → (str1.length : Int) ≤ l.occ →
          StreamAt raw pos1 cs2 → arun s2 cs2 = some (s_end, y2) → y = str1 ++ y2 →
          ∃ l2, LZWDecode_loop raw (n + 1) l = .done l2 ∧
            l2.out = blit l.out l.op (y.take l.occ.toNat) ∧ l2.occ = 0 ∧
            Resume raw l2 s_end (y.drop l.occ.toNat) := by
        intro l1 pos1 s2 str1 y2 cs2 e st hfit hs2 hr2 hy2
        have hlen : 0 < str1.length := List.length_pos.mpr st.ne
        have hylen : y.length = str1.length + y2.length := by rw [hy2, List.length_append]
        obtain ⟨l2, e2, o2, z2, res2⟩ := ih l1 pos1 s2 cs2 s_end y2 st.read st.tab
          (by rw [st.prev]; exact st.ne) hs2 hr2 hend (by rw [st.restart]; exact hres)
          (by rw [st.occ]; omega) (by rw [st.occ]; omega) (by rw [st.occ]; push_cast at hf; omega)
        obtain ⟨k1, k2⟩ := follow_compose l.out l.op str1 y2 l.occ hfit
        refine ⟨l2, by rw [hloop l1 e, e2], ?_, z2, ?_⟩
        · rw [o2, st.out, st.op, st.occ, k1, hy2]
        · rw [st.occ, k2, ← hy2] at res2
          exact res2
      by_cases hcl : c = CODE_CLEAR
      · subst hcl
        have hac := astep_clear s hp
        rw [← hw] at hac
        rw [hac] at ha
        cases ha
        have hy1 : y1 = y := by rw [hyeq]; rfl
        subst hy1
        have hcs1 := arun_ne_nil _ s_end cs1 y1 hrun1 hyne
        obtain ⟨⟨w2, c2'⟩, cs2, hcs2⟩ : ∃ p cs2, cs1 = p :: cs2 := by
          cases cs1 with
          | nil => exact absurd rfl hcs1
          | cons p cs2 => exact ⟨p, cs2, rfl⟩
        subst hcs2
        obtain ⟨s2, str2, y2, ha2, hrun2, hyeq2⟩ := arun_cons_inv _ w2 c2' cs2 s_end y1 hrun1
        have hw2 : w2 = 9 := astep_width _ w2 c2' _ ha2
        subst hw2
        obtain ⟨hlit, hr⟩ := astep_cleared AState.cleared rfl 9 c2' _ ha2
        cases hr
        obtain ⟨hav2, hcode2, hst2⟩ := hst1
        obtain ⟨_, d2⟩ := c2 rfl
        obtain ⟨_, _, _, f3⟩ := d2 (by omega)
        rw [hcode2] at f3
        obtain ⟨l1, e1, st⟩ := f3 hlit
        exact go l1 _ _ [c2'] y2 cs2 e1 st (by simp; omega) hst2 hrun2 hyeq2
      · obtain ⟨_, d2⟩ := c3 hne hcl
        obtain ⟨f1, f2⟩ := d2 s1 str hp (by rw [← hw]; exact ha)
        by_cases hfit : (str.length : Int) ≤ l.occ
        · obtain ⟨l1, e1, st⟩ := f1 hfit
          exact go l1 _ _ str y1 cs1 e1 st hfit hst1 hrun1 hyeq
        · have hlong : l.occ < (str.length : Int) := by omega
          obtain ⟨l1, e1, pa⟩ := f2 hlong
          have hlt : l.occ.toNat < str.length := by omega
          refine ⟨l1, ?_, ?_, pa.occ, ?_⟩
          · rw [LZWDecode_loop, if_pos hocc, e1]
          · rw [pa.out, hyeq, List.take_append_of_le_length (by omega)]
          · refine ⟨_, s1, cs1, y1, str.drop l.occ.toNat, pa.read, pa.tab, ?_, hst1, hrun1, ?_,
              Or.inr ⟨c, str, pa.codep, pa.spell, ?_, ?_, ?_⟩⟩
            · rw [pa.prev]
              intro e
              rw [e] at hlt
              simp at hlt
            · rw [hyeq, List.drop_append_of_le_length (by omega)]
            · rw [pa.restart]; exact hocc
            · rw [pa.restart]; exact hlong
            · rw [pa.restart]

end TifLzw

namespace TifLzw

theorem streamAt_append_left (raw : List Nat) :
    ∀ (a b : List (Nat × Nat)) (pos : Nat), StreamAt raw pos (a ++ b) → StreamAt raw pos a := by
  intro a
  induction a with
  | nil => intro b pos _; trivial
  | cons p a ih =>
    intro b pos h
    obtain ⟨n, c⟩ := p
    obtain ⟨h1, h2, h3⟩ := h
    exact ⟨h1, h2, ih b _ h3⟩

/-- The first byte of a stream whose first 9-bit code is `CODE_CLEAR`. -/
theorem first_byte_of_clear (raw : List Nat) (hraw : IsBytes raw) (h9 : 9 ≤ 8 * raw.length)
    (hc : codeAt raw 0 9 = CODE_CLEAR) : raw.getD 0 0 = 128 := by
  have hlen : 2 ≤ raw.length := by omega
  have hV := bytesVal_lt raw hraw
  have e1 := bytesVal_take_succ raw 0 (by omega)
  have e0 := bytesVal_take raw hraw 1
  have ez : bytesVal (raw.take 0) = 0 := by simp [bytesVal]
  rw [ez] at e1
  simp only [Nat.zero_mul, Nat.zero_add] at e1
  have hp : (256 : Nat) ^ (raw.length - 1) = 2 ^ (8 * raw.length - 9) * 2 := by
    have : (256 : Nat) = 2 ^ 8 := by norm_num
    rw [this, ← pow_mul, ← pow_succ]
    congr 1
    omega
  have hq : (256 : Nat) ^ raw.length = 2 ^ (8 * raw.length - 9) * 2 ^ 9 := by
    have : (256 : Nat) = 2 ^ 8 := by norm_num
    rw [this, ← pow_mul, ← pow_add]
    congr 1
    omega
  unfold codeAt at hc
  simp only [Nat.sub_zero] at hc
  have hlt : bytesVal raw / 2 ^ (8 * raw.length - 9) < 2 ^ 9 := by
    rw [Nat.div_lt_iff_lt_mul (by positivity)]
    rw [hq] at hV
    rw [Nat.mul_comm]
    exact hV
  rw [Nat.mod_eq_of_lt hlt] at hc
  rw [← e1, e0, hp, ← Nat.div_div_eq_div_mul, hc]
  rfl

theorem range_map_blit (out : Int → Nat) (x : List Nat) :
    (List.range x.length).map (fun (j : Nat) => blit out 0 x (j : Int)) = x := by
  apply List.ext_getElem
  · simp
  · intro i h1 h2
    simp only [List.getElem_map, List.getElem_range]
    unfold blit
    rw [if_pos (by omega)]
    simp only [sub_zero, Int.toNat_ofNat]
    rw [List.getD_eq_getElem?_getD, List.getElem?_eq_getElem h2]
    rfl

/-- The first call of `LZWDecode` on an encoded strip that stands for `x`, for
`occ0` bytes with `0 < occ0 <= len(x)`: it returns 0, delivers the first `occ0`
bytes of `x` and leaves a state from which the next call goes on. -/
theorem decode_first_call (u : Uninit) (enc x : List Nat) (he : EncodedAs enc x)
    (hlen : enc.length < 2 ^ 28) (out : Int → Nat) (occ0 : Int) (h0 : 0 < occ0)
    (h1 : occ0 ≤ x.length) :
    ∃ tif1 sp tab l1 s_end,
      LZWPreDecode u (py_decode_handle u enc) = some (1, tif1) ∧ tif1.tif_data = some sp ∧
      sp.dec_codetab = some tab ∧ tif1.tif_rawdata = enc ∧
      LZWDecode tif1 out occ0 = some (0, LZWDecode_save tif1 sp l1, l1.out) ∧
      l1.out = blit out 0 (x.take occ0.toNat) ∧ l1.occ = 0 ∧ s_end.prev ≠ [] ∧
      Resume enc l1 s_end (x.drop occ0.toNat) := by
  obtain ⟨body, s_end, n, hpk, hrun, hend, _, _, _⟩ := he
  have hraw : IsBytes enc := hpk.1
  have hst := streamAt_of_packs enc _ hpk
  rw [List.cons_append] at hst
  obtain ⟨hav, hcode, hst1⟩ := hst
  have hst2 := streamAt_append_left enc body _ _ hst1
  have hfb := first_byte_of_clear enc hraw (by omega) hcode
  obtain ⟨tif1, h⟩ := LZWPreDecode_accepts u enc
    (by rw [hfb]; intro hh; exact absurd hh.1 (by decide))
  obtain ⟨sp, tab, k1, k2, k3, k4, hinv⟩ := load_inv u enc tif1 h
  obtain ⟨r0, t0⟩ := hinv 0 occ0 out
  rw [load_D_zero enc.length hlen] at r0
  have hxne : x ≠ [] := by
    intro e
    rw [e] at h1
    simp at h1
    omega
  have hbne := arun_ne_nil _ s_end body x hrun hxne
  obtain ⟨⟨w, c1⟩, cs, hcs⟩ : ∃ p cs, body = p :: cs := by
    cases body with
    | nil => exact absurd rfl hbne
    | cons p cs => exact ⟨p, cs, rfl⟩
  subst hcs
  obtain ⟨s1, str, y1, ha, hrun1, hyeq⟩ := arun_cons_inv _ w c1 cs s_end x hrun
  have hw : w = 9 := astep_width _ w c1 _ ha
  subst hw
  obtain ⟨hlit, hr⟩ := astep_cleared AState.cleared rfl 9 c1 _ ha
  cases hr
  obtain ⟨hav2, hcode2, hst3⟩ := hst2
  have hn : (LZWDecode_load tif1 sp tab 0 occ0 out).nbits = 9 := t0.nbits_eq
  have hleft := r0.left
  obtain ⟨_, b2⟩ := body_spec enc hraw 0 (le_refl 0) _ 0 _ r0 t0 h0
  rw [hn] at b2
  obtain ⟨_, _, c2, _⟩ := b2 (by push_cast at hleft ⊢; omega)
  simp only [Nat.zero_add] at c2
  obtain ⟨_, d2⟩ := c2 hcode
  obtain ⟨_, _, _, f3⟩ := d2 (by push_cast at hleft ⊢; omega)
  rw [hcode2] at f3
  obtain ⟨la, e1, st⟩ := f3 hlit
  obtain ⟨m, hm⟩ : ∃ m, occ0.toNat = m + 1 := ⟨occ0.toNat - 1, by omega⟩
  have hxlen : x.length = 1 + y1.length := by rw [hyeq]; simp; omega
  have hocc1 : la.occ = occ0 - (([c1] : List Nat).length : Int) := st.occ
  have hocc2 : la.occ = occ0 - 1 := by rw [hocc1]; simp
  obtain ⟨l2, e2, o2, z2, res2⟩ := loop_follow enc hraw m la _ _ cs s_end y1 st.read st.tab
    (by simp) hst3 hrun1 hend (by rw [st.restart]; rfl)
    (by rw [hocc2]; omega) (by rw [hocc2]; omega) (by rw [hocc2]; omega)
  have hstep : LZWDecode_loop enc (m + 1) (LZWDecode_load tif1 sp tab 0 occ0 out) =
      LZWDecode_loop enc m la := by
    rw [LZWDecode_loop,
      if_pos (show (LZWDecode_load tif1 sp tab 0 occ0 out).occ > 0 from h0), e1]
  obtain ⟨q1, q2⟩ := follow_compose out 0 [c1] y1 occ0 (by simp; omega)
  refine ⟨tif1, sp, tab, l2, s_end, h, k1, k2, k3, ?_, ?_, z2, hend, ?_⟩
  · rw [LZWDecode_first tif1 sp tab k1 k2 k4, k3, hm, hstep, e2]
    show some (to_tmsize_t l2.occ, _, _) = _
    rw [z2, to_tmsize_t_of_lt 0 (by omega) (by omega)]
  · rw [o2, st.out, st.op, hocc1]
    show blit (blit out 0 [c1]) (0 + _) _ = _
    rw [q1, hyeq]
  · rw [hocc1, q2, ← hyeq] at res2
    exact res2

end TifLzw

namespace TifLzw

theorem reverse_take_reverse (str : List Nat) (m : Nat) (hm : m ≤ str.length) :
    (str.reverse.take m).reverse = str.drop (str.length - m) := by
  have h : str.reverse = (str.drop (str.length - m)).reverse ++
      (str.take (str.length - m)).reverse := by
    rw [← List.reverse_append, List.take_append_drop]
  have hl : ((str.drop (str.length - m)).reverse).length = m := by
    rw [List.length_reverse, List.length_drop]
    omega
  rw [h, List.take_left' hl, List.reverse_reverse]

/-- The locals that the next call of `LZWDecode` loads are those that the
previous call has stored. -/
theorem load_save (tif sp l : _) (op occ : Int) (out : Int → Nat) :
    LZWDecode_load (LZWDecode_save tif sp l)
      { sp with
        lzw_nbits := l.nbits % 65536, lzw_nextdata := l.nextdata,
        lzw_nextbits := l.nextbits, dec_nbitsmask := l.nbitsmask,
        dec_oldcodep := l.oldcodep, dec_free_entp := l.free_entp,
        dec_maxcodep := l.maxcodep, dec_restart := l.dec_restart,
        dec_bitsleft := l.dec_bitsleft, dec_codep := l.dec_codep,
        dec_codetab := some l.tab } l.tab op occ out =
    { l with op := op, occ := occ, out := out, nbits := l.nbits % 65536, dec_restart := 0 } :=
  rfl

/-- A call of `LZWDecode` on the state that a previous call has left, for all
the bytes `rest` still to be delivered: it returns 0 and stores `rest`. -/
theorem decode_resume (raw : List Nat) (hraw : IsBytes raw) (tif : TIFF) (sp : LZWCodecState)
    (htif : tif.tif_rawdata = raw) (l1 : DecLocals) (s_end : AState) (rest : List Nat)
    (hend : s_end.prev ≠ []) (hres : Resume raw l1 s_end rest) (out : Int → Nat) :
    ∃ tif3 o, LZWDecode (LZWDecode_save tif sp l1) out rest.length = some (0, tif3, o) ∧
      o = blit out 0 rest := by
  obtain ⟨pos1, s1, cs2, y2, pend, r1, t1, hp1, hst, hrun, hrest, hpend⟩ := hres
  have hn12 := r1.nbits_le
  have hnb : l1.nbits % 65536 = l1.nbits := Nat.mod_eq_of_lt (by omega)
  have hC := CSIZE_eq
  -- the main loop from the loaded locals
  have main : ∀ (T : TIFF) (spx : LZWCodecState) (cp : Option Int) (op occ : Int)
      (o1 : Int → Nat), occ = y2.length →
      ∃ l2, LZWDecode_finish T spx
          (LZWDecode_loop raw occ.toNat
            ({ l1 with op := op, occ := occ, out := o1, nbits := l1.nbits % 65536,
                       dec_restart := 0, dec_codep := cp })) =
        some (0, l2, blit o1 op y2) := by
    intro T spx cp op occ o1 hocc
    have ra : ReadInv raw 0 ({ l1 with op := op, occ := occ, out := o1, nbits := l1.nbits % 65536, dec_restart := 0, dec_codep := cp }) pos1 :=
      readInv_congr r1 _ rfl rfl rfl rfl hnb rfl
    have ta : TabInv ({ l1 with op := op, occ := occ, out := o1, nbits := l1.nbits % 65536, dec_restart := 0, dec_codep := cp }) s1 :=
      tabInv_congr t1 _ hnb rfl rfl rfl rfl
    obtain ⟨l2, e2, o2, z2, _⟩ := loop_follow raw hraw occ.toNat _ pos1 s1 cs2 s_end y2 ra ta
      hp1 hst hrun hend rfl (by show 0 ≤ occ; omega) (by show occ ≤ _; omega)
      (by show occ ≤ _; omega)
    rw [e2]
    refine ⟨LZWDecode_save T spx l2, ?_⟩
    show some (to_tmsize_t l2.occ, _, l2.out) = _
    rw [z2, to_tmsize_t_of_lt 0 (by omega) (by omega), o2]
    show some (_, _, blit o1 op (y2.take occ.toNat)) = _
    rw [hocc, Int.toNat_ofNat, List.take_length]
  have hunf : LZWDecode (LZWDecode_save tif sp l1) out rest.length =
      LZWDecode_run (LZWDecode_save tif sp l1)
        { sp with
          lzw_nbits := l1.nbits % 65536, lzw_nextdata := l1.nextdata,
          lzw_nextbits := l1.nextbits, dec_nbitsmask := l1.nbitsmask,
          dec_oldcodep := l1.oldcodep, dec_free_entp := l1.free_entp,
          dec_maxcodep := l1.maxcodep, dec_restart := l1.dec_restart,
          dec_bitsleft := l1.dec_bitsleft, dec_codep := l1.dec_codep,
          dec_codetab := some l1.tab } l1.tab out rest.length := rfl
  have hraw2 : (LZWDecode_save tif sp l1).tif_rawdata = raw := htif
  rw [hunf]
  unfold LZWDecode_run LZWDecode_restart
  rw [hraw2]
  rcases hpend with ⟨hp0, hr0⟩ | ⟨c, str, hcp, hsp, hr1, hr2, hpd⟩
  · subst hp0
    simp only [List.nil_append] at hrest
    subst hrest
    rw [if_neg (by show ¬ l1.dec_restart ≠ 0; rw [hr0]; simp)]
    obtain ⟨l2, e⟩ := main (LZWDecode_save tif sp l1) _ l1.dec_codep 0 (rest.length : Int) out rfl
    exact ⟨l2, _, e, rfl⟩
  · have hlen : (l1.tab (c : Int)).length = str.length := by
      rw [spellsRev_length _ _ _ hsp, List.length_reverse]
    have hle := spellsRev_length_le _ _ _ hsp
    have hrg := spellsRev_range _ _ _ hsp
    rw [List.length_reverse] at hle
    obtain ⟨m, hm⟩ : ∃ m : Nat, (str.length : Int) - l1.dec_restart = (m : Int) :=
      ⟨((str.length : Int) - l1.dec_restart).toNat, by omega⟩
    have hpl : pend.length = m := by
      rw [hpd, List.length_drop]
      omega
    have hrl : rest.length = m + y2.length := by
      rw [hrest, List.length_append, hpl]
    have hpe : pend = str.drop (str.length - m) := by
      rw [hpd]
      congr 1
      omega
    obtain ⟨c2, ecb⟩ := copy_back_spec l1.tab str.reverse (c : Int) out m (CSIZE + 1 + m) (m : Int)
      hsp (by omega) (by rw [List.length_reverse]; omega) (by omega)
    rw [reverse_take_reverse str m (by omega), ← hpe, sub_self] at ecb
    rw [if_pos (by show l1.dec_restart ≠ 0; omega)]
    simp only [hcp, hlen, hm]
    rw [if_neg (by rw [hrl]; push_cast; omega), Int.toNat_ofNat, ecb]
    obtain ⟨l2, e⟩ := main (LZWDecode_save tif sp l1) _ (some (c : Int)) (m : Int)
      ((rest.length : Int) - (m : Int)) (blit out 0 pend)
      (by rw [hrl]; push_cast; omega)
    refine ⟨l2, _, e, ?_⟩
    have hb := blit_append out 0 pend y2
    rw [hpl, zero_add] at hb
    rw [hb, hrest]

end TifLzw

namespace TifLzw

theorem encodedAs_length (enc x : List Nat) (he : EncodedAs enc x) :
    8 * enc.length ≤ 13 * x.length + 40 := by
  obtain ⟨body, s, n, hp, _, _, _, _, hb⟩ := he
  obtain ⟨_, _, pad, k1, k2, _⟩ := hp
  omega

theorem encodedAs_isBytes (enc x : List Nat) (he : EncodedAs enc x) : IsBytes enc := by
  obtain ⟨body, s, n, hp, _⟩ := he
  exact hp.1

/-- C1: round trip.  For every byte sequence `x` of fewer than `2 ^ 26` bytes,
`py_encode` (`LZWPreEncode`, `LZWEncode`, `LZWPostEncode`) hands back an array,
and `py_decode` (`LZWPreDecode`, `LZWDecode`) of that array with requested
output length `len(x)` hands back exactly `x`, whatever the freshly allocated
memory of the two calls holds. -/
theorem round_trip (u v : Uninit) (x : List Nat) (hx : IsBytes x) (hlen : x.length < 2 ^ 26) :
    ∃ enc, py_encode u x = .array enc ∧ py_decode v enc x.length = .array x := by
  cases x with
  | nil =>
    exact ⟨[128, 128], py_encode_nil u, py_decode_zero v _ (by decide)⟩
  | cons b rest =>
    obtain ⟨enc, e1, he⟩ := py_encode_cons u b rest hx (by omega)
    refine ⟨enc, e1, ?_⟩
    have hl := encodedAs_length enc _ he
    have hpos : (0 : Int) < ((b :: rest).length : Nat) := by simp
    obtain ⟨tif1, sp, tab, l1, s_end, h, k1, k2, k3, hd, ho, hz, _, _⟩ :=
      decode_first_call v enc (b :: rest) he (by omega) (fun j => v.result j.toNat)
        ((b :: rest).length : Nat) hpos (le_refl _)
    have hdims : py_decode_dims (((b :: rest).length : Nat) : Int) = ((b :: rest).length : Nat) := by
      unfold py_decode_dims
      rw [if_neg (by omega)]
    have hsz : to_tmsize_t (((b :: rest).length : Nat) : Int) = ((b :: rest).length : Nat) :=
      to_tmsize_t_of_lt _ (by omega) (by omega)
    unfold py_decode
    rw [if_neg (by omega), h, Option.some_bind, hdims, hsz, hd, Option.some_bind]
    have hc : LZWCleanup (LZWDecode_save tif1 sp l1) = some
        { LZWDecode_save tif1 sp l1 with tif_data := none } := rfl
    simp only [hc, Option.map_some', PyResult.ofOption, py_decode_len]
    rw [if_neg (by omega), Int.toNat_ofNat, ho, Int.toNat_ofNat, List.take_length]
    rw [range_map_blit]

theorem round_trip_witness :
    IsBytes [1, 2, 1, 2] ∧ ([1, 2, 1, 2] : List Nat).length < 2 ^ 26 ∧
    ∃ enc, py_encode zeroUninit [1, 2, 1, 2] = .array enc ∧
      py_decode zeroUninit enc ([1, 2, 1, 2] : List Nat).length = .array [1, 2, 1, 2] :=
  ⟨by decide, by norm_num, round_trip zeroUninit zeroUninit [1, 2, 1, 2] (by decide) (by norm_num)⟩

end TifLzw

namespace TifLzw

/-- C3: split decoding.  For every byte sequence `x` of fewer than `2 ^ 26`
bytes and every `k` with `0 < k < len(x)`: after `LZWPreDecode` on the encoded
`x`, `LZWDecode` with output length `k` returns 0 and stores `k` bytes, a
second `LZWDecode` on the state it has saved, with output length `len(x) - k`,
returns 0 and stores `len(x) - k` bytes, and the two pieces one after the other
are `x`. -/
theorem split_decoding (u v : Uninit) (x : List Nat) (hx : IsBytes x) (hlen : x.length < 2 ^ 26)
    (k : Nat) (hk0 : 0 < k) (hk : k < x.length) (out1 out2 : Int → Nat) :
    ∃ enc tif1 tif2 tif3 o1 o2, py_encode u x = .array enc ∧
      LZWPreDecode v (py_decode_handle v enc) = some (1, tif1) ∧
      LZWDecode tif1 out1 k = some (0, tif2, o1) ∧
      LZWDecode tif2 out2 ((x.length : Int) - k) = some (0, tif3, o2) ∧
      (List.range k).map (fun (j : Nat) => o1 (j : Int)) ++
        (List.range (x.length - k)).map (fun (j : Nat) => o2 (j : Int)) = x := by
  cases x with
  | nil => simp at hk
  | cons b rest =>
    obtain ⟨enc, e1, he⟩ := py_encode_cons u b rest hx (by omega)
    have hl := encodedAs_length enc _ he
    obtain ⟨tif1, sp, tab, l1, s_end, h, k1, k2, k3, hd, ho, hz, hend, hres⟩ :=
      decode_first_call v enc (b :: rest) he (by omega) out1 (k : Int) (by omega)
        (by exact_mod_cast hk.le)
    rw [Int.toNat_ofNat] at ho hres
    obtain ⟨tif3, o2, hd2, ho2⟩ := decode_resume enc (encodedAs_isBytes enc _ he)
      tif1 sp k3 l1 s_end _ hend hres out2
    have hdl : (((b :: rest).drop k).length : Int) = ((b :: rest).length : Int) - k := by
      rw [List.length_drop]
      omega
    rw [hdl] at hd2
    refine ⟨enc, tif1, _, tif3, _, o2, e1, h, hd, hd2, ?_⟩
    have h1 := range_map_blit out1 ((b :: rest).take k)
    have h2 := range_map_blit out2 ((b :: rest).drop k)
    rw [List.length_take, Nat.min_eq_left hk.le] at h1
    rw [List.length_drop] at h2
    rw [ho, ho2, h1, h2, List.take_append_drop]

/-- The split point 3 of the input `[1, 2, 1, 2, 1]` lies inside a string: the
codes are `CODE_CLEAR, 1, 2, 258, 1, CODE_EOI`, and the first call of the split
at 3 ends in the branch "string is too long" on the code 258 (`[1, 2]`), with
`dec_restart = 1` and `dec_codep = &dec_codetab[258]`, so the second call
starts in the restart branch. -/
theorem split_string_crossed :
    py_encode zeroUninit [1, 2, 1, 2, 1] = .array [128, 0, 64, 80, 32, 12, 4] ∧
    ((LZWPreDecode zeroUninit (py_decode_handle zeroUninit [128, 0, 64, 80, 32, 12, 4])).bind
      (fun r => LZWDecode r.2 (fun _ => 0) 3)).bind
        (fun r => r.2.1.tif_data.map (fun sp => (sp.dec_restart, sp.dec_codep))) =
      some (1, some 258) := by
  decide!

theorem split_decoding_witness :
    IsBytes [1, 2, 1, 2, 1] ∧ ([1, 2, 1, 2, 1] : List Nat).length < 2 ^ 26 ∧ 0 < 3 ∧
    3 < ([1, 2, 1, 2, 1] : List Nat).length ∧
    ∃ enc tif1 tif2 tif3 o1 o2, py_encode zeroUninit [1, 2, 1, 2, 1] = .array enc ∧
      LZWPreDecode zeroUninit (py_decode_handle zeroUninit enc) = some (1, tif1) ∧
      LZWDecode tif1 (fun _ => 0) (3 : Nat) = some (0, tif2, o1) ∧
      LZWDecode tif2 (fun _ => 0) ((([1, 2, 1, 2, 1] : List Nat).length : Int) - (3 : Nat)) =
        some (0, tif3, o2) ∧
      (List.range 3).map (fun (j : Nat) => o1 (j : Int)) ++
        (List.range (([1, 2, 1, 2, 1] : List Nat).length - 3)).map
          (fun (j : Nat) => o2 (j : Int)) = [1, 2, 1, 2, 1] :=
  ⟨by decide, by norm_num, by decide, by decide,
    split_decoding zeroUninit zeroUninit [1, 2, 1, 2, 1] (by decide) (by norm_num) 3 (by decide)
      (by decide) (fun _ => 0) (fun _ => 0)⟩

end TifLzw

namespace TifLzw

/-- The copy loop of a whole string ends with `codep = NULL` and the count 0. -/
theorem copy_back_full (tab : Int → code_t) (r : List Nat) :
    ∀ (k : Int) (out : Int → Nat) (fuel : Nat) (tp : Int), SpellsRev tab k r →
      r.length ≤ fuel →
      copy_back tab fuel k tp (r.length : Int) out =
        some (blit out (tp - r.length) r.reverse, none, 0) := by
  induction r with
  | nil => intro k out fuel tp h; exact absurd h (by simp [SpellsRev])
  | cons v t ih =>
    intro k out fuel tp h hf
    obtain ⟨f, rfl⟩ : ∃ f, fuel = f + 1 := ⟨fuel - 1, by simp at hf; omega⟩
    match t, h, ih, hf with
    | [], h, _, _ =>
      obtain ⟨h1, h2, h3, h4⟩ := h
      unfold copy_back
      rw [h4]
      simp only [List.length_singleton, Nat.cast_one, sub_self, List.reverse_cons,
        List.reverse_nil, List.nil_append]
      rw [blit_single]
    | w :: r, h, ih, hf =>
      obtain ⟨h1, h2, h3, h4, h5, p, h6, h7, h8⟩ := h
      unfold copy_back
      rw [h6, h3]
      simp only []
      have hc := ih p (store out (tp - 1) v) f (tp - 1) h8 (by simp at hf ⊢; omega)
      have e1 : (((v :: w :: r).length : Nat) : Int) - 1 = ((w :: r).length : Int) := by
        simp only [List.length_cons]; push_cast; ring
      rw [e1, if_pos (by simp only [List.length_cons]; push_cast; omega), hc]
      have e2 : tp - 1 = (tp - (((v :: w :: r).length : Nat) : Int)) +
          ((((w :: r).reverse.length : Nat)) : Int) := by
        rw [List.length_reverse]
        simp only [List.length_cons]; push_cast; ring
      have e3 : tp - 1 - (((w :: r).length : Nat) : Int) =
          tp - (((v :: w :: r).length : Nat) : Int) := by
        simp only [List.length_cons]; push_cast; ring
      rw [e3]
      conv_lhs => rw [e2]
      rw [blit_snoc, List.reverse_cons (a := v)]

/-- The walk along `next` from an entry that spells a string visits as many
entries as the string has bytes, all of them inside the table. -/
theorem chain_spec (tab : Int → code_t) (r : List Nat) :
    ∀ (k : Int) (fuel : Nat), SpellsRev tab k r → r.length ≤ fuel →
      ∃ idx, chain tab fuel k = some idx ∧ idx.length = r.length ∧
        ∀ i ∈ idx, 0 ≤ i ∧ i < CSIZE := by
  induction r with
  | nil => intro k fuel h; exact absurd h (by simp [SpellsRev])
  | cons v t ih =>
    intro k fuel h hf
    obtain ⟨f, rfl⟩ : ∃ f, fuel = f + 1 := ⟨fuel - 1, by simp at hf; omega⟩
    have hr := spellsRev_range _ _ _ h
    match t, h, ih, hf with
    | [], h, _, _ =>
      obtain ⟨h1, h2, h3, h4⟩ := h
      unfold chain
      rw [h4]
      refine ⟨[k], rfl, rfl, ?_⟩
      intro i hi
      simp only [List.mem_singleton] at hi
      subst hi
      exact hr
    | w :: r, h, ih, hf =>
      obtain ⟨h1, h2, h3, h4, h5, p, h6, h7, h8⟩ := h
      obtain ⟨idx, e1, e2, e3⟩ := ih p f h8 (by simp at hf ⊢; omega)
      unfold chain
      rw [h6]
      simp only []
      rw [e1]
      refine ⟨k :: idx, rfl, by simp only [List.length_cons, e2], ?_⟩
      intro i hi
      rcases List.mem_cons.mp hi with e | e
      · subst e; exact hr
      · exact e3 i e

end TifLzw

namespace TifLzw

/-- One round of the loop of `LZWDecode` ends, and it stores bytes only from the
output cursor on, no more than `occ` of them. -/
theorem body_frame (raw : List Nat) (hraw : IsBytes raw) (D : Int) (hD : 0 ≤ D)
    (l : DecLocals) (pos : Nat) (s : AState) (r : ReadInv raw D l pos) (t : TabInv l s)
    (hocc : 0 < l.occ) :
    LZWDecode_body raw l ≠ .stuck ∧
    ∀ l1, (LZWDecode_body raw l = .next l1 ∨ LZWDecode_body raw l = .stop l1 ∨
        LZWDecode_body raw l = .fail l1) →
      ∃ str, l1.out = blit l.out l.op str ∧ (str.length : Int) ≤ l.occ := by
  have key : ∀ la, (LZWDecode_body raw l = .next la ∨ LZWDecode_body raw l = .stop la ∨
        LZWDecode_body raw l = .fail la) →
      (∃ str, la.out = blit l.out l.op str ∧ (str.length : Int) ≤ l.occ) →
      LZWDecode_body raw l ≠ .stuck ∧
      ∀ l1, (LZWDecode_body raw l = .next l1 ∨ LZWDecode_body raw l = .stop l1 ∨
          LZWDecode_body raw l = .fail l1) →
        ∃ str, l1.out = blit l.out l.op str ∧ (str.length : Int) ≤ l.occ := by
    intro la h hp
    refine ⟨by rcases h with h | h | h <;> rw [h] <;> simp, ?_⟩
    intro l1 h1
    rcases h with h | h | h <;> rcases h1 with h1 | h1 | h1 <;> rw [h] at h1 <;>
      cases h1 <;> exact hp
  have same : ∀ la : DecLocals, la.out = l.out →
      ∃ str, la.out = blit l.out l.op str ∧ (str.length : Int) ≤ l.occ := by
    intro la e
    exact ⟨[], by rw [blit_nil, e], by simp only [List.length_nil, Nat.cast_zero]; omega⟩
  obtain ⟨b1, b2⟩ := body_spec raw hraw D hD l pos s r t hocc
  have h9 := r.nbits_ge
  by_cases h : l.dec_bitsleft < (l.nbits : Int)
  · exact key l (Or.inr (Or.inl (b1 h))) (same l rfl)
  · obtain ⟨hav, c1, c2, c3⟩ := b2 (by omega)
    by_cases he : codeAt raw pos l.nbits = CODE_EOI
    · obtain ⟨l1, e1, q⟩ := c1 he
      exact key l1 (Or.inr (Or.inl e1)) (same l1 q.out)
    · by_cases hc : codeAt raw pos l.nbits = CODE_CLEAR
      · obtain ⟨d1, d2⟩ := c2 hc
        by_cases hb : l.dec_bitsleft - (l.nbits : Int) < 9
        · obtain ⟨l1, e1, q, _⟩ := d1 hb
          exact key l1 (Or.inr (Or.inl e1)) (same l1 q)
        · obtain ⟨_, f1, f2, f3⟩ := d2 (by omega)
          by_cases hx : codeAt raw (pos + l.nbits) 9 = CODE_EOI
          · obtain ⟨l1, e1, q, _⟩ := f1 hx
            exact key l1 (Or.inr (Or.inl e1)) (same l1 q)
          · by_cases hy : 256 ≤ codeAt raw (pos + l.nbits) 9
            · obtain ⟨l1, e1, q⟩ := f2 hx hy
              exact key l1 (Or.inr (Or.inr e1)) (same l1 q)
            · obtain ⟨l1, e1, st⟩ := f3 (by omega)
              refine key l1 (Or.inl e1) ⟨_, st.out, ?_⟩
              simp only [List.length_singleton, Nat.cast_one]
              omega
      · obtain ⟨d1, d2⟩ := c3 he hc
        by_cases hp : s.prev = []
        · obtain ⟨l1, e1, q⟩ := d1 (Or.inl hp)
          exact key l1 (Or.inr (Or.inr e1)) (same l1 q)
        · cases ha : astep s s.nbits (codeAt raw pos l.nbits) with
          | none =>
            obtain ⟨l1, e1, q⟩ := d1 (Or.inr ha)
            exact key l1 (Or.inr (Or.inr e1)) (same l1 q)
          | some p =>
            obtain ⟨s1, str⟩ := p
            obtain ⟨f1, f2⟩ := d2 s1 str hp ha
            by_cases hfit : (str.length : Int) ≤ l.occ
            · obtain ⟨l1, e1, st⟩ := f1 hfit
              exact key l1 (Or.inl e1) ⟨_, st.out, hfit⟩
            · obtain ⟨l1, e1, pa⟩ := f2 (by omega)
              refine key l1 (Or.inr (Or.inl e1)) ⟨_, pa.out, ?_⟩
              rw [List.length_take]
              omega

/-- At the head of every round of the loop of `LZWDecode` the reader and the
table are sound, and the output cursor has moved by what `occ` has lost. -/
theorem loopHead_cursor (raw : List Nat) (hraw : IsBytes raw) (D : Int) (hD : 0 ≤ D)
    (l0 : DecLocals) (pos0 : Nat) (s0 : AState) (r0 : ReadInv raw D l0 pos0)
    (t0 : TabInv l0 s0) (l : DecLocals) (h : LoopHead raw l0 l) :
    ∃ pos s, ReadInv raw D l pos ∧ TabInv l s ∧ l0.op ≤ l.op ∧
      l.op + l.occ = l0.op + l0.occ := by
  induction h with
  | start => exact ⟨pos0, s0, r0, t0, le_refl _, rfl⟩
  | round la lb _ hocc e ih =>
    obtain ⟨pos, s, r, t, c1, c2⟩ := ih
    rcases body_cases raw hraw D hD la pos s r t hocc with ⟨l1, e1, _⟩ | ⟨l1, e1⟩ |
      ⟨l1, pos1, s1, str, e1, st, _, _⟩
    · rw [e1] at e; cases e
    · rw [e1] at e; cases e
    · rw [e1] at e
      cases e
      have h1 := st.op
      have h2 := st.occ
      exact ⟨pos1, s1, st.read, st.tab, by omega, by omega⟩

end TifLzw

namespace TifLzw

/-- The code that a round of the loop of `LZWDecode` reads is an index of the
table; when the code is looked up (its entry is not empty), the walk along
`next` from its entry visits `length` entries of the table and ends at `NULL`:
the loop that writes the string backwards ends with `codep = NULL`, and so does
the copy loop of the part that fits when the string is too long. -/
theorem walk_safe (raw : List Nat) (hraw : IsBytes raw) (D : Int) (hD : 0 ≤ D)
    (l : DecLocals) (pos : Nat) (s : AState) (r : ReadInv raw D l pos) (t : TabInv l s)
    (hocc : 0 < l.occ) (l1 : DecLocals) (code : Nat) (hn : NextCode raw l = (l1, code)) :
    code < CSIZE ∧
    ∀ (o : Int) (la : DecLocals), code ≠ CODE_EOI → code ≠ CODE_CLEAR →
      l1.oldcodep = some o → 0 ≤ o → l1.free_entp < CSIZE →
      la = LZWDecode_add_entry l1 o code → (la.tab (code : Int)).length ≠ 0 →
      (∃ idx, chain la.tab CSIZE (code : Int) = some idx ∧
        idx.length = (la.tab (code : Int)).length ∧ ∀ i ∈ idx, 0 ≤ i ∧ i < CSIZE) ∧
      (((la.tab (code : Int)).length : Int) ≤ la.occ →
        (write_string la.tab la.op (la.tab (code : Int)).length (code : Int)
          (la.op + (la.tab (code : Int)).length) la.out).2 = none) ∧
      (la.occ < ((la.tab (code : Int)).length : Int) →
        ∃ k out2, skip_long la.tab la.occ (CSIZE + 1) (code : Int) = some (some k) ∧
          copy_back la.tab (CSIZE + 1 + la.occ.toNat) k (la.op + la.occ) la.occ la.out =
            some (out2, none, 0)) := by
  have hC := CSIZE_eq
  by_cases hg : l.dec_bitsleft < (l.nbits : Int)
  · rw [(NextCode_spec raw hraw D hD l pos r).1 hg] at hn
    cases hn
    refine ⟨by rw [hC]; decide, ?_⟩
    intro o la he
    exact absurd rfl he
  · obtain ⟨_, l1x, e, r1, q⟩ := NextCode_read raw hraw D hD l pos r (by omega)
    rw [e] at hn
    cases hn
    have hlt := codeAt_lt raw pos l.nbits
    have h12 : codeAt raw pos l.nbits < 4096 := by
      have : (2 : Nat) ^ l.nbits ≤ 2 ^ 12 := Nat.pow_le_pow_right (by norm_num) r.nbits_le
      omega
    refine ⟨by omega, ?_⟩
    intro o la he hc ho ho0 hfree hla hlen
    generalize codeAt raw pos l.nbits = c at *
    have t1 : TabInv l1 s := tabInv_congr t l1 q.nbits q.maxcodep q.free_entp q.tab q.oldcodep
    have hf := t1.free
    have hfl := t1.free_le
    rcases t1.old with ⟨_, _, ho1⟩ | ⟨hp, o1, ho1, holt, hsp⟩
    · rw [ho1] at ho
      cases ho
      omega
    · rw [ho1] at ho
      cases ho
      cases ha : astep s s.nbits c with
      | none =>
        exfalso
        rcases astep_none s c hp hc he ha with hfull | ⟨h258, hbad⟩
        · omega
        · have hgt : s.dict.length < c - 258 := by
            rcases hbad with ⟨h2, h3⟩ | h2
            · have := (t1.tab.ent (c - 258) h2).1
              rw [h3] at this
              simp at this
            · exact h2
          obtain ⟨e, he1, _, _, _⟩ := add_entry_tab l1 o c
          apply hlen
          rw [hla, he1, store_other _ _ _ _ (by rw [hf]; omega),
            t1.tab.zero (c : Int) (by omega) (by omega)]
          rfl
      | some p =>
        obtain ⟨s1, str⟩ := p
        obtain ⟨hEq, _, _, _, hne, hsp1, _⟩ :=
          add_entry_spec raw D l1 _ s r1 t1 hp o ho1 c hc s1 str ha
        have k1 : (LZWDecode_add_entry l1 o c).occ = l.occ := by rw [hEq]; exact q.occ
        rw [← hla] at hsp1 k1
        have hl := spellsRev_length _ _ _ hsp1
        have hle := spellsRev_length_le _ _ _ hsp1
        have hrl : str.reverse.length ≤ 4096 := by omega
        refine ⟨?_, ?_, ?_⟩
        · obtain ⟨idx, i1, i2, i3⟩ := chain_spec la.tab str.reverse (c : Int) CSIZE hsp1
            (by omega)
          exact ⟨idx, i1, by rw [i2, hl], i3⟩
        · intro _
          rw [hl, write_string_spec la.tab la.op str.reverse (c : Int) la.out hsp1]
        · intro hlong
          rw [hl, k1] at hlong
          obtain ⟨m, hm⟩ : ∃ m : Nat, la.occ = (m : Int) := ⟨l.occ.toNat, by omega⟩
          have hm1 : 1 ≤ m := by omega
          have hm2 : m < str.reverse.length := by omega
          obtain ⟨k, e1, e2⟩ := skip_long_spec la.tab str.reverse (c : Int) m (CSIZE + 1) hsp1
            hm1 hm2 (by omega)
          have hdl : (str.reverse.drop (str.reverse.length - m)).length = m := by
            rw [List.length_drop]; omega
          have e3 := copy_back_full la.tab _ k la.out (CSIZE + 1 + m) (la.op + (m : Int)) e2
            (by omega)
          rw [hdl] at e3
          rw [hm, Int.toNat_ofNat]
          exact ⟨k, _, e1, e3⟩

end TifLzw

namespace TifLzw

/-- Decoder safety on the inputs that `LZWPreDecode` accepts.  For every byte
input of at least two bytes that `LZWPreDecode` accepts and every requested output length `occ0`,
at the head of every round of the loop of the first `LZWDecode` call: the output
cursor satisfies `0 ≤ op` and `op + occ = occ0`; `free_entp` lies in
`[CODE_FIRST, CSIZE]` and `oldcodep` in `[-1, CSIZE)` (the two range checks of
the body exclude `CSIZE` and `-1` before the entries are used); the round ends
(no inner loop runs on); whatever way it ends, the output buffer is unchanged
below offset 0 and from offset `occ0` on; the code read is below `CSIZE`; and
when the body looks the code up (its entry has a length other than 0), the walk
along `next` from the entry visits exactly `length` entries, all in
`[0, CSIZE)`, so the loop that writes the string ends with `codep = NULL`, and
when the string is longer than `occ` the skip loop finds an entry and the copy
loop ends with `codep = NULL` and the count 0: `codeLoop` is not reached. -/
theorem decoder_safety (u : Uninit) (arr : List Nat) (hb : IsBytes arr) (h2 : 2 ≤ arr.length)
    (hacc : ¬ (arr.getD 0 0 = 0 ∧ arr.getD 1 0 &&& 1 ≠ 0)) (out : Int → Nat) (occ0 : Int) :
    ∃ tif1 sp tab, LZWPreDecode u (py_decode_handle u arr) = some (1, tif1) ∧
      tif1.tif_data = some sp ∧ sp.dec_codetab = some tab ∧
      ∀ l, LoopHead arr (LZWDecode_load tif1 sp tab 0 occ0 out) l → 0 < l.occ →
        (0 ≤ l.op ∧ l.op + l.occ = occ0) ∧
        (258 ≤ l.free_entp ∧ l.free_entp ≤ CSIZE) ∧
        (∃ o, l.oldcodep = some o ∧ -1 ≤ o ∧ o < CSIZE) ∧
        LZWDecode_body arr l ≠ .stuck ∧
        (∀ l1, (LZWDecode_body arr l = .next l1 ∨ LZWDecode_body arr l = .stop l1 ∨
            LZWDecode_body arr l = .fail l1) →
          ∀ j : Int, (j < 0 ∨ occ0 ≤ j) → l1.out j = l.out j) ∧
        ∀ l1 code, NextCode arr l = (l1, code) →
          code < CSIZE ∧
          ∀ (o : Int) (la : DecLocals), code ≠ CODE_EOI → code ≠ CODE_CLEAR →
            l1.oldcodep = some o → 0 ≤ o → l1.free_entp < CSIZE →
            la = LZWDecode_add_entry l1 o code → (la.tab (code : Int)).length ≠ 0 →
            (∃ idx, chain la.tab CSIZE (code : Int) = some idx ∧
              idx.length = (la.tab (code : Int)).length ∧ ∀ i ∈ idx, 0 ≤ i ∧ i < CSIZE) ∧
            (((la.tab (code : Int)).length : Int) ≤ la.occ →
              (write_string la.tab la.op (la.tab (code : Int)).length (code : Int)
                (la.op + (la.tab (code : Int)).length) la.out).2 = none) ∧
            (la.occ < ((la.tab (code : Int)).length : Int) →
              ∃ k out2, skip_long la.tab la.occ (CSIZE + 1) (code : Int) = some (some k) ∧
                copy_back la.tab (CSIZE + 1 + la.occ.toNat) k (la.op + la.occ) la.occ la.out =
                  some (out2, none, 0)) := by
  have hC := CSIZE_eq
  obtain ⟨tif1, h⟩ := LZWPreDecode_accepts u arr hacc
  obtain ⟨sp, tab, h1, h2, h3, h4, hinv⟩ := load_inv u arr tif1 h
  obtain ⟨r0, t0⟩ := hinv 0 occ0 out
  refine ⟨tif1, sp, tab, h, h1, h2, ?_⟩
  intro l hl hocc
  have hD := load_D_nonneg arr.length
  obtain ⟨pos, s, r, t, c1, c2⟩ := loopHead_cursor arr hb _ hD _ 0 _ r0 t0 l hl
  have c1x : 0 ≤ l.op := c1
  have c2x : l.op + l.occ = occ0 := by
    rw [c2]
    show (0 : Int) + occ0 = occ0
    omega
  have hf := t.free
  have hfl := t.free_le
  obtain ⟨b1, b2⟩ := body_frame arr hb _ hD l pos s r t hocc
  refine ⟨⟨c1x, c2x⟩, ⟨by omega, by omega⟩, ?_, b1, ?_, ?_⟩
  · rcases t.old with ⟨_, _, ho⟩ | ⟨_, o, ho, holt, hsp⟩
    · exact ⟨-1, ho, le_refl _, by omega⟩
    · exact ⟨o, ho, by have := (spellsRev_range _ _ _ hsp).1; omega, by omega⟩
  · intro l1 hb1 j hj
    obtain ⟨str, e1, e2⟩ := b2 l1 hb1
    rw [e1]
    unfold blit
    rw [if_neg (by omega)]
  · intro l1 code hn
    exact walk_safe arr hb _ hD l pos s r t hocc l1 code hn

theorem decoder_safety_witness :
    IsBytes [128, 0, 96, 32] ∧ 2 ≤ ([128, 0, 96, 32] : List Nat).length ∧
    ¬ (([128, 0, 96, 32] : List Nat).getD 0 0 = 0 ∧ ([128, 0, 96, 32] : List Nat).getD 1 0 &&& 1 ≠ 0) ∧
    ∃ tif1 sp tab,
      LZWPreDecode zeroUninit (py_decode_handle zeroUninit [128, 0, 96, 32]) = some (1, tif1) ∧
      tif1.tif_data = some sp ∧ sp.dec_codetab = some tab ∧
      ∀ l, LoopHead [128, 0, 96, 32] (LZWDecode_load tif1 sp tab 0 5 (fun _ => 0)) l →
        0 < l.occ →
        (0 ≤ l.op ∧ l.op + l.occ = 5) ∧
        (258 ≤ l.free_entp ∧ l.free_entp ≤ CSIZE) ∧
        (∃ o, l.oldcodep = some o ∧ -1 ≤ o ∧ o < CSIZE) ∧
        LZWDecode_body [128, 0, 96, 32] l ≠ .stuck ∧
        (∀ l1, (LZWDecode_body [128, 0, 96, 32] l = .next l1 ∨
            LZWDecode_body [128, 0, 96, 32] l = .stop l1 ∨
            LZWDecode_body [128, 0, 96, 32] l = .fail l1) →
          ∀ j : Int, (j < 0 ∨ 5 ≤ j) → l1.out j = l.out j) ∧
        ∀ l1 code, NextCode [128, 0, 96, 32] l = (l1, code) →
          code < CSIZE ∧
          ∀ (o : Int) (la : DecLocals), code ≠ CODE_EOI → code ≠ CODE_CLEAR →
            l1.oldcodep = some o → 0 ≤ o → l1.free_entp < CSIZE →
            la = LZWDecode_add_entry l1 o code → (la.tab (code : Int)).length ≠ 0 →
            (∃ idx, chain la.tab CSIZE (code : Int) = some idx ∧
              idx.length = (la.tab (code : Int)).length ∧ ∀ i ∈ idx, 0 ≤ i ∧ i < CSIZE) ∧
            (((la.tab (code : Int)).length : Int) ≤ la.occ →
              (write_string la.tab la.op (la.tab (code : Int)).length (code : Int)
                (la.op + (la.tab (code : Int)).length) la.out).2 = none) ∧
            (la.occ < ((la.tab (code : Int)).length : Int) →
              ∃ k out2, skip_long la.tab la.occ (CSIZE + 1) (code : Int) = some (some k) ∧
                copy_back la.tab (CSIZE + 1 + la.occ.toNat) k (la.op + la.occ) la.occ la.out =
                  some (out2, none, 0)) :=
  ⟨by decide, by decide, by decide,
    decoder_safety zeroUninit [128, 0, 96, 32] (by decide) (by decide) (by decide) (fun _ => 0) 5⟩

end TifLzw

namespace TifLzw

theorem enc_fcode_eq (c p : Nat) : enc_fcode c p = ((c * 4096 + p : Nat) : Int) :=
  fcode_eq c p

theorem enc_fcode_nonneg (c p : Nat) : 0 ≤ enc_fcode c p := by
  rw [enc_fcode_eq]; exact Int.natCast_nonneg _

theorem enc_fcode_inj (c p c1 p1 : Nat) (hp : p < 4096) (hp1 : p1 < 4096)
    (h : enc_fcode c p = enc_fcode c1 p1) : c = c1 ∧ p = p1 := by
  rw [enc_fcode_eq, enc_fcode_eq] at h
  have h2 : c * 4096 + p = c1 * 4096 + p1 := by exact_mod_cast h
  omega

/-- A secondary probe that hits does not look at an empty slot: it hits as
well after a pair has been stored in an empty slot. -/
theorem secondary_probe_stable (tab tab1 : hash_t) (fcode disp : Int) (h2 : Int)
    (hf : 0 ≤ fcode) (hemp : ¬ tab.hash h2 ≥ 0)
    (e1 : ∀ j, j ≠ h2 → tab1.hash j = tab.hash j) (e2 : ∀ j, j ≠ h2 → tab1.code j = tab.code j)
    (k : Nat) :
    ∀ (n : Nat) (h : Int), secondary_probe tab fcode disp n h = .hit k →
      secondary_probe tab1 fcode disp n h = .hit k := by
  intro n
  induction n with
  | zero => intro h e; simp [secondary_probe] at e
  | succ n ih =>
    intro h e
    unfold secondary_probe at e ⊢
    simp only [] at e ⊢
    generalize (if h - disp < 0 then h - disp + (HSIZE : Int) else h - disp) = h1 at e ⊢
    by_cases c1 : tab.hash h1 = fcode
    · have hne : h1 ≠ h2 := by
        intro hh; rw [hh] at c1; omega
      rw [if_pos c1] at e
      rw [e1 h1 hne, if_pos c1, e2 h1 hne]
      exact e
    · rw [if_neg c1] at e
      by_cases c2 : tab.hash h1 ≥ 0
      · have hne : h1 ≠ h2 := by
          intro hh; rw [hh] at c2; exact hemp c2
        rw [if_pos c2] at e
        rw [e1 h1 hne, if_neg c1, if_pos c2]
        exact ih h1 e
      · rw [if_neg c2] at e
        cases e

/-- A probe that hits does so as well after a pair has been stored in an empty
slot. -/
theorem probe_stable (tab tab1 : hash_t) (fcode h h2 : Int) (hf : 0 ≤ fcode)
    (hemp : ¬ tab.hash h2 ≥ 0)
    (e1 : ∀ j, j ≠ h2 → tab1.hash j = tab.hash j) (e2 : ∀ j, j ≠ h2 → tab1.code j = tab.code j)
    (k : Nat) (e : probe tab fcode h = .hit k) : probe tab1 fcode h = .hit k := by
  unfold probe at e ⊢
  by_cases c1 : tab.hash h = fcode
  · have hne : h ≠ h2 := by
      intro hh; rw [hh] at c1; omega
    rw [if_pos c1] at e
    rw [e1 h hne, if_pos c1, e2 h hne]
    exact e
  · rw [if_neg c1] at e
    by_cases c2 : tab.hash h ≥ 0
    · have hne : h ≠ h2 := by
        intro hh; rw [hh] at c2; exact hemp c2
      rw [if_pos c2] at e
      rw [e1 h hne, if_neg c1, if_pos c2]
      exact secondary_probe_stable tab tab1 fcode _ h2 hf hemp e1 e2 k _ h e
    · rw [if_neg c2] at e
      cases e

/-- The secondary probe that has missed at the slot `h2` hits once the pair is
stored there. -/
theorem secondary_probe_installed (tab tab1 : hash_t) (fcode disp : Int) (h2 : Int)
    (hemp : ¬ tab.hash h2 ≥ 0)
    (e1 : ∀ j, j ≠ h2 → tab1.hash j = tab.hash j) (e3 : tab1.hash h2 = fcode) (k : Nat)
    (e4 : tab1.code h2 = k) :
    ∀ (n : Nat) (h : Int), secondary_probe tab fcode disp n h = .miss h2 →
      secondary_probe tab1 fcode disp n h = .hit k := by
  intro n
  induction n with
  | zero => intro h e; simp [secondary_probe] at e
  | succ n ih =>
    intro h e
    unfold secondary_probe at e ⊢
    simp only [] at e ⊢
    generalize (if h - disp < 0 then h - disp + (HSIZE : Int) else h - disp) = h1 at e ⊢
    by_cases c1 : tab.hash h1 = fcode
    · rw [if_pos c1] at e
      cases e
    · rw [if_neg c1] at e
      by_cases c2 : tab.hash h1 ≥ 0
      · have hne : h1 ≠ h2 := by
          intro hh; rw [hh] at c2; exact hemp c2
        rw [if_pos c2] at e
        rw [e1 h1 hne, if_neg c1, if_pos c2]
        exact ih h1 e
      · rw [if_neg c2] at e
        cases e
        rw [if_pos e3, e4]

/-- The probe that has missed at the slot `h2` hits once the pair is stored
there. -/
theorem probe_installed (tab tab1 : hash_t) (fcode h h2 : Int) (hemp : ¬ tab.hash h2 ≥ 0)
    (e1 : ∀ j, j ≠ h2 → tab1.hash j = tab.hash j) (e3 : tab1.hash h2 = fcode) (k : Nat)
    (e4 : tab1.code h2 = k) (e : probe tab fcode h = .miss h2) :
    probe tab1 fcode h = .hit k := by
  unfold probe at e ⊢
  by_cases c1 : tab.hash h = fcode
  · rw [if_pos c1] at e
    cases e
  · rw [if_neg c1] at e
    by_cases c2 : tab.hash h ≥ 0
    · have hne : h ≠ h2 := by
        intro hh; rw [hh] at c2; exact hemp c2
      rw [if_pos c2] at e
      rw [e1 h hne, if_neg c1, if_pos c2]
      exact secondary_probe_installed tab tab1 fcode _ h2 hemp e1 e3 k e4 _ h e
    · rw [if_neg c2] at e
      cases e
      rw [if_pos e3, e4]

end TifLzw

namespace TifLzw

theorem hashLog_clear (tab : hash_t) : HashLog (cl_hash tab) [] := by
  obtain ⟨_, h2⟩ := cl_hash_spec tab
  exact {
    slot := by
      intro h h0 h1
      left
      rw [h2, if_pos ⟨h0, h1⟩]
    found := by intro i hi; simp at hi
    bound := by intro i hi; simp at hi
    nodup := List.nodup_nil
    inj := by
      intro h1 _ h0 h1' _ _ hocc
      rw [h2, if_pos ⟨h0, h1'⟩] at hocc
      omega }

theorem getD_snoc_lt (K : List (Nat × Nat)) (x : Nat × Nat) (i : Nat) (hi : i < K.length) :
    (K ++ [x]).getD i (0, 0) = K.getD i (0, 0) := by
  rw [List.getD_eq_getElem _ _ (by simp; omega), List.getD_eq_getElem _ _ hi,
    List.getElem_append_left hi]

theorem getD_snoc_len (K : List (Nat × Nat)) (x : Nat × Nat) :
    (K ++ [x]).getD K.length (0, 0) = x := by
  rw [List.getD_eq_getElem _ _ (by simp)]
  simp

/-- The table after the pair (`ent`, `c`), which the probe has missed at the
empty slot `h2`, has been stored there with the next code. -/
theorem hashLog_install (tab : hash_t) (K : List (Nat × Nat)) (hL : HashLog tab K)
    (ent c : Nat) (he : ent < 4096) (hc : c < 256) (h2 : Int) (h20 : 0 ≤ h2) (h21 : h2 < HSIZE)
    (hemp : ¬ tab.hash h2 ≥ 0)
    (hm : probe tab (enc_fcode c ent) (enc_hash c ent) = .miss h2) :
    HashLog { code := store tab.code h2 (CODE_FIRST + K.length),
              hash := store tab.hash h2 (enc_fcode c ent) }
      (K ++ [(ent, c)]) := by
  have e1 : ∀ j, j ≠ h2 → (store tab.hash h2 (enc_fcode c ent)) j = tab.hash j :=
    fun j hj => store_other _ _ _ _ hj
  have e2 : ∀ j, j ≠ h2 → (store tab.code h2 (CODE_FIRST + K.length)) j = tab.code j :=
    fun j hj => store_other _ _ _ _ hj
  have hlen : (K ++ [(ent, c)]).length = K.length + 1 := by simp
  exact {
    slot := by
      intro h h0 h1
      by_cases hh : h = h2
      · right
        refine ⟨K.length, by rw [hlen]; omega, ?_, ?_⟩
        · rw [getD_snoc_len, hh]
          exact store_same _ _ _
        · rw [hh]
          exact store_same _ _ _
      · show store tab.hash h2 _ h = -1 ∨ ∃ i, _ ∧ store tab.hash h2 _ h = _ ∧
          store tab.code h2 _ h = _
        rw [e1 h hh, e2 h hh]
        rcases hL.slot h h0 h1 with s | ⟨i, i1, i2, i3⟩
        · exact Or.inl s
        · exact Or.inr ⟨i, by rw [hlen]; omega, by rw [getD_snoc_lt _ _ _ i1]; exact i2, i3⟩
    found := by
      intro i hi
      rw [hlen] at hi
      by_cases hik : i < K.length
      · rw [getD_snoc_lt _ _ _ hik]
        exact probe_stable tab _ _ _ h2 (enc_fcode_nonneg _ _) hemp e1 e2 _ (hL.found i hik)
      · have : i = K.length := by omega
        subst this
        rw [getD_snoc_len]
        exact probe_installed tab _ _ _ h2 hemp e1 (store_same _ _ _) _ (store_same _ _ _) hm
    bound := by
      intro i hi
      rw [hlen] at hi
      by_cases hik : i < K.length
      · rw [getD_snoc_lt _ _ _ hik]
        exact hL.bound i hik
      · have : i = K.length := by omega
        subst this
        rw [getD_snoc_len]
        exact ⟨he, hc⟩
    nodup := by
      rw [List.nodup_append]
      refine ⟨hL.nodup, List.nodup_singleton _, ?_⟩
      intro x hx hx2
      rw [List.mem_singleton] at hx2
      subst hx2
      obtain ⟨i, hi, e⟩ := List.getElem_of_mem hx
      have hf := hL.found i hi
      rw [List.getD_eq_getElem _ _ hi, e] at hf
      rw [hf] at hm
      cases hm
    inj := by
      intro a b a0 a1 b0 b1 ha hb hab
      have old : ∀ j : Int, 0 ≤ j → j < HSIZE → j ≠ h2 → tab.hash j ≥ 0 →
          tab.code j < CODE_FIRST + K.length := by
        intro j j0 j1 _ hj
        rcases hL.slot j j0 j1 with s | ⟨i, i1, _, i3⟩
        · omega
        · omega
      by_cases ca : a = h2
      · by_cases cb : b = h2
        · rw [ca, cb]
        · exfalso
          have hb2 : tab.hash b ≥ 0 := by rw [← e1 b cb]; exact hb
          have := old b b0 b1 cb hb2
          have hab2 : store tab.code h2 (CODE_FIRST + K.length) a =
              store tab.code h2 (CODE_FIRST + K.length) b := hab
          rw [ca, store_same, e2 b cb] at hab2
          omega
      · have ha2 : tab.hash a ≥ 0 := by rw [← e1 a ca]; exact ha
        by_cases cb : b = h2
        · exfalso
          have := old a a0 a1 ca ha2
          have hab2 : store tab.code h2 (CODE_FIRST + K.length) a =
              store tab.code h2 (CODE_FIRST + K.length) b := hab
          rw [cb, store_same, e2 a ca] at hab2
          omega
        · have hb2 : tab.hash b ≥ 0 := by rw [← e1 b cb]; exact hb
          have hab2 : store tab.code h2 (CODE_FIRST + K.length) a =
              store tab.code h2 (CODE_FIRST + K.length) b := hab
          rw [e2 a ca, e2 b cb] at hab2
          exact hL.inj a b a0 a1 b0 b1 ha2 hb2 hab2 }

/-- The hash table and `free_ent` after the "new entry" part of a round: the
pair is stored with the code `free_ent`, and the table is reset or not. -/
theorem miss_table (limit : Int) (l : EncLocals) (c : Nat) (fcode h : Int) :
    ((LZWEncode_miss limit l c fcode h).hashtab =
        cl_hash { code := store l.hashtab.code h l.free_ent,
                  hash := store l.hashtab.hash h fcode } ∧
      (LZWEncode_miss limit l c fcode h).free_ent = CODE_FIRST) ∨
    ((LZWEncode_miss limit l c fcode h).hashtab =
        { code := store l.hashtab.code h l.free_ent, hash := store l.hashtab.hash h fcode } ∧
      (LZWEncode_miss limit l c fcode h).free_ent = l.free_ent + 1) := by
  obtain ⟨f1, f2, _, _, f5, _⟩ := flush_if_full_fields limit l
  have n1 : (LZWEncode_new_entry limit l c fcode h).hashtab =
      { code := store l.hashtab.code h l.free_ent, hash := store l.hashtab.hash h fcode } := by
    show ({ code := store (l.flush_if_full limit).hashtab.code h (l.flush_if_full limit).free_ent,
            hash := store (l.flush_if_full limit).hashtab.hash h fcode } : hash_t) = _
    rw [f2, f5]
  have n2 : (LZWEncode_new_entry limit l c fcode h).free_ent = l.free_ent + 1 := by
    show (l.flush_if_full limit).free_ent + 1 = _
    rw [f5]
  unfold LZWEncode_miss
  generalize LZWEncode_new_entry limit l c fcode h = ln at n1 n2
  unfold LZWEncode_resize
  split
  · left
    exact ⟨by show cl_hash ln.hashtab = _; rw [n1], rfl⟩
  · split
    · right
      exact ⟨n1, n2⟩
    · split
      · simp only []
        split
        · left
          exact ⟨by show cl_hash ln.hashtab = _; rw [n1], rfl⟩
        · right
          exact ⟨n1, n2⟩
      · right
        exact ⟨n1, n2⟩

/-- How a round of the loop of `LZWEncode` ends, by the result of its probe. -/
theorem step_cases (limit : Int) (l : EncLocals) (c : Nat) (l1 : EncLocals)
    (e : LZWEncode_step limit l c = some l1) :
    (∃ k, probe l.hashtab (enc_fcode c l.ent) (enc_hash c l.ent) = .hit k ∧
      l1.hashtab = l.hashtab ∧ l1.free_ent = l.free_ent) ∨
    (∃ h, probe l.hashtab (enc_fcode c l.ent) (enc_hash c l.ent) = .miss h ∧
      ((l1.hashtab = cl_hash { code := store l.hashtab.code h l.free_ent,
                               hash := store l.hashtab.hash h (enc_fcode c l.ent) } ∧
        l1.free_ent = CODE_FIRST) ∨
       (l1.hashtab = { code := store l.hashtab.code h l.free_ent,
                       hash := store l.hashtab.hash h (enc_fcode c l.ent) } ∧
        l1.free_ent = l.free_ent + 1))) := by
  unfold LZWEncode_step at e
  simp only [] at e
  cases hp : probe l.hashtab (enc_fcode c l.ent) (enc_hash c l.ent) with
  | hit k =>
    left
    have hp2 : probe l.hashtab (((c <<< BITS_MAX : Nat) : Int) + (l.ent : Int))
        (((c <<< HSHIFT) ^^^ l.ent : Nat) : Int) = .hit k := hp
    rw [hp2] at e
    simp only [Option.some.injEq] at e
    subst e
    exact ⟨k, rfl, rfl, rfl⟩
  | miss h =>
    right
    have hp2 : probe l.hashtab (((c <<< BITS_MAX : Nat) : Int) + (l.ent : Int))
        (((c <<< HSHIFT) ^^^ l.ent : Nat) : Int) = .miss h := hp
    rw [hp2] at e
    simp only [Option.some.injEq] at e
    subst e
    exact ⟨h, rfl, miss_table limit { l with incount := l.incount + 1 } c _ h⟩
  | spin =>
    have hp2 : probe l.hashtab (((c <<< BITS_MAX : Nat) : Int) + (l.ent : Int))
        (((c <<< HSHIFT) ^^^ l.ent : Nat) : Int) = .spin := hp
    rw [hp2] at e
    cases e

theorem encLog_head (limit : Int) (l0 l : EncLocals) (K : List (Nat × Nat))
    (h : EncLog limit l0 l K) : EncHead limit l0 l := by
  induction h with
  | start => exact EncHead.start
  | hit la lb K c k _ hc _ e ih => exact EncHead.round la lb c ih hc e
  | install la lb K c h _ hc _ e _ ih => exact EncHead.round la lb c ih hc e
  | clear la lb K c h _ hc _ e _ ih => exact EncHead.round la lb c ih hc e

/-- Every run of the loop of `LZWEncode` has a list of installed pairs. -/
theorem encHead_log (limit : Int) (l0 l : EncLocals) (h : EncHead limit l0 l) :
    ∃ K, EncLog limit l0 l K := by
  induction h with
  | start => exact ⟨[], EncLog.start⟩
  | round la lb c _ hc e ih =>
    obtain ⟨K, hK⟩ := ih
    rcases step_cases limit la c lb e with ⟨k, hp, _, _⟩ | ⟨h, hp, ⟨_, f⟩ | ⟨_, f⟩⟩
    · exact ⟨K, EncLog.hit la lb K c k hK hc hp e⟩
    · exact ⟨[], EncLog.clear la lb K c h hK hc hp e f⟩
    · exact ⟨_, EncLog.install la lb K c h hK hc hp e f⟩

/-- The hash table at the head of every round of the loop of `LZWEncode` holds
exactly the pairs installed since the last clear. -/
theorem encLog_inv (limit : Int) (l0 : EncLocals) (d0 : List Nat) (ok0 : EncOK l0 d0)
    (hL0 : HashLog l0.hashtab []) (hf0 : l0.free_ent = CODE_FIRST) (l : EncLocals)
    (K : List (Nat × Nat)) (h : EncLog limit l0 l K) :
    HashLog l.hashtab K ∧ l.free_ent = CODE_FIRST + K.length := by
  induction h with
  | start => exact ⟨hL0, hf0⟩
  | hit la lb K c k hlog hc hp e ih =>
    obtain ⟨i1, i2⟩ := ih
    rcases step_cases limit la c lb e with ⟨k1, _, e1, e2⟩ | ⟨h, hp1, _⟩
    · rw [e1, e2]
      exact ⟨i1, i2⟩
    · rw [hp] at hp1
      cases hp1
  | clear la lb K c h hlog hc hp e f ih =>
    rcases step_cases limit la c lb e with ⟨k1, hp1, _, _⟩ | ⟨h1, hp1, ⟨e1, _⟩ | ⟨_, e2⟩⟩
    · rw [hp] at hp1
      cases hp1
    · rw [e1]
      exact ⟨hashLog_clear _, f⟩
    · exfalso
      obtain ⟨_, i2⟩ := ih
      rw [e2, i2] at f
      unfold CODE_FIRST at f
      omega
  | install la lb K c h hlog hc hp e f ih =>
    obtain ⟨i1, i2⟩ := ih
    obtain ⟨done, body, E, s, y, g, _⟩ := encHead_ok limit l0 d0 ok0 la
      (encLog_head limit l0 la K hlog)
    have hent : la.ent < 4096 := by
      have := g.free_lt
      rcases g.ent_ok with h | h <;> omega
    have hEl : E.length < HSIZE - 1 := by
      have := g.free_eq
      have := g.free_lt
      unfold HSIZE
      omega
    have hh : 0 ≤ enc_hash c la.ent ∧ enc_hash c la.ent < HSIZE := by
      refine ⟨Int.natCast_nonneg _, ?_⟩
      unfold enc_hash HSHIFT HSIZE
      have h1 : (c <<< (13 - 8)) ^^^ la.ent < 2 ^ 13 :=
        Nat.xor_lt_two_pow (by rw [Nat.shiftLeft_eq]; omega) (by omega)
      exact_mod_cast (by omega : (c <<< (13 - 8)) ^^^ la.ent < 9001)
    obtain ⟨_, _, pm⟩ := probe_spec la.hashtab E g.hash hEl (enc_fcode c la.ent)
      (enc_hash c la.ent) hh.1 hh.2
    obtain ⟨h20, h21, hemp⟩ := pm h hp
    rcases step_cases limit la c lb e with ⟨k1, hp1, _, _⟩ | ⟨h1, hp1, ⟨_, e2⟩ | ⟨e1, e2⟩⟩
    · rw [hp] at hp1
      cases hp1
    · exfalso
      rw [e2] at f
      unfold CODE_FIRST at f i2
      omega
    · rw [hp] at hp1
      cases hp1
      rw [e1, e2, i2]
      refine ⟨hashLog_install la.hashtab K i1 la.ent c hent hc h h20 h21 hemp hp, ?_⟩
      simp only [List.length_append, List.length_singleton]
      omega

end TifLzw

namespace TifLzw

theorem enc_hash_range (c p : Nat) (hc : c < 256) (hp : p < 4096) :
    0 ≤ enc_hash c p ∧ enc_hash c p < HSIZE := by
  refine ⟨Int.natCast_nonneg _, ?_⟩
  unfold enc_hash HSHIFT HSIZE
  have h1 : (c <<< (13 - 8)) ^^^ p < 2 ^ 13 :=
    Nat.xor_lt_two_pow (by rw [Nat.shiftLeft_eq]; omega) (by omega)
  exact_mod_cast (by omega : (c <<< (13 - 8)) ^^^ p < 9001)

/-- What a table that holds exactly the pairs `K` looks like from outside. -/
theorem hashLog_props (tab : hash_t) (K : List (Nat × Nat)) (E : List (List Nat))
    (hL : HashLog tab K) (hI : HashInv tab E) (hE : E.length < HSIZE - 1) :
    (∀ h : Int, 0 ≤ h → h < HSIZE →
      (tab.hash h < 0 ∧
        ∀ i, i < K.length → tab.hash h ≠ enc_fcode (K.getD i (0, 0)).2 (K.getD i (0, 0)).1) ∨
      (0 ≤ tab.hash h ∧
        ∃ i, i < K.length ∧ tab.hash h = enc_fcode (K.getD i (0, 0)).2 (K.getD i (0, 0)).1 ∧
          tab.code h = CODE_FIRST + i)) ∧
    (∀ h1 h2 : Int, 0 ≤ h1 → h1 < HSIZE → 0 ≤ h2 → h2 < HSIZE → 0 ≤ tab.hash h1 →
      tab.hash h1 = tab.hash h2 → h1 = h2) ∧
    (∀ h : Int, 0 ≤ h → h < HSIZE → 0 ≤ tab.hash h →
      CODE_FIRST ≤ tab.code h ∧ tab.code h < CODE_FIRST + K.length) ∧
    (∀ k : Nat, CODE_FIRST ≤ k → k < CODE_FIRST + K.length →
      ∃ h : Int, 0 ≤ h ∧ h < HSIZE ∧ 0 ≤ tab.hash h ∧ tab.code h = k ∧
        ∀ h1 : Int, 0 ≤ h1 → h1 < HSIZE → 0 ≤ tab.hash h1 → tab.code h1 = k → h1 = h) ∧
    (∀ p c k : Nat, p < 4096 → c < 256 →
      (probe tab (enc_fcode c p) (enc_hash c p) = .hit k ↔
        ∃ i, i < K.length ∧ K.getD i (0, 0) = (p, c) ∧ k = CODE_FIRST + i)) := by
  have occ : ∀ h : Int, 0 ≤ h → h < HSIZE → 0 ≤ tab.hash h →
      ∃ i, i < K.length ∧ tab.hash h = enc_fcode (K.getD i (0, 0)).2 (K.getD i (0, 0)).1 ∧
        tab.code h = CODE_FIRST + i := by
    intro h h0 h1 hh
    rcases hL.slot h h0 h1 with s | s
    · omega
    · exact s
  have pair : ∀ i j, i < K.length → j < K.length →
      enc_fcode (K.getD i (0, 0)).2 (K.getD i (0, 0)).1 =
        enc_fcode (K.getD j (0, 0)).2 (K.getD j (0, 0)).1 → i = j := by
    intro i j hi hj e
    obtain ⟨a1, a2⟩ := enc_fcode_inj _ _ _ _ (hL.bound i hi).1 (hL.bound j hj).1 e
    have e2 : K.getD i (0, 0) = K.getD j (0, 0) := Prod.ext a2 a1
    rw [List.getD_eq_getElem _ _ hi, List.getD_eq_getElem _ _ hj] at e2
    exact (List.Nodup.getElem_inj_iff hL.nodup).mp e2
  refine ⟨?_, ?_, ?_, ?_, ?_⟩
  · intro h h0 h1
    rcases hL.slot h h0 h1 with s | s
    · left
      refine ⟨by omega, ?_⟩
      intro i _ e
      have := enc_fcode_nonneg (K.getD i (0, 0)).2 (K.getD i (0, 0)).1
      omega
    · right
      obtain ⟨i, i1, i2, i3⟩ := s
      exact ⟨by rw [i2]; exact enc_fcode_nonneg _ _, i, i1, i2, i3⟩
  · intro h1 h2 a0 a1 b0 b1 hh e
    obtain ⟨i, i1, i2, i3⟩ := occ h1 a0 a1 hh
    obtain ⟨j, j1, j2, j3⟩ := occ h2 b0 b1 (by omega)
    have hij := pair i j i1 j1 (by rw [← i2, ← j2]; exact e)
    exact hL.inj h1 h2 a0 a1 b0 b1 hh (by omega) (by rw [i3, j3, hij])
  · intro h h0 h1 hh
    obtain ⟨i, i1, _, i3⟩ := occ h h0 h1 hh
    omega
  · intro k k0 k1
    obtain ⟨i, hi⟩ : ∃ i, k = CODE_FIRST + i := ⟨k - CODE_FIRST, by omega⟩
    subst hi
    have hik : i < K.length := by omega
    have hb := hL.bound i hik
    have hr := enc_hash_range _ _ hb.2 hb.1
    obtain ⟨_, ph, _⟩ := probe_spec tab E hI hE
      (enc_fcode (K.getD i (0, 0)).2 (K.getD i (0, 0)).1)
      (enc_hash (K.getD i (0, 0)).2 (K.getD i (0, 0)).1) hr.1 hr.2
    obtain ⟨h, h0, h1, e1, e2⟩ := ph _ (hL.found i hik)
    have hh : 0 ≤ tab.hash h := by rw [e1]; exact enc_fcode_nonneg _ _
    refine ⟨h, h0, h1, hh, e2, ?_⟩
    intro h' a0 a1 ha e
    exact hL.inj h' h a0 a1 h0 h1 ha hh (by rw [e, e2])
  · intro p c k hp hc
    have hr := enc_hash_range c p hc hp
    constructor
    · intro e
      obtain ⟨_, ph, _⟩ := probe_spec tab E hI hE (enc_fcode c p) (enc_hash c p) hr.1 hr.2
      obtain ⟨h, h0, h1, e1, e2⟩ := ph k e
      obtain ⟨i, i1, i2, i3⟩ := occ h h0 h1 (by rw [e1]; exact enc_fcode_nonneg _ _)
      rw [e1] at i2
      obtain ⟨a1, a2⟩ := enc_fcode_inj _ _ _ _ hp (hL.bound i i1).1 i2
      exact ⟨i, i1, Prod.ext a2.symm a1.symm, by omega⟩
    · rintro ⟨i, i1, i2, i3⟩
      have := hL.found i i1
      rw [i2] at this
      rw [i3]
      exact this

/-- The locals of `LZWEncode` when its loop starts on a strip of `py_encode`
that begins with the byte `b`: the hash table is empty. -/
theorem encode_start_log (u : Uninit) (nbytes : Int) (b : Nat) (hb : b < 256) :
    ∃ T sp tab, LZWPreEncode u (py_encode_handle u nbytes) = some (1, T) ∧
      T.tif_data = some sp ∧ sp.enc_hashtab = some tab ∧
      ∀ rest, EncOK (LZWEncode_start (LZWEncode_load T sp tab []) (b :: rest)).1 [b] ∧
        HashLog (LZWEncode_start (LZWEncode_load T sp tab []) (b :: rest)).1.hashtab [] ∧
        (LZWEncode_start (LZWEncode_load T sp tab []) (b :: rest)).1.free_ent = CODE_FIRST := by
  obtain ⟨T, sp, e0, k1, k2, k3, k4, k5, k6, k7, k8, k9, k10, k11⟩ :=
    LZWPreEncode_ok u (py_encode_handle u nbytes) (TIFFInitLZW u) rfl rfl
  refine ⟨T, sp, cl_hash u.hashtab, e0, k1, k2, ?_⟩
  intro rest
  have ok0 := enc_init b hb (LZWEncode_load T sp (cl_hash u.hashtab) []) k3 k4
    (by show T.tif_rawdata = []; rw [k5]; rfl) rfl k6 k7 k8 k9 k10 u.hashtab rfl
  have hs : LZWEncode_start (LZWEncode_load T sp (cl_hash u.hashtab) []) (b :: rest) =
      ({ (LZWEncode_load T sp (cl_hash u.hashtab) []).put CODE_CLEAR with
          ent := b, incount := (LZWEncode_load T sp (cl_hash u.hashtab) []).incount + 1 },
        rest) := by
    unfold LZWEncode_start
    simp only []
    exact if_pos (show (LZWEncode_load T sp (cl_hash u.hashtab) []).ent = HCODE_NONE from k11)
  rw [hs]
  exact ⟨ok0, hashLog_clear u.hashtab, k8⟩

end TifLzw

namespace TifLzw

/-- C25: encoder hash-table invariant.  At the head of every round of the loop
of `LZWEncode` on a strip that `LZWPreEncode` has started, there is a list `K`
of the pairs (prefix code, byte) installed since the last table clear, and for
every such list: `free_ent = CODE_FIRST + length K`; a slot either is empty,
with a negative `hash` that is the key of no installed pair, or has a
non-negative `hash` that is the key `(byte << 12) + prefix` of the pair `K[i]`
together with the code `CODE_FIRST + i`; no two occupied slots hold the same
key; the codes in occupied slots lie in `[CODE_FIRST, free_ent)` and each code
of that range is in exactly one occupied slot; and the probe for a pair hits
with the code `k` iff the pair is `K[k - CODE_FIRST]`. -/
theorem hash_table_invariant (u : Uninit) (nbytes : Int) (b : Nat) (hb : b < 256) :
    ∃ T sp tab, LZWPreEncode u (py_encode_handle u nbytes) = some (1, T) ∧
      T.tif_data = some sp ∧ sp.enc_hashtab = some tab ∧
      ∀ rest l,
        EncHead sp.enc_rawlimit (LZWEncode_start (LZWEncode_load T sp tab []) (b :: rest)).1 l →
        (∃ K, EncLog sp.enc_rawlimit
          (LZWEncode_start (LZWEncode_load T sp tab []) (b :: rest)).1 l K) ∧
        ∀ K, EncLog sp.enc_rawlimit
            (LZWEncode_start (LZWEncode_load T sp tab []) (b :: rest)).1 l K →
          l.free_ent = CODE_FIRST + K.length ∧
          (∀ h : Int, 0 ≤ h → h < HSIZE →
            (l.hashtab.hash h < 0 ∧
              ∀ i, i < K.length →
                l.hashtab.hash h ≠ enc_fcode (K.getD i (0, 0)).2 (K.getD i (0, 0)).1) ∨
            (0 ≤ l.hashtab.hash h ∧
              ∃ i, i < K.length ∧
                l.hashtab.hash h = enc_fcode (K.getD i (0, 0)).2 (K.getD i (0, 0)).1 ∧
                l.hashtab.code h = CODE_FIRST + i)) ∧
          (∀ h1 h2 : Int, 0 ≤ h1 → h1 < HSIZE → 0 ≤ h2 → h2 < HSIZE →
            0 ≤ l.hashtab.hash h1 → l.hashtab.hash h1 = l.hashtab.hash h2 → h1 = h2) ∧
          (∀ h : Int, 0 ≤ h → h < HSIZE → 0 ≤ l.hashtab.hash h →
            CODE_FIRST ≤ l.hashtab.code h ∧ l.hashtab.code h < l.free_ent) ∧
          (∀ k : Nat, CODE_FIRST ≤ k → k < l.free_ent →
            ∃ h : Int, 0 ≤ h ∧ h < HSIZE ∧ 0 ≤ l.hashtab.hash h ∧ l.hashtab.code h = k ∧
              ∀ h1 : Int, 0 ≤ h1 → h1 < HSIZE → 0 ≤ l.hashtab.hash h1 →
                l.hashtab.code h1 = k → h1 = h) ∧
          (∀ p c k : Nat, p < 4096 → c < 256 →
            (probe l.hashtab (enc_fcode c p) (enc_hash c p) = .hit k ↔
              ∃ i, i < K.length ∧ K.getD i (0, 0) = (p, c) ∧ k = CODE_FIRST + i)) := by
  obtain ⟨T, sp, tab, e0, k1, k2, hstart⟩ := encode_start_log u nbytes b hb
  refine ⟨T, sp, tab, e0, k1, k2, ?_⟩
  intro rest l hl
  obtain ⟨ok0, hL0, hf0⟩ := hstart rest
  refine ⟨encHead_log _ _ _ hl, ?_⟩
  intro K hK
  obtain ⟨hL, hf⟩ := encLog_inv _ _ _ ok0 hL0 hf0 l K hK
  obtain ⟨done, body, E, s, y, g, _⟩ := encHead_ok _ _ _ ok0 l hl
  have hEl : E.length < HSIZE - 1 := by
    have := g.free_eq
    have := g.free_lt
    unfold HSIZE
    omega
  obtain ⟨p1, p2, p3, p4, p5⟩ := hashLog_props l.hashtab K E hL g.hash hEl
  rw [hf]
  exact ⟨rfl, p1, p2, p3, p4, p5⟩

theorem hash_table_invariant_witness :
    (65 : Nat) < 256 ∧
    ∃ T sp tab, LZWPreEncode zeroUninit (py_encode_handle zeroUninit 2) = some (1, T) ∧
      T.tif_data = some sp ∧ sp.enc_hashtab = some tab ∧
      ∀ rest l,
        EncHead sp.enc_rawlimit (LZWEncode_start (LZWEncode_load T sp tab []) (65 :: rest)).1 l →
        (∃ K, EncLog sp.enc_rawlimit
          (LZWEncode_start (LZWEncode_load T sp tab []) (65 :: rest)).1 l K) ∧
        ∀ K, EncLog sp.enc_rawlimit
            (LZWEncode_start (LZWEncode_load T sp tab []) (65 :: rest)).1 l K →
          l.free_ent = CODE_FIRST + K.length ∧
          (∀ h : Int, 0 ≤ h → h < HSIZE →
            (l.hashtab.hash h < 0 ∧
              ∀ i, i < K.length →
                l.hashtab.hash h ≠ enc_fcode (K.getD i (0, 0)).2 (K.getD i (0, 0)).1) ∨
            (0 ≤ l.hashtab.hash h ∧
              ∃ i, i < K.length ∧
                l.hashtab.hash h = enc_fcode (K.getD i (0, 0)).2 (K.getD i (0, 0)).1 ∧
                l.hashtab.code h = CODE_FIRST + i)) ∧
          (∀ h1 h2 : Int, 0 ≤ h1 → h1 < HSIZE → 0 ≤ h2 → h2 < HSIZE →
            0 ≤ l.hashtab.hash h1 → l.hashtab.hash h1 = l.hashtab.hash h2 → h1 = h2) ∧
          (∀ h : Int, 0 ≤ h → h < HSIZE → 0 ≤ l.hashtab.hash h →
            CODE_FIRST ≤ l.hashtab.code h ∧ l.hashtab.code h < l.free_ent) ∧
          (∀ k : Nat, CODE_FIRST ≤ k → k < l.free_ent →
            ∃ h : Int, 0 ≤ h ∧ h < HSIZE ∧ 0 ≤ l.hashtab.hash h ∧ l.hashtab.code h = k ∧
              ∀ h1 : Int, 0 ≤ h1 → h1 < HSIZE → 0 ≤ l.hashtab.hash h1 →
                l.hashtab.code h1 = k → h1 = h) ∧
          (∀ p c k : Nat, p < 4096 → c < 256 →
            (probe l.hashtab (enc_fcode c p) (enc_hash c p) = .hit k ↔
              ∃ i, i < K.length ∧ K.getD i (0, 0) = (p, c) ∧ k = CODE_FIRST + i)) :=
  ⟨by decide, hash_table_invariant zeroUninit 2 65 (by decide)⟩

end TifLzw

namespace TifLzw

theorem take_succ_getD (x : List Nat) (k : Nat) (hk : k < x.length) :
    x.take (k + 1) = x.take k ++ [x.getD k 0] := by
  rw [List.take_succ, List.getElem?_eq_getElem hk, List.getD_eq_getElem _ _ hk]
  rfl

theorem getD_snoc_left (E : List (List Nat)) (e : List Nat) (i : Nat) (hi : i < E.length) :
    (E ++ [e]).getD i [] = E.getD i [] := by
  rw [List.getD_eq_getElem _ _ (by simp; omega), List.getD_eq_getElem _ _ hi,
    List.getElem_append_left hi]

theorem getD_snoc_last (E : List (List Nat)) (e : List Nat) :
    (E ++ [e]).getD E.length [] = e := by
  rw [List.getD_eq_getElem _ _ (by simp)]
  simp

/-- A round of the loop of `LZWEncode` on an input without a repeated pair of
adjacent bytes misses: the prefix code is emitted and the pair is installed. -/
theorem enc_lit_step (limit : Int) (x : List Nat) (hx : IsBytes x)
    (hnd : ∀ i j, i < j → j + 1 < x.length → x.getD i 0 = x.getD j 0 →
      x.getD (i + 1) 0 = x.getD (j + 1) 0 → False)
    (l : EncLocals) (j : Nat) (body : List (Nat × Nat)) (E : List (List Nat)) (s : AState)
    (y : List Nat) (lit : EncLit l x j body E s y) (hj : j + 1 < x.length) (hj2 : j ≤ 764) :
    ∃ l1 body1 E1 s1 y1, LZWEncode_step limit l (x.getD (j + 1) 0) = some l1 ∧
      EncLit l1 x (j + 1) body1 E1 s1 y1 := by
  have g := lit.ghost
  have hc : x.getD (j + 1) 0 < 256 := getD_lt_of_isBytes x hx (j + 1)
  have hent256 : l.ent < 256 := by rw [lit.ent]; exact getD_lt_of_isBytes x hx j
  have hent : l.ent < 4096 := by omega
  have hfree := g.free_eq
  have hlen := lit.len
  have hE : E.length < HSIZE - 1 := by unfold HSIZE; omega
  have hh := primary_hash_lt (x.getD (j + 1) 0) l.ent hc hent
  obtain ⟨p1, p2, p3⟩ := probe_spec l.hashtab E g.hash hE
    (((x.getD (j + 1) 0 <<< BITS_MAX : Nat) : Int) + (l.ent : Int))
    (((x.getD (j + 1) 0 <<< HSHIFT) ^^^ l.ent : Nat) : Int) (by positivity)
    (by exact_mod_cast hh)
  unfold LZWEncode_step
  simp only []
  cases hp : probe l.hashtab (((x.getD (j + 1) 0 <<< BITS_MAX : Nat) : Int) + (l.ent : Int))
      (((x.getD (j + 1) 0 <<< HSHIFT) ^^^ l.ent : Nat) : Int) with
  | spin => exact absurd hp p1
  | hit k =>
    exfalso
    obtain ⟨h2, h20, h21, hkey, hk⟩ := p2 k hp
    rw [fcode_eq] at hkey
    obtain ⟨p, c1, q1, q2, q3, q4, q5, q6, q7⟩ := g.hash.1 h2 h20 h21
      (by rw [hkey]; exact Int.natCast_nonneg _)
    rw [hkey] at q1
    have q1n : x.getD (j + 1) 0 * 4096 + l.ent = c1 * 4096 + p := by exact_mod_cast q1
    have ec : c1 = x.getD (j + 1) 0 := by omega
    have ep : p = l.ent := by omega
    rw [ep, codeStr_lt _ _ hent256, ec] at q7
    have hi : l.hashtab.code h2 - 258 < j := by omega
    rw [lit.ents _ hi, lit.ent] at q7
    simp only [List.singleton_append, List.cons.injEq, and_true] at q7
    exact hnd _ j hi hj q7.1 q7.2
  | miss h2 =>
    obtain ⟨h20, h21, hemp⟩ := p3 h2 hp
    have g1 : EncGhost { l with incount := l.incount + 1 } (x.take (j + 1)) body E s y :=
      encGhost_congr l _ _ body E s y g rfl rfl rfl rfl rfl rfl rfl rfl
    have ga := encGhost_flush limit _ _ body E s y g1
    obtain ⟨f1, f2, f3, f4, f5, f6⟩ :=
      flush_if_full_fields limit { l with incount := l.incount + 1 }
    have key : ∀ la : EncLocals, la.ent = l.ent → la.hashtab = l.hashtab →
        la.incount = l.incount + 1 → la.checkpoint = l.checkpoint →
        la.free_ent = l.free_ent → la.nbits = l.nbits →
        EncGhost la (x.take (j + 1)) body E s y →
        ∃ body1 E1 s1 y1, EncLit (LZWEncode_resize
          { la.put la.ent with
            ent := x.getD (j + 1) 0,
            hashtab := { code := store la.hashtab.code h2 la.free_ent,
                         hash := store la.hashtab.hash h2
                           (((x.getD (j + 1) 0 <<< BITS_MAX : Nat) : Int) + (l.ent : Int)) },
            free_ent := la.free_ent + 1 }) x (j + 1) body1 E1 s1 y1 := by
      intro la f1 f2 f3 f4 f5 f6 ga
      obtain ⟨s1, m⟩ := enc_mid_core la _ body E s y ga _ hc h2 h20 h21
        (by rw [f2]; exact hemp)
        (((x.getD (j + 1) 0 <<< BITS_MAX : Nat) : Int) + (l.ent : Int)) (by rw [f1])
      have hmax := ga.maxcode_eq
      have hw := lit.width
      have hinc := lit.inc
      have hchk := lit.chk
      have hbl := lit.blen
      have hcm : CODE_MAX - 1 = 4094 := by decide
      have hdone : x.take (j + 1) ++ [x.getD (j + 1) 0] = x.take (j + 1 + 1) :=
        (take_succ_getD x (j + 1) hj).symm
      have hE1 : codeStr E la.ent ++ [x.getD (j + 1) 0] = [x.getD j 0, x.getD (j + 1) 0] := by
        rw [f1, codeStr_lt _ _ hent256, lit.ent]
        rfl
      rw [hdone, hE1] at m
      generalize hlc : ({ la.put la.ent with
            ent := x.getD (j + 1) 0,
            hashtab := { code := store la.hashtab.code h2 la.free_ent,
                         hash := store la.hashtab.hash h2
                           (((x.getD (j + 1) 0 <<< BITS_MAX : Nat) : Int) + (l.ent : Int)) },
            free_ent := la.free_ent + 1 } : EncLocals) = lc at m ⊢
      have c1 : lc.free_ent = 258 + j + 1 := by rw [← hlc]; show la.free_ent + 1 = _; omega
      have c2 : lc.nbits = l.nbits := by rw [← hlc]; exact f6
      have c3 : lc.maxcode = 2 ^ l.nbits - 1 := by
        rw [← hlc]; show la.maxcode = _; rw [hmax, f6]
      have c4 : lc.incount = j + 2 := by rw [← hlc]; show la.incount = _; omega
      have c5 : lc.checkpoint = l.checkpoint := by rw [← hlc]; exact f4
      have c6 : lc.ent = x.getD (j + 1) 0 := by rw [← hlc]
      have hents : ∀ i, i < j + 1 →
          (E ++ [[x.getD j 0, x.getD (j + 1) 0]]).getD i [] = [x.getD i 0, x.getD (i + 1) 0] := by
        intro i hi
        by_cases hij : i < j
        · rw [getD_snoc_left _ _ _ (by omega)]
          exact lit.ents i hij
        · have : i = E.length := by omega
          rw [this, getD_snoc_last, hlen]
      have hblen : bitLen (body ++ [(la.nbits, la.ent)]) =
          if j + 1 ≤ 254 then 9 * (j + 1) else 10 * (j + 1) - 254 := by
        rw [bitLen_snoc, hbl, f6, hw]
        split_ifs <;> omega
      by_cases h253 : j = 253
      · have hw9 : l.nbits = 9 := by rw [hw, if_pos (by omega)]
        have hres : LZWEncode_resize lc =
            { lc with nbits := lc.nbits + 1, maxcode := MAXCODE (lc.nbits + 1) } := by
          unfold LZWEncode_resize
          rw [if_neg (by rw [c1, hcm]; omega), if_pos (by rw [c1, c3, hw9]; omega)]
        rw [hres]
        have gw := enc_fin_widen lc _ _ _ s1 _ m (by rw [c1, c3, hw9]; omega) (by rw [c1]; omega)
        exact ⟨_, _, s1, _, {
          ghost := gw
          len := by simp only [List.length_append, List.length_singleton]; omega
          ent := c6
          ents := hents
          inc := c4
          chk := by show 10000 ≤ lc.checkpoint; rw [c5]; exact hchk
          width := by
            show lc.nbits + 1 = _
            rw [c2, hw9, if_neg (by omega)]
          blen := hblen }⟩
      · have hle : lc.free_ent ≤ lc.maxcode := by
          rw [c1, c3, hw]
          split_ifs <;> omega
        have hres : LZWEncode_resize lc = lc := by
          unfold LZWEncode_resize
          rw [if_neg (by rw [c1, hcm]; omega), if_neg (by omega),
            if_neg (by rw [c4, c5]; omega)]
        rw [hres]
        have gk := enc_fin_keep lc _ _ _ s1 _ m hle (by rw [c1]; omega)
        exact ⟨_, _, s1, _, {
          ghost := gk
          len := by simp only [List.length_append, List.length_singleton]; omega
          ent := c6
          ents := hents
          inc := c4
          chk := by rw [c5]; exact hchk
          width := by
            rw [c2, hw]
            split_ifs <;> omega
          blen := hblen }⟩
    obtain ⟨body1, E1, s1, y1, r⟩ := key _ f1 f2 f3 f4 f5 f6 ga
    exact ⟨_, body1, E1, s1, y1, rfl, r⟩

end TifLzw

namespace TifLzw

/-- The encoder state when the loop of `LZWEncode` starts on the input `x`. -/
theorem enc_lit_init (x : List Nat) (b : Nat) (rest : List Nat) (hxe : x = b :: rest)
    (hb : b < 256) (l : EncLocals) (h1 : l.nextdata = 0)
    (h2 : l.nextbits = 0) (h3 : l.op = []) (h4 : l.lst = []) (h5 : l.nbits = 9)
    (h6 : l.maxcode = MAXCODE BITS_MIN) (h7 : l.free_ent = CODE_FIRST) (h8 : l.incount = 0)
    (h9 : l.checkpoint = CHECK_GAP) (tab : hash_t) (h10 : l.hashtab = cl_hash tab) :
    ∃ body E s y,
      EncLit { l.put CODE_CLEAR with ent := b, incount := l.incount + 1 } x 0 body E s y := by
  obtain ⟨body, E, s, y, g, _⟩ := enc_init b hb l h1 h2 h3 h4 h5 h6 h7 h8 h9 tab h10
  have hop : (PutNextCode l.nbits l.toPutState CODE_CLEAR).op = [128] := by
    unfold PutNextCode
    rw [h1, h2, h3, h5]
    rfl
  have hnb : (PutNextCode l.nbits l.toPutState CODE_CLEAR).nextbits = 1 := by
    unfold PutNextCode
    rw [h1, h2, h3, h5]
    rfl
  have hfe := g.free_eq
  have hfe2 : l.free_ent = 258 + E.length := hfe
  obtain ⟨_, _, _, hp4⟩ := g.put
  have hp5 : 8 * (l.lst.flatten ++ (PutNextCode l.nbits l.toPutState CODE_CLEAR).op).length +
      (PutNextCode l.nbits l.toPutState CODE_CLEAR).nextbits =
      bitLen ((9, CODE_CLEAR) :: body) := hp4
  rw [hop, hnb, h4, bitLen_cons] at hp5
  simp only [List.flatten_nil, List.nil_append, List.length_singleton] at hp5
  refine ⟨body, E, s, y, ?_⟩
  exact {
    ghost := by
      have e : x.take (0 + 1) = [b] := by rw [hxe]; rfl
      rw [e]
      exact g
    len := by rw [h7] at hfe2; unfold CODE_FIRST at hfe2; omega
    ent := by rw [hxe]; rfl
    ents := by intro i hi; omega
    inc := by show l.incount + 1 = 0 + 1; rw [h8]
    chk := by show 10000 ≤ l.checkpoint; rw [h9]; decide
    width := by show l.nbits = _; rw [h5]; rfl
    blen := by rw [if_pos (by omega)]; omega }

/-- The loop of `LZWEncode` on an input of at most 766 bytes without a repeated
pair of adjacent bytes: every round misses. -/
theorem enc_lit_loop (limit : Int) (x : List Nat) (hx : IsBytes x)
    (hnd : ∀ i j, i < j → j + 1 < x.length → x.getD i 0 = x.getD j 0 →
      x.getD (i + 1) 0 = x.getD (j + 1) 0 → False) (hlen : x.length ≤ 766) :
    ∀ (k j : Nat) (l : EncLocals) (body : List (Nat × Nat)) (E : List (List Nat)) (s : AState)
      (y : List Nat), j + 1 + k = x.length → EncLit l x j body E s y →
      ∃ l1 body1 E1 s1 y1, LZWEncode_loop limit (x.drop (j + 1)) l = some l1 ∧
        EncLit l1 x (x.length - 1) body1 E1 s1 y1 := by
  intro k
  induction k with
  | zero =>
    intro j l body E s y hj lit
    have e : x.drop (j + 1) = [] := List.drop_eq_nil_of_le (by omega)
    rw [e]
    have e2 : x.length - 1 = j := by omega
    rw [e2]
    exact ⟨l, body, E, s, y, rfl, lit⟩
  | succ k ih =>
    intro j l body E s y hj lit
    have hj1 : j + 1 < x.length := by omega
    obtain ⟨l1, body1, E1, s1, y1, e1, lit1⟩ :=
      enc_lit_step limit x hx hnd l j body E s y lit hj1 (by omega)
    obtain ⟨l2, body2, E2, s2, y2, e2, lit2⟩ := ih (j + 1) l1 body1 E1 s1 y1 (by omega) lit1
    have e : x.drop (j + 1) = x.getD (j + 1) 0 :: x.drop (j + 1 + 1) := by
      rw [List.getD_eq_getElem _ _ hj1]
      exact List.drop_eq_getElem_cons hj1
    rw [e, LZWEncode_loop, e1]
    exact ⟨l2, body2, E2, s2, y2, e2, lit2⟩

/-- The codes that `LZWPostEncode` appends, with their width: the last prefix
code and `CODE_EOI`, both at the width `nbits` of the encoder, while the
reference decoder has the width that the entry of the last prefix code leads to. -/
theorem post_encode_codes (l : EncLocals) (x : List Nat) (body : List (Nat × Nat))
    (E : List (List Nat)) (s : AState) (y : List Nat) (g : EncGhost l x body E s y)
    (hsp : s.prev ≠ [])
    (sp : LZWCodecState) (e1 : sp.lzw_nextdata = l.nextdata) (e2 : sp.lzw_nextbits = l.nextbits)
    (e3 : sp.enc_oldcode = l.ent) (e4 : sp.lzw_nbits = l.nbits) (pre op : List Nat)
    (hop : pre ++ op = l.lst.flatten ++ l.op) :
    ∃ s1, Packs (pre ++ LZWPostEncode_tail sp op)
        ((9, CODE_CLEAR) :: (body ++ [(l.nbits, l.ent)]) ++ [(l.nbits, CODE_EOI)]) ∧
      arun AState.cleared (body ++ [(l.nbits, l.ent)]) = some (s1, x) ∧
      s1.prev = codeStr E l.ent ∧ s1.dict = E ∧
      s1.nbits = if 258 + E.length > 2 ^ s.nbits - 2 then min (s.nbits + 1) 12 else s.nbits := by
  have hn9 := g.nbits_ge
  have hn12 := g.nbits_le
  have hpow := two_pow_nbits l.nbits hn9 hn12
  have hfree := g.free_eq
  have hfl := g.free_lt
  have hfle := g.free_le
  have hmax := g.maxcode_eq
  have hent : l.ent < 2 ^ l.nbits := by
    rcases g.ent_ok with h | h <;> omega
  have hentv : l.ent < 256 ∨ (258 ≤ l.ent ∧ l.ent < 258 + E.length) := by
    rcases g.ent_ok with h | h
    · exact Or.inl h
    · right; omega
  have hne : sp.enc_oldcode ≠ HCODE_NONE := by
    rw [e3]; unfold HCODE_NONE; omega
  have p0 : PutInv pre ⟨sp.lzw_nextdata, sp.lzw_nextbits, sp.enc_outcount, op⟩
      ((9, CODE_CLEAR) :: body) := putInv_congr _ _ _ _ _ g.put hop e1 e2
  obtain ⟨p1, _, _⟩ := putNextCode_inv pre _ _ l.nbits l.ent hn9 hn12 hent p0
  have hfit1 : CodesFit (((9, CODE_CLEAR) :: body) ++ [(l.nbits, l.ent)]) :=
    (codesFit_append _ _).mpr ⟨g.fit, by intro p hp; simp at hp; subst hp; exact hent⟩
  have heoi : CODE_EOI < 2 ^ l.nbits := by unfold CODE_EOI; omega
  obtain ⟨p2, _, _⟩ := putNextCode_inv pre _ _ l.nbits CODE_EOI hn9 hn12 heoi p1
  have hfit2 : CodesFit (((9, CODE_CLEAR) :: body) ++ [(l.nbits, l.ent)] ++ [(l.nbits, CODE_EOI)]) :=
    (codesFit_append _ _).mpr ⟨hfit1, by intro p hp; simp at hp; subst hp; exact heoi⟩
  have hpk := putInv_pad pre _ _ hfit2 p2
  obtain ⟨s1, a1, a2, _, a4⟩ := abs_emit E s l.ent hentv g.E_ne (by omega) g.cleared g.pending
  obtain ⟨a5, a6⟩ := a4 hsp
  have hrun := arun_snoc body s.nbits l.ent AState.cleared s s1 y (codeStr E l.ent) g.run a1
  have htail : LZWPostEncode_tail sp op =
      (if (PutNextCode l.nbits (PutNextCode l.nbits
          ⟨sp.lzw_nextdata, sp.lzw_nextbits, sp.enc_outcount, op⟩ l.ent) CODE_EOI).nextbits > 0
        then (PutNextCode l.nbits (PutNextCode l.nbits
          ⟨sp.lzw_nextdata, sp.lzw_nextbits, sp.enc_outcount, op⟩ l.ent) CODE_EOI).op ++
          [((PutNextCode l.nbits (PutNextCode l.nbits
          ⟨sp.lzw_nextdata, sp.lzw_nextbits, sp.enc_outcount, op⟩ l.ent) CODE_EOI).nextdata <<<
            (8 - (PutNextCode l.nbits (PutNextCode l.nbits
          ⟨sp.lzw_nextdata, sp.lzw_nextbits, sp.enc_outcount, op⟩ l.ent) CODE_EOI).nextbits)) % 256]
        else (PutNextCode l.nbits (PutNextCode l.nbits
          ⟨sp.lzw_nextdata, sp.lzw_nextbits, sp.enc_outcount, op⟩ l.ent) CODE_EOI).op) := by
    unfold LZWPostEncode_tail
    rw [e3] at hne
    simp only [e3, e4, if_pos hne]
  rw [htail]
  refine ⟨s1, ?_, ?_, a2, a5, a6⟩
  · have e : (9, CODE_CLEAR) :: (body ++ [(l.nbits, l.ent)]) ++ [(l.nbits, CODE_EOI)] =
        ((9, CODE_CLEAR) :: body) ++ [(l.nbits, l.ent)] ++ [(l.nbits, CODE_EOI)] := by simp
    rw [e]
    exact hpk
  · rw [g.nbits_eq, hrun, ← g.done_eq]

end TifLzw

namespace TifLzw

/-- `LZWPostEncode` after the loop of `LZWEncode`, with the codes it appends. -/
theorem LZWPostEncode_codes (tif0 : TIFF) (sp0 : LZWCodecState) (l : EncLocals) (x : List Nat)
    (body : List (Nat × Nat)) (E : List (List Nat)) (s : AState) (y : List Nat)
    (g : EncGhost l x body E s y) (hsp : s.prev ≠ []) :
    ∃ t2 chunks, LZWPostEncode (LZWEncode_save tif0 sp0 l) l.lst = some (1, t2, chunks) ∧
      t2.tif_data ≠ none ∧ chunks ≠ [] ∧
      ∃ s1, Packs chunks.flatten
          ((9, CODE_CLEAR) :: (body ++ [(l.nbits, l.ent)]) ++ [(l.nbits, CODE_EOI)]) ∧
        arun AState.cleared (body ++ [(l.nbits, l.ent)]) = some (s1, x) ∧
        s1.prev = codeStr E l.ent ∧ s1.dict = E ∧
        s1.nbits =
          if 258 + E.length > 2 ^ s.nbits - 2 then min (s.nbits + 1) 12 else s.nbits := by
  unfold LZWPostEncode
  simp only [LZWEncode_save]
  refine ⟨_, _, rfl, by simp, by simp, ?_⟩
  rw [List.flatten_append, List.flatten_singleton]
  apply post_encode_codes l x body E s y g hsp _ rfl rfl rfl rfl
  split <;> simp

/-- `py_encode` on an input of 766 bytes without a repeated pair of adjacent
bytes: 765 entries are installed, the last prefix code and `CODE_EOI` are
written with 10 bits, and the entry that the last prefix code stands for takes
the reference decoder to 11 bits. -/
theorem encode_lit (u : Uninit) (x : List Nat) (hx : IsBytes x) (hl : x.length = 766)
    (hnd : ∀ i j, i < j → j + 1 < x.length → x.getD i 0 = x.getD j 0 →
      x.getD (i + 1) 0 = x.getD (j + 1) 0 → False) :
    ∃ enc body s, py_encode u x = .array enc ∧
      Packs enc ((9, CODE_CLEAR) :: body ++ [(10, CODE_EOI)]) ∧
      arun AState.cleared body = some (s, x) ∧ s.nbits = 11 ∧ s.prev ≠ [] ∧
      s.dict.length = 765 ∧
      (∀ i, i < 765 → s.dict.getD i [] = [x.getD i 0, x.getD (i + 1) 0]) ∧
      bitLen body = 7406 := by
  cases x with
  | nil => simp at hl
  | cons b rest =>
    have hb : b < 256 := hx b (by simp)
    have hsz : to_tmsize_t (((b :: rest).length : Nat) : Int) = (((b :: rest).length : Nat) : Int) :=
      to_tmsize_t_of_lt _ (by positivity) (by rw [hl]; norm_num)
    unfold py_encode
    rw [hsz]
    obtain ⟨T, sp, e0, k1, k2, k3, k4, k5, k6, k7, k8, k9, k10, k11⟩ :=
      LZWPreEncode_ok u (py_encode_handle u (((b :: rest).length : Nat) : Int)) (TIFFInitLZW u)
        rfl rfl
    rw [e0, Option.some_bind]
    obtain ⟨body0, E0, s0, y0, lit0⟩ := enc_lit_init (b :: rest) b rest rfl hb
      (LZWEncode_load T sp (cl_hash u.hashtab) []) k3 k4
      (by show T.tif_rawdata = []; rw [k5]; rfl) rfl k6 k7 k8 k9 k10 u.hashtab rfl
    obtain ⟨l1, body1, E1, s1, y1, e1, lit1⟩ :=
      enc_lit_loop sp.enc_rawlimit (b :: rest) hx hnd (by omega) 765 0 _ body0 E0 s0 y0
        (by rw [hl]) lit0
    have hd : (b :: rest).drop (0 + 1) = rest := rfl
    have hl1 : (b :: rest).length - 1 = 765 := by rw [hl]
    rw [hd] at e1
    rw [hl1] at lit1
    have hs : LZWEncode_start (LZWEncode_load T sp (cl_hash u.hashtab) []) (b :: rest) =
        ({ (LZWEncode_load T sp (cl_hash u.hashtab) []).put CODE_CLEAR with
            ent := b, incount := (LZWEncode_load T sp (cl_hash u.hashtab) []).incount + 1 },
          rest) := by
      unfold LZWEncode_start
      simp only []
      exact if_pos (show (LZWEncode_load T sp (cl_hash u.hashtab) []).ent = HCODE_NONE from k11)
    have hcc : ((((b :: rest).length : Nat) : Int)).toNat = (b :: rest).length := rfl
    have eE : LZWEncode T [] (b :: rest) (((b :: rest).length : Nat) : Int) =
        some (1, LZWEncode_save T sp l1, l1.lst) := by
      unfold LZWEncode
      rw [k1]
      simp only [k2, hcc, List.take_length]
      rw [hs]
      simp only []
      rw [e1]
    rw [eE, Option.some_bind]
    have g := lit1.ghost
    have hE := lit1.len
    have hw : l1.nbits = 10 := by rw [lit1.width, if_neg (by omega)]
    have hsn : s1.nbits = 10 := by rw [← g.nbits_eq, hw]
    have hsp : s1.prev ≠ [] := by
      intro h
      have := (g.cleared h).1
      rw [this] at hE
      simp at hE
    have htk : (b :: rest).take (765 + 1) = b :: rest := by
      rw [List.take_of_length_le (by rw [hl])]
    rw [htk] at g
    obtain ⟨t2, chunks, e2, h2, hne, s2, hpk, hrun, hprev, hdict, hnb⟩ :=
      LZWPostEncode_codes T sp l1 (b :: rest) body1 E1 s1 y1 g hsp
    rw [e2, Option.some_bind]
    rw [hw] at hpk hrun
    refine ⟨chunks.flatten, body1 ++ [(10, l1.ent)], s2, ?_, hpk, hrun, ?_, ?_, ?_, ?_, ?_⟩
    · unfold LZWCleanup
      cases ht : t2.tif_data with
      | none => exact absurd ht h2
      | some sp =>
        show PyResult.ofOption (some _) = _
        rw [array_of_chunks chunks hne]
        rfl
    · rw [hnb, hsn, hE]
      decide
    · rw [hprev, codeStr_lt _ _ (by rw [lit1.ent]; exact getD_lt_of_isBytes _ hx 765)]
      simp
    · rw [hdict, hE]
    · intro i hi
      rw [hdict]
      exact lit1.ents i hi
    · rw [bitLen_snoc, lit1.blen, if_neg (by omega)]

end TifLzw

namespace TifLzw

theorem widthInput_length : widthInput.length = 766 := by
  unfold widthInput
  simp

theorem widthInput_bytes : IsBytes widthInput := by
  intro b hb
  unfold widthInput at hb
  simp only [List.mem_map] at hb
  obtain ⟨i, _, e⟩ := hb
  omega

theorem widthInput_getD (i : Nat) (hi : i < 766) :
    widthInput.getD i 0 = ((2 * (i / 256) + 1) * i) % 256 := by
  rw [List.getD_eq_getElem _ _ (by rw [widthInput_length]; exact hi)]
  unfold widthInput
  rw [List.getElem_map, List.getElem_range]

/-- The two bytes at the indices `i` and `i + 1` of a list built like
`widthInput`, by the block of 256 that `i` lies in. -/
theorem steps_pair (x : List Nat)
    (hg : ∀ i, i < 766 → x.getD i 0 = ((2 * (i / 256) + 1) * i) % 256) (i : Nat)
    (hi : i + 1 < 766) :
    (i + 1 < 256 ∧ x.getD i 0 = i ∧ x.getD (i + 1) 0 = i + 1) ∨
    (i = 255 ∧ x.getD i 0 = 255 ∧ x.getD (i + 1) 0 = 0) ∨
    (256 ≤ i ∧ i + 1 < 512 ∧ x.getD i 0 = (3 * i) % 256 ∧
      x.getD (i + 1) 0 = (3 * i + 3) % 256) ∨
    (i = 511 ∧ x.getD i 0 = 253 ∧ x.getD (i + 1) 0 = 0) ∨
    (512 ≤ i ∧ x.getD i 0 = (5 * i) % 256 ∧ x.getD (i + 1) 0 = (5 * i + 5) % 256) := by
  rw [hg i (by omega), hg (i + 1) hi]
  have h : i / 256 = 0 ∨ i / 256 = 1 ∨ i / 256 = 2 := by omega
  have h1 : (i + 1) / 256 = 0 ∨ (i + 1) / 256 = 1 ∨ (i + 1) / 256 = 2 := by omega
  rcases h with h | h | h <;> rcases h1 with h1 | h1 | h1 <;> rw [h, h1]
  · exact Or.inl (by omega)
  · have e : i = 255 := by omega
    subst e
    exact Or.inr (Or.inl (by decide))
  · omega
  · omega
  · exact Or.inr (Or.inr (Or.inl (by omega)))
  · have e : i = 511 := by omega
    subst e
    exact Or.inr (Or.inr (Or.inr (Or.inl (by decide))))
  · omega
  · omega
  · exact Or.inr (Or.inr (Or.inr (Or.inr (by omega))))

theorem steps_distinct (x : List Nat)
    (hg : ∀ i, i < 766 → x.getD i 0 = ((2 * (i / 256) + 1) * i) % 256) (i j : Nat)
    (hij : i < j) (hj : j + 1 < 766) (e1 : x.getD i 0 = x.getD j 0)
    (e2 : x.getD (i + 1) 0 = x.getD (j + 1) 0) : False := by
  rcases steps_pair x hg i (by omega) with ⟨a1, a2, a3⟩ | ⟨a1, a2, a3⟩ | ⟨a0, a1, a2, a3⟩ |
      ⟨a1, a2, a3⟩ | ⟨a1, a2, a3⟩ <;>
    rcases steps_pair x hg j hj with ⟨b1, b2, b3⟩ | ⟨b1, b2, b3⟩ | ⟨b0, b1, b2, b3⟩ |
      ⟨b1, b2, b3⟩ | ⟨b1, b2, b3⟩ <;>
    (rw [a2, b2] at e1; rw [a3, b3] at e2; omega)

theorem widthInput_distinct (i j : Nat) (hij : i < j) (hj : j + 1 < widthInput.length)
    (e1 : widthInput.getD i 0 = widthInput.getD j 0)
    (e2 : widthInput.getD (i + 1) 0 = widthInput.getD (j + 1) 0) : False :=
  steps_distinct widthInput widthInput_getD i j hij (by rw [widthInput_length] at hj; exact hj)
    e1 e2

end TifLzw

namespace TifLzw

/-- The first `LZWDecode` call of `py_decode` on a byte sequence that holds a
clear code and then codes that the reference decoder accepts, whatever follows
them: the first `occ0` bytes that the codes stand for are delivered. -/
theorem decode_stream_call (u : Uninit) (enc x : List Nat) (body : List (Nat × Nat))
    (s_end : AState) (hraw : IsBytes enc) (hst : StreamAt enc 0 ((9, CODE_CLEAR) :: body))
    (hrun : arun AState.cleared body = some (s_end, x)) (hend : s_end.prev ≠ [])
    (hlen : enc.length < 2 ^ 28) (out : Int → Nat) (occ0 : Int) (h0 : 0 < occ0)
    (h1 : occ0 ≤ x.length) :
    ∃ tif1 sp tab l1,
      LZWPreDecode u (py_decode_handle u enc) = some (1, tif1) ∧ tif1.tif_data = some sp ∧
      sp.dec_codetab = some tab ∧ tif1.tif_rawdata = enc ∧
      LZWDecode tif1 out occ0 = some (0, LZWDecode_save tif1 sp l1, l1.out) ∧
      l1.out = blit out 0 (x.take occ0.toNat) ∧ l1.occ = 0 ∧
      Resume enc l1 s_end (x.drop occ0.toNat) := by
  obtain ⟨hav, hcode, hst2⟩ := hst
  have hfb := first_byte_of_clear enc hraw (by omega) hcode
  obtain ⟨tif1, h⟩ := LZWPreDecode_accepts u enc
    (by rw [hfb]; intro hh; exact absurd hh.1 (by decide))
  obtain ⟨sp, tab, k1, k2, k3, k4, hinv⟩ := load_inv u enc tif1 h
  obtain ⟨r0, t0⟩ := hinv 0 occ0 out
  rw [load_D_zero enc.length hlen] at r0
  have hxne : x ≠ [] := by
    intro e
    rw [e] at h1
    simp at h1
    omega
  have hbne := arun_ne_nil _ s_end body x hrun hxne
  obtain ⟨⟨w, c1⟩, cs, hcs⟩ : ∃ p cs, body = p :: cs := by
    cases body with
    | nil => exact absurd rfl hbne
    | cons p cs => exact ⟨p, cs, rfl⟩
  subst hcs
  obtain ⟨s1, str, y1, ha, hrun1, hyeq⟩ := arun_cons_inv _ w c1 cs s_end x hrun
  have hw : w = 9 := astep_width _ w c1 _ ha
  subst hw
  obtain ⟨hlit, hr⟩ := astep_cleared AState.cleared rfl 9 c1 _ ha
  cases hr
  obtain ⟨hav2, hcode2, hst3⟩ := hst2
  have hn : (LZWDecode_load tif1 sp tab 0 occ0 out).nbits = 9 := t0.nbits_eq
  have hleft := r0.left
  obtain ⟨_, b2⟩ := body_spec enc hraw 0 (le_refl 0) _ 0 _ r0 t0 h0
  rw [hn] at b2
  obtain ⟨_, _, c2, _⟩ := b2 (by push_cast at hleft ⊢; omega)
  simp only [Nat.zero_add] at c2
  obtain ⟨_, d2⟩ := c2 hcode
  obtain ⟨_, _, _, f3⟩ := d2 (by push_cast at hleft ⊢; omega)
  rw [hcode2] at f3
  obtain ⟨la, e1, st⟩ := f3 hlit
  obtain ⟨m, hm⟩ : ∃ m, occ0.toNat = m + 1 := ⟨occ0.toNat - 1, by omega⟩
  have hxlen : x.length = 1 + y1.length := by rw [hyeq]; simp; omega
  have hocc1 : la.occ = occ0 - (([c1] : List Nat).length : Int) := st.occ
  have hocc2 : la.occ = occ0 - 1 := by rw [hocc1]; simp
  obtain ⟨l2, e2, o2, z2, res2⟩ := loop_follow enc hraw m la _ _ cs s_end y1 st.read st.tab
    (by simp) hst3 hrun1 hend (by rw [st.restart]; rfl)
    (by rw [hocc2]; omega) (by rw [hocc2]; omega) (by rw [hocc2]; omega)
  have hstep : LZWDecode_loop enc (m + 1) (LZWDecode_load tif1 sp tab 0 occ0 out) =
      LZWDecode_loop enc m la := by
    rw [LZWDecode_loop,
      if_pos (show (LZWDecode_load tif1 sp tab 0 occ0 out).occ > 0 from h0), e1]
  obtain ⟨q1, q2⟩ := follow_compose out 0 [c1] y1 occ0 (by simp; omega)
  refine ⟨tif1, sp, tab, l2, h, k1, k2, k3, ?_, ?_, z2, ?_⟩
  · rw [LZWDecode_first tif1 sp tab k1 k2 k4, k3, hm, hstep, e2]
    show some (to_tmsize_t l2.occ, _, _) = _
    rw [z2, to_tmsize_t_of_lt 0 (by omega) (by omega)]
  · rw [o2, st.out, st.op, hocc1]
    show blit (blit out 0 [c1]) (0 + _) _ = _
    rw [q1, hyeq]
  · rw [hocc1, q2, ← hyeq] at res2
    exact res2


/-- A run of the reference decoder that yields no byte between two states in
which a code has been read is the empty run. -/
theorem arun_no_output (s s2 : AState) (cs : List (Nat × Nat)) (hp : s.prev ≠ [])
    (h : arun s cs = some (s2, [])) (hp2 : s2.prev ≠ []) : cs = [] ∧ s2 = s := by
  cases cs with
  | nil =>
    simp only [arun, Option.some.injEq, Prod.mk.injEq, and_true] at h
    exact ⟨rfl, h.symm⟩
  | cons p rest =>
    exfalso
    obtain ⟨n, c⟩ := p
    obtain ⟨s1, y1, y2, a1, a2, a3⟩ := arun_cons_inv s n c rest s2 [] h
    have hy1 : y1 = [] := (List.append_eq_nil.mp a3.symm).1
    have hy2 : y2 = [] := (List.append_eq_nil.mp a3.symm).2
    subst hy1 hy2
    have hn := astep_width s n c _ a1
    subst hn
    by_cases hc : c = CODE_CLEAR
    · subst hc
      rw [astep_clear s hp] at a1
      simp only [Option.some.injEq, Prod.mk.injEq, and_true] at a1
      subst a1
      cases rest with
      | nil =>
        simp only [arun, Option.some.injEq, Prod.mk.injEq, and_true] at a2
        rw [← a2] at hp2
        exact hp2 rfl
      | cons q rest2 =>
        obtain ⟨n2, c2⟩ := q
        obtain ⟨s3, y3, y4, b1, _, b3⟩ := arun_cons_inv _ n2 c2 rest2 s2 [] a2
        have hy3 : y3 = [] := (List.append_eq_nil.mp b3.symm).1
        subst hy3
        obtain ⟨_, hr⟩ := astep_cleared AState.cleared rfl n2 c2 _ b1
        cases hr
    · obtain ⟨_, hrest⟩ := astep_data s c s1 [] hp a1
      obtain ⟨_, hne, _⟩ := hrest hc
      exact hne rfl

theorem streamAt_append (raw : List Nat) :
    ∀ (a b : List (Nat × Nat)) (pos : Nat), StreamAt raw pos a →
      StreamAt raw (pos + bitLen a) b → StreamAt raw pos (a ++ b) := by
  intro a
  induction a with
  | nil =>
    intro b pos _ hb
    rw [bitLen_nil, Nat.add_zero] at hb
    exact hb
  | cons p a ih =>
    intro b pos ha hb
    obtain ⟨n, c⟩ := p
    obtain ⟨h1, h2, h3⟩ := ha
    rw [bitLen_cons] at hb
    refine ⟨h1, h2, ih b (pos + n) h3 ?_⟩
    rw [Nat.add_assoc]
    exact hb

end TifLzw

namespace TifLzw

/-- The encoded `widthInput`: the stream is a clear code, 766 data codes and
`CODE_EOI` written with 10 bits, 7425 bits in 929 bytes; the reference decoder
has 765 entries and is at 11 bits after the data codes. -/
theorem encode_widthInput (u : Uninit) :
    ∃ enc body s, py_encode u widthInput = .array enc ∧
      Packs enc ((9, CODE_CLEAR) :: body ++ [(10, CODE_EOI)]) ∧
      StreamAt enc 0 ((9, CODE_CLEAR) :: body) ∧
      arun AState.cleared body = some (s, widthInput) ∧ s.nbits = 11 ∧ s.prev ≠ [] ∧
      s.dict.length = 765 ∧ s.dict.getD 256 [] = [0, 3] ∧
      bitLen ((9, CODE_CLEAR) :: body) = 7415 ∧ 8 * enc.length = 7432 ∧
      codeAt enc 7415 11 = 514 := by
  obtain ⟨enc, body, s, e1, hpk, hrun, hnb, hprev, hdl, hd, hbl⟩ :=
    encode_lit u widthInput widthInput_bytes widthInput_length widthInput_distinct
  have hst := streamAt_of_packs enc _ hpk
  have hst1 := streamAt_append_left enc ((9, CODE_CLEAR) :: body) [(10, CODE_EOI)] 0 hst
  have hb1 : bitLen ((9, CODE_CLEAR) :: body) = 7415 := by
    rw [bitLen_cons, hbl]
  have hpk2 := hpk
  obtain ⟨_, _, pad, q1, q2, q3⟩ := hpk2
  rw [bitLen_snoc, hb1] at q2
  rw [streamVal_snoc] at q3
  have hpad : pad = 7 := by omega
  subst hpad
  have hlen8 : 8 * enc.length = 7432 := by omega
  refine ⟨enc, body, s, e1, hpk, hst1, hrun, hnb, hprev, hdl, ?_, hb1, hlen8, ?_⟩
  · rw [hd 256 (by omega), widthInput_getD 256 (by omega), widthInput_getD 257 (by omega)]
  · unfold codeAt
    rw [hlen8, q3]
    unfold CODE_EOI
    generalize streamVal ((9, CODE_CLEAR) :: body) = S
    norm_num
    omega

end TifLzw

namespace TifLzw

/-- C23 fails on `widthInput`: code-width synchronisation breaks at the final
`CODE_EOI`.  For the 766-byte input `widthInput`, `py_encode` returns a stream
that is the packing of `CODE_CLEAR`, data codes `body` and a `CODE_EOI` written
with 10 bits; the reference decoder is at 11 bits after `body`, and so is
`LZWDecode`: the call that decodes the 766 bytes returns 0, has delivered
`widthInput`, and leaves `lzw_nbits = 11`, the width with which the next code,
the `CODE_EOI`, would be read. -/
theorem eoi_width_mismatch (u v : Uninit) (out : Int → Nat) :
    ∃ enc body s, py_encode u widthInput = .array enc ∧
      Packs enc ((9, CODE_CLEAR) :: body ++ [(10, CODE_EOI)]) ∧
      arun AState.cleared body = some (s, widthInput) ∧ s.nbits = 11 ∧
      ∃ tif1 tif2 sp2 out2, LZWPreDecode v (py_decode_handle v enc) = some (1, tif1) ∧
        LZWDecode tif1 out 766 = some (0, tif2, out2) ∧
        (List.range 766).map (fun (j : Nat) => out2 (j : Int)) = widthInput ∧
        tif2.tif_data = some sp2 ∧ sp2.lzw_nbits = 11 := by
  obtain ⟨enc, body, s, e1, hpk, hst, hrun, hnb, hprev, _, _, _, hlen8, _⟩ :=
    encode_widthInput u
  have h766 : (766 : Int).toNat = 766 := rfl
  obtain ⟨tif1, sp, tab, l1, h, k1, k2, k3, hd, ho, hz, res⟩ :=
    decode_stream_call v enc widthInput body s hpk.1 hst hrun hprev (by omega) out 766
      (by norm_num) (by rw [widthInput_length]; norm_num)
  rw [h766] at ho res
  have hdrop : widthInput.drop 766 = [] :=
    List.drop_eq_nil_of_le (by rw [widthInput_length])
  have htake : widthInput.take 766 = widthInput :=
    List.take_of_length_le (by rw [widthInput_length])
  rw [hdrop] at res
  rw [htake] at ho
  obtain ⟨pos1, s1, cs2, y2, pend, r1, t1, hp1, hs2, ha2, hrest, _⟩ := res
  have hy2 : y2 = [] := (List.append_eq_nil.mp hrest.symm).2
  subst hy2
  obtain ⟨_, hs⟩ := arun_no_output s1 s cs2 hp1 ha2 hprev
  have hn1 : l1.nbits = 11 := by rw [t1.nbits_eq, ← hs, hnb]
  refine ⟨enc, body, s, e1, hpk, hrun, hnb, tif1, LZWDecode_save tif1 sp l1, _, l1.out, h, hd,
    ?_, rfl, ?_⟩
  · rw [ho]
    have := range_map_blit out widthInput
    rw [widthInput_length] at this
    exact this
  · show l1.nbits % 65536 = 11
    rw [hn1]

end TifLzw

namespace TifLzw

/-- C2 fails on `widthInput` with the requested length 767: `py_decode` of the
encoded `widthInput` (766 bytes) returns 767 bytes, `widthInput` followed by a
byte 0.  The decoder is at 11 bits when it comes to the `CODE_EOI` that the
encoder has written with 10 bits; the 11 bits it reads are the code 514, an
entry of its table, and the first byte of that entry fills the output. -/
theorem upper_bound_decode_fails (u v : Uninit) :
    ∃ enc, py_encode u widthInput = .array enc ∧
      py_decode v enc 767 = .array (widthInput ++ [0]) := by
  obtain ⟨enc, body, s, e1, hpk, hst, hrun, hnb, hprev, hdl, hd256, hb1, hlen8, h514⟩ :=
    encode_widthInput u
  refine ⟨enc, e1, ?_⟩
  have ha : astep s 11 514 =
      some (⟨s.dict ++ [s.prev ++ [([0, 3] : List Nat).headD 0]], [0, 3],
        if CODE_FIRST + (s.dict ++ [s.prev ++ [([0, 3] : List Nat).headD 0]]).length >
            MAXCODE s.nbits - 1 then min (s.nbits + 1) BITS_MAX else s.nbits⟩, [0, 3]) := by
    unfold astep
    rw [if_neg (by rw [hnb]; simp), if_neg (by decide), if_neg (by decide), if_neg hprev,
      if_neg (by rw [hdl]; decide)]
    have hstr : (if 514 < 256 then [514]
        else if 514 - 258 < s.dict.length then s.dict.getD (514 - 258) []
        else if 514 - 258 = s.dict.length then s.prev ++ [s.prev.headD 0]
        else []) = [0, 3] := by
      rw [if_neg (by decide), if_pos (by rw [hdl]; decide)]
      exact hd256
    simp only [hstr]
    rw [if_neg (by simp)]
  have hrun2 := arun_snoc body 11 514 AState.cleared s _ widthInput [0, 3] hrun ha
  have hst2 : StreamAt enc 0 (((9, CODE_CLEAR) :: body) ++ [(11, 514)]) := by
    apply streamAt_append enc _ _ 0 hst
    rw [Nat.zero_add, hb1]
    exact ⟨by omega, h514, trivial⟩
  rw [List.cons_append] at hst2
  have hxl : (widthInput ++ [0, 3]).length = 768 := by
    rw [List.length_append, widthInput_length]
    rfl
  obtain ⟨tif1, sp, tab, l1, h, k1, k2, k3, hd, ho, hz, _⟩ :=
    decode_stream_call v enc (widthInput ++ [0, 3]) (body ++ [(11, 514)]) _ hpk.1 hst2 hrun2
      (by simp) (by omega) (fun j => v.result j.toNat) ((767 : Nat) : Int) (by norm_num)
      (by rw [hxl]; norm_num)
  have htk : (widthInput ++ [0, 3]).take 767 = widthInput ++ [0] := by
    rw [List.take_append_eq_append_take, widthInput_length,
      List.take_of_length_le (by rw [widthInput_length]; omega)]
    rfl
  rw [Int.toNat_ofNat, htk] at ho
  have hdims : py_decode_dims ((767 : Nat) : Int) = ((767 : Nat) : Int) := by
    unfold py_decode_dims
    rw [if_neg (by omega)]
  have hsz : to_tmsize_t ((767 : Nat) : Int) = ((767 : Nat) : Int) :=
    to_tmsize_t_of_lt _ (by omega) (by norm_num)
  show py_decode v enc ((767 : Nat) : Int) = _
  unfold py_decode
  rw [if_neg (by norm_num), h, Option.some_bind, hdims, hsz, hd, Option.some_bind]
  have hc : LZWCleanup (LZWDecode_save tif1 sp l1) = some
      { LZWDecode_save tif1 sp l1 with tif_data := none } := rfl
  simp only [hc, Option.map_some', PyResult.ofOption, py_decode_len]
  rw [if_neg (by omega), Int.toNat_ofNat, ho]
  have hr := range_map_blit (fun j => v.result j.toNat) (widthInput ++ [0])
  have hl2 : (widthInput ++ [0]).length = 767 := by
    rw [List.length_append, widthInput_length]
    rfl
  rw [hl2] at hr
  rw [hr]

end TifLzw

namespace TifLzw

/-- The restart branch of `LZWDecode` when the rest of the interrupted string
fits the output: the rest is stored at the start of the output. -/
theorem restart_go (sp : LZWCodecState) (tab : Int → code_t) (k : Int) (str : List Nat)
    (hs : SpellsRev tab k str.reverse) (r : Nat) (hr0 : 0 < r) (hr : r < str.length)
    (e1 : sp.dec_restart = (r : Int)) (e2 : sp.dec_codep = some k) (out : Int → Nat)
    (occ : Int) (hocc : (str.length : Int) - r ≤ occ) :
    LZWDecode_restart sp tab out occ =
      .go ((str.length : Int) - r) (occ - ((str.length : Int) - r)) (blit out 0 (str.drop r)) := by
  have hl := spellsRev_length _ _ _ hs
  rw [List.length_reverse] at hl
  have hle := spellsRev_length_le _ _ _ hs
  have hrg := spellsRev_range _ _ _ hs
  have hC := CSIZE_eq
  rw [List.length_reverse] at hle
  obtain ⟨n, hn⟩ : ∃ n : Nat, n = str.length - r := ⟨_, rfl⟩
  have hres : ((tab k).length : Int) - sp.dec_restart = (n : Int) := by
    rw [hl, e1, hn]
    omega
  have hn2 : (str.length : Int) - r = (n : Int) := by omega
  obtain ⟨c, hcb⟩ := copy_back_spec tab str.reverse k out n (CSIZE + 1 + n) (n : Int) hs
    (by omega) (by rw [List.length_reverse]; omega) (by omega)
  unfold LZWDecode_restart
  rw [if_pos (by rw [e1]; omega), e2]
  simp only []
  rw [hres, if_neg (by omega), Int.toNat_ofNat, hcb, hn2]
  simp only [sub_self]
  rw [reverse_take_reverse str n (by omega)]
  have e : str.length - n = r := by omega
  rw [e]

/-- C27: the KwK case.  In a decoder state whose previous code `o` spells the
string `prev` in the code table, when the code read in a round of the loop
(`occ > 0`) is the index of the next free entry, the new entry has the first
byte of `prev` as its value (and as its first byte), `o` as its prefix and one
more than the length of `prev`, and the bytes delivered for the code are `prev`
followed by the first byte of `prev`: when they fit the output the round stores
them all; when they do not, the round stores the first `occ` of them, leaves the
loop with `dec_restart = occ` and `dec_codep` at the code, and the restart
branch of the next call stores the rest at the start of its output. -/
theorem kwk_case (l : DecLocals) (o : Int) (prev : List Nat) (ho : l.oldcodep = some o)
    (hsp : SpellsRev l.tab o prev.reverse) (hlt : o < l.free_entp) (h258 : 258 ≤ l.free_entp)
    (hC : l.free_entp < CSIZE) (c : Nat) (hc : (c : Int) = l.free_entp) (hocc : 0 < l.occ) :
    ((prev.length : Int) + 1 ≤ l.occ →
      ∃ l1, LZWDecode_data l c = .next l1 ∧
        l1.out = blit l.out l.op (prev ++ [prev.headD 0]) ∧
        l1.op = l.op + ((prev.length : Int) + 1) ∧
        l1.occ = l.occ - ((prev.length : Int) + 1) ∧
        l1.tab (c : Int) = ⟨some o, prev.length + 1, prev.headD 0, prev.headD 0⟩ ∧
        l1.oldcodep = some (c : Int)) ∧
    (l.occ < (prev.length : Int) + 1 →
      ∃ l1, LZWDecode_data l c = .stop l1 ∧
        l1.out = blit l.out l.op ((prev ++ [prev.headD 0]).take l.occ.toNat) ∧
        l1.occ = 0 ∧ l1.dec_restart = l.occ ∧ l1.dec_codep = some (c : Int) ∧
        l1.tab (c : Int) = ⟨some o, prev.length + 1, prev.headD 0, prev.headD 0⟩ ∧
        l1.oldcodep = some (c : Int) ∧
        ∀ (sp : LZWCodecState) (out2 : Int → Nat) (occ2 : Int),
          sp.dec_restart = l1.dec_restart → sp.dec_codep = l1.dec_codep →
          (prev.length : Int) + 1 - l.occ ≤ occ2 →
          LZWDecode_restart sp l1.tab out2 occ2 =
            .go ((prev.length : Int) + 1 - l.occ) (occ2 - ((prev.length : Int) + 1 - l.occ))
              (blit out2 0 ((prev ++ [prev.headD 0]).drop l.occ.toNat))) := by
  have hCS := CSIZE_eq
  have hor := spellsRev_range _ _ _ hsp
  have hne : prev ≠ [] := by
    intro e
    have := spellsRev_ne_nil _ _ _ hsp
    rw [e] at this
    exact this rfl
  obtain ⟨hfc, hlen⟩ := old_entry l.tab o prev hsp
  have hle := spellsRev_length_le _ _ _ hsp
  rw [List.length_reverse] at hle
  obtain ⟨f1, f2, f3, f4, f5⟩ := add_entry_fields l o c
  rw [if_neg (by omega), hfc, hlen, Nat.mod_eq_of_lt (by omega)] at f1
  have hd : LZWDecode_data l c = LZWDecode_emit (LZWDecode_add_entry l o c) c := by
    unfold LZWDecode_data
    rw [if_neg (by omega), ho]
    simp only []
    rw [if_neg (by omega)]
  have hs1 : SpellsRev (LZWDecode_add_entry l o c).tab (c : Int)
      (prev ++ [prev.headD 0]).reverse := by
    rw [f1, List.reverse_append, List.reverse_singleton, List.singleton_append]
    obtain ⟨w, r, hr⟩ : ∃ w r, prev.reverse = w :: r := by
      cases hpr : prev.reverse with
      | nil => simp at hpr; exact absurd hpr hne
      | cons w r => exact ⟨w, r, rfl⟩
    have hfr := spellsRev_frame l.tab l.free_entp
      ⟨some o, prev.length + 1, prev.headD 0, prev.headD 0⟩ prev.reverse o hlt hsp
    have hl2 : prev.length = r.length + 1 := by
      have := congrArg List.length hr
      rw [List.length_reverse] at this
      simpa using this
    have hgl : (w :: r).getLastD 0 = prev.headD 0 := by
      rw [← hr, getLastD_reverse]
    rw [hr] at hfr ⊢
    rw [hc]
    refine ⟨h258, hC, ?_, ?_, ?_, o, ?_, hlt, hfr⟩
    · rw [store_same]
    · rw [store_same]
      show prev.length + 1 = r.length + 2
      omega
    · rw [store_same]
      exact hgl.symm
    · rw [store_same]
  obtain ⟨e1, e2⟩ := emit_spec (LZWDecode_add_entry l o c) c (prev ++ [prev.headD 0]) hs1
    (by intro h; omega) (by rw [f4]; omega)
  have hl : ((prev ++ [prev.headD 0]).length : Int) = (prev.length : Int) + 1 := by
    rw [List.length_append, List.length_singleton]
    push_cast
    rfl
  rw [hl, f4] at e1 e2
  have htab : (LZWDecode_add_entry l o c).tab (c : Int) =
      ⟨some o, prev.length + 1, prev.headD 0, prev.headD 0⟩ := by
    rw [f1, hc, store_same]
  constructor
  · intro hfit
    have e := e1 hfit
    rw [← hd] at e
    refine ⟨_, e, ?_, ?_, ?_, htab, f5⟩
    · show blit (LZWDecode_add_entry l o c).out (LZWDecode_add_entry l o c).op _ = _
      rw [f2, f3]
    · show (LZWDecode_add_entry l o c).op + _ = _
      rw [f3]
    · rfl
  · intro hlong
    have e := e2 hlong
    rw [← hd] at e
    refine ⟨_, e, ?_, rfl, rfl, rfl, htab, f5, ?_⟩
    · show blit (LZWDecode_add_entry l o c).out (LZWDecode_add_entry l o c).op _ = _
      rw [f2, f3]
    · intro sp out2 occ2 q1 q2 q3
      obtain ⟨m, hm⟩ : ∃ m : Nat, l.occ = (m : Int) := ⟨l.occ.toNat, by omega⟩
      have q1' : sp.dec_restart = (m : Int) := by rw [q1]; exact hm
      have hlen2 : (prev ++ [prev.headD 0]).length = prev.length + 1 := by simp
      have := restart_go sp (LZWDecode_add_entry l o c).tab (c : Int) (prev ++ [prev.headD 0])
        hs1 m (by omega) (by rw [hlen2]; omega) q1' q2 out2 occ2
        (by rw [hlen2]; push_cast; omega)
      rw [hlen2] at this
      push_cast at this
      rw [hm, Int.toNat_ofNat]
      exact this

theorem kwk_case_witness :
    (((([65] : List Nat).length : Int) + 1 ≤ 1 →
      ∃ l1, LZWDecode_data
          (DecLocals.mk 0 1 0 9 0 0 511 (some 65) 258 510 (fun _ => 0)
            (store (fun _ => code_t.zero) 65 ⟨none, 1, 65, 65⟩) 0 none 0) 258 = .next l1 ∧
        l1.out = blit (fun _ => 0) 0 ([65] ++ [([65] : List Nat).headD 0]) ∧
        l1.op = 0 + ((([65] : List Nat).length : Int) + 1) ∧
        l1.occ = 1 - ((([65] : List Nat).length : Int) + 1) ∧
        l1.tab ((258 : Nat) : Int) =
          ⟨some 65, ([65] : List Nat).length + 1, ([65] : List Nat).headD 0,
            ([65] : List Nat).headD 0⟩ ∧
        l1.oldcodep = some ((258 : Nat) : Int)) ∧
    ((1 : Int) < (([65] : List Nat).length : Int) + 1 →
      ∃ l1, LZWDecode_data
          (DecLocals.mk 0 1 0 9 0 0 511 (some 65) 258 510 (fun _ => 0)
            (store (fun _ => code_t.zero) 65 ⟨none, 1, 65, 65⟩) 0 none 0) 258 = .stop l1 ∧
        l1.out = blit (fun _ => 0) 0
          (([65] ++ [([65] : List Nat).headD 0]).take (1 : Int).toNat) ∧
        l1.occ = 0 ∧ l1.dec_restart = 1 ∧ l1.dec_codep = some ((258 : Nat) : Int) ∧
        l1.tab ((258 : Nat) : Int) =
          ⟨some 65, ([65] : List Nat).length + 1, ([65] : List Nat).headD 0,
            ([65] : List Nat).headD 0⟩ ∧
        l1.oldcodep = some ((258 : Nat) : Int) ∧
        ∀ (sp : LZWCodecState) (out2 : Int → Nat) (occ2 : Int),
          sp.dec_restart = l1.dec_restart → sp.dec_codep = l1.dec_codep →
          (([65] : List Nat).length : Int) + 1 - 1 ≤ occ2 →
          LZWDecode_restart sp l1.tab out2 occ2 =
            .go ((([65] : List Nat).length : Int) + 1 - 1)
              (occ2 - ((([65] : List Nat).length : Int) + 1 - 1))
              (blit out2 0 (([65] ++ [([65] : List Nat).headD 0]).drop (1 : Int).toNat)))) :=
  kwk_case (DecLocals.mk 0 1 0 9 0 0 511 (some 65) 258 510 (fun _ => 0)
      (store (fun _ => code_t.zero) 65 ⟨none, 1, 65, 65⟩) 0 none 0) 65 [65] rfl
    ⟨by decide, by decide, by decide,
      by show store (fun _ => code_t.zero) 65 ⟨none, 1, 65, 65⟩ 65 = _; exact store_same _ _ _⟩
    (by decide) (by decide) (by decide) 258 rfl (by decide)

end TifLzw

namespace TifLzw

/-- `LZWPreDecode` on an input that starts like an old-style stream: the
dictionary is allocated and its roots are set by `LZWSetupDecode`, then the
call returns 0; the state block and the entries from `CODE_FIRST` on are left
as the allocation has them. -/
theorem LZWPreDecode_rejects (u : Uninit) (arr : List Nat)
    (hold : arr.getD 0 0 = 0 ∧ arr.getD 1 0 &&& 1 ≠ 0) :
    LZWPreDecode u (py_decode_handle u arr) =
      some (0, { py_decode_handle u arr with
        tif_data := some { TIFFInitLZW u with
          dec_codetab := some (memset_zero (preload 255 u.codetab) CODE_CLEAR
            ((CODE_FIRST : Int) - CODE_CLEAR)) } }) := by
  unfold LZWPreDecode
  simp only [py_decode_handle, TIFFInitLZW, LZWSetupDecode, Option.map_some']
  rw [if_pos hold]

end TifLzw

namespace TifLzw

/-- C17 (as stated, refuted in two ways).  On the empty input a call of
`LZWDecode` for one byte of output runs one round of the main loop, which is
more than `2 * 0`.  On the old-style input `[0, 1]`, `LZWPreDecode` returns 0
before it sets up the state, `py_decode` calls `LZWDecode` all the same, and
with the stale memory `staleUninit` the first code is 384, an entry that was
never cleared and points to itself: the call does not return. -/
theorem decoder_termination_fails :
    (∃ tif1 sp tab, LZWPreDecode zeroUninit (py_decode_handle zeroUninit []) = some (1, tif1) ∧
      tif1.tif_data = some sp ∧ sp.dec_codetab = some tab ∧
      1 ≤ LZWDecode_rounds [] (1 : Int).toNat (LZWDecode_load tif1 sp tab 0 1 (fun _ => 0)) ∧
      ¬ LZWDecode_rounds [] (1 : Int).toNat (LZWDecode_load tif1 sp tab 0 1 (fun _ => 0)) ≤
        2 * ([] : List Nat).length) ∧
    (∃ tif1, LZWPreDecode staleUninit (py_decode_handle staleUninit [0, 1]) = some (0, tif1) ∧
      (LZWDecode tif1 (fun j => staleUninit.result j.toNat) 1).isNone = true) ∧
    py_decode staleUninit [0, 1] 1 = .stuck := by
  refine ⟨decoder_rounds_empty_input, ⟨_, LZWPreDecode_rejects staleUninit [0, 1] (by decide),
    by decide!⟩, by decide!⟩

/-- C24 (failing input), an old-style input: `LZWPreDecode` on `[0, 1]` returns 0
before it clears the entries from `CODE_FIRST` on and resets the state, and
`py_decode` runs the loop of `LZWDecode` on that handle.  With the stale memory
`staleUninit` the loop starts with `free_entp` at entry 258 while entry 384,
above it, is not zero and has itself as its prefix. -/
theorem dictionary_stale_on_old_style :
    ∃ tif1 sp tab,
      LZWPreDecode staleUninit (py_decode_handle staleUninit [0, 1]) = some (0, tif1) ∧
      tif1.tif_data = some sp ∧ sp.dec_codetab = some tab ∧
      0 < (LZWDecode_load tif1 sp tab 0 1 (fun _ => 0)).occ ∧
      (LZWDecode_load tif1 sp tab 0 1 (fun _ => 0)).free_entp = 258 ∧
      ((LZWDecode_load tif1 sp tab 0 1 (fun _ => 0)).tab 384).next = some 384 ∧
      ((LZWDecode_load tif1 sp tab 0 1 (fun _ => 0)).tab 384).length = 5 ∧
      (LZWDecode_load tif1 sp tab 0 1 (fun _ => 0)).tab 384 ≠ code_t.zero :=
  ⟨_, _, _, LZWPreDecode_rejects staleUninit [0, 1] (by decide), rfl, rfl, by decide,
    rfl, by decide!, by decide!, by
      intro h
      have h2 := congrArg code_t.length h
      revert h2
      decide!⟩

/-- C30 (failing input), an old-style input: `LZWPreDecode` on `[0, 1]` returns 0
before it sets `dec_bitsleft`, `lzw_nextbits` and `lzw_nextdata`, and
`py_decode` runs the loop of `LZWDecode` on that handle.  With the stale memory
`staleUninit` the first code is read with `bitsleft = 9`, no byte consumed and
`nextbits = 2`, where the guard relation asks for `8 * (2 - 0) + 2 = 18`; the
code that is read, 384, is made of the two stale bits and seven bits of the
input. -/
theorem bitsleft_stale_on_old_style :
    ∃ tif1 sp tab,
      LZWPreDecode staleUninit (py_decode_handle staleUninit [0, 1]) = some (0, tif1) ∧
      tif1.tif_data = some sp ∧ sp.dec_codetab = some tab ∧
      0 < (LZWDecode_load tif1 sp tab 0 1 (fun _ => 0)).occ ∧
      (LZWDecode_load tif1 sp tab 0 1 (fun _ => 0)).dec_bitsleft = 9 ∧
      (LZWDecode_load tif1 sp tab 0 1 (fun _ => 0)).bp = 0 ∧
      (LZWDecode_load tif1 sp tab 0 1 (fun _ => 0)).nextbits = 2 ∧
      (LZWDecode_load tif1 sp tab 0 1 (fun _ => 0)).dec_bitsleft ≠
        8 * ((([0, 1] : List Nat).length : Int) -
          (LZWDecode_load tif1 sp tab 0 1 (fun _ => 0)).bp) +
          (LZWDecode_load tif1 sp tab 0 1 (fun _ => 0)).nextbits ∧
      (NextCode [0, 1] (LZWDecode_load tif1 sp tab 0 1 (fun _ => 0))).2 = 384 :=
  ⟨_, _, _, LZWPreDecode_rejects staleUninit [0, 1] (by decide), rfl, rfl, by decide,
    rfl, rfl, rfl, by decide, by decide!⟩

/-- C34 (failing input), an old-style input: `LZWPreDecode` on `[0, 1]` returns 0
before it sets up the state, and `py_decode` runs the loop of `LZWDecode` on
that handle.  With the stale memory `staleUninit` the first round reads the
code 384; its entry has length 5, more than the one byte of output, and points
to itself, so the walk along `next` visits no `NULL` within `CSIZE` steps, the
skip loop of the branch "string is too long" does not end, and the call does
not return. -/
theorem walk_unsafe_on_old_style :
    ∃ tif1 sp tab,
      LZWPreDecode staleUninit (py_decode_handle staleUninit [0, 1]) = some (0, tif1) ∧
      tif1.tif_data = some sp ∧ sp.dec_codetab = some tab ∧
      0 < (LZWDecode_load tif1 sp tab 0 1 (fun _ => 0)).occ ∧
      (NextCode [0, 1] (LZWDecode_load tif1 sp tab 0 1 (fun _ => 0))).2 = 384 ∧
      ((LZWDecode_load tif1 sp tab 0 1 (fun _ => 0)).tab 384).next = some 384 ∧
      ((LZWDecode_load tif1 sp tab 0 1 (fun _ => 0)).tab 384).length = 5 ∧
      chain (LZWDecode_load tif1 sp tab 0 1 (fun _ => 0)).tab CSIZE 384 = none ∧
      skip_long (LZWDecode_load tif1 sp tab 0 1 (fun _ => 0)).tab 1 (CSIZE + 1) 384 = none ∧
      (LZWDecode tif1 (fun _ => 0) 1).isNone = true :=
  ⟨_, _, _, LZWPreDecode_rejects staleUninit [0, 1] (by decide), rfl, rfl, by decide,
    by decide!, by decide!, by decide!, by decide!, by decide!, by decide!⟩

end TifLzw
